import Mathlib

/-!
# tinc meta protocol, subnet handlers and graph engine

A shallow embedding of the request dispatcher and the past-request cache
(`protocol.c`), the meta reader and writer (`meta.c`), the PACKET sender and
handler (`protocol_misc.c`), the subnet handlers (`protocol_subnet.c`) and the
graph algorithms (`graph.c`), with the properties of the design document
checked against them.

Conventions.
* C `int` values are `Int`; a C string is the `List Char` of its bytes before
  the terminating NUL.
* A pointer to a node is the node's key in `node_tree` (its name); a pointer
  to a connection is a `Nat` identifier.
* Loops without a bound in the source take a number of rounds (`fuel`) and
  report when it runs out; the theorems say how many rounds are enough.
* Logging is not part of the state.
-/

namespace Tinc

/-! ## C library scanning (`sscanf`) -/

/-- The `isspace` of the C locale. -/
def isspace (c : Char) : Bool :=
  c.toNat = 32 || (9 ≤ c.toNat && c.toNat ≤ 13)

/-- The `isalnum` of the C locale. -/
def isalnum (c : Char) : Bool :=
  (48 ≤ c.toNat && c.toNat ≤ 57) || (65 ≤ c.toNat && c.toNat ≤ 90) ||
    (97 ≤ c.toNat && c.toNat ≤ 122)

/-- Value of a decimal digit. -/
def digit_val (c : Char) : Option Nat :=
  if 48 ≤ c.toNat ∧ c.toNat ≤ 57 then some (c.toNat - 48) else none

/-- Value of a hexadecimal digit. -/
def hex_val (c : Char) : Option Nat :=
  if 48 ≤ c.toNat ∧ c.toNat ≤ 57 then some (c.toNat - 48)
  else if 97 ≤ c.toNat ∧ c.toNat ≤ 102 then some (c.toNat - 87)
  else if 65 ≤ c.toNat ∧ c.toNat ≤ 70 then some (c.toNat - 55)
  else none

/-- Drop leading white space, as every `sscanf` conversion but `%c` does. -/
def skip_space : List Char → List Char
  | [] => []
  | c :: cs => if isspace c then skip_space cs else c :: cs

/-- Consume the longest run of digits in the given base, accumulating its
value; returns the value and the unread rest. -/
def scan_digits (val : Char → Option Nat) (base : Nat) : Nat → List Char → Nat × List Char
  | acc, [] => (acc, [])
  | acc, c :: cs =>
    match val c with
    | some d => scan_digits val base (acc * base + d) cs
    | none => (acc, c :: cs)

/-- Strip an optional sign; the flag is true for a minus sign. -/
def scan_sign : List Char → Bool × List Char
  | c :: cs => if c.toNat = 45 then (true, cs) else if c.toNat = 43 then (false, cs) else (false, c :: cs)
  | [] => (false, [])

/-- One `%d`-style conversion: white space, optional sign, at least one
decimal digit.  Returns the mathematical value and the unread rest, or `none`
on a matching failure. -/
def scan_int (s : List Char) : Option (Int × List Char) :=
  match scan_sign (skip_space s) with
  | (neg, c :: cs) =>
    if (digit_val c).isSome then
      match scan_digits digit_val 10 0 (c :: cs) with
      | (n, rest) => some (if neg then -(n : Int) else (n : Int), rest)
    else none
  | (_, []) => none

/-- One `%x`-style conversion: white space, optional sign, optional `0x`
prefix, at least one hexadecimal digit.  Only the unread rest is needed
(the conversion is always suppressed with `*` in this program). -/
def scan_hex (s : List Char) : Option (List Char) :=
  match scan_sign (skip_space s) with
  | (_, c0 :: x :: cs) =>
    if c0.toNat = 48 ∧ (x.toNat = 120 ∨ x.toNat = 88) then
      match cs with
      | h :: _ => if (hex_val h).isSome then some (scan_digits hex_val 16 0 cs).2 else none
      | [] => none
    else if (hex_val c0).isSome then some (scan_digits hex_val 16 0 (c0 :: x :: cs)).2
    else none
  | (_, [c0]) => if (hex_val c0).isSome then some [] else none
  | (_, []) => none

/-- Take at most `width` leading characters that are not white space. -/
def scan_word : Nat → List Char → List Char × List Char
  | 0, s => ([], s)
  | _ + 1, [] => ([], [])
  | w + 1, c :: cs =>
    if isspace c then ([], c :: cs)
    else match scan_word w cs with
      | (word, rest) => (c :: word, rest)

/-- One `%<width>s` conversion: white space, then at least one and at most
`width` characters that are not white space. -/
def scan_string (width : Nat) (s : List Char) : Option (List Char × List Char) :=
  match scan_word width (skip_space s) with
  | ([], _) => none
  | (c :: word, rest) => some (c :: word, rest)

/-- Storing a converted number in an `int`: the value is first clamped to the
range of `long` (64 bit) and then truncated to 32 bits, two's complement.
(The C standard leaves the out-of-range case open; this is what the GNU C
library does on LP64.) -/
def to_int (v : Int) : Int :=
  let l := max (-(2 ^ 63 : Int)) (min v (2 ^ 63 - 1))
  (l + 2 ^ 31) % 2 ^ 32 - 2 ^ 31

/-- Storing a converted number in a `short int` (`%hd`): truncation to 16
bits, two's complement. -/
def to_short (v : Int) : Int :=
  let l := max (-(2 ^ 63 : Int)) (min v (2 ^ 63 - 1))
  (l + 2 ^ 15) % 2 ^ 16 - 2 ^ 15

/-- The call `sscanf(buffer, "%d", &request)`: `some request` when it returns 1. -/
def sscanf_d (buffer : List Char) : Option Int :=
  match scan_int buffer with
  | some (v, _) => some (to_int v)
  | none => none

/-- The call `sscanf(buffer, "%*d %hd", &len)`: `some len` when it returns 1. -/
def sscanf_d_hd (buffer : List Char) : Option Int :=
  match scan_int buffer with
  | some (_, rest) =>
    match scan_int rest with
    | some (v, _) => some (to_short v)
    | none => none
  | none => none

/-- The call `sscanf(buffer, "%*d %*x " MAX_STRING " " MAX_STRING, name, subnetstr)`,
where `MAX_STRING` is `%<MAX_STRING_SIZE - 1>s`: `some (name, subnetstr)` when it
returns 2. -/
def sscanf_d_x_s_s (MAX_STRING_SIZE : Nat) (buffer : List Char) :
    Option (List Char × List Char) :=
  match scan_int buffer with
  | some (_, r1) =>
    match scan_hex r1 with
    | some r2 =>
      match scan_string (MAX_STRING_SIZE - 1) r2 with
      | some (name, r3) =>
        match scan_string (MAX_STRING_SIZE - 1) r3 with
        | some (subnetstr, _) => some (name, subnetstr)
        | none => none
      | none => none
    | none => none
  | none => none

/-! ## Connections -/

/-- Modelled from the spec: the permit `ALL` of the enumeration `request_t` in
`protocol.h` (absent from the sources).  It is distinct from the ids `0 .. 17`
of the 18 request verbs. -/
def ALL : Int := -1

/-- Modelled from the spec: `LAST`, the number of request verbs (18) that
closes the enumeration `request_t` in `protocol.h`. -/
def LAST : Int := 18

/-- Modelled from the spec: the ids of the request verbs, in the order of the
wire protocol (`ID` is 0, `PACKET` is 17). -/
def ID : Int := 0

/-- Request id of `ADD_SUBNET`. -/
def ADD_SUBNET : Int := 10

/-- Request id of `DEL_SUBNET`. -/
def DEL_SUBNET : Int := 11

/-- Request id of `PACKET`. -/
def PACKET : Int := 17

/-- Modelled from the spec: the kinds of subnet of `subnet.h` (absent from the
sources): MAC, IPv4 range, IPv6 range. -/
inductive subnet_type_t where
  | SUBNET_MAC
  | SUBNET_IPV4
  | SUBNET_IPV6
deriving DecidableEq, Repr

/-- Modelled from the spec: the record `subnet_t` of `subnet.h` (absent from
the sources): a tagged address range with its owner (a node, `none` for
NULL), weight and expiry time. -/
structure subnet_t where
  /-- The kind of subnet. -/
  type : subnet_type_t
  /-- The bytes of the address. -/
  address : List Nat
  /-- The length of the prefix (0 for a MAC address). -/
  prefixlength : Nat
  /-- The weight. -/
  weight : Int
  /-- The owning node. -/
  owner : Option (List Char)
  /-- The absolute expiry time, -1 for a permanent subnet. -/
  expires : Int
deriving DecidableEq, Repr

/-- The fields of `connection_t` used by the meta reader, the meta writer and
the request handlers.  `buffer i` is the byte at address `c->buffer + i`: indices outside
`0 .. MAXBUFSIZE - 1` are memory next to the buffer. -/
structure connection_t where
  /-- Identifier of the connection (its address). -/
  id : Nat
  /-- The name of the peer. -/
  name : List Char
  /-- The node this connection represents: `c->node`, `none` for NULL. -/
  node : Option (List Char)
  /-- Whether `c->outgoing` is not NULL. -/
  outgoing : Bool
  /-- The permit. -/
  allow_request : Int
  /-- The flag `c->status.decryptin`. -/
  decryptin : Bool
  /-- The inbound buffer. -/
  buffer : Int → Char
  /-- Number of bytes in the inbound buffer. -/
  buflen : Int
  /-- Length of the request being dispatched, its terminator included. -/
  reqlen : Int
  /-- Length of the announced TCP packet, 0 when none is pending. -/
  tcplen : Int
  /-- The `Subnet` entries of `c->config_tree` in order, each as
  `get_config_subnet` reads it (`none` when it fails). -/
  config_tree : List (Option subnet_t)
  /-- The flag `c->status.active`. -/
  active : Bool := false
  /-- The flag `c->status.encryptout`. -/
  encryptout : Bool := false
  /-- The flag `c->status.pinged`. -/
  pinged : Bool := false
  /-- The time of the last ping, `c->last_ping_time`. -/
  last_ping_time : Int := 0
  /-- The time the outbound buffer was last empty, `c->last_flushed_time`. -/
  last_flushed_time : Int := 0
  /-- The outbound buffer: `outbuf i` is the byte at address `c->outbuf + i`. -/
  outbuf : Int → Char := fun _ => Char.ofNat 0
  /-- The size of the memory block of the outbound buffer. -/
  outbufsize : Int := 0
  /-- The offset of the first pending byte in the outbound buffer. -/
  outbufstart : Int := 0
  /-- The number of pending bytes in the outbound buffer. -/
  outbuflen : Int := 0
  /-- The retry delay `c->outgoing->timeout` of an outgoing connection. -/
  outgoing_timeout : Int := 0

/-- The C string that starts at `buffer + start`: the bytes before the first
NUL, looking at most `fuel` bytes ahead. -/
def cstring (buffer : Int → Char) : Nat → Int → List Char
  | 0, _ => []
  | fuel + 1, start =>
    if (buffer start).toNat = 0 then [] else buffer start :: cstring buffer fuel (start + 1)

/-- The request text of a connection: the C string at `c->buffer`.  The meta
reader has put a NUL at index `reqlen - 1`. -/
def connection_t.request (c : connection_t) : List Char :=
  cstring c.buffer c.reqlen.toNat 0

/-- A request handler: it reads and updates the connection and the rest of the
program state `W`, and returns success or failure. -/
abbrev handler_t (W : Type) := connection_t → W → Bool × connection_t × W

/-! ## `protocol.c`: the dispatcher -/

/-- The result of `receive_request`, with the handler it invoked (if any). -/
structure dispatch_t (W : Type) where
  /-- The return value. -/
  ret : Bool
  /-- The connection afterwards. -/
  c : connection_t
  /-- The program state afterwards. -/
  w : W
  /-- The index of the handler that was invoked, if one was. -/
  invoked : Option Nat

/-- The function `receive_request` of `protocol.c`.  `request_handlers` is the
jump table; all its 18 entries are non-NULL in the source, so the test
`!request_handlers[request]` is always false. -/
def receive_request {W : Type} (request_handlers : Nat → handler_t W)
    (c : connection_t) (w : W) : dispatch_t W :=
  match sscanf_d c.request with
  | some request =>
    if request < 0 ∨ request ≥ LAST then
      ⟨false, c, w, none⟩
    else if c.allow_request ≠ ALL ∧ c.allow_request ≠ request then
      ⟨false, c, w, none⟩
    else
      match request_handlers request.toNat c w with
      | (ok, c1, w1) => ⟨ok, c1, w1, some request.toNat⟩
  | none => ⟨false, c, w, none⟩

/-! ## `protocol_misc.c`: the PACKET handler -/

/-- The function `tcppacket_h` of `protocol_misc.c`: the announced length is
read into a `short int` and stored in `c->tcplen`. -/
def tcppacket_h {W : Type} : handler_t W := fun c w =>
  match sscanf_d_hd c.request with
  | none => (false, c, w)
  | some len => (true, { c with tcplen := len }, w)

/-! ## `meta.c`: the meta reader -/

/-- What `recv` did on the socket. -/
inductive recv_t where
  /-- Bytes are available; `recv` copies as many as fit the length it was given. -/
  | data (bytes : List Char)
  /-- The call returned 0, or failed without setting `errno`. -/
  | closed
  /-- The call failed and the error says the socket would block. -/
  | wouldblock
  /-- The call failed with another error. -/
  | error

/-- Modelled from the spec: the proxy types of `proxytype_t` (declared in a
header absent from the sources). -/
inductive proxytype_t where
  | PROXY_NONE
  | PROXY_SOCKS4
  | PROXY_SOCKS4A
  | PROXY_SOCKS5
  | PROXY_HTTP
  | PROXY_EXEC
deriving DecidableEq

/-- How a call of `receive_meta` ends. -/
inductive meta_result (W : Type) where
  /-- The function returned. -/
  | returned (ret : Bool) (c : connection_t) (w : W)
  /-- The function called `abort()`. -/
  | aborted (c : connection_t) (w : W)
  /-- The iteration bound of the model was reached. -/
  | unfinished (c : connection_t) (w : W)

/-- The bytes `buffer[start .. start + n)`. -/
def mem_read (buffer : Int → Char) (start : Int) : Nat → List Char
  | 0 => []
  | n + 1 => buffer start :: mem_read buffer (start + 1) n

/-- Store `bytes` at `buffer + start` (`memcpy` into the buffer). -/
def mem_write (buffer : Int → Char) (start : Int) (bytes : List Char) : Int → Char :=
  fun i => if start ≤ i ∧ i < start + bytes.length then bytes.getD (i - start).toNat (buffer i)
    else buffer i

/-- The call `memmove(buffer, buffer + shift, n)`. -/
def memmove (buffer : Int → Char) (shift : Int) (n : Int) : Int → Char :=
  fun i => if 0 ≤ i ∧ i < n then buffer (i + shift) else buffer i

/-- The scan `for(i = oldlen; i < c->buflen; i++) if(c->buffer[i] == '\n')`:
the index of the first newline among `count` bytes from `i` on. -/
def find_newline (buffer : Int → Char) : Nat → Int → Option Int
  | 0, _ => none
  | count + 1, i => if (buffer i).toNat = 10 then some i else find_newline buffer count (i + 1)

/-- The parameters of the meta reader that are not fields of the connection. -/
structure meta_env (W : Type) where
  /-- The size of the inbound buffer. -/
  MAXBUFSIZE : Int
  /-- The global `proxytype`. -/
  proxytype : proxytype_t
  /-- The cipher: `EVP_DecryptUpdate` on the connection, `none` when it fails. -/
  EVP_DecryptUpdate : connection_t → List Char → Option (List Char)
  /-- The jump table of `protocol.c`. -/
  request_handlers : Nat → handler_t W
  /-- The function `receive_tcppacket(c, buffer, len)` of the packet layer. -/
  receive_tcppacket : connection_t → (Int → Char) → Int → W → W

/-- The end of `receive_meta`: the overflow test after the loop. -/
def receive_meta_finish {W : Type} (env : meta_env W) (c : connection_t) (w : W) :
    meta_result W :=
  if c.buflen ≥ env.MAXBUFSIZE then .returned false c w else .returned true c w

/-- The test of the proxy reply in `receive_meta` (the branch `!c->node`):
`some true` when the reply is accepted, `some false` when the function returns
false, `none` when it aborts. -/
def proxy_reply {W : Type} (env : meta_env W) (c : connection_t) : Option Bool :=
  if c.outgoing ∧ env.proxytype = .PROXY_SOCKS4 ∧ c.allow_request = ID then
    if (c.buffer 0).toNat = 0 ∧ (c.buffer 1).toNat = 0x5a then some true else some false
  else if c.outgoing ∧ env.proxytype = .PROXY_SOCKS5 ∧ c.allow_request = ID then
    if (c.buffer 0).toNat ≠ 5 then some false
    else if (c.buffer 1).toNat = 0xff then some false
    else if (c.buffer 2).toNat ≠ 5 then some false
    else if (c.buffer 3).toNat = 0 then some true
    else some false
  else none

/-- The loop `while(lenin > 0)` of `receive_meta`, at most `fuel` iterations. -/
def receive_meta_loop {W : Type} (env : meta_env W) :
    Nat → Int → Int → Bool → connection_t → W → meta_result W
  | 0, _, _, _, c, w => .unfinished c w
  | fuel + 1, lenin, oldlen, decrypted, c, w =>
    if ¬ lenin > 0 then receive_meta_finish env c w
    else
      -- Decrypt
      let dec : Option (connection_t × Bool) :=
        if c.decryptin ∧ ¬ decrypted then
          match env.EVP_DecryptUpdate c (mem_read c.buffer oldlen lenin.toNat) with
          | some inbuf =>
            if (inbuf.length : Int) ≠ lenin then none
            else some ({ c with buffer := mem_write c.buffer oldlen inbuf }, true)
          | none => none
        else some (c, decrypted)
      match dec with
      | none => .returned false c w
      | some (c, decrypted) =>
        -- Are we receiving a TCPpacket?
        if c.tcplen ≠ 0 then
          if c.tcplen ≤ c.buflen then
            let delivered : Option (Option W) :=
              match c.node with
              | none =>
                match proxy_reply env c with
                | some true => some (some w)
                | some false => some none
                | none => none
              | some _ =>
                if c.allow_request = ALL then
                  some (some (env.receive_tcppacket c c.buffer c.tcplen w))
                else some none
            match delivered with
            | none => .aborted c w
            | some none => .returned false c w
            | some (some w1) =>
              let buflen := c.buflen - c.tcplen
              receive_meta_loop env fuel (lenin - (c.tcplen - oldlen)) 0 decrypted
                { c with buflen := buflen, buffer := memmove c.buffer c.tcplen buflen,
                         tcplen := 0 } w1
          else receive_meta_finish env c w
        else
          -- Otherwise we are waiting for a request
          match find_newline c.buffer (c.buflen - oldlen).toNat oldlen with
          | some i =>
            let reqlen := i + 1
            let d := receive_request env.request_handlers
              { c with buffer := mem_write c.buffer i [Char.ofNat 0], reqlen := reqlen } w
            if ¬ d.ret then .returned false d.c d.w
            else
              let buflen := d.c.buflen - reqlen
              receive_meta_loop env fuel (lenin - (reqlen - oldlen)) 0 decrypted
                { d.c with buflen := buflen, buffer := memmove d.c.buffer reqlen buflen } d.w
          | none => receive_meta_finish env c w

/-- The function `receive_meta` of `meta.c`.  `r` is what `recv` finds on the
socket; it is asked for `MAXBUFSIZE - c->buflen` bytes, a length that is
converted to `size_t` (64 bits).  `fuel` bounds the iterations of the loop. -/
def receive_meta {W : Type} (env : meta_env W) (fuel : Nat) (r : recv_t)
    (c : connection_t) (w : W) : meta_result W :=
  match r with
  | .closed => .returned false c w
  | .wouldblock => .returned true c w
  | .error => .returned false c w
  | .data bytes =>
    let len : Nat := ((env.MAXBUFSIZE - c.buflen) % 2 ^ 64).toNat
    let got := bytes.take len
    let lenin : Int := got.length
    if lenin ≤ 0 then .returned false c w
    else
      let oldlen := c.buflen
      receive_meta_loop env fuel lenin oldlen false
        { c with buffer := mem_write c.buffer c.buflen got, buflen := c.buflen + lenin } w

/-! ## The ordered store and the registries -/

/-- The C function `strcmp`: the sign of the first differing byte. -/
def strcmp : List Char → List Char → Int
  | [], [] => 0
  | [], _ :: _ => -1
  | _ :: _, [] => 1
  | a :: as, b :: bs =>
    if a.toNat < b.toNat then -1 else if b.toNat < a.toNat then 1 else strcmp as bs

/-- Modelled from the spec: `avl_search` of the ordered associative store
(`avl_tree.c` is absent from the sources).  A tree is the list of its elements
in comparator order; the search returns the element that compares equal to the
key. -/
def avl_search {α : Type} (compare : α → α → Int) (tree : List α) (key : α) : Option α :=
  tree.find? (fun x => compare key x = 0)

/-- Modelled from the spec: `avl_insert` of the ordered associative store: the
element goes to its place in comparator order; an element that compares equal
to one in the tree is not inserted. -/
def avl_insert {α : Type} (compare : α → α → Int) : List α → α → List α
  | [], x => [x]
  | y :: ys, x =>
    if compare x y < 0 then x :: y :: ys
    else if compare x y = 0 then y :: ys
    else y :: avl_insert compare ys x

/-- Modelled from the spec: `avl_delete` of the ordered associative store: the
element that compares equal to the key is removed. -/
def avl_delete {α : Type} (compare : α → α → Int) (tree : List α) (key : α) : List α :=
  tree.eraseP (fun x => compare key x = 0)

/-- An entry of the past-request cache (`past_request_t`). -/
structure past_request_t where
  /-- The full text of the request. -/
  request : List Char
  /-- When the request was first seen. -/
  firstseen : Int
deriving DecidableEq, Repr

/-- The comparator `past_request_compare` of `protocol.c`. -/
def past_request_compare (a b : past_request_t) : Int :=
  strcmp a.request b.request

/-- Modelled from the spec: the fields of `node_t` (`node.h` is absent from the
sources) that the subnet handlers use. -/
structure node_t where
  /-- The name, the key of the node. -/
  name : List Char
  /-- The subnets owned by the node. -/
  subnet_tree : List subnet_t
  /-- The flag `status.reachable`. -/
  reachable : Bool
deriving DecidableEq, Repr

/-- Modelled from the spec: the comparator of `node_tree`, by name. -/
def node_compare (a b : node_t) : Int :=
  strcmp a.name b.name

/-- A call that leaves the modelled part of the program: the output side of
the meta connections and the user scripts. -/
inductive effect_t where
  /-- The call `send_meta(c, buffer, length)`. -/
  | send_meta (c : Nat) (bytes : List Char)
  /-- The call `broadcast_meta(from, buffer, length)`; `none` is NULL. -/
  | broadcast_meta (sender : Option Nat) (bytes : List Char)
  /-- The call `subnet_update(owner, subnet, up)`. -/
  | subnet_update (owner : List Char) (subnet : Option subnet_t) (up : Bool)
deriving DecidableEq, Repr

/-- The global state the request handlers work on. -/
structure world_t where
  /-- The node `myself`. -/
  myself : List Char
  /-- The pseudo connection `broadcast`. -/
  broadcast : Nat
  /-- The global `tunnelserver`. -/
  tunnelserver : Bool
  /-- The global `now`. -/
  now : Int
  /-- The node registry `node_tree`. -/
  node_tree : List node_t
  /-- The global subnet index `subnet_tree`. -/
  subnet_tree : List subnet_t
  /-- The past-request cache `past_request_tree`. -/
  past_request_tree : List past_request_t
  /-- The number of calls of `random()` so far. -/
  randoms : Nat
  /-- The calls that left the modelled state, oldest first. -/
  effects : List effect_t
deriving DecidableEq, Repr

/-- The functions of absent sources (`subnet.c`, the C library, the cipher)
and the constants of absent headers that the handlers use. -/
structure subnet_env where
  /-- The size of the request buffer. -/
  MAXBUFSIZE : Nat
  /-- The size of a request token. -/
  MAX_STRING_SIZE : Nat
  /-- The parser `str2net`, `none` when it returns false. -/
  str2net : List Char → Option subnet_t
  /-- The printer `net2str`, `none` when it returns false. -/
  net2str : subnet_t → Option (List Char)
  /-- The comparator `subnet_compare`. -/
  subnet_compare : subnet_t → subnet_t → Int
  /-- The value of the n-th call of `random()`. -/
  random : Nat → Nat
  /-- The return value of `send_meta` on a connection and payload. -/
  send_meta : Nat → List Char → Bool

/-- Modelled from the spec: `lookup_node` of `node.c` (absent from the
sources): the node registered under a name. -/
def lookup_node (w : world_t) (name : List Char) : Option node_t :=
  avl_search node_compare w.node_tree ⟨name, [], false⟩

/-- Modelled from the spec: `new_node` followed by setting the name and
`node_add`: a fresh node, with no subnet and not reachable, enters the registry. -/
def node_add (w : world_t) (name : List Char) : world_t :=
  { w with node_tree := avl_insert node_compare w.node_tree ⟨name, [], false⟩ }

/-- Modelled from the spec: `lookup_subnet(owner, subnet)` of `subnet.c`: the
search in the owner's subnet set. -/
def lookup_subnet (env : subnet_env) (w : world_t) (owner : List Char) (s : subnet_t) :
    Option subnet_t :=
  match lookup_node w owner with
  | some n => avl_search env.subnet_compare n.subnet_tree s
  | none => none

/-- Modelled from the spec: `subnet_add(owner, subnet)` of `subnet.c`: the
subnet gets its owner and enters the global index and the owner's set. -/
def subnet_add (env : subnet_env) (w : world_t) (owner : List Char) (s : subnet_t) : world_t :=
  let s1 := { s with owner := some owner }
  { w with
    subnet_tree := avl_insert env.subnet_compare w.subnet_tree s1
    node_tree := w.node_tree.map (fun n =>
      if n.name = owner then
        { n with subnet_tree := avl_insert env.subnet_compare n.subnet_tree s1 }
      else n) }

/-- Modelled from the spec: `subnet_del(owner, subnet)` of `subnet.c`: the
subnet leaves the owner's set and the global index. -/
def subnet_del (env : subnet_env) (w : world_t) (owner : List Char) (s : subnet_t) : world_t :=
  { w with
    subnet_tree := avl_delete env.subnet_compare w.subnet_tree s
    node_tree := w.node_tree.map (fun n =>
      if n.name = owner then
        { n with subnet_tree := avl_delete env.subnet_compare n.subnet_tree s }
      else n) }

/-- The call `subnet_update(owner, subnet, up)`: it runs the subnet scripts,
outside the modelled state. -/
def subnet_update (w : world_t) (owner : List Char) (s : Option subnet_t) (up : Bool) : world_t :=
  { w with effects := w.effects ++ [.subnet_update owner s up] }

/-! ## `protocol.c`: identifiers, sending, the past-request cache -/

/-- The function `check_id` of `protocol.c`. -/
def check_id : List Char → Bool
  | [] => true
  | ch :: id => if !isalnum ch && ch.toNat ≠ 95 then false else check_id id

/-- The text that `vsnprintf` produces for the format `"%d %lx %s %s"`. -/
def format_d_lx_s_s (request : Int) (token : Nat) (name netstr : List Char) : List Char :=
  Nat.toDigits 10 request.toNat ++ [Char.ofNat 32] ++ Nat.toDigits 16 token ++
    [Char.ofNat 32] ++ name ++ [Char.ofNat 32] ++ netstr

/-- The function `send_request` of `protocol.c`, on the formatted text: a text
longer than `MAXBUFSIZE - 1` is refused, otherwise the text and a newline go
to `broadcast_meta` (for the pseudo connection `broadcast`) or to `send_meta`. -/
def send_request (env : subnet_env) (w : world_t) (c : Nat) (text : List Char) :
    Bool × world_t :=
  if (text.length : Int) > (env.MAXBUFSIZE : Int) - 1 then (false, w)
  else
    let buffer := text ++ [Char.ofNat 10]
    if c = w.broadcast then
      (true, { w with effects := w.effects ++ [.broadcast_meta none buffer] })
    else
      (env.send_meta c buffer, { w with effects := w.effects ++ [.send_meta c buffer] })

/-- The function `forward_request` of `protocol.c`: the terminator of the
request becomes a newline again and the request goes to `broadcast_meta`. -/
def forward_request (sender : connection_t) (w : world_t) : connection_t × world_t :=
  let buffer := mem_write sender.buffer (sender.reqlen - 1) [Char.ofNat 10]
  ({ sender with buffer := buffer },
   { w with effects := w.effects ++
      [.broadcast_meta (some sender.id) (mem_read buffer 0 sender.reqlen.toNat)] })

/-- The function `seen_request` of `protocol.c`. -/
def seen_request (w : world_t) (request : List Char) : Bool × world_t :=
  match avl_search past_request_compare w.past_request_tree ⟨request, 0⟩ with
  | some _ => (true, w)
  | none =>
    let tree := avl_insert past_request_compare w.past_request_tree ⟨request, w.now⟩
    (false, { w with past_request_tree := tree })

/-! ## `protocol_subnet.c`: the subnet handlers -/

/-- The common body of `send_add_subnet` and `send_del_subnet`, which differ in
the request id only.  The owner of the subnet is dereferenced for its name;
every caller passes a subnet with an owner. -/
def send_subnet_request (env : subnet_env) (request : Int) (w : world_t) (c : Nat)
    (subnet : subnet_t) : Bool × world_t :=
  match env.net2str subnet with
  | none => (false, w)
  | some netstr =>
    match subnet.owner with
    | none => (false, w)
    | some name =>
      send_request env { w with randoms := w.randoms + 1 } c
        (format_d_lx_s_s request (env.random w.randoms) name netstr)

/-- The function `send_add_subnet` of `protocol_subnet.c`. -/
def send_add_subnet (env : subnet_env) (w : world_t) (c : Nat) (subnet : subnet_t) :
    Bool × world_t :=
  send_subnet_request env ADD_SUBNET w c subnet

/-- The function `send_del_subnet` of `protocol_subnet.c`. -/
def send_del_subnet (env : subnet_env) (w : world_t) (c : Nat) (s : subnet_t) :
    Bool × world_t :=
  send_subnet_request env DEL_SUBNET w c s

/-- The loop of `add_subnet_h` over the `Subnet` entries of the connection's
configuration: true when an entry equal to `s` is found before the entries run
out or one fails to parse. -/
def config_allows (env : subnet_env) (s : subnet_t) : List (Option subnet_t) → Bool
  | [] => false
  | none :: _ => false
  | some allowed :: cfg =>
    if env.subnet_compare s allowed = 0 then true else config_allows env s cfg

/-- The flag `owner->status.reachable` of a registered node. -/
def node_reachable (w : world_t) (owner : List Char) : Bool :=
  match lookup_node w owner with
  | some n => n.reachable
  | none => false

/-- The function `add_subnet_h` of `protocol_subnet.c`. -/
def add_subnet_h (env : subnet_env) : handler_t world_t := fun c w =>
  match sscanf_d_x_s_s env.MAX_STRING_SIZE c.request with
  | none => (false, c, w)
  | some (name, subnetstr) =>
    -- Check if owner name is a valid
    if !check_id name then (false, c, w)
    else
      -- Check if subnet string is valid
      match env.str2net subnetstr with
      | none => (false, c, w)
      | some s =>
        match seen_request w c.request with
        | (true, w) => (true, c, w)
        | (false, w) =>
          -- Check if the owner of the new subnet is in the connection list
          let w := if (lookup_node w name).isNone then node_add w name else w
          if w.tunnelserver ∧ name ≠ w.myself ∧ c.node ≠ some name then (false, c, w)
          -- Check if we already know this subnet
          else if (lookup_subnet env w name s).isSome then (true, c, w)
          -- If we don't know this subnet, but we are the owner, retaliate with a DEL_SUBNET
          else if name = w.myself then
            (true, c, (send_del_subnet env w c.id { s with owner := some w.myself }).2)
          -- In tunnel server mode, check if the subnet matches one in the config file
          else if w.tunnelserver ∧ ¬ config_allows env s c.config_tree then (false, c, w)
          else
            -- If everything is correct, add the subnet to the list of the owner
            let w := subnet_add env w name s
            let w := if node_reachable w name then
              subnet_update w name (some { s with owner := some name }) true else w
            -- Tell the rest
            if !w.tunnelserver then
              match forward_request c w with
              | (c, w) => (true, c, w)
            else (true, c, w)

/-- The function `del_subnet_h` of `protocol_subnet.c`. -/
def del_subnet_h (env : subnet_env) : handler_t world_t := fun c w =>
  match sscanf_d_x_s_s env.MAX_STRING_SIZE c.request with
  | none => (false, c, w)
  | some (name, subnetstr) =>
    -- Check if owner name is a valid
    if !check_id name then (false, c, w)
    else
      -- Check if the owner of the new subnet is in the connection list
      match lookup_node w name with
      | none => (true, c, w)
      | some _ =>
        if w.tunnelserver ∧ name ≠ w.myself ∧ c.node ≠ some name then (false, c, w)
        else
          -- Check if subnet string is valid
          match env.str2net subnetstr with
          | none => (false, c, w)
          | some s =>
            match seen_request w c.request with
            | (true, w) => (true, c, w)
            | (false, w) =>
              -- If everything is correct, delete the subnet from the list of the owner
              match lookup_subnet env w name { s with owner := some name } with
              | none => (true, c, w)
              | some find =>
                -- If we are the owner of this subnet, retaliate with an ADD_SUBNET
                if name = w.myself then
                  (true, c, (send_add_subnet env w c.id find).2)
                else
                  -- Tell the rest
                  match (if !w.tunnelserver then forward_request c w else (c, w)) with
                  | (c, w) =>
                    -- Finally, delete it.
                    let w := if node_reachable w name then
                      subnet_update w name (some find) false else w
                    (true, c, subnet_del env w name find)

/-! ## Concrete instances -/

/-- A buffer that holds the given bytes from index 0 on, and NUL elsewhere. -/
def buffer_of (bytes : List Char) : Int → Char :=
  fun i => if 0 ≤ i then bytes.getD i.toNat (Char.ofNat 0) else Char.ofNat 0

/-- The subnet `10.0.0.0/24` with the given owner. -/
def example_subnet_a (owner : Option (List Char)) : subnet_t :=
  ⟨.SUBNET_IPV4, [10, 0, 0, 0], 24, 10, owner, -1⟩

/-- The subnet `192.168.7.0/24` with the given owner. -/
def example_subnet_b (owner : Option (List Char)) : subnet_t :=
  ⟨.SUBNET_IPV4, [192, 168, 7, 0], 24, 10, owner, -1⟩

/-- An instance of the absent functions: a parser and a printer that know
the two example subnets, and a comparator on address, prefix length and, when
both are set, owner. -/
def example_env : subnet_env where
  MAXBUFSIZE := 2176
  MAX_STRING_SIZE := 2048
  str2net := fun str =>
    if str = "10.0.0.0/24".toList then some (example_subnet_a none)
    else if str = "192.168.7.0/24".toList then some (example_subnet_b none)
    else none
  net2str := fun s =>
    if s.address = [10, 0, 0, 0] ∧ s.prefixlength = 24 then some "10.0.0.0/24".toList
    else if s.address = [192, 168, 7, 0] ∧ s.prefixlength = 24 then some "192.168.7.0/24".toList
    else none
  subnet_compare := fun a b =>
    if a.address ≠ b.address then (if a.address < b.address then -1 else 1)
    else if a.prefixlength ≠ b.prefixlength then (a.prefixlength : Int) - b.prefixlength
    else match a.owner, b.owner with
      | some x, some y => strcmp x y
      | _, _ => 0
  random := fun n => 1234 + n
  send_meta := fun _ _ => true

/-- A state in which `me` owns `10.0.0.0/24` and knows the node `peer`. -/
def example_world : world_t where
  myself := "me".toList
  broadcast := 0
  tunnelserver := false
  now := 1000
  node_tree := [⟨"me".toList, [example_subnet_a (some "me".toList)], true⟩,
    ⟨"peer".toList, [], true⟩]
  subnet_tree := [example_subnet_a (some "me".toList)]
  past_request_tree := []
  randoms := 0
  effects := []

/-- The meta connection to `peer`, holding the given request text. -/
def example_connection (id : Nat) (text : String) : connection_t where
  id := id
  name := "peer".toList
  node := some "peer".toList
  outgoing := false
  allow_request := ALL
  decryptin := false
  buffer := buffer_of text.toList
  buflen := text.length + 1
  reqlen := text.length + 1
  tcplen := 0
  config_tree := []

/-- An instance of the meta reader's parameters: a buffer of 2176 bytes, no
proxy, a cipher that changes nothing, the PACKET handler at index 17 and
handlers that accept every request elsewhere, on a state that counts the
packets handed to `receive_tcppacket`. -/
def example_meta_env : meta_env Nat where
  MAXBUFSIZE := 2176
  proxytype := .PROXY_NONE
  EVP_DecryptUpdate := fun _ bytes => some bytes
  request_handlers := fun r => if r = 17 then tcppacket_h else fun c w => (true, c, w)
  receive_tcppacket := fun _ _ _ w => w + 1

/-- An authenticated connection (`allow_request` is `ALL`, `c->node` is set)
with an empty inbound buffer.  The byte 3000 places before the buffer is `Z`. -/
def example_idle_connection : connection_t where
  id := 1
  name := "peer".toList
  node := some "peer".toList
  outgoing := false
  allow_request := ALL
  decryptin := false
  buffer := fun i => if i = -3000 then Char.ofNat 90 else Char.ofNat 0
  buflen := 0
  reqlen := 0
  tcplen := 0
  config_tree := []

/-! ## `netutl.c`: socket addresses -/

/-- A socket address, `sockaddr_t`, in one of the four address families the
program creates.  IPv4 and IPv6 addresses are the numbers their bytes spell
in network order, so that `memcmp` orders them as numbers. -/
inductive sockaddr_t where
  /-- The family `AF_UNSPEC`. -/
  | unspec
  /-- The family `AF_UNKNOWN`: an unresolved address and port, as text. -/
  | unknown (address port : List Char)
  /-- The family `AF_INET`. -/
  | inet (sin_addr sin_port : Nat)
  /-- The family `AF_INET6`. -/
  | inet6 (sin6_addr sin6_port : Nat)
deriving DecidableEq, Repr

/-- The field `sa.sa_family`. -/
def sockaddr_t.sa_family : sockaddr_t → Int
  | .unspec => 0
  | .unknown _ _ => 255
  | .inet _ _ => 2
  | .inet6 _ _ => 10

/-- The C function `memcmp` on two numbers stored in network byte order. -/
def memcmp (a b : Nat) : Int :=
  if a < b then -1 else if b < a then 1 else 0

/-- The function `sockaddrcmp` of `netutl.c`. -/
def sockaddrcmp (a b : sockaddr_t) : Int :=
  let result := a.sa_family - b.sa_family
  if result ≠ 0 then result
  else
    match a, b with
    | .unknown aa ap, .unknown ba bp =>
      let result := strcmp aa ba
      if result ≠ 0 then result else strcmp ap bp
    | .inet aa ap, .inet ba bp =>
      let result := memcmp aa ba
      if result ≠ 0 then result else memcmp ap bp
    | .inet6 aa ap, .inet6 ba bp =>
      let result := memcmp aa ba
      if result ≠ 0 then result else memcmp ap bp
    | _, _ => 0

/-! ## `graph.c`: the graph engine -/

/-- Modelled from the spec: the bit `OPTION_INDIRECT` of the options bitmask
(`connection.h` is absent from the sources). -/
def OPTION_INDIRECT : Nat := 0x0001

/-- Modelled from the spec: the bit `OPTION_PMTU_DISCOVERY` of the options
bitmask. -/
def OPTION_PMTU_DISCOVERY : Nat := 0x0004

/-- The fields of the edge `e->reverse` that the graph engine reads. -/
structure edge_reverse_t where
  /-- The address `e->reverse->address`. -/
  address : sockaddr_t
  /-- The connection `e->reverse->connection`, `none` for NULL. -/
  connection : Option Nat
deriving DecidableEq, Repr

/-- Modelled from the spec: the record `edge_t` (`edge.h` is absent from the
sources).  Nodes are named by their key in `node_tree`; `reverse` is `none`
when the pointer `e->reverse` is NULL. -/
structure edge_t where
  /-- The node the edge leaves, `e->from`. -/
  from_ : List Char
  /-- The node the edge enters, `e->to`. -/
  to_ : List Char
  /-- The metric. -/
  weight : Int
  /-- The options bitmask. -/
  options : Nat
  /-- The address of `to` as seen by `from`. -/
  address : sockaddr_t
  /-- The meta connection that stands for the edge, `none` for NULL. -/
  connection : Option Nat
  /-- The reverse edge. -/
  reverse : Option edge_reverse_t
deriving DecidableEq, Repr

/-- The fields of `node_t` that the graph engine reads and writes. -/
structure node_status_t where
  /-- The flag `status.visited`. -/
  visited : Bool
  /-- The flag `status.indirect`. -/
  indirect : Bool
  /-- The flag `status.reachable`. -/
  reachable : Bool
  /-- The flag `status.validkey`. -/
  validkey : Bool
  /-- The flag `status.waitingforkey`. -/
  waitingforkey : Bool
  /-- The first hop on the way to the node. -/
  nexthop : List Char
  /-- The last directly reachable node on the way to the node. -/
  via : List Char
  /-- The options bitmask. -/
  options : Nat
  /-- The UDP address. -/
  address : sockaddr_t
  /-- The probe counter. -/
  mtuprobes : Int
  /-- The lower bound of the path MTU. -/
  minmtu : Int
  /-- The upper bound of the path MTU. -/
  maxmtu : Int
deriving DecidableEq, Repr

/-- What the graph engine does outside the node and connection records. -/
inductive graph_effect_t where
  /-- The call `send_mtu_probe(n)`. -/
  | send_mtu_probe (n : List Char)
  /-- The call `execute_script(name, envp)` for a node: the script name, and
  the node name and address that fill `NODE`, `REMOTEADDRESS`, `REMOTEPORT`. -/
  | execute_script (name : List Char) (node : List Char) (address : sockaddr_t)
  /-- The call `subnet_update(n, NULL, up)`. -/
  | subnet_update (n : List Char) (up : Bool)
deriving DecidableEq, Repr

/-- The part of the program state that `graph()` reads but does not change. -/
structure graph_t where
  /-- The node `myself`. -/
  myself : List Char
  /-- The global `MTU`. -/
  MTU : Int
  /-- The nodes of `node_tree`, in order. -/
  node_tree : List (List Char)
  /-- The connections of `connection_tree`, in order. -/
  connection_tree : List Nat
  /-- The edges of `n->edge_tree`, in order, for every node `n`. -/
  edge_tree : List Char → List edge_t
  /-- The edges of `edge_weight_tree`, lightest first. -/
  edge_weight_tree : List edge_t

/-- The part of the program state that `graph()` changes. -/
structure graph_state_t where
  /-- The record of every node. -/
  node : List Char → node_status_t
  /-- The flag `status.mst` of every connection. -/
  mst : Nat → Bool
  /-- The nodes in `node_udp_tree`. -/
  node_udp_tree : List (List Char)
  /-- The calls that left the graph engine, oldest first. -/
  effects : List graph_effect_t

/-- Change the record of one node. -/
def graph_state_t.set (s : graph_state_t) (n : List Char) (st : node_status_t) :
    graph_state_t :=
  { s with node := fun x => if x = n then st else s.node x }

/-- One round of the loop "Add safe edges" of `mst_kruskal`, for at most
`fuel` rounds: `skipped` is the local flag, the list holds the edges from
`node` to the end of `edge_weight_tree`, `safe` the edges added so far (the
source counts them in `safe_edges`).  `none` when the rounds run out. -/
def mst_kruskal_loop (g : graph_t) :
    Nat → Bool → List edge_t → graph_state_t → List edge_t →
      Option (graph_state_t × List edge_t)
  | _, _, [], s, safe => some (s, safe)
  | 0, _, _ :: _, _, _ => none
  | fuel + 1, skipped, e :: next, s, safe =>
    match e.reverse with
    | none => mst_kruskal_loop g fuel true next s safe
    | some reverse =>
      if (s.node e.from_).visited = (s.node e.to_).visited then
        mst_kruskal_loop g fuel true next s safe
      else
        let s := s.set e.from_ { s.node e.from_ with visited := true }
        let s := s.set e.to_ { s.node e.to_ with visited := true }
        let s := match e.connection with
          | some c => { s with mst := fun x => if x = c then true else s.mst x }
          | none => s
        let s := match reverse.connection with
          | some c => { s with mst := fun x => if x = c then true else s.mst x }
          | none => s
        if skipped then mst_kruskal_loop g fuel false g.edge_weight_tree s (safe ++ [e])
        else mst_kruskal_loop g fuel false next s (safe ++ [e])

/-- The function `mst_kruskal` of `graph.c`; it returns the state and the safe
edges it added. -/
def mst_kruskal (fuel : Nat) (g : graph_t) (s : graph_state_t) :
    Option (graph_state_t × List edge_t) :=
  -- Clear MST status on connections
  let s := { s with mst := fun c => if c ∈ g.connection_tree then false else s.mst c }
  -- Do we have something to do at all?
  match g.edge_weight_tree with
  | [] => some (s, [])
  | head :: _ =>
    -- Clear visited status on nodes
    let s := { s with node := fun n =>
      if n ∈ g.node_tree then { s.node n with visited := false } else s.node n }
    -- Starting point
    let s := s.set head.from_ { s.node head.from_ with visited := true }
    -- Add safe edges
    mst_kruskal_loop g fuel false g.edge_weight_tree s []

/-- The local `indirect` of `sssp_bfs`, computed for the edge `e` of the node
`n` whose reverse is `reverse`. -/
def sssp_bfs_indirect (g : graph_t) (s : graph_state_t) (n : List Char) (e : edge_t)
    (reverse : edge_reverse_t) : Bool :=
  (s.node n).indirect || (e.options &&& OPTION_INDIRECT != 0)
    || (n != g.myself && sockaddrcmp (s.node n).address reverse.address != 0)

/-- Whether `sssp_bfs` replaces the address of `e->to`: the test
`sockaddrcmp(&e->to->address, &e->address)`. -/
def sssp_bfs_changed (s : graph_state_t) (e : edge_t) : Bool :=
  sockaddrcmp (s.node e.to_).address e.address != 0

/-- The record of `e->to` after the assignments of the inner loop of
`sssp_bfs`: the flags, `nexthop`, `via` and `options` are set; when the address
differs from the one of the edge it is replaced, and then the MTU fields are
reset if the new options ask for path MTU discovery. -/
def sssp_bfs_target (g : graph_t) (s : graph_state_t) (n : List Char) (e : edge_t)
    (indirect : Bool) : node_status_t :=
  let to1 : node_status_t :=
    { s.node e.to_ with
      visited := true
      indirect := indirect
      nexthop := if (s.node n).nexthop = g.myself then e.to_ else (s.node n).nexthop
      via := if indirect then (s.node n).via else e.to_
      options := e.options }
  if sssp_bfs_changed s e then
    let to2 : node_status_t := { to1 with address := e.address }
    if to2.options &&& OPTION_PMTU_DISCOVERY ≠ 0 then
      { to2 with mtuprobes := 0, minmtu := 0, maxmtu := g.MTU }
    else to2
  else to1

/-- The body of the inner loop of `sssp_bfs` for the edge `e` of the node `n`;
`todo` is the part of `todo_list` behind `n`.  The call `send_mtu_probe` is
recorded; what it does to the MTU fields belongs to the packet layer. -/
def sssp_bfs_edge (g : graph_t) (n : List Char) (st : graph_state_t × List (List Char))
    (e : edge_t) : graph_state_t × List (List Char) :=
  match e.reverse with
  | none => st
  | some reverse =>
    let s := st.1
    let indirect := sssp_bfs_indirect g s n e reverse
    if (s.node e.to_).visited && (!(s.node e.to_).indirect || indirect) then st
    else
      let target := sssp_bfs_target g s n e indirect
      let probe : Bool := sssp_bfs_changed s e && (e.options &&& OPTION_PMTU_DISCOVERY != 0)
        && target.validkey
      let s1 := s.set e.to_ target
      (if probe then { s1 with effects := s1.effects ++ [.send_mtu_probe e.to_] } else s1,
        st.2 ++ [e.to_])

/-- The loop "while todo_list is filled" of `sssp_bfs`, for at most `fuel`
rounds; `none` when the rounds run out. -/
def sssp_bfs_loop (g : graph_t) : Nat → graph_state_t → List (List Char) → Option graph_state_t
  | _, s, [] => some s
  | 0, _, _ :: _ => none
  | fuel + 1, s, n :: todo =>
    match (g.edge_tree n).foldl (sssp_bfs_edge g n) (s, todo) with
    | (s, todo) => sssp_bfs_loop g fuel s todo

/-- The body of the loop "Check reachability status" of `sssp_bfs`. -/
def sssp_bfs_check (g : graph_t) (s : graph_state_t) (n : List Char) : graph_state_t :=
  if (s.node n).visited ≠ (s.node n).reachable then
    let reachable := !(s.node n).reachable
    let s := { s with node_udp_tree :=
      if reachable then (if n ∈ s.node_udp_tree then s.node_udp_tree else s.node_udp_tree ++ [n])
      else s.node_udp_tree.filter (fun x => x ≠ n) }
    let st : node_status_t :=
      { s.node n with
        reachable := reachable
        validkey := false
        waitingforkey := false
        maxmtu := g.MTU
        minmtu := 0
        mtuprobes := 0 }
    let s := s.set n st
    let name := "hosts/".toList ++ n ++ (if reachable then "-up".toList else "-down".toList)
    { s with effects := s.effects ++
        [.execute_script name n st.address, .subnet_update n reachable] }
  else s

/-- The function `sssp_bfs` of `graph.c`, its main loop bounded by `fuel` rounds. -/
def sssp_bfs (fuel : Nat) (g : graph_t) (s : graph_state_t) : Option graph_state_t :=
  -- Clear visited status on nodes
  let s := { s with node := fun n =>
    if n ∈ g.node_tree then { s.node n with visited := false, indirect := true } else s.node n }
  -- Begin with myself
  let s := s.set g.myself
    { s.node g.myself with visited := true, indirect := false, nexthop := g.myself,
                           via := g.myself }
  -- Loop while todo_list is filled
  match sssp_bfs_loop g fuel s [g.myself] with
  | none => none
  | some s =>
    -- Check reachability status.
    some (g.node_tree.foldl (sssp_bfs_check g) s)

/-- The function `graph` of `graph.c`. -/
def graph (fuel : Nat) (g : graph_t) (s : graph_state_t) : Option graph_state_t :=
  match mst_kruskal fuel g s with
  | none => none
  | some (s, _) => sssp_bfs fuel g s

/-- A reverse-confirmed edge from `a` to `b`: an edge of `a->edge_tree` that
enters `b` and whose `reverse` is set. -/
def confirmed_edge (g : graph_t) (a b : List Char) : Prop :=
  ∃ e ∈ g.edge_tree a, e.to_ = b ∧ e.reverse.isSome = true

/-- A directed path of reverse-confirmed edges from `a` to `b` (the empty path
when `a = b`). -/
def confirmed_path (g : graph_t) (a b : List Char) : Prop :=
  Relation.ReflTransGen (confirmed_edge g) a b

/-- The registry is closed under the edges: `myself` is registered and every
edge of a registered node enters a registered node. -/
def graph_t.closed (g : graph_t) : Prop :=
  g.myself ∈ g.node_tree ∧ ∀ n ∈ g.node_tree, ∀ e ∈ g.edge_tree n, e.to_ ∈ g.node_tree

/-- An edge of the example graph: both nodes are named by one letter, the
address of a node is its letter, and the reverse edge exists. -/
def example_edge (a b : Char) (weight : Int) (connection : Option Nat) : edge_t where
  from_ := [a]
  to_ := [b]
  weight := weight
  options := 0
  address := .inet b.toNat 655
  connection := connection
  reverse := some ⟨.inet a.toNat 655, none⟩

/-- A graph of two islands.  `A` is `myself`, with the neighbour `D` behind the
meta connection 7 (weight 5).  The nodes `B`, `C`, `E` are known from earlier
announcements: the edges `B - C` (weight 1) and `C - E` (weight 100) are still
in the graph, but nothing links them to `A`. -/
def example_graph : graph_t where
  myself := ['A']
  MTU := 1518
  node_tree := [['A'], ['B'], ['C'], ['D'], ['E']]
  connection_tree := [7]
  edge_tree := fun n =>
    if n = ['A'] then [example_edge 'A' 'D' 5 (some 7)]
    else if n = ['B'] then [example_edge 'B' 'C' 1 none]
    else if n = ['C'] then [example_edge 'C' 'B' 1 none, example_edge 'C' 'E' 100 none]
    else if n = ['D'] then [example_edge 'D' 'A' 5 none]
    else if n = ['E'] then [example_edge 'E' 'C' 100 none]
    else []
  edge_weight_tree :=
    [example_edge 'B' 'C' 1 none, example_edge 'C' 'B' 1 none,
     example_edge 'A' 'D' 5 (some 7), example_edge 'D' 'A' 5 none,
     example_edge 'C' 'E' 100 none, example_edge 'E' 'C' 100 none]

/-- A state of the example graph before `graph()` runs: `A` and `D` are
reachable, the connection 7 is part of the spanning tree. -/
def example_graph_state : graph_state_t where
  node := fun n =>
    { visited := false, indirect := true, reachable := (n = ['A'] ∨ n = ['D']),
      validkey := false, waitingforkey := false, nexthop := n, via := n, options := 0,
      address := match n with
        | [c] => .inet c.toNat 655
        | _ => .unspec,
      mtuprobes := 0, minmtu := 0, maxmtu := 1518 }
  mst := fun c => decide (c = 7)
  node_udp_tree := [['A'], ['D']]
  effects := []

/-- The invariant of the main loop of `sssp_bfs`.  `todo` is the list behind
the node in work, `cur` holds the node in work (it is empty between two rounds
of the outer loop). -/
structure sssp_inv (g : graph_t) (s : graph_state_t) (todo cur : List (List Char)) : Prop where
  /-- The nodes on the list are registered and visited. -/
  todo_mem : ∀ x ∈ todo ++ cur, x ∈ g.node_tree ∧ (s.node x).visited = true
  /-- A visited node is at the end of a path of reverse-confirmed edges. -/
  sound : ∀ x ∈ g.node_tree, (s.node x).visited = true → confirmed_path g g.myself x
  /-- The record of `myself` stays as the start of the search left it. -/
  self : (s.node g.myself).visited = true ∧ (s.node g.myself).indirect = false ∧
    (s.node g.myself).nexthop = g.myself
  /-- The next hop of a visited node is a neighbour of `myself` that leads to it. -/
  hop : ∀ x ∈ g.node_tree, (s.node x).visited = true → x ≠ g.myself →
    (s.node x).nexthop ≠ g.myself ∧ confirmed_edge g g.myself (s.node x).nexthop ∧
      confirmed_path g (s.node x).nexthop x
  /-- A visited node that is not waiting has all its successors visited. -/
  closed : ∀ x ∈ g.node_tree, (s.node x).visited = true → x ∈ todo ∨ x ∈ cur ∨
    ∀ e ∈ g.edge_tree x, e.reverse.isSome = true → (s.node e.to_).visited = true

/-- How far the record of a node is from its final state: 2 when not visited,
1 when visited and indirect, 0 when visited and direct. -/
def sssp_rank (st : node_status_t) : Nat :=
  if st.visited then (if st.indirect then 1 else 0) else 2

/-- The sum of the ranks of the registered nodes. -/
def sssp_potential (g : graph_t) (s : graph_state_t) : Nat :=
  (g.node_tree.map (fun x => sssp_rank (s.node x))).sum

/-! ## `meta.c`: the meta writer -/

/-- The value that a C `int` holds for the exact result `x` of a sum or a
difference of two `int`s, `INT_MAX` being the largest `int`: a result outside
the range comes back reduced by 2 * (`INT_MAX` + 1), which is what two's
complement leaves when the sum overflows (the result modulo 2^32 for an `int`
of 32 bits, see `wrap_int_mod`). -/
def wrap_int (INT_MAX x : Int) : Int :=
  if x > INT_MAX then x - (2 * INT_MAX + 2)
  else if x < -INT_MAX - 1 then x + (2 * INT_MAX + 2)
  else x

/-- The globals, the constants and the library calls that the meta writer
uses. -/
structure send_env where
  /-- The constant `INT_MAX` of `limits.h`, the largest value of the type `int`
  in which `meta.c` counts the bytes of the outbound buffer (2147483647 where
  `int` has 32 bits). -/
  INT_MAX : Int
  /-- The global `now`. -/
  now : Int
  /-- The global `maxoutbufsize`, set by `setup_network` from the option
  `MaxOutputBufferSize` (10 times `MTU` when the option is absent). -/
  maxoutbufsize : Int
  /-- The cipher: `EVP_EncryptUpdate` on the connection's outbound context,
  `none` when it fails, otherwise the bytes it writes. -/
  EVP_EncryptUpdate : connection_t → List Char → Option (List Char)
  /-- The bytes found in memory that `xrealloc` adds behind the old block. -/
  xrealloc : Int → Char

/-- The pending bytes of the outbound buffer,
`outbuf[outbufstart .. outbufstart + outbuflen)`. -/
def connection_t.pending (c : connection_t) : List Char :=
  mem_read c.outbuf c.outbufstart c.outbuflen.toNat

/-- The first part of `send_meta`, up to the comment "Add our data to buffer":
the time stamp is set when nothing is pending, the memory block grows when the
pending bytes and `length` more do not fit in it, and the pending bytes move to
the front of the block when there is no room behind them.  The sums are sums
of C `int`s. -/
def send_meta_room (env : send_env) (c : connection_t) (length : Int) : connection_t :=
  let c1 := if c.outbuflen = 0 then { c with last_flushed_time := env.now } else c
  -- Find room in connection's buffer
  let c2 := if wrap_int env.INT_MAX (length + c1.outbuflen) > c1.outbufsize then
      { c1 with
        outbufsize := wrap_int env.INT_MAX (length + c1.outbuflen)
        outbuf := fun i => if 0 ≤ i ∧ i < c1.outbufsize then c1.outbuf i else env.xrealloc i }
    else c1
  if wrap_int env.INT_MAX (wrap_int env.INT_MAX (length + c2.outbuflen) + c2.outbufstart) >
      c2.outbufsize then
    { c2 with outbuf := memmove c2.outbuf c2.outbufstart c2.outbuflen, outbufstart := 0 }
  else c2

/-- The function `send_meta` of `meta.c`; `none` when it calls `abort()`.
The argument `length` is the length of `buffer`.  The place of the new bytes
is found by pointer arithmetic, the new `outbuflen` by a sum of C `int`s. -/
def send_meta (env : send_env) (c : connection_t) (buffer : List Char) :
    Option (Bool × connection_t) :=
  let length : Int := buffer.length
  let c := send_meta_room env c length
  -- Add our data to buffer
  if c.encryptout then
    match env.EVP_EncryptUpdate c buffer with
    | none => some (false, c)
    | some out =>
      let c1 := { c with outbuf := mem_write c.outbuf (c.outbufstart + c.outbuflen) out }
      if (out.length : Int) < length then some (false, c1)
      else if (out.length : Int) > length then none
      else some (true, { c1 with outbuflen := wrap_int env.INT_MAX (c1.outbuflen + out.length) })
  else
    some (true, { c with
      outbuf := mem_write c.outbuf (c.outbufstart + c.outbuflen) buffer
      outbuflen := wrap_int env.INT_MAX (c.outbuflen + length) })

/-- What one call of `send` on the socket does. -/
inductive send_t where
  /-- The socket takes `n` bytes (at most as many as it was offered). -/
  | sent (n : Nat)
  /-- The call fails without an error number, or with `EPIPE`. -/
  | closed
  /-- The call fails with `EINTR`. -/
  | eintr
  /-- The call fails and the error says the socket would block. -/
  | wouldblock
  /-- The call fails with another error. -/
  | error
deriving DecidableEq, Repr

/-- The result of `flush_meta`: the return value (`none` when the listed
answers of the socket run out inside the loop), the connection, and the bytes
the socket took, in order. -/
structure flush_t where
  /-- The return value. -/
  ret : Option Bool
  /-- The connection afterwards. -/
  c : connection_t
  /-- The bytes handed to the socket. -/
  handed : List Char

/-- The function `flush_meta` of `meta.c`; the list holds the answers of the
successive calls of `send`.  A call that takes no byte counts as a failure
without error number, as `result <= 0` does in the source.  The two counters
are updated as C `int`s. -/
def flush_meta (env : send_env) : List send_t → connection_t → flush_t
  | [], c =>
    if c.outbuflen = 0 then ⟨some true, { c with outbufstart := 0 }, []⟩
    else ⟨none, c, []⟩
  | answer :: rest, c =>
    if c.outbuflen = 0 then ⟨some true, { c with outbufstart := 0 }, []⟩
    else
      match answer with
      | .sent n =>
        let result : Int := min (n : Int) c.outbuflen
        if result ≤ 0 then ⟨some false, c, []⟩
        else
          let bytes := mem_read c.outbuf c.outbufstart result.toNat
          let r := flush_meta env rest
            { c with outbufstart := wrap_int env.INT_MAX (c.outbufstart + result),
                     outbuflen := wrap_int env.INT_MAX (c.outbuflen - result) }
          ⟨r.ret, r.c, bytes ++ r.handed⟩
      | .closed => ⟨some false, c, []⟩
      | .eintr => flush_meta env rest c
      | .wouldblock => ⟨some true, c, []⟩
      | .error => ⟨some false, c, []⟩

/-- The function `broadcast_meta` of `meta.c` on the connections of
`connection_tree`; `sender` is the argument `from` (`none` for NULL), and the
result is `none` when a call of `send_meta` aborts. -/
def broadcast_meta (env : send_env) :
    List connection_t → Option Nat → List Char → Option (List connection_t)
  | [], _, _ => some []
  | c :: tree, sender, buffer =>
    if some c.id ≠ sender ∧ c.active then
      match send_meta env c buffer with
      | none => none
      | some (_, c1) =>
        match broadcast_meta env tree sender buffer with
        | none => none
        | some tree1 => some (c1 :: tree1)
    else
      match broadcast_meta env tree sender buffer with
      | none => none
      | some tree1 => some (c :: tree1)

/-- The state of the outbound buffer is sound: the pending bytes lie inside
the memory block, and the size of the block is a value of the type `int`. -/
def connection_t.outbuf_ok (c : connection_t) (env : send_env) : Prop :=
  0 ≤ c.outbufstart ∧ 0 ≤ c.outbuflen ∧ c.outbufstart + c.outbuflen ≤ c.outbufsize ∧
    c.outbufsize ≤ env.INT_MAX

/-- The bytes that `send_meta` puts behind the pending bytes when it returns
true: the payload itself, or the output of the cipher when the connection
encrypts. -/
def send_meta_payload (env : send_env) (c : connection_t) (buffer : List Char) : List Char :=
  if c.encryptout then
    match env.EVP_EncryptUpdate (send_meta_room env c buffer.length) buffer with
    | some out => out
    | none => []
  else buffer

/-- An instance of the globals of the meta writer: `int` has 32 bits,
`MaxOutputBufferSize` is 10 and the cipher turns every byte into `X`. -/
def example_send_env : send_env where
  INT_MAX := 2147483647
  now := 1000
  maxoutbufsize := 10
  EVP_EncryptUpdate := fun _ bytes => some (bytes.map (fun _ => 'X'))
  xrealloc := fun _ => Char.ofNat 0

/-- A connection with the given identifier and flags `active` and
`encryptout`, and an empty outbound buffer. -/
def example_out_connection (id : Nat) (active encryptout : Bool) : connection_t :=
  { example_connection id "" with active := active, encryptout := encryptout }

/-- A connection that does not encrypt and whose outbound buffer is full to
the last byte that an `int` of 32 bits can count: `outbufsize` and `outbuflen`
are 2147483647 and every pending byte is `p`. -/
def example_full_connection : connection_t :=
  { example_out_connection 1 true false with
    outbuf := fun _ => 'p'
    outbufsize := 2147483647
    outbufstart := 0
    outbuflen := 2147483647 }

/-- A call on the output side of a connection. -/
inductive meta_op where
  /-- The call `send_meta(c, payload, length)`. -/
  | send (payload : List Char)
  /-- The call `flush_meta(c)`, with the answers of the socket. -/
  | flush (answers : List send_t)
deriving DecidableEq, Repr

/-- The payloads of the `send_meta` calls of a sequence, concatenated in call
order. -/
def meta_payloads : List meta_op → List Char
  | [] => []
  | .send payload :: ops => payload ++ meta_payloads ops
  | .flush _ :: ops => meta_payloads ops

/-- A sequence of `send_meta` and `flush_meta` calls on one connection.
`handed` collects the bytes the socket took; the result is `none` when
`send_meta` aborts. -/
def meta_run (env : send_env) : List meta_op → connection_t → List Char →
    Option (connection_t × List Char)
  | [], c, handed => some (c, handed)
  | .send payload :: ops, c, handed =>
    match send_meta env c payload with
    | none => none
    | some (_, c1) => meta_run env ops c1 handed
  | .flush answers :: ops, c, handed =>
    meta_run env ops (flush_meta env answers c).c (handed ++ (flush_meta env answers c).handed)

/-! ## `protocol.c`: aging of the past-request cache -/

/-- Modelled from the spec: `avl_delete_node` of the ordered associative store:
the given node leaves the tree. -/
def avl_delete_node {α : Type} [DecidableEq α] (tree : List α) (node : α) : List α :=
  tree.erase node

/-- The loop of `age_past_requests`: the first list holds the nodes from
`node` to the end of the tree as it was at the start, the second one is the
tree. -/
def age_past_requests_loop (pingtimeout now : Int) :
    List past_request_t → List past_request_t → List past_request_t
  | [], tree => tree
  | p :: next, tree =>
    if p.firstseen + pingtimeout < now then
      age_past_requests_loop pingtimeout now next (avl_delete_node tree p)
    else age_past_requests_loop pingtimeout now next tree

/-- The function `age_past_requests` of `protocol.c`; `pingtimeout` is the
global of that name. -/
def age_past_requests (pingtimeout : Int) (w : world_t) : world_t :=
  { w with past_request_tree :=
      (age_past_requests_loop pingtimeout w.now w.past_request_tree w.past_request_tree) }

/-! ## More concrete instances -/

/-- The example state in tunnel-server mode, with a third node `other` that
owns `192.168.7.0/24`. -/
def example_world_tunnelserver : world_t :=
  { example_world with
    tunnelserver := true
    node_tree := [⟨"me".toList, [example_subnet_a (some "me".toList)], true⟩,
      ⟨"other".toList, [example_subnet_b (some "other".toList)], true⟩,
      ⟨"peer".toList, [], true⟩]
    subnet_tree := [example_subnet_a (some "me".toList), example_subnet_b (some "other".toList)] }

/-- The edge `X -> A` of weight 1 as it stands after an `ADD_EDGE` for this
direction only: no edge `A -> X` is known, so `reverse` is NULL. -/
def example_edge_dangling : edge_t where
  from_ := ['X']
  to_ := ['A']
  weight := 1
  options := 0
  address := .inet 'A'.toNat 655
  connection := none
  reverse := none

/-- A graph of the nodes `A` (`myself`), `D` and `X`: `A` and `D` are joined by
the meta connection 7 (weight 5, both directions known); `X` has no edge. -/
def example_graph_pair : graph_t where
  myself := ['A']
  MTU := 1518
  node_tree := [['A'], ['D'], ['X']]
  connection_tree := [7]
  edge_tree := fun n =>
    if n = ['A'] then [example_edge 'A' 'D' 5 (some 7)]
    else if n = ['D'] then [example_edge 'D' 'A' 5 none]
    else []
  edge_weight_tree := [example_edge 'A' 'D' 5 (some 7), example_edge 'D' 'A' 5 none]

/-- The graph `example_graph_pair` with one more edge, `example_edge_dangling`,
which has no reverse; being the lightest it is the head of `edge_weight_tree`. -/
def example_graph_dangling : graph_t where
  myself := ['A']
  MTU := 1518
  node_tree := [['A'], ['D'], ['X']]
  connection_tree := [7]
  edge_tree := fun n =>
    if n = ['A'] then [example_edge 'A' 'D' 5 (some 7)]
    else if n = ['D'] then [example_edge 'D' 'A' 5 none]
    else if n = ['X'] then [example_edge_dangling]
    else []
  edge_weight_tree :=
    [example_edge_dangling, example_edge 'A' 'D' 5 (some 7), example_edge 'D' 'A' 5 none]

/-! ## The meta reader on a socket -/

/-- The bytes of a sequence of request lines on the wire: every line is
followed by a newline. -/
def request_stream : List (List Char) → List Char
  | [] => []
  | l :: ls => l ++ Char.ofNat 10 :: request_stream ls

/-- What `recv` does on the non-blocking socket of a meta connection when the
bytes `avail` have arrived and are unread: with no byte it fails with an error
that says the socket would block. -/
def socket_recv : List Char → recv_t
  | [] => .wouldblock
  | b :: bytes => .data (b :: bytes)

/-- Modelled from the spec: the reactor calls `receive_meta` each time the
socket of the connection is ready for reading.  `stream` holds the bytes the
peer has sent and `recv` has not taken yet; at each call the first `n` of them
have arrived (`n` runs through `reads`).  `recv` takes from the socket the
bytes it copies, at most the `MAXBUFSIZE - c->buflen` it is asked for; the
rest stays for the next call.  The run ends with `none` when a call does not
return true, otherwise with the connection, the program state and the unread
bytes. -/
def receive_meta_run {W : Type} (env : meta_env W) (fuel : Nat) :
    List Nat → List Char → connection_t → W → Option (connection_t × W × List Char)
  | [], stream, c, w => some (c, w, stream)
  | n :: reads, stream, c, w =>
    let len : Nat := ((env.MAXBUFSIZE - c.buflen) % 2 ^ 64).toNat
    match receive_meta env fuel (socket_recv (stream.take n)) c w with
    | .returned true c1 w1 => receive_meta_run env fuel reads (stream.drop (min n len)) c1 w1
    | _ => none

/-- An instance of the meta reader's parameters that records the dispatched
requests: a buffer of 2176 bytes, no proxy, a cipher that changes nothing; the
handler at index 17 is the PACKET handler, every other handler accepts the
request; each handler first appends the request text to the program state, a
list of texts.  The packet layer leaves that list alone. -/
def example_log_env : meta_env (List (List Char)) where
  MAXBUFSIZE := 2176
  proxytype := .PROXY_NONE
  EVP_DecryptUpdate := fun _ bytes => some bytes
  request_handlers := fun r =>
    if r = 17 then fun c w => tcppacket_h c (w ++ [c.request])
    else fun c w => (true, c, w ++ [c.request])
  receive_tcppacket := fun _ _ _ w => w

/-! ## `protocol_misc.c`: sending a packet over TCP -/

/-- Modelled from the spec: the record `vpn_packet_t` of `net.h` (absent from
the sources): the length `len` and the bytes `data` of a packet. -/
structure vpn_packet_t where
  /-- The number of bytes of the packet. -/
  len : Int
  /-- The bytes: `data i` is the byte `packet->data[i]`. -/
  data : Int → Char

/-- The text that `vsnprintf` produces for the format `"%d %hd"`; the second
argument is converted to `short int`. -/
def format_d_hd (request : Int) (len : Int) : List Char :=
  let h := to_short len
  Nat.toDigits 10 request.toNat ++ [Char.ofNat 32] ++
    (if h < 0 then Char.ofNat 45 :: Nat.toDigits 10 (-h).toNat else Nat.toDigits 10 h.toNat)

/-- The function `send_tcppacket` of `protocol_misc.c`. -/
def send_tcppacket (env : subnet_env) (w : world_t) (c : Nat) (packet : vpn_packet_t) :
    Bool × world_t :=
  match send_request env w c (format_d_hd PACKET packet.len) with
  | (false, w1) => (false, w1)
  | (true, w1) =>
    let data := mem_read packet.data 0 packet.len.toNat
    (env.send_meta c data, { w1 with effects := w1.effects ++ [.send_meta c data] })

/-- The bytes handed to `send_meta` for the connection `c`, in call order. -/
def sent_bytes (c : Nat) : List effect_t → List Char
  | [] => []
  | .send_meta c1 bytes :: es => if c1 = c then bytes ++ sent_bytes c es else sent_bytes c es
  | _ :: es => sent_bytes c es

/-- Where a connection stands while the frame of one packet arrives: `H` is
the request line without its newline, `D` the data, `len` the announced
length, `w` the program state before the frame, `unread` the bytes still on
the socket.  Either the buffer holds a start of the request line; or the
request has been dispatched and the buffer holds a start of the data; or the
data has been handed to `receive_tcppacket`, once, and the buffer is empty. -/
def packet_phase {W : Type} (env : meta_env W) (H D : List Char) (len : Int) (w : W)
    (c : connection_t) (w1 : W) (unread : List Char) : Prop :=
  c.decryptin = false ∧ c.node.isSome = true ∧ c.allow_request = ALL ∧
  ((∃ t, c.tcplen = 0 ∧ c.buflen = t.length ∧ mem_read c.buffer 0 t.length = t ∧
      (∀ ch ∈ t, ch.toNat ≠ 10) ∧ t ++ unread = H ++ Char.ofNat 10 :: D ∧ w1 = w) ∨
   (∃ t, c.tcplen = len ∧ c.buflen = t.length ∧ mem_read c.buffer 0 t.length = t ∧
      t ++ unread = D ∧ unread ≠ [] ∧ w1 = w) ∨
   (c.tcplen = 0 ∧ c.buflen = 0 ∧ unread = [] ∧
      ∃ c2 b, mem_read b 0 len.toNat = D ∧ w1 = env.receive_tcppacket c2 b len w))

/-! ## `protocol_misc.c`: PING and PONG -/

/-- Request id of `PING`. -/
def PING : Int := 8

/-- Request id of `PONG`. -/
def PONG : Int := 9

/-- The text that `vsnprintf` produces for the format `"%d"`, for a request
id. -/
def format_d (request : Int) : List Char :=
  Nat.toDigits 10 request.toNat

/-- The function `send_ping` of `protocol_misc.c`. -/
def send_ping (env : subnet_env) (c : connection_t) (w : world_t) :
    Bool × connection_t × world_t :=
  let c := { c with pinged := true, last_ping_time := w.now }
  match send_request env w c.id (format_d PING) with
  | (ok, w1) => (ok, c, w1)

/-- The function `send_pong` of `protocol_misc.c`. -/
def send_pong (env : subnet_env) (c : connection_t) (w : world_t) : Bool × world_t :=
  send_request env w c.id (format_d PONG)

/-- The function `ping_h` of `protocol_misc.c`. -/
def ping_h (env : subnet_env) : handler_t world_t := fun c w =>
  match send_pong env c w with
  | (ok, w1) => (ok, c, w1)

/-- The function `pong_h` of `protocol_misc.c`. -/
def pong_h {W : Type} : handler_t W := fun c w =>
  let c := { c with pinged := false }
  -- Succesful connection, reset timeout if this is an outgoing connection.
  let c := if c.outgoing then { c with outgoing_timeout := 0 } else c
  (true, c, w)

/-- The example connection after a ping was sent at time 5 and is not yet
answered; the time is now 1000. -/
def example_pinged_connection : connection_t :=
  { example_connection 1 "9" with pinged := true, last_ping_time := 5 }

/-! ## `netutl.c`: masks -/

/-- The loop `for(; i < len; i++) a[i] = 0;` of `mask`, for `count` rounds
from `i` on. -/
def mask_clear (a : Int → Nat) : Nat → Int → Int → Nat
  | 0, _ => a
  | count + 1, i => mask_clear (fun j => if j = i then 0 else a j) count (i + 1)

/-- The function `mask` of `netutl.c`.  `a i` is the byte `a[i]` as a number
from 0 to 255; the division and the remainder are those of C, which truncate. -/
def mask (a : Int → Nat) (masklen len : Int) : Int → Nat :=
  let i := masklen.tdiv 8
  let masklen := masklen.tmod 8
  if masklen ≠ 0 then
    let a1 : Int → Nat := fun j =>
      if j = i then Nat.land (a i) (0x100 - (1 <<< masklen.toNat)) % 256 else a j
    mask_clear a1 (len - (i + 1)).toNat (i + 1)
  else mask_clear a (len - i).toNat i

/-- The loop `for(; i < len; i++) if(a[i] != 0) return false;` of `maskcheck`,
for `count` rounds from `i` on. -/
def maskcheck_loop (a : Int → Nat) : Nat → Int → Bool
  | 0, _ => true
  | count + 1, i => if a i ≠ 0 then false else maskcheck_loop a count (i + 1)

/-- The function `maskcheck` of `netutl.c`. -/
def maskcheck (a : Int → Nat) (masklen len : Int) : Bool :=
  let i := masklen.tdiv 8
  let masklen := masklen.tmod 8
  if masklen ≠ 0 ∧ Nat.land (a i) (0xff >>> masklen.toNat) ≠ 0 then false
  else if masklen ≠ 0 then maskcheck_loop a (len - (i + 1)).toNat (i + 1)
  else maskcheck_loop a (len - i).toNat i

/-- A byte array that holds the given bytes from index 0 on, and 0 elsewhere. -/
def bytes_of (bytes : List Nat) : Int → Nat :=
  fun i => if 0 ≤ i then bytes.getD i.toNat 0 else 0

/-! ## `net_setup.c`: inherited listening sockets -/

/-- The callbacks that `setup_myself` registers. -/
inductive callback_t where
  | handle_new_meta_connection
  | handle_incoming_vpn_data
deriving DecidableEq, Repr

/-- Modelled from the spec: a `struct event` of the event library, as far as
`setup_myself` uses it: what `event_set` stored in it, and whether `event_add`
armed it. -/
structure event_t where
  /-- What `event_set` stored: the descriptor, the callback and its argument
  (`none` for NULL); `none` when `event_set` was never called on the event. -/
  set : Option (Int × callback_t × Option Int)
  /-- Whether `event_add` was called on the event. -/
  added : Bool
deriving DecidableEq, Repr

/-- Modelled from the spec: the record `listen_socket_t` of `net.h` (absent
from the sources). -/
structure listen_socket_t where
  /-- The descriptor of the TCP socket. -/
  tcp : Int
  /-- The descriptor of the UDP socket. -/
  udp : Int
  /-- The address the sockets are bound to. -/
  sa : sockaddr_t
  /-- The event of the TCP socket. -/
  ev_tcp : event_t
  /-- The event of the UDP socket. -/
  ev_udp : event_t
deriving DecidableEq, Repr

/-- The constants and the calls outside `net_setup.c` that the socket set-up
uses. -/
structure setup_env where
  /-- The size `MAXSOCKETS` of the array `listen_socket`. -/
  MAXSOCKETS : Int
  /-- The call `getsockname(fd, ..)`: the address, `none` when it fails. -/
  getsockname : Int → Option sockaddr_t
  /-- The descriptor that `setup_vpn_in_socket` returns, negative on failure. -/
  setup_vpn_in_socket : sockaddr_t → Int
  /-- The value of `event_add` on an event. -/
  event_add : event_t → Int

/-- How the socket set-up ends. -/
inductive setup_t where
  /-- The sockets are set up and `setup_myself` goes on. -/
  | done (listen_socket : Int → listen_socket_t)
  /-- The function `setup_myself` returns false. -/
  | failed (listen_socket : Int → listen_socket_t)
  /-- The call `abort()`. -/
  | aborted (listen_socket : Int → listen_socket_t)

/-- The array after the assignment `listen_socket[i] = x`; an index outside
`0 .. MAXSOCKETS - 1` is memory next to the array. -/
def listen_socket_set (listen_socket : Int → listen_socket_t) (i : Int) (x : listen_socket_t) :
    Int → listen_socket_t :=
  fun j => if j = i then x else listen_socket j

/-- The loop `for(int i = 0; i < listen_sockets; i++)` of `setup_myself`, over
the values of `i` that are left. -/
def setup_myself_loop (env : setup_env) (listen_sockets : Int) :
    List Nat → (Int → listen_socket_t) → setup_t
  | [], ls => .done ls
  | i :: rest, ls =>
    match env.getsockname (i + 3) with
    | none => .failed ls
    | some sa =>
      let ls := listen_socket_set ls i { ls i with tcp := i + 3 }
      let ls := listen_socket_set ls i { ls i with udp := env.setup_vpn_in_socket sa }
      if (ls i).udp < 0 then .failed ls
      else
        let ls := listen_socket_set ls i { ls i with ev_tcp :=
          { (ls i).ev_tcp with set := some ((ls i).tcp, .handle_new_meta_connection, none) } }
        if env.event_add (ls i).ev_tcp < 0 then .aborted ls
        else
          let ls := listen_socket_set ls i { ls i with ev_tcp :=
            { (ls i).ev_tcp with added := true } }
          let ls := listen_socket_set ls i { ls i with ev_udp :=
            { (ls i).ev_udp with
              set := some ((ls i).udp, .handle_incoming_vpn_data, some listen_sockets) } }
          if env.event_add (ls listen_sockets).ev_udp < 0 then .aborted ls
          else
            let ls := listen_socket_set ls listen_sockets { ls listen_sockets with ev_udp :=
              { (ls listen_sockets).ev_udp with added := true } }
            let ls := listen_socket_set ls i { ls i with sa := sa }
            setup_myself_loop env listen_sockets rest ls

/-- The C function `atoi`: the leading decimal number, 0 when there is none. -/
def atoi (s : List Char) : Int :=
  match scan_int s with
  | some (v, _) => to_int v
  | none => 0

/-- The branch `if(!do_detach && getenv("LISTEN_FDS"))` of `setup_myself` in
`net_setup.c`; `value` is the text of the environment variable. -/
def setup_myself_listen_fds (env : setup_env) (value : List Char)
    (listen_socket : Int → listen_socket_t) : setup_t :=
  let listen_sockets := atoi value
  if listen_sockets > env.MAXSOCKETS then .failed listen_socket
  else setup_myself_loop env listen_sockets (List.range listen_sockets.toNat) listen_socket

/-- An instance of the calls of the socket set-up: 8 slots, every inherited
descriptor `fd` is bound to port `fd` of the address 0, the UDP socket of port
`p` gets the descriptor `p + 100`, and `event_add` succeeds. -/
def example_setup_env : setup_env where
  MAXSOCKETS := 8
  getsockname := fun fd => some (.inet 0 fd.toNat)
  setup_vpn_in_socket := fun sa =>
    match sa with
    | .inet _ port => port + 100
    | _ => -1
  event_add := fun _ => 0

/-- The array `listen_socket` at the start: no descriptor, no event. -/
def example_listen_socket : Int → listen_socket_t :=
  fun _ => ⟨-1, -1, .unspec, ⟨none, false⟩, ⟨none, false⟩⟩

/-! ## `graph.c`: observers of the graph engine -/

/-- The loop "while todo_list is filled" of `sssp_bfs` once more, with a record
of the nodes it takes from `todo_list`: `seen` holds the nodes taken so far, in
order.  The loop ends when the list is empty, so that the record then holds
every node that was ever put on the list. -/
def sssp_bfs_loop_order (g : graph_t) :
    Nat → graph_state_t → List (List Char) → List (List Char) →
      Option (graph_state_t × List (List Char))
  | _, s, [], seen => some (s, seen)
  | 0, _, _ :: _, _ => none
  | fuel + 1, s, n :: todo, seen =>
    match (g.edge_tree n).foldl (sssp_bfs_edge g n) (s, todo) with
    | (s, todo) => sssp_bfs_loop_order g fuel s todo (seen ++ [n])

/-- The nodes that `sssp_bfs` puts on `todo_list`, in the order in which it
takes them from the list. -/
def sssp_bfs_order (fuel : Nat) (g : graph_t) (s : graph_state_t) :
    Option (List (List Char)) :=
  -- Clear visited status on nodes
  let s := { s with node := fun n =>
    if n ∈ g.node_tree then { s.node n with visited := false, indirect := true } else s.node n }
  -- Begin with myself
  let s := s.set g.myself
    { s.node g.myself with visited := true, indirect := false, nexthop := g.myself,
                           via := g.myself }
  (sssp_bfs_loop_order g fuel s [g.myself] []).map Prod.snd

/-- The calls of the reachability hook of `sssp_bfs` for the nodes of a list,
read off the state after the run: the script `hosts/<name>-up` or
`hosts/<name>-down` with the node's name and address, then `subnet_update`. -/
def reachability_hooks (s1 : graph_state_t) : List (List Char) → List graph_effect_t
  | [] => []
  | n :: ns =>
    .execute_script ("hosts/".toList ++ n ++
        (if (s1.node n).reachable then "-up".toList else "-down".toList)) n (s1.node n).address ::
      .subnet_update n (s1.node n).reachable :: reachability_hooks s1 ns

/-- Whether a call that left the graph engine is the probe `send_mtu_probe`. -/
def graph_effect_t.is_probe : graph_effect_t → Bool
  | .send_mtu_probe _ => true
  | _ => false

/-- What the main loop of `sssp_bfs` leaves alone: the flags `reachable`,
`validkey` and `waitingforkey` of every node, the flags of the connections and
the UDP index; the only calls it makes are probes. -/
def sssp_bfs_frame (s0 s : graph_state_t) : Prop :=
  (∀ x, (s.node x).reachable = (s0.node x).reachable ∧
    (s.node x).validkey = (s0.node x).validkey ∧
    (s.node x).waitingforkey = (s0.node x).waitingforkey) ∧
  s.mst = s0.mst ∧ s.node_udp_tree = s0.node_udp_tree ∧
  ∃ probes, s.effects = s0.effects ++ probes ∧ ∀ e ∈ probes, e.is_probe = true

/-- The state of `sssp_bfs` when its main loop starts: the flags of the
registered nodes are cleared and the record of `myself` is set. -/
def sssp_bfs_start (g : graph_t) (s : graph_state_t) : graph_state_t :=
  -- Clear visited status on nodes
  let s := { s with node := fun n =>
    if n ∈ g.node_tree then { s.node n with visited := false, indirect := true } else s.node n }
  -- Begin with myself
  s.set g.myself
    { s.node g.myself with visited := true, indirect := false, nexthop := g.myself,
                           via := g.myself }

/-- A state of the example graph in which `A` and `B` are flagged reachable:
`B` was reachable before its link to `A` went away, and `D` has just appeared. -/
def example_graph_state_stale : graph_state_t :=
  { example_graph_state with node := fun n =>
      { example_graph_state.node n with reachable := (n = ['A'] ∨ n = ['B']), validkey := true } }

/-- The invariant of the main loop of `sssp_bfs` for `via`: the `via` of a
visited node is a visited, direct node from which a path of reverse-confirmed
edges leads to the node, and it is the node itself exactly when the node is
direct. -/
def sssp_via_inv (g : graph_t) (s : graph_state_t) : Prop :=
  ∀ x ∈ g.node_tree, (s.node x).visited = true →
    (s.node x).via ∈ g.node_tree ∧ (s.node (s.node x).via).visited = true ∧
    (s.node (s.node x).via).indirect = false ∧
    ((s.node x).via = x ↔ (s.node x).indirect = false) ∧
    confirmed_path g (s.node x).via x

/-- A graph in which a node is upgraded from indirect to direct.  `A` is
`myself` with the neighbour `V`; `V` has an edge to `X` that is flagged
`OPTION_INDIRECT` and an edge to `W`; `W` has a plain edge to `X`; the only
edge into `Y` comes from `X` and is flagged `OPTION_INDIRECT`. -/
def example_graph_upgrade : graph_t where
  myself := ['A']
  MTU := 1518
  node_tree := [['A'], ['V'], ['W'], ['X'], ['Y']]
  connection_tree := []
  edge_tree := fun n =>
    if n = ['A'] then [example_edge 'A' 'V' 1 none]
    else if n = ['V'] then [example_edge 'V' 'A' 1 none,
      { example_edge 'V' 'X' 1 none with options := OPTION_INDIRECT }, example_edge 'V' 'W' 1 none]
    else if n = ['W'] then [example_edge 'W' 'V' 1 none, example_edge 'W' 'X' 1 none]
    else if n = ['X'] then [example_edge 'X' 'V' 1 none, example_edge 'X' 'W' 1 none,
      { example_edge 'X' 'Y' 1 none with options := OPTION_INDIRECT }]
    else if n = ['Y'] then [example_edge 'Y' 'X' 1 none]
    else []
  edge_weight_tree := []

/-- The state of `mst_kruskal` after it has added the safe edge `e`, whose
reverse is `reverse`: both ends are flagged visited and the connections of the
edge and of its reverse, when there are any, are flagged `mst`. -/
def mst_kruskal_accept (s : graph_state_t) (e : edge_t) (reverse : edge_reverse_t) :
    graph_state_t :=
  let s := s.set e.from_ { s.node e.from_ with visited := true }
  let s := s.set e.to_ { s.node e.to_ with visited := true }
  let s := match e.connection with
    | some c => { s with mst := fun x => if x = c then true else s.mst x }
    | none => s
  match reverse.connection with
  | some c => { s with mst := fun x => if x = c then true else s.mst x }
  | none => s

/-- The number of registered nodes that are not flagged visited. -/
def mst_unvisited (g : graph_t) (s : graph_state_t) : Nat :=
  (g.node_tree.map (fun x => if (s.node x).visited then 0 else 1)).sum

/-- Whether the connection `c` stands for one of the edges of a list or for the
reverse of one of them. -/
def mst_flagged (safe : List edge_t) (c : Nat) : Bool :=
  safe.any (fun e => decide (e.connection = some c) ||
    match e.reverse with
    | some reverse => decide (reverse.connection = some c)
    | none => false)

/-- The state of `mst_kruskal` when its loop starts: the flags `mst` of the
connections and `visited` of the registered nodes are cleared, and the node
that the lightest edge leaves is flagged visited. -/
def mst_kruskal_start (g : graph_t) (s : graph_state_t) (head : edge_t) : graph_state_t :=
  -- Clear MST status on connections
  let s := { s with mst := fun c => if c ∈ g.connection_tree then false else s.mst c }
  -- Clear visited status on nodes
  let s := { s with node := fun n =>
    if n ∈ g.node_tree then { s.node n with visited := false } else s.node n }
  -- Starting point
  s.set head.from_ { s.node head.from_ with visited := true }

/-- The edges of `edge_weight_tree` join registered nodes. -/
def graph_t.weight_closed (g : graph_t) : Prop :=
  ∀ e ∈ g.edge_weight_tree, e.from_ ∈ g.node_tree ∧ e.to_ ∈ g.node_tree

/-- Two states of the main loop of `sssp_bfs` that carry the same search: the
registered nodes have the same flags `visited` and `indirect`, the visited ones
the same `nexthop` and `via`, and the visited ones other than `myself` the same
`options` and `address`. -/
def sssp_bfs_agree (g : graph_t) (a b : graph_state_t) : Prop :=
  ∀ x ∈ g.node_tree, (a.node x).visited = (b.node x).visited ∧
    (a.node x).indirect = (b.node x).indirect ∧
    ((a.node x).visited = true →
      (a.node x).nexthop = (b.node x).nexthop ∧ (a.node x).via = (b.node x).via ∧
      (x ≠ g.myself → (a.node x).options = (b.node x).options ∧
        (a.node x).address = (b.node x).address))

/-! ## Theorems -/

/-- C1: `receive_request` invokes a handler only when the line starts with a
decimal request id `r` (as `sscanf %d` reads it) with `0 ≤ r < 18` and the
permit is `ALL` or equal to `r`, and then it is handler `r` that runs; in every
other case it returns false, invokes no handler and leaves the connection and
the program state as they were. -/
theorem receive_request_gate {W : Type} (request_handlers : Nat → handler_t W)
    (c : connection_t) (w : W) :
    (∃ r : Int, sscanf_d c.request = some r ∧ 0 ≤ r ∧ r < 18 ∧
        (c.allow_request = ALL ∨ c.allow_request = r) ∧
        (receive_request request_handlers c w).invoked = some r.toNat) ∨
    ((¬ ∃ r : Int, sscanf_d c.request = some r ∧ 0 ≤ r ∧ r < 18 ∧
        (c.allow_request = ALL ∨ c.allow_request = r)) ∧
      receive_request request_handlers c w = ⟨false, c, w, none⟩) := by
  unfold receive_request
  cases h : sscanf_d c.request with
  | none => right; simp
  | some r =>
    by_cases h1 : r < 0 ∨ r ≥ LAST
    · right
      refine ⟨?_, by simp only [if_pos h1]⟩
      rintro ⟨r1, hr, h0, h18, -⟩
      cases hr
      unfold LAST at h1
      omega
    · by_cases h2 : c.allow_request ≠ ALL ∧ c.allow_request ≠ r
      · right
        refine ⟨?_, by simp only [if_neg h1, if_pos h2]⟩
        rintro ⟨r1, hr, -, -, hp⟩
        cases hr
        rcases hp with hp | hp
        · exact h2.1 hp
        · exact h2.2 hp
      · left
        refine ⟨r, rfl, ?_, ?_, ?_, ?_⟩
        · unfold LAST at h1; omega
        · unfold LAST at h1; omega
        · by_cases ha : c.allow_request = ALL
          · exact Or.inl ha
          · right
            by_contra hne
            exact h2 ⟨ha, hne⟩
        · simp only [if_neg h1, if_neg h2]

/-! ### The ordered store and the past-request cache -/

theorem char_eq_of_toNat_eq {a b : Char} (h : a.toNat = b.toNat) : a = b := by
  apply Char.ext
  apply UInt32.ext
  exact h

theorem strcmp_eq_zero_iff (a b : List Char) : strcmp a b = 0 ↔ a = b := by
  induction a generalizing b with
  | nil => cases b <;> simp [strcmp]
  | cons x xs ih =>
    cases b with
    | nil => simp [strcmp]
    | cons y ys =>
      simp only [strcmp]
      by_cases h1 : x.toNat < y.toNat
      · simp only [if_pos h1]
        constructor
        · intro h; omega
        · intro h; cases h; omega
      · by_cases h2 : y.toNat < x.toNat
        · simp only [if_neg h1, if_pos h2]
          constructor
          · intro h; omega
          · intro h; cases h; omega
        · simp only [if_neg h1, if_neg h2, ih, List.cons.injEq]
          have : x = y := char_eq_of_toNat_eq (by omega)
          simp [this]

theorem avl_insert_perm {α : Type} (compare : α → α → Int) (tree : List α) (x : α)
    (h : ∀ y ∈ tree, compare x y ≠ 0) : (avl_insert compare tree x).Perm (x :: tree) := by
  induction tree with
  | nil => simp [avl_insert]
  | cons y ys ih =>
    simp only [avl_insert]
    have hy : compare x y ≠ 0 := h y (List.mem_cons_self _ _)
    by_cases h1 : compare x y < 0
    · simp only [if_pos h1]; exact List.Perm.refl _
    · simp only [if_neg h1, if_neg hy]
      have := ih (fun z hz => h z (List.mem_cons_of_mem _ hz))
      exact (List.Perm.cons y this).trans (List.Perm.swap x y ys)

theorem avl_search_none_iff {α : Type} (compare : α → α → Int) (tree : List α) (key : α) :
    avl_search compare tree key = none ↔ ∀ x ∈ tree, compare key x ≠ 0 := by
  unfold avl_search
  simp [List.find?_eq_none]

theorem avl_search_some_mem {α : Type} (compare : α → α → Int) (tree : List α) (key x : α)
    (h : avl_search compare tree key = some x) : x ∈ tree ∧ compare key x = 0 := by
  unfold avl_search at h
  have h1 := List.find?_some h
  have h2 := List.mem_of_find?_eq_some h
  exact ⟨h2, by simpa using h1⟩

theorem seen_request_true_iff (w : world_t) (r : List Char) :
    (seen_request w r).1 = true ↔ ∃ p ∈ w.past_request_tree, p.request = r := by
  unfold seen_request
  cases h : avl_search past_request_compare w.past_request_tree ⟨r, 0⟩ with
  | some p =>
    have := avl_search_some_mem _ _ _ _ h
    simp only [true_iff]
    refine ⟨p, this.1, ?_⟩
    have h2 := this.2
    unfold past_request_compare at h2
    exact ((strcmp_eq_zero_iff _ _).1 h2).symm
  | none =>
    rw [avl_search_none_iff] at h
    simp only [Bool.false_eq_true, false_iff]
    rintro ⟨p, hp, rfl⟩
    apply h p hp
    unfold past_request_compare
    exact (strcmp_eq_zero_iff _ _).2 rfl

/-- C9: `seen_request r` returns true exactly when an entry with the same text
is in the past-request cache, and then the whole state (the cache with the
stored `firstseen` included) is unchanged; when it returns false the cache
gains the one entry `(r, now)`, every earlier entry is kept as it was, and the
rest of the state is unchanged. -/
theorem seen_request_cache (w : world_t) (r : List Char) :
    ((seen_request w r).1 = true ↔ ∃ p ∈ w.past_request_tree, p.request = r) ∧
    ((seen_request w r).1 = true → (seen_request w r).2 = w) ∧
    ((seen_request w r).1 = false →
      (seen_request w r).2.past_request_tree.Perm (⟨r, w.now⟩ :: w.past_request_tree) ∧
      (seen_request w r).2 =
        { w with past_request_tree := (seen_request w r).2.past_request_tree }) := by
  refine ⟨seen_request_true_iff w r, ?_, ?_⟩
  · unfold seen_request
    cases h : avl_search past_request_compare w.past_request_tree ⟨r, 0⟩ with
    | some p => simp
    | none => simp
  · unfold seen_request
    cases h : avl_search past_request_compare w.past_request_tree ⟨r, 0⟩ with
    | some p => simp
    | none =>
      intro _
      refine ⟨?_, rfl⟩
      apply avl_insert_perm
      rw [avl_search_none_iff] at h
      intro y hy
      have := h y hy
      unfold past_request_compare at this ⊢
      exact this

/-! ### The subnet handlers -/

theorem seen_request_of_mem (w : world_t) (r : List Char)
    (h : ∃ p ∈ w.past_request_tree, p.request = r) : seen_request w r = (true, w) := by
  have h1 := (seen_request_true_iff w r).2 h
  unfold seen_request at h1 ⊢
  cases h2 : avl_search past_request_compare w.past_request_tree ⟨r, 0⟩ with
  | some p => rfl
  | none => rw [h2] at h1; simp at h1

theorem seen_request_of_not_mem (w : world_t) (r : List Char)
    (h : ¬ ∃ p ∈ w.past_request_tree, p.request = r) :
    seen_request w r = (false, { w with past_request_tree :=
      (avl_insert past_request_compare w.past_request_tree ⟨r, w.now⟩) }) := by
  have h1 := (seen_request_true_iff w r).not.2 h
  unfold seen_request at h1 ⊢
  cases h2 : avl_search past_request_compare w.past_request_tree ⟨r, 0⟩ with
  | some p => rw [h2] at h1; simp at h1
  | none => rfl

theorem mem_avl_insert_self {α : Type} (compare : α → α → Int) (tree : List α) (x : α)
    (h : ∀ y ∈ tree, compare x y ≠ 0) : x ∈ avl_insert compare tree x :=
  (avl_insert_perm compare tree x h).symm.subset (List.mem_cons_self _ _)

theorem send_request_past (env : subnet_env) (w : world_t) (c : Nat) (text : List Char) :
    (send_request env w c text).2.past_request_tree = w.past_request_tree ∧
    (send_request env w c text).2.node_tree = w.node_tree ∧
    (send_request env w c text).2.subnet_tree = w.subnet_tree := by
  unfold send_request
  split_ifs <;> simp

theorem send_subnet_request_past (env : subnet_env) (request : Int) (w : world_t) (c : Nat)
    (s : subnet_t) :
    (send_subnet_request env request w c s).2.past_request_tree = w.past_request_tree ∧
    (send_subnet_request env request w c s).2.node_tree = w.node_tree ∧
    (send_subnet_request env request w c s).2.subnet_tree = w.subnet_tree := by
  unfold send_subnet_request
  cases env.net2str s with
  | none => simp
  | some netstr =>
    cases s.owner with
    | none => simp
    | some name => exact send_request_past _ _ _ _

/-- A valid request that is not in the cache is inserted, and `add_subnet_h`
does not touch the past-request cache again. -/
theorem add_subnet_h_past (env : subnet_env) (c : connection_t) (w : world_t)
    (name subnetstr : List Char) (s : subnet_t)
    (hp : sscanf_d_x_s_s env.MAX_STRING_SIZE c.request = some (name, subnetstr))
    (hid : ¬ (!check_id name) = true) (hn : env.str2net subnetstr = some s)
    (hs : ¬ ∃ p ∈ w.past_request_tree, p.request = c.request) :
    (add_subnet_h env c w).2.2.past_request_tree =
      avl_insert past_request_compare w.past_request_tree ⟨c.request, w.now⟩ := by
  unfold add_subnet_h
  simp only [hp, if_neg hid, hn, seen_request_of_not_mem w _ hs]
  split_ifs <;>
    simp [node_add, subnet_add, subnet_update, forward_request, send_del_subnet,
      (send_subnet_request_past _ _ _ _ _).1]

theorem add_subnet_h_seen (env : subnet_env) (c : connection_t) (w : world_t)
    (h : ∃ p ∈ w.past_request_tree, p.request = c.request) :
    (add_subnet_h env c w).2.2 = w := by
  unfold add_subnet_h
  cases sscanf_d_x_s_s env.MAX_STRING_SIZE c.request with
  | none => rfl
  | some ns =>
    obtain ⟨name, subnetstr⟩ := ns
    simp only
    split_ifs with hid
    · rfl
    · cases env.str2net subnetstr with
      | none => rfl
      | some s => simp only; rw [seen_request_of_mem w _ h]

theorem add_subnet_h_invalid_or_cached (env : subnet_env) (c c2 : connection_t)
    (hreq : c2.request = c.request) :
    (∀ w, (add_subnet_h env c w).2.2 = w ∧ (add_subnet_h env c2 w).2.2 = w) ∨
    (∀ w, ∃ p ∈ (add_subnet_h env c w).2.2.past_request_tree, p.request = c.request) := by
  cases hp : sscanf_d_x_s_s env.MAX_STRING_SIZE c.request with
  | none =>
    left; intro w
    constructor <;> (unfold add_subnet_h; simp only [hreq, hp])
  | some ns =>
    obtain ⟨name, subnetstr⟩ := ns
    by_cases hid : (!check_id name) = true
    · left; intro w
      constructor <;> (unfold add_subnet_h; simp only [hreq, hp, if_pos hid])
    · cases hn : env.str2net subnetstr with
      | none =>
        left; intro w
        constructor <;> (unfold add_subnet_h; simp only [hreq, hp, if_neg hid, hn])
      | some s =>
        right; intro w
        by_cases hs : ∃ p ∈ w.past_request_tree, p.request = c.request
        · rw [add_subnet_h_seen env c w hs]; exact hs
        · rw [add_subnet_h_past env c w name subnetstr s hp hid hn hs]
          refine ⟨⟨c.request, w.now⟩, ?_, rfl⟩
          apply mem_avl_insert_self
          intro y hy h0
          apply hs
          refine ⟨y, hy, ?_⟩
          unfold past_request_compare at h0
          exact ((strcmp_eq_zero_iff _ _).1 h0).symm

/-- C8: handling an ADD_SUBNET line a second time (on any connection that
carries the same text, at any later time `t`) changes nothing: the node
registry, every node's subnet set, the subnet index and the past-request cache
are those reached after the first handling, and nothing more is sent. -/
theorem add_subnet_h_twice (env : subnet_env) (c c2 : connection_t) (w : world_t) (t : Int)
    (hreq : c2.request = c.request) :
    (add_subnet_h env c2 { (add_subnet_h env c w).2.2 with now := t }).2.2 =
      { (add_subnet_h env c w).2.2 with now := t } := by
  rcases add_subnet_h_invalid_or_cached env c c2 hreq with h | h
  · exact (h _).2
  · apply add_subnet_h_seen
    rw [hreq]
    exact h w

/-- C7 (as stated) fails: `me` owns `10.0.0.0/24`; a peer sends a new
ADD_SUBNET naming `me` as the owner of that subnet.  The handler returns true
and sends nothing, so no DEL_SUBNET is emitted. -/
theorem add_subnet_h_known_subnet_silent :
    sscanf_d_x_s_s example_env.MAX_STRING_SIZE
        (example_connection 1 "10 4d2 me 10.0.0.0/24").request =
      some (example_world.myself, "10.0.0.0/24".toList) ∧
    (¬ ∃ p ∈ example_world.past_request_tree,
      p.request = (example_connection 1 "10 4d2 me 10.0.0.0/24").request) ∧
    (add_subnet_h example_env (example_connection 1 "10 4d2 me 10.0.0.0/24")
      example_world).1 = true ∧
    (add_subnet_h example_env (example_connection 1 "10 4d2 me 10.0.0.0/24")
      example_world).2.2.effects = [] := by
  decide

/-- C7 (amended): a well-formed ADD_SUBNET that names `myself` as the owner, is
not in the past-request cache, and whose subnet is not in the subnet set of
`myself`, makes `add_subnet_h` send exactly one request, a DEL_SUBNET for that
subnet with owner `myself`, on the connection it arrived on, and leave the
node registry, every node's subnet set and the subnet index unchanged. -/
theorem add_subnet_h_retaliates (env : subnet_env) (c : connection_t) (w : world_t)
    (subnetstr netstr : List Char) (s : subnet_t)
    (hparse : sscanf_d_x_s_s env.MAX_STRING_SIZE c.request = some (w.myself, subnetstr))
    (hid : check_id w.myself = true)
    (hnet : env.str2net subnetstr = some s)
    (hnew : ¬ ∃ p ∈ w.past_request_tree, p.request = c.request)
    (hme : (lookup_node w w.myself).isSome = true)
    (hunknown : lookup_subnet env w w.myself s = none)
    (hstr : env.net2str { s with owner := some w.myself } = some netstr)
    (hfit : ((format_d_lx_s_s DEL_SUBNET (env.random w.randoms) w.myself netstr).length : Int)
      ≤ (env.MAXBUFSIZE : Int) - 1)
    (hc : c.id ≠ w.broadcast) :
    (add_subnet_h env c w).1 = true ∧
    (add_subnet_h env c w).2.2.effects = w.effects ++
      [.send_meta c.id (format_d_lx_s_s DEL_SUBNET (env.random w.randoms) w.myself netstr ++
        [Char.ofNat 10])] ∧
    (add_subnet_h env c w).2.2.node_tree = w.node_tree ∧
    (add_subnet_h env c w).2.2.subnet_tree = w.subnet_tree := by
  have hme2 : ¬ (lookup_node { w with past_request_tree :=
      (avl_insert past_request_compare w.past_request_tree ⟨c.request, w.now⟩) }
      w.myself).isNone = true := by
    have : lookup_node { w with past_request_tree :=
      (avl_insert past_request_compare w.past_request_tree ⟨c.request, w.now⟩) } w.myself
        = lookup_node w w.myself := rfl
    rw [this]
    cases h : lookup_node w w.myself with
    | none => rw [h] at hme; simp at hme
    | some n => simp
  have hunk2 : lookup_subnet env { w with past_request_tree :=
      (avl_insert past_request_compare w.past_request_tree ⟨c.request, w.now⟩) }
      w.myself s = none := hunknown
  have hfit2 : ¬ ((format_d_lx_s_s DEL_SUBNET (env.random w.randoms) w.myself netstr).length
      : Int) > (env.MAXBUFSIZE : Int) - 1 := by omega
  unfold add_subnet_h
  simp only [hparse, hid, hnet, seen_request_of_not_mem w _ hnew, Bool.not_true,
    Bool.false_eq_true, if_false, if_neg hme2, hunk2, Option.isSome_none, ne_eq,
    not_true_eq_false, false_and, and_false, if_true, send_del_subnet, send_subnet_request,
    hstr, send_request, if_neg hfit2, if_neg hc]
  simp

/-- The retaliation on the example state: a peer claims `192.168.7.0/24` for `me`, which `me` does not own. -/
theorem add_subnet_h_retaliates_witness :
    (add_subnet_h example_env (example_connection 1 "10 4d2 me 192.168.7.0/24")
      example_world).1 = true ∧
    (add_subnet_h example_env (example_connection 1 "10 4d2 me 192.168.7.0/24")
      example_world).2.2.effects = example_world.effects ++
      [.send_meta (example_connection 1 "10 4d2 me 192.168.7.0/24").id
        (format_d_lx_s_s DEL_SUBNET (example_env.random example_world.randoms)
          example_world.myself "192.168.7.0/24".toList ++ [Char.ofNat 10])] ∧
    (add_subnet_h example_env (example_connection 1 "10 4d2 me 192.168.7.0/24")
      example_world).2.2.node_tree = example_world.node_tree ∧
    (add_subnet_h example_env (example_connection 1 "10 4d2 me 192.168.7.0/24")
      example_world).2.2.subnet_tree = example_world.subnet_tree :=
  add_subnet_h_retaliates example_env (example_connection 1 "10 4d2 me 192.168.7.0/24")
    example_world "192.168.7.0/24".toList "192.168.7.0/24".toList (example_subnet_b none)
    (by decide) (by decide) (by decide) (by decide) (by decide) (by decide) (by decide)
    (by decide) (by decide)

/-- The second handling on the example state: the same ADD_SUBNET arrives on the connections 1 and 2. -/
theorem add_subnet_h_twice_witness :
    (example_connection 2 "10 4d2 peer 192.168.7.0/24").request =
      (example_connection 1 "10 4d2 peer 192.168.7.0/24").request ∧
    (add_subnet_h example_env (example_connection 2 "10 4d2 peer 192.168.7.0/24")
      { (add_subnet_h example_env (example_connection 1 "10 4d2 peer 192.168.7.0/24")
          example_world).2.2 with now := 1003 }).2.2 =
      { (add_subnet_h example_env (example_connection 1 "10 4d2 peer 192.168.7.0/24")
          example_world).2.2 with now := 1003 } :=
  ⟨by decide, add_subnet_h_twice example_env (example_connection 1 "10 4d2 peer 192.168.7.0/24")
    (example_connection 2 "10 4d2 peer 192.168.7.0/24") example_world 1003 (by decide)⟩

/-- C10 at the failing input: in tunnel-server mode a peer announces a subnet
for the unknown node `other`.  `add_subnet_h` returns false, yet the request
has entered the past-request cache and `other` has entered the node registry. -/
theorem add_subnet_h_false_after_update :
    (add_subnet_h example_env (example_connection 1 "10 4d2 other 192.168.7.0/24")
      { example_world with tunnelserver := true }).1 = false ∧
    (add_subnet_h example_env (example_connection 1 "10 4d2 other 192.168.7.0/24")
      { example_world with tunnelserver := true }).2.2.past_request_tree =
        [⟨"10 4d2 other 192.168.7.0/24".toList, 1000⟩] ∧
    example_world.past_request_tree = [] ∧
    (add_subnet_h example_env (example_connection 1 "10 4d2 other 192.168.7.0/24")
      { example_world with tunnelserver := true }).2.2.node_tree =
        [⟨"me".toList, [example_subnet_a (some "me".toList)], true⟩,
         ⟨"other".toList, [], false⟩, ⟨"peer".toList, [], true⟩] ∧
    example_world.node_tree =
        [⟨"me".toList, [example_subnet_a (some "me".toList)], true⟩,
         ⟨"peer".toList, [], true⟩] := by
  decide

/-- The sibling handler validates first: whenever `del_subnet_h` returns false
the state is untouched. -/
theorem del_subnet_h_false_unchanged (env : subnet_env) (c : connection_t) (w : world_t)
    (h : (del_subnet_h env c w).1 = false) : (del_subnet_h env c w).2.2 = w := by
  revert h
  unfold del_subnet_h
  cases sscanf_d_x_s_s env.MAX_STRING_SIZE c.request with
  | none => intro _; rfl
  | some ns =>
    obtain ⟨name, subnetstr⟩ := ns
    simp only
    by_cases hid : (!check_id name) = true
    · rw [if_pos hid]; intro _; rfl
    · rw [if_neg hid]
      cases lookup_node w name with
      | none => simp
      | some n =>
        simp only
        by_cases hts : w.tunnelserver = true ∧ name ≠ w.myself ∧ c.node ≠ some name
        · rw [if_pos hts]; intro _; rfl
        · rw [if_neg hts]
          cases env.str2net subnetstr with
          | none => intro _; rfl
          | some s =>
            simp only
            by_cases hs : ∃ p ∈ w.past_request_tree, p.request = c.request
            · rw [seen_request_of_mem w _ hs]; simp
            · rw [seen_request_of_not_mem w _ hs]
              simp only
              split
              · simp
              · split_ifs <;> simp

/-- With tunnel-server mode off, `add_subnet_h` returns false only from its
validation, before any state is touched. -/
theorem add_subnet_h_false_unchanged (env : subnet_env) (c : connection_t) (w : world_t)
    (hts : w.tunnelserver = false) (h : (add_subnet_h env c w).1 = false) :
    (add_subnet_h env c w).2.2 = w := by
  revert h
  unfold add_subnet_h
  cases sscanf_d_x_s_s env.MAX_STRING_SIZE c.request with
  | none => intro _; rfl
  | some ns =>
    obtain ⟨name, subnetstr⟩ := ns
    simp only
    by_cases hid : (!check_id name) = true
    · rw [if_pos hid]; intro _; rfl
    · rw [if_neg hid]
      cases env.str2net subnetstr with
      | none => intro _; rfl
      | some s =>
        simp only
        by_cases hs : ∃ p ∈ w.past_request_tree, p.request = c.request
        · rw [seen_request_of_mem w _ hs]; simp
        · rw [seen_request_of_not_mem w _ hs]
          simp only
          intro h
          exfalso
          revert h
          split_ifs <;> simp [node_add, subnet_add, subnet_update, hts] at *

/-! ### The meta reader -/

set_option maxRecDepth 100000 in
/-- C2 at the failing input: a peer sends `17 -3000` and then one more byte.
The first `receive_meta` returns true with `tcplen = -3000`; the second one
takes the negative length for a complete packet, raises `buflen` to 3001,
above `MAXBUFSIZE = 2176`, and its `memmove` copies from 3000 bytes before the
buffer (the `Z`) and writes index 3000, beyond the end of the buffer. -/
theorem receive_meta_negative_tcplen :
    ∃ c1 c2 : connection_t,
      receive_meta example_meta_env 8 (.data "17 -3000\n".toList) example_idle_connection 0 =
        .returned true c1 0 ∧
      c1.buflen = 0 ∧ c1.tcplen = -3000 ∧
      receive_meta example_meta_env 8 (.data "x".toList) c1 0 = .returned false c2 1 ∧
      c2.buflen = 3001 ∧ example_meta_env.MAXBUFSIZE = 2176 ∧
      c2.buffer 0 = Char.ofNat 90 ∧ c2.buffer 3000 = Char.ofNat 120 := by
  refine ⟨_, _, rfl, rfl, rfl, rfl, rfl, rfl, ?_, ?_⟩
  · decide
  · decide

/-! ### The graph engine -/

theorem sssp_bfs_target_fields (g : graph_t) (s : graph_state_t) (n : List Char) (e : edge_t)
    (indirect : Bool) :
    (sssp_bfs_target g s n e indirect).visited = true ∧
    (sssp_bfs_target g s n e indirect).indirect = indirect ∧
    (sssp_bfs_target g s n e indirect).nexthop =
      (if (s.node n).nexthop = g.myself then e.to_ else (s.node n).nexthop) ∧
    (sssp_bfs_target g s n e indirect).via = (if indirect then (s.node n).via else e.to_) ∧
    (sssp_bfs_target g s n e indirect).reachable = (s.node e.to_).reachable := by
  unfold sssp_bfs_target
  dsimp only
  split_ifs <;> exact ⟨rfl, rfl, rfl, rfl, rfl⟩

/-- What one round of the inner loop of `sssp_bfs` does: either it leaves the
state alone (and then the edge has no reverse or its far end is visited), or
it rewrites the record of the far end and puts the far end on the list. -/
theorem sssp_bfs_edge_cases (g : graph_t) (n : List Char) (s : graph_state_t)
    (todo : List (List Char)) (e : edge_t) :
    (sssp_bfs_edge g n (s, todo) e = (s, todo) ∧
      (e.reverse.isSome = true → (s.node e.to_).visited = true)) ∨
    (e.reverse.isSome = true ∧ ∃ st : node_status_t,
      (sssp_bfs_edge g n (s, todo) e).2 = todo ++ [e.to_] ∧
      (sssp_bfs_edge g n (s, todo) e).1.node = (fun x => if x = e.to_ then st else s.node x) ∧
      st.visited = true ∧
      st.nexthop = (if (s.node n).nexthop = g.myself then e.to_ else (s.node n).nexthop) ∧
      ((s.node e.to_).visited = false ∨
        ((s.node e.to_).indirect = true ∧ st.indirect = false))) := by
  unfold sssp_bfs_edge
  cases hr : e.reverse with
  | none => left; simp
  | some reverse =>
    simp only [Option.isSome_some, true_implies, true_and]
    by_cases h1 : ((s.node e.to_).visited && (!(s.node e.to_).indirect ||
        sssp_bfs_indirect g s n e reverse)) = true
    · left
      rw [if_pos h1]
      refine ⟨rfl, ?_⟩
      simp only [Bool.and_eq_true] at h1
      exact h1.1
    · right
      rw [if_neg h1]
      have hf := sssp_bfs_target_fields g s n e (sssp_bfs_indirect g s n e reverse)
      refine ⟨sssp_bfs_target g s n e (sssp_bfs_indirect g s n e reverse), rfl, ?_,
        hf.1, hf.2.2.1, ?_⟩
      · split_ifs <;> rfl
      · cases hv : (s.node e.to_).visited with
        | false => left; rfl
        | true =>
          right
          rw [hv] at h1
          cases hi : (s.node e.to_).indirect with
          | false => rw [hi] at h1; simp at h1
          | true =>
            refine ⟨rfl, ?_⟩
            rw [hi] at h1
            simp only [Bool.true_and, Bool.not_true, Bool.false_or, Bool.not_eq_true] at h1
            rw [hf.2.1]; exact h1

theorem sssp_rank_lt (old new : node_status_t) (hv : new.visited = true)
    (hold : old.visited = false ∨ (old.indirect = true ∧ new.indirect = false)) :
    sssp_rank new + 1 ≤ sssp_rank old := by
  unfold sssp_rank
  rcases hold with h | ⟨h1, h2⟩
  · rw [hv, h]; cases new.indirect <;> simp
  · rw [hv, h2, h1]; cases old.visited <;> simp

theorem sssp_rank_sum_le (l : List (List Char)) (s s1 : graph_state_t)
    (h : ∀ x, sssp_rank (s1.node x) ≤ sssp_rank (s.node x)) :
    (l.map (fun x => sssp_rank (s1.node x))).sum ≤ (l.map (fun x => sssp_rank (s.node x))).sum := by
  induction l with
  | nil => simp
  | cons a l ih =>
    simp only [List.map_cons, List.sum_cons]
    have := h a
    omega

theorem sssp_rank_sum_lt (l : List (List Char)) (s s1 : graph_state_t) (y : List Char)
    (hy : y ∈ l) (h : ∀ x, sssp_rank (s1.node x) ≤ sssp_rank (s.node x))
    (hlt : sssp_rank (s1.node y) + 1 ≤ sssp_rank (s.node y)) :
    (l.map (fun x => sssp_rank (s1.node x))).sum + 1 ≤
      (l.map (fun x => sssp_rank (s.node x))).sum := by
  induction l with
  | nil => simp at hy
  | cons a l ih =>
    simp only [List.map_cons, List.sum_cons]
    have hle := sssp_rank_sum_le l s s1 h
    rcases List.mem_cons.1 hy with rfl | hy1
    · omega
    · have := ih hy1
      have := h a
      omega

theorem sssp_bfs_edge_inv (g : graph_t) (hg : g.closed) (n : List Char) (s : graph_state_t)
    (todo : List (List Char)) (e : edge_t) (he : e ∈ g.edge_tree n)
    (h : sssp_inv g s todo [n]) :
    sssp_inv g (sssp_bfs_edge g n (s, todo) e).1 (sssp_bfs_edge g n (s, todo) e).2 [n] ∧
    (∀ x, (s.node x).visited = true → ((sssp_bfs_edge g n (s, todo) e).1.node x).visited = true) ∧
    (e.reverse.isSome = true → ((sssp_bfs_edge g n (s, todo) e).1.node e.to_).visited = true) ∧
    (sssp_bfs_edge g n (s, todo) e).2.length + sssp_potential g (sssp_bfs_edge g n (s, todo) e).1
      ≤ todo.length + sssp_potential g s := by
  have hn : n ∈ g.node_tree ∧ (s.node n).visited = true := h.todo_mem n (by simp)
  rcases sssp_bfs_edge_cases g n s todo e with ⟨heq, hvis⟩ | ⟨hrev, st, htodo, hnode, hstv, hsth, hold⟩
  · rw [heq]
    exact ⟨h, fun x hx => hx, hvis, le_refl _⟩
  · have hto : e.to_ ∈ g.node_tree := hg.2 n hn.1 e he
    have hedge : confirmed_edge g n e.to_ := ⟨e, he, rfl, hrev⟩
    -- the far end is not `myself`
    have hne : e.to_ ≠ g.myself := by
      intro hm
      rw [hm] at hold
      rcases hold with h1 | ⟨h1, _⟩
      · rw [h.self.1] at h1; cases h1
      · rw [h.self.2.1] at h1; cases h1
    have hmono : ∀ x, (s.node x).visited = true →
        ((sssp_bfs_edge g n (s, todo) e).1.node x).visited = true := by
      intro x hx
      rw [hnode]
      by_cases hxe : x = e.to_
      · simp only [if_pos hxe]; exact hstv
      · simp only [if_neg hxe]; exact hx
    have hvis_iff : ∀ x, ((sssp_bfs_edge g n (s, todo) e).1.node x).visited = true →
        x = e.to_ ∨ (x ≠ e.to_ ∧ (s.node x).visited = true) := by
      intro x hx
      rw [hnode] at hx
      by_cases hxe : x = e.to_
      · exact Or.inl hxe
      · simp only [if_neg hxe] at hx; exact Or.inr ⟨hxe, hx⟩
    refine ⟨?_, hmono, fun _ => ?_, ?_⟩
    · constructor
      · intro x hx
        rw [htodo] at hx
        simp only [List.append_assoc, List.mem_append, List.mem_singleton] at hx
        rcases hx with hx | hx | hx
        · have := h.todo_mem x (by simp [hx])
          exact ⟨this.1, hmono x this.2⟩
        · rw [hx]; refine ⟨hto, ?_⟩
          rw [hnode]; simp only [if_true]; exact hstv
        · rw [hx]; exact ⟨hn.1, hmono n hn.2⟩
      · intro x hx hv
        rcases hvis_iff x hv with rfl | ⟨_, hv1⟩
        · exact (h.sound n hn.1 hn.2).tail hedge
        · exact h.sound x hx hv1
      · rw [hnode]
        have : ¬ g.myself = e.to_ := fun hm => hne hm.symm
        simp only [if_neg this]
        exact h.self
      · intro x hx hv hxm
        rcases hvis_iff x hv with rfl | ⟨hxe, hv1⟩
        · rw [hnode]
          simp only [if_true]
          rw [hsth]
          by_cases hnm : n = g.myself
          · rw [hnm, h.self.2.2]
            simp only [if_true]
            refine ⟨hne, ?_, Relation.ReflTransGen.refl⟩
            rw [← hnm]; exact hedge
          · have hh := h.hop n hn.1 hn.2 hnm
            simp only [if_neg hh.1]
            exact ⟨hh.1, hh.2.1, hh.2.2.tail hedge⟩
        · rw [hnode]
          simp only [if_neg hxe]
          exact h.hop x hx hv1 hxm
      · intro x hx hv
        rcases hvis_iff x hv with rfl | ⟨hxe, hv1⟩
        · left; rw [htodo]; simp
        · rcases h.closed x hx hv1 with h1 | h1 | h1
          · left; rw [htodo]; simp [h1]
          · right; left; exact h1
          · right; right
            intro e1 he1 hr1
            exact hmono _ (h1 e1 he1 hr1)
    · rw [hnode]; simp only [if_true]; exact hstv
    · rw [htodo]
      simp only [List.length_append, List.length_singleton]
      have hlt : sssp_rank ((sssp_bfs_edge g n (s, todo) e).1.node e.to_) + 1 ≤
          sssp_rank (s.node e.to_) := by
        rw [hnode]
        simp only [if_true]
        exact sssp_rank_lt _ _ hstv hold
      have hrank : ∀ x, sssp_rank ((sssp_bfs_edge g n (s, todo) e).1.node x) ≤
          sssp_rank (s.node x) := by
        intro x
        by_cases hxe : x = e.to_
        · rw [hxe]; omega
        · rw [hnode]; simp only [if_neg hxe]; exact le_refl _
      have := sssp_rank_sum_lt g.node_tree s _ e.to_ hto hrank hlt
      unfold sssp_potential
      omega

theorem sssp_bfs_fold_inv (g : graph_t) (hg : g.closed) (n : List Char) (es : List edge_t)
    (hes : ∀ e ∈ es, e ∈ g.edge_tree n) (st : graph_state_t × List (List Char))
    (h : sssp_inv g st.1 st.2 [n]) :
    sssp_inv g (es.foldl (sssp_bfs_edge g n) st).1 (es.foldl (sssp_bfs_edge g n) st).2 [n] ∧
    (∀ x, (st.1.node x).visited = true →
      ((es.foldl (sssp_bfs_edge g n) st).1.node x).visited = true) ∧
    (∀ e ∈ es, e.reverse.isSome = true →
      ((es.foldl (sssp_bfs_edge g n) st).1.node e.to_).visited = true) ∧
    (es.foldl (sssp_bfs_edge g n) st).2.length +
        sssp_potential g (es.foldl (sssp_bfs_edge g n) st).1
      ≤ st.2.length + sssp_potential g st.1 := by
  induction es generalizing st with
  | nil =>
    simp only [List.foldl_nil]
    exact ⟨h, fun x hx => hx, fun e he => by simp at he, le_refl _⟩
  | cons e es ih =>
    simp only [List.foldl_cons]
    obtain ⟨s, todo⟩ := st
    have hstep := sssp_bfs_edge_inv g hg n s todo e (hes e (List.mem_cons_self _ _)) h
    have hrec := ih (fun e1 he1 => hes e1 (List.mem_cons_of_mem _ he1))
      (sssp_bfs_edge g n (s, todo) e) hstep.1
    refine ⟨hrec.1, fun x hx => hrec.2.1 x (hstep.2.1 x hx), ?_, ?_⟩
    · intro e1 he1 hr1
      rcases List.mem_cons.1 he1 with rfl | he2
      · exact hrec.2.1 _ (hstep.2.2.1 hr1)
      · exact hrec.2.2.1 e1 he2 hr1
    · have h1 := hrec.2.2.2
      have h2 := hstep.2.2.2
      simp only at h1 h2 ⊢
      omega

theorem sssp_bfs_loop_inv (g : graph_t) (hg : g.closed) (fuel : Nat) :
    ∀ (s : graph_state_t) (todo : List (List Char)), sssp_inv g s todo [] →
      todo.length + sssp_potential g s ≤ fuel →
      ∃ s1, sssp_bfs_loop g fuel s todo = some s1 ∧ sssp_inv g s1 [] [] := by
  induction fuel with
  | zero =>
    intro s todo h hfuel
    cases todo with
    | nil => exact ⟨s, by simp [sssp_bfs_loop], h⟩
    | cons n todo => simp at hfuel
  | succ fuel ih =>
    intro s todo h hfuel
    cases todo with
    | nil => exact ⟨s, by simp [sssp_bfs_loop], h⟩
    | cons n todo =>
      have h1 : sssp_inv g s todo [n] := by
        constructor
        · intro x hx
          apply h.todo_mem
          simp only [List.mem_append, List.mem_singleton, List.mem_cons, List.append_nil,
            List.not_mem_nil, or_false] at hx ⊢
          tauto
        · exact h.sound
        · exact h.self
        · exact h.hop
        · intro x hx hv
          rcases h.closed x hx hv with h2 | h2 | h2
          · rcases List.mem_cons.1 h2 with rfl | h3
            · right; left; simp
            · left; exact h3
          · simp at h2
          · right; right; exact h2
      have hfold := sssp_bfs_fold_inv g hg n (g.edge_tree n) (fun e he => he) (s, todo) h1
      unfold sssp_bfs_loop
      cases hr : (g.edge_tree n).foldl (sssp_bfs_edge g n) (s, todo) with
      | mk s1 todo1 =>
        rw [hr] at hfold
        simp only at hfold ⊢
        apply ih s1 todo1
        · constructor
          · intro x hx
            apply hfold.1.todo_mem
            simp only [List.mem_append, List.append_nil] at hx ⊢
            exact Or.inl hx
          · exact hfold.1.sound
          · exact hfold.1.self
          · exact hfold.1.hop
          · intro x hx hv
            rcases hfold.1.closed x hx hv with h2 | h2 | h2
            · left; exact h2
            · right; right
              simp only [List.mem_singleton] at h2
              rw [h2]
              exact hfold.2.2.1
            · right; right; exact h2
        · have := hfold.2.2.2
          simp only [List.length_cons] at hfuel
          omega

theorem sssp_bfs_check_node (g : graph_t) (s : graph_state_t) (n x : List Char) :
    ((sssp_bfs_check g s n).node x).visited = (s.node x).visited ∧
    ((sssp_bfs_check g s n).node x).indirect = (s.node x).indirect ∧
    ((sssp_bfs_check g s n).node x).nexthop = (s.node x).nexthop ∧
    ((sssp_bfs_check g s n).node x).via = (s.node x).via ∧
    (x = n → ((sssp_bfs_check g s n).node x).reachable = (s.node x).visited) ∧
    ((s.node x).reachable = (s.node x).visited →
      ((sssp_bfs_check g s n).node x).reachable = (s.node x).visited) := by
  unfold sssp_bfs_check
  by_cases h : (s.node n).visited ≠ (s.node n).reachable
  · rw [if_pos h]
    by_cases hx : x = n
    · subst hx
      simp only [graph_state_t.set, if_true, true_implies]
      refine ⟨trivial, trivial, trivial, trivial, ?_, fun h2 => absurd h2.symm h⟩
      cases hv : (s.node x).visited <;> cases hr : (s.node x).reachable <;> simp_all
    · simp only [graph_state_t.set, if_neg hx]
      exact ⟨trivial, trivial, trivial, trivial, fun h2 => absurd h2 hx, fun h2 => h2⟩
  · rw [if_neg h]
    refine ⟨rfl, rfl, rfl, rfl, fun hx => ?_, fun h2 => h2⟩
    subst hx
    simp only [ne_eq, not_not] at h
    exact h.symm

theorem sssp_bfs_check_fold (g : graph_t) (l : List (List Char)) (s : graph_state_t) :
    (∀ x, ((l.foldl (sssp_bfs_check g) s).node x).visited = (s.node x).visited ∧
      ((l.foldl (sssp_bfs_check g) s).node x).indirect = (s.node x).indirect ∧
      ((l.foldl (sssp_bfs_check g) s).node x).nexthop = (s.node x).nexthop ∧
      ((l.foldl (sssp_bfs_check g) s).node x).via = (s.node x).via ∧
      ((s.node x).reachable = (s.node x).visited →
        ((l.foldl (sssp_bfs_check g) s).node x).reachable = (s.node x).visited)) ∧
    (∀ x ∈ l, ((l.foldl (sssp_bfs_check g) s).node x).reachable = (s.node x).visited) := by
  induction l generalizing s with
  | nil => simp
  | cons n l ih =>
    simp only [List.foldl_cons]
    have hrec := ih (sssp_bfs_check g s n)
    constructor
    · intro x
      have h1 := sssp_bfs_check_node g s n x
      have h2 := hrec.1 x
      refine ⟨h2.1.trans h1.1, h2.2.1.trans h1.2.1, h2.2.2.1.trans h1.2.2.1,
        h2.2.2.2.1.trans h1.2.2.2.1, fun h3 => ?_⟩
      have h4 := h1.2.2.2.2.2 h3
      rw [← h1.1] at h4 ⊢
      exact h2.2.2.2.2 h4
    · intro x hx
      have h1 := sssp_bfs_check_node g s n x
      rcases List.mem_cons.1 hx with rfl | hx1
      · have h4 := h1.2.2.2.2.1 rfl
        rw [← h1.1] at h4 ⊢
        exact (hrec.1 x).2.2.2.2 h4
      · rw [hrec.2 x hx1]; exact h1.1

/-- The result of `sssp_bfs` on a closed registry: it returns, and the
reachable nodes are those at the end of a path of reverse-confirmed edges from
`myself`, each with a next hop that is a neighbour of `myself` leading to it. -/
theorem sssp_bfs_correct (g : graph_t) (s : graph_state_t) (fuel : Nat) (hg : g.closed)
    (hfuel : 2 * g.node_tree.length + 1 ≤ fuel) :
    ∃ s1, sssp_bfs fuel g s = some s1 ∧
      (∀ n ∈ g.node_tree, (s1.node n).reachable = true → confirmed_path g g.myself n) ∧
      (∀ n, confirmed_path g g.myself n → n ∈ g.node_tree ∧ (s1.node n).reachable = true) ∧
      (∀ n ∈ g.node_tree, (s1.node n).reachable = true → n ≠ g.myself →
        (s1.node n).nexthop ≠ g.myself ∧ confirmed_edge g g.myself (s1.node n).nexthop ∧
          confirmed_path g (s1.node n).nexthop n) := by
  unfold sssp_bfs
  simp only
  -- the state at the start of the main loop
  generalize hs0 : (graph_state_t.set _ g.myself _) = s0
  have hs0m : (s0.node g.myself).visited = true ∧ (s0.node g.myself).indirect = false ∧
      (s0.node g.myself).nexthop = g.myself := by
    rw [← hs0]; simp [graph_state_t.set]
  have hs0x : ∀ x ∈ g.node_tree, x ≠ g.myself → (s0.node x).visited = false := by
    intro x hx hxm
    rw [← hs0]; simp [graph_state_t.set, hxm, hx]
  have hinv : sssp_inv g s0 [g.myself] [] := by
    constructor
    · intro x hx
      simp only [List.append_nil, List.mem_singleton] at hx
      rw [hx]; exact ⟨hg.1, hs0m.1⟩
    · intro x hx hv
      by_cases hxm : x = g.myself
      · rw [hxm]; exact Relation.ReflTransGen.refl
      · rw [hs0x x hx hxm] at hv; cases hv
    · exact hs0m
    · intro x hx hv hxm
      rw [hs0x x hx hxm] at hv; cases hv
    · intro x hx hv
      by_cases hxm : x = g.myself
      · left; simp [hxm]
      · rw [hs0x x hx hxm] at hv; cases hv
  have hpot : sssp_potential g s0 ≤ 2 * g.node_tree.length := by
    unfold sssp_potential
    generalize g.node_tree = l
    induction l with
    | nil => simp
    | cons a l ih =>
      simp only [List.map_cons, List.sum_cons, List.length_cons]
      have : sssp_rank (s0.node a) ≤ 2 := by unfold sssp_rank; split_ifs <;> omega
      omega
  obtain ⟨s1, hloop, hfin⟩ := sssp_bfs_loop_inv g hg fuel s0 [g.myself] hinv
    (by simp only [List.length_singleton]; omega)
  rw [hloop]
  refine ⟨_, rfl, ?_, ?_, ?_⟩
  · intro n hn hr
    have hc := sssp_bfs_check_fold g g.node_tree s1
    rw [hc.2 n hn] at hr
    exact hfin.sound n hn hr
  · intro n hp
    have hc := sssp_bfs_check_fold g g.node_tree s1
    have key : n ∈ g.node_tree ∧ (s1.node n).visited = true := by
      induction hp with
      | refl => exact ⟨hg.1, hfin.self.1⟩
      | tail _ hedge ih =>
        obtain ⟨e, he, hto, hr⟩ := hedge
        rcases hfin.closed _ ih.1 ih.2 with h1 | h1 | h1
        · simp at h1
        · simp at h1
        · rw [← hto]
          exact ⟨hg.2 _ ih.1 e he, h1 e he hr⟩
    exact ⟨key.1, by rw [hc.2 n key.1]; exact key.2⟩
  · intro n hn hr hnm
    have hc := sssp_bfs_check_fold g g.node_tree s1
    rw [hc.2 n hn] at hr
    rw [(hc.1 n).2.2.1]
    exact hfin.hop n hn hr hnm

/-- C3: on a registry closed under the edges, `sssp_bfs` returns (its main
loop needs at most `2 * |node_tree| + 1` rounds) and afterwards a registered
node is flagged reachable exactly when a directed path of edges with a set
`reverse` leads from `myself` to it (the empty path for `myself`). -/
theorem sssp_bfs_reachable_iff (g : graph_t) (s : graph_state_t) (fuel : Nat) (hg : g.closed)
    (hfuel : 2 * g.node_tree.length + 1 ≤ fuel) :
    ∃ s1, sssp_bfs fuel g s = some s1 ∧
      ∀ n ∈ g.node_tree, ((s1.node n).reachable = true ↔ confirmed_path g g.myself n) := by
  obtain ⟨s1, h1, h2, h3, -⟩ := sssp_bfs_correct g s fuel hg hfuel
  exact ⟨s1, h1, fun n hn => ⟨h2 n hn, fun hp => (h3 n hp).2⟩⟩

/-- The registry of the example graph is closed under its edges. -/
theorem example_graph_closed : example_graph.closed := by
  unfold graph_t.closed
  decide

/-- The reachability result on the example graph, whose registry is closed. -/
theorem sssp_bfs_reachable_iff_witness :
    example_graph.closed ∧ 2 * example_graph.node_tree.length + 1 ≤ 40 ∧
    ∃ s1, sssp_bfs 40 example_graph example_graph_state = some s1 ∧
      ∀ n ∈ example_graph.node_tree,
        ((s1.node n).reachable = true ↔ confirmed_path example_graph example_graph.myself n) :=
  ⟨example_graph_closed, by decide,
    sssp_bfs_reachable_iff example_graph example_graph_state 40 example_graph_closed
      (by decide)⟩

/-- C4: on a registry closed under the edges, after `sssp_bfs` every reachable
node `n` other than `myself` has a `nexthop` that is the far end of a
reverse-confirmed edge leaving `myself`, and a path of reverse-confirmed edges
leads from `n.nexthop` to `n`. -/
theorem sssp_bfs_nexthop_path (g : graph_t) (s : graph_state_t) (fuel : Nat) (hg : g.closed)
    (hfuel : 2 * g.node_tree.length + 1 ≤ fuel) :
    ∃ s1, sssp_bfs fuel g s = some s1 ∧
      ∀ n ∈ g.node_tree, (s1.node n).reachable = true → n ≠ g.myself →
        confirmed_edge g g.myself (s1.node n).nexthop ∧
          confirmed_path g (s1.node n).nexthop n := by
  obtain ⟨s1, h1, -, -, h4⟩ := sssp_bfs_correct g s fuel hg hfuel
  exact ⟨s1, h1, fun n hn hr hnm => (h4 n hn hr hnm).2⟩

/-- The next-hop result on the example graph, whose registry is closed. -/
theorem sssp_bfs_nexthop_path_witness :
    example_graph.closed ∧ 2 * example_graph.node_tree.length + 1 ≤ 40 ∧
    ∃ s1, sssp_bfs 40 example_graph example_graph_state = some s1 ∧
      ∀ n ∈ example_graph.node_tree, (s1.node n).reachable = true → n ≠ example_graph.myself →
        confirmed_edge example_graph example_graph.myself (s1.node n).nexthop ∧
          confirmed_path example_graph (s1.node n).nexthop n :=
  ⟨example_graph_closed, by decide,
    sssp_bfs_nexthop_path example_graph example_graph_state 40 example_graph_closed
      (by decide)⟩

/-- C5 at the failing input: in the example graph the lightest edge `B - C`
lies on an island without `myself`.  `mst_kruskal` starts at `B`, adds the
edges `B - C` and `C - E`, and leaves the connection 7 to `D` unflagged; yet
the nodes reachable from `myself` are `A` and `D`, joined by the
reverse-confirmed edge `A - D` that was never added. -/
theorem mst_kruskal_leaves_myself_out :
    (mst_kruskal 40 example_graph example_graph_state).map (fun r => (r.2, r.1.mst 7)) =
      some ([example_edge 'B' 'C' 1 none, example_edge 'C' 'E' 100 none], false) ∧
    (sssp_bfs 40 example_graph example_graph_state).map
      (fun s => example_graph.node_tree.filter (fun n => (s.node n).reachable)) =
      some [['A'], ['D']] ∧
    example_graph.myself = ['A'] ∧
    example_edge 'A' 'D' 5 (some 7) ∈ example_graph.edge_tree ['A'] ∧
    (example_edge 'A' 'D' 5 (some 7)).reverse.isSome = true := by
  decide

/-- C6 at the failing input: the edge list of the example graph is sorted by
weight and every edge has its reverse in it with the same weight.  The edges
added by `mst_kruskal` weigh 101 in total, while the subgraph reachable from
`myself` (the nodes `A` and `D`) is spanned by the one edge `A - D` of weight 5. -/
theorem mst_kruskal_heavier_than_spanning_tree :
    List.Pairwise (fun a b : edge_t => a.weight ≤ b.weight) example_graph.edge_weight_tree ∧
    (∀ e ∈ example_graph.edge_weight_tree, ∃ r ∈ example_graph.edge_weight_tree,
      r.from_ = e.to_ ∧ r.to_ = e.from_ ∧ r.weight = e.weight) ∧
    (mst_kruskal 40 example_graph example_graph_state).map
      (fun r => (r.2.map (fun e => e.weight)).sum) = some 101 ∧
    (sssp_bfs 40 example_graph example_graph_state).map
      (fun s => example_graph.node_tree.filter (fun n => (s.node n).reachable)) =
      some [['A'], ['D']] ∧
    example_edge 'A' 'D' 5 (some 7) ∈ example_graph.edge_tree ['A'] ∧
    (example_edge 'A' 'D' 5 (some 7)).to_ = ['D'] ∧
    (example_edge 'A' 'D' 5 (some 7)).weight = 5 := by
  decide

/-! ### The meta writer -/

theorem mem_read_length (b : Int → Char) (s : Int) (n : Nat) : (mem_read b s n).length = n := by
  induction n generalizing s with
  | zero => rfl
  | succ n ih => simp [mem_read, ih]

theorem mem_read_append (b : Int → Char) (s : Int) (m n : Nat) :
    mem_read b s (m + n) = mem_read b s m ++ mem_read b (s + m) n := by
  induction m generalizing s with
  | zero => simp [mem_read]
  | succ m ih =>
    have : m + 1 + n = (m + n) + 1 := by omega
    rw [this]
    simp only [mem_read, List.cons_append, List.cons.injEq, true_and]
    rw [ih]
    congr 2
    push_cast
    ring

theorem mem_read_congr (b b1 : Int → Char) (s : Int) (n : Nat)
    (h : ∀ i, s ≤ i → i < s + n → b i = b1 i) : mem_read b s n = mem_read b1 s n := by
  induction n generalizing s with
  | zero => rfl
  | succ n ih =>
    simp only [mem_read]
    rw [h s (le_refl _) (by push_cast; omega)]
    rw [ih (s + 1) (fun i h1 h2 => h i (by omega) (by push_cast at h2 ⊢; omega))]

theorem mem_read_mem_write (b : Int → Char) (s : Int) (bytes : List Char) :
    mem_read (mem_write b s bytes) s bytes.length = bytes := by
  induction bytes generalizing b s with
  | nil => rfl
  | cons x xs ih =>
    simp only [List.length_cons, mem_read]
    have h0 : mem_write b s (x :: xs) s = x := by
      simp only [mem_write, List.length_cons, le_refl, true_and]
      rw [if_pos (by push_cast; omega)]
      simp
    rw [h0]
    congr 1
    refine Eq.trans ?_ (ih (mem_write b s (x :: xs)) (s + 1))
    apply mem_read_congr
    intro i h1 h2
    simp only [mem_write, List.length_cons]
    rw [if_pos ⟨by omega, by push_cast at h2 ⊢; omega⟩, if_pos ⟨h1, h2⟩]
    have : (i - s).toNat = (i - (s + 1)).toNat + 1 := by omega
    rw [this]
    have h3 : (i - (s + 1)).toNat < xs.length := by omega
    simp [List.getD_cons_succ, List.getD_eq_getElem?_getD, List.getElem?_eq_getElem h3]

theorem mem_read_memmove (b : Int → Char) (shift : Int) (n : Nat) :
    mem_read (memmove b shift n) 0 n = mem_read b shift n := by
  have key : ∀ (k : Nat) (s : Int), 0 ≤ s → s + k ≤ n →
      mem_read (memmove b shift n) s k = mem_read b (shift + s) k := by
    intro k
    induction k with
    | zero => intro s _ _; rfl
    | succ k ih =>
      intro s h0 h1
      simp only [mem_read]
      have : memmove b shift n s = b (shift + s) := by
        simp only [memmove]
        rw [if_pos ⟨h0, by push_cast at h1; omega⟩]
        congr 1; ring
      rw [this, ih (s + 1) (by omega) (by push_cast at h1 ⊢; omega)]
      congr 2; ring
  have := key n 0 (le_refl _) (by omega)
  simpa using this

theorem mem_read_write_behind (b : Int → Char) (s len : Int) (hlen : 0 ≤ len)
    (buffer : List Char) :
    mem_read (mem_write b (s + len) buffer) s (len + buffer.length).toNat =
      mem_read b s len.toNat ++ buffer := by
  have h1 : (len + buffer.length).toNat = len.toNat + buffer.length := by omega
  rw [h1, mem_read_append]
  congr 1
  · apply mem_read_congr
    intro i _ h3
    simp only [mem_write]
    rw [if_neg]
    intro h4
    have : (len.toNat : Int) = len := Int.toNat_of_nonneg hlen
    omega
  · have : s + (len.toNat : Int) = s + len := by rw [Int.toNat_of_nonneg hlen]
    rw [this]
    exact mem_read_mem_write _ _ _

/-- A result inside the range of `int` is the value the machine holds. -/
theorem wrap_int_eq (INT_MAX x : Int) (h1 : 0 ≤ x) (h2 : x ≤ INT_MAX) :
    wrap_int INT_MAX x = x := by
  unfold wrap_int
  rw [if_neg (by omega), if_neg (by omega)]

/-- For the exact result of a sum or a difference of two `int`s, `wrap_int` is
the reduction modulo 2 * (`INT_MAX` + 1) into the range of the type: the
two's-complement value of the result. -/
theorem wrap_int_mod (INT_MAX x : Int) (h1 : -(2 * (INT_MAX + 1)) ≤ x)
    (h2 : x ≤ 2 * INT_MAX + 1) :
    wrap_int INT_MAX x = (x + (INT_MAX + 1)) % (2 * (INT_MAX + 1)) - (INT_MAX + 1) := by
  unfold wrap_int
  by_cases h3 : x > INT_MAX
  · rw [if_pos h3]
    have h4 : x + (INT_MAX + 1) = (x - (2 * INT_MAX + 2) + (INT_MAX + 1)) +
        1 * (2 * (INT_MAX + 1)) := by ring
    rw [h4, Int.add_mul_emod_self, Int.emod_eq_of_lt (by omega) (by omega)]
    omega
  · rw [if_neg h3]
    by_cases h5 : x < -INT_MAX - 1
    · rw [if_pos h5]
      have h4 : x + (INT_MAX + 1) + 1 * (2 * (INT_MAX + 1)) =
          x + (2 * INT_MAX + 2) + (INT_MAX + 1) := by ring
      rw [← Int.add_mul_emod_self, h4, Int.emod_eq_of_lt (by omega) (by omega)]
      omega
    · rw [if_neg h5, Int.emod_eq_of_lt (by omega) (by omega)]
      omega

theorem send_meta_room_fields (env : send_env) (c : connection_t) (length : Int) :
    (send_meta_room env c length).outbuflen = c.outbuflen ∧
    (send_meta_room env c length).encryptout = c.encryptout ∧
    (send_meta_room env c length).id = c.id ∧
    (send_meta_room env c length).active = c.active ∧
    (0 ≤ c.outbuflen → 0 ≤ length → length + c.outbuflen ≤ env.INT_MAX →
      (send_meta_room env c length).outbufsize = max c.outbufsize (length + c.outbuflen)) := by
  unfold send_meta_room
  simp only
  refine ⟨?_, ?_, ?_, ?_, ?_⟩
  · split_ifs <;> rfl
  · split_ifs <;> rfl
  · split_ifs <;> rfl
  · split_ifs <;> rfl
  · intro h1 h2 h3
    have ht : wrap_int env.INT_MAX (length + c.outbuflen) = length + c.outbuflen :=
      wrap_int_eq _ _ (by omega) h3
    split_ifs <;> simp_all <;> omega

/-- The first part of `send_meta` keeps the pending bytes and leaves room for
`length` more bytes behind them, when the end of the pending bytes and
`length` more stay within the range of the type `int`. -/
theorem send_meta_room_pending (env : send_env) (c : connection_t) (length : Int)
    (hok : c.outbuf_ok env) (hlen : 0 ≤ length)
    (hfit : c.outbufstart + c.outbuflen + length ≤ env.INT_MAX) :
    (send_meta_room env c length).pending = c.pending ∧
    0 ≤ (send_meta_room env c length).outbufstart ∧
    (send_meta_room env c length).outbufstart + c.outbuflen + length ≤
      (send_meta_room env c length).outbufsize ∧
    (send_meta_room env c length).outbufstart ≤ c.outbufstart ∧
    (send_meta_room env c length).outbufsize ≤ env.INT_MAX := by
  obtain ⟨h0, h1, h2, h2m⟩ := hok
  have hnat : ((c.outbuflen.toNat : Nat) : Int) = c.outbuflen := Int.toNat_of_nonneg h1
  have hre : mem_read (fun i => if 0 ≤ i ∧ i < c.outbufsize then c.outbuf i else env.xrealloc i)
      c.outbufstart c.outbuflen.toNat = mem_read c.outbuf c.outbufstart c.outbuflen.toNat := by
    apply mem_read_congr
    intro i h3 h4
    rw [if_pos ⟨by omega, by omega⟩]
  have hmv : ∀ b : Int → Char, mem_read (memmove b c.outbufstart c.outbuflen) 0 c.outbuflen.toNat
      = mem_read b c.outbufstart c.outbuflen.toNat := by
    intro b
    have := mem_read_memmove b c.outbufstart c.outbuflen.toNat
    rw [hnat] at this
    exact this
  have ht1 : wrap_int env.INT_MAX (length + c.outbuflen) = length + c.outbuflen :=
    wrap_int_eq _ _ (by omega) (by omega)
  have ht2 : wrap_int env.INT_MAX (length + c.outbuflen + c.outbufstart) =
      length + c.outbuflen + c.outbufstart :=
    wrap_int_eq _ _ (by omega) (by omega)
  unfold connection_t.pending send_meta_room
  simp only
  split_ifs with a1 a2 a3 a4 a5 a6 a7
  all_goals simp only [ht1, ht2] at *
  all_goals refine ⟨?_, ?_, ?_, ?_, ?_⟩
  all_goals first
    | trivial
    | rfl
    | omega
    | exact hre
    | exact hmv _
    | exact (hmv _).trans hre

/-- On a connection that does not encrypt, `send_meta` returns true, appends
the payload to the pending bytes and makes the memory block as large as the
pending bytes need, and no larger, when the end of the pending bytes and the
payload stay within the range of the type `int`. -/
theorem send_meta_plain (env : send_env) (c : connection_t) (buffer : List Char)
    (henc : c.encryptout = false) (hok : c.outbuf_ok env)
    (hfit : c.outbufstart + c.outbuflen + buffer.length ≤ env.INT_MAX) :
    ∃ c1, send_meta env c buffer = some (true, c1) ∧ c1.pending = c.pending ++ buffer ∧
      c1.outbuf_ok env ∧ c1.outbufsize = max c.outbufsize (buffer.length + c.outbuflen) ∧
      c1.encryptout = false ∧ c1.id = c.id ∧ c1.active = c.active ∧
      c1.outbufstart + c1.outbuflen ≤ c.outbufstart + c.outbuflen + buffer.length := by
  have hl0 : (0 : Int) ≤ buffer.length := Int.natCast_nonneg _
  have hf := send_meta_room_fields env c buffer.length
  have hp := send_meta_room_pending env c buffer.length hok hl0 hfit
  obtain ⟨h0, h1, h2, h2m⟩ := hok
  have hsum : wrap_int env.INT_MAX
      ((send_meta_room env c buffer.length).outbuflen + buffer.length) =
      (send_meta_room env c buffer.length).outbuflen + buffer.length := by
    rw [hf.1]
    exact wrap_int_eq _ _ (by omega) (by omega)
  unfold send_meta
  simp only
  rw [hf.2.1, henc, hsum]
  simp only [Bool.false_eq_true, if_false]
  refine ⟨_, rfl, ?_, ?_, hf.2.2.2.2 h1 hl0 (by omega), rfl, hf.2.2.1, hf.2.2.2.1, ?_⟩
  · unfold connection_t.pending
    simp only
    rw [mem_read_write_behind _ _ _ (by rw [hf.1]; exact h1)]
    have := hp.1
    unfold connection_t.pending at this
    rw [this]
  · unfold connection_t.outbuf_ok
    simp only
    rw [hf.1]
    refine ⟨hp.2.1, by omega, by have := hp.2.2.1; omega, hp.2.2.2.2⟩
  · simp only
    rw [hf.1]
    have := hp.2.2.2.1
    omega

/-- What `send_meta` does to a connection whose outbound buffer is sound, when
the end of the pending bytes and the payload stay within the range of a C
`int`: it aborts or fails only when the connection encrypts, it keeps the
identity and the flags, and it appends `send_meta_payload` exactly when it
returns true. -/
theorem send_meta_cases (env : send_env) (c : connection_t) (buffer : List Char)
    (hok : c.outbuf_ok env) (hfit : c.outbufstart + c.outbuflen + buffer.length ≤ env.INT_MAX) :
    (send_meta env c buffer = none → c.encryptout = true) ∧
    ∀ r c1, send_meta env c buffer = some (r, c1) →
      c1.id = c.id ∧ c1.active = c.active ∧ c1.encryptout = c.encryptout ∧
      (r = true → c1.pending = c.pending ++ send_meta_payload env c buffer ∧ c1.outbuf_ok env) ∧
      (r = false → c.encryptout = true ∧ c1.pending = c.pending ∧ c1.outbuf_ok env) := by
  cases henc : c.encryptout with
  | false =>
    obtain ⟨c2, h1, h2, h3, -, h5, h6, h7, -⟩ := send_meta_plain env c buffer henc hok hfit
    rw [h1]
    refine ⟨by simp, ?_⟩
    intro r c1 h
    simp only [Option.some.injEq, Prod.mk.injEq] at h
    obtain ⟨rfl, rfl⟩ := h
    refine ⟨h6, h7, h5, ?_, by simp⟩
    intro _
    refine ⟨?_, h3⟩
    rw [h2]
    unfold send_meta_payload
    rw [henc]
    simp
  | true =>
    have hl0 : (0 : Int) ≤ buffer.length := Int.natCast_nonneg _
    have hf := send_meta_room_fields env c buffer.length
    have hp := send_meta_room_pending env c buffer.length hok hl0 hfit
    obtain ⟨h0, h1, h2, h2m⟩ := hok
    refine ⟨fun _ => rfl, ?_⟩
    intro r c1 h
    unfold send_meta at h
    simp only at h
    rw [hf.2.1, henc] at h
    simp only [if_true] at h
    have hpay : send_meta_payload env c buffer =
        match env.EVP_EncryptUpdate (send_meta_room env c buffer.length) buffer with
        | some out => out
        | none => [] := by
      unfold send_meta_payload; rw [henc]; simp
    cases hc : env.EVP_EncryptUpdate (send_meta_room env c buffer.length) buffer with
    | none =>
      rw [hc] at h
      simp only [Option.some.injEq, Prod.mk.injEq] at h
      obtain ⟨rfl, rfl⟩ := h
      refine ⟨hf.2.2.1, hf.2.2.2.1, hf.2.1.trans henc, by simp, fun _ => ⟨rfl, hp.1, ?_⟩⟩
      unfold connection_t.outbuf_ok
      rw [hf.1]
      exact ⟨hp.2.1, h1, by have := hp.2.2.1; omega, hp.2.2.2.2⟩
    | some out =>
      rw [hc] at h
      simp only at h
      have hrd : mem_read (mem_write (send_meta_room env c buffer.length).outbuf
          ((send_meta_room env c buffer.length).outbufstart +
            (send_meta_room env c buffer.length).outbuflen) out)
          (send_meta_room env c buffer.length).outbufstart
          (send_meta_room env c buffer.length).outbuflen.toNat = c.pending := by
        rw [← hp.1]
        unfold connection_t.pending
        apply mem_read_congr
        intro i _ h4
        simp only [mem_write]
        rw [if_neg]
        intro h5
        have : (((send_meta_room env c buffer.length).outbuflen.toNat : Nat) : Int) =
            (send_meta_room env c buffer.length).outbuflen :=
          Int.toNat_of_nonneg (by rw [hf.1]; exact h1)
        omega
      by_cases hlt : (out.length : Int) < buffer.length
      · rw [if_pos hlt] at h
        simp only [Option.some.injEq, Prod.mk.injEq] at h
        obtain ⟨rfl, rfl⟩ := h
        refine ⟨hf.2.2.1, hf.2.2.2.1, rfl, by simp, fun _ => ⟨rfl, hrd, ?_⟩⟩
        unfold connection_t.outbuf_ok
        simp only
        rw [hf.1]
        exact ⟨hp.2.1, h1, by have := hp.2.2.1; omega, hp.2.2.2.2⟩
      · rw [if_neg hlt] at h
        by_cases hgt : (out.length : Int) > buffer.length
        · rw [if_pos hgt] at h; cases h
        · rw [if_neg hgt] at h
          have hsum : wrap_int env.INT_MAX
              ((send_meta_room env c buffer.length).outbuflen + out.length) =
              (send_meta_room env c buffer.length).outbuflen + out.length := by
            rw [hf.1]
            exact wrap_int_eq _ _ (by omega) (by omega)
          rw [hsum] at h
          simp only [Option.some.injEq, Prod.mk.injEq] at h
          obtain ⟨rfl, rfl⟩ := h
          refine ⟨hf.2.2.1, hf.2.2.2.1, rfl, fun _ => ⟨?_, ?_⟩, by simp⟩
          · rw [hpay, hc]
            unfold connection_t.pending
            simp only
            rw [mem_read_write_behind _ _ _ (by rw [hf.1]; exact h1)]
            have := hp.1
            unfold connection_t.pending at this
            rw [this]
          · unfold connection_t.outbuf_ok
            simp only
            rw [hf.1]
            refine ⟨hp.2.1, by omega, ?_, hp.2.2.2.2⟩
            have := hp.2.2.1
            omega

/-- C13 (as stated) fails: the connection 2 is active, is not the sender and
encrypts its output.  After `broadcast_meta` of the bytes `ab` its outbound
buffer holds the output of the cipher, `XX`, not `ab`; the sender 1 and the
inactive connection 3 are left alone, the plain connection 4 holds `ab`. -/
theorem broadcast_meta_encrypts :
    (broadcast_meta example_send_env
      [example_out_connection 1 true false, example_out_connection 2 true true,
       example_out_connection 3 false false, example_out_connection 4 true false]
      (some 1) ['a', 'b']).map (fun tree => tree.map (fun c => (c.id, c.pending))) =
      some [(1, []), (2, ['X', 'X']), (3, []), (4, ['a', 'b'])] := by
  decide

/-- The identity and the flag `active` of a connection after `send_meta`. -/
theorem send_meta_id (env : send_env) (c : connection_t) (bytes : List Char) (r : Bool)
    (c1 : connection_t) (hs : send_meta env c bytes = some (r, c1)) :
    c1.id = c.id ∧ c1.active = c.active := by
  have hf := send_meta_room_fields env c bytes.length
  unfold send_meta at hs
  simp only at hs
  rw [hf.2.1] at hs
  cases henc : c.encryptout with
  | false =>
    rw [henc] at hs
    simp only [Bool.false_eq_true, if_false, Option.some.injEq, Prod.mk.injEq] at hs
    obtain ⟨-, rfl⟩ := hs
    exact ⟨hf.2.2.1, hf.2.2.2.1⟩
  | true =>
    rw [henc] at hs
    simp only [if_true] at hs
    split at hs
    · simp only [Option.some.injEq, Prod.mk.injEq] at hs
      obtain ⟨-, rfl⟩ := hs
      exact ⟨hf.2.2.1, hf.2.2.2.1⟩
    · split_ifs at hs
      · simp only [Option.some.injEq, Prod.mk.injEq] at hs
        obtain ⟨-, rfl⟩ := hs
        exact ⟨hf.2.2.1, hf.2.2.2.1⟩
      · simp only [Option.some.injEq, Prod.mk.injEq] at hs
        obtain ⟨-, rfl⟩ := hs
        exact ⟨hf.2.2.1, hf.2.2.2.1⟩

/-- C13 (amended): when `broadcast_meta(from, bytes)` returns, every connection
that is active and is not `from` is the result of `send_meta` on it: if its
outbound buffer was sound and the end of its pending bytes and `bytes` more
stay within the range of the type `int`, its pending bytes have grown by `bytes`
when it does not encrypt, by the output of its cipher when it does, and by
nothing when the cipher failed; every other connection (inactive, or `from`
itself) is unchanged. -/
theorem broadcast_meta_frame (env : send_env) (tree : List connection_t) (sender : Option Nat)
    (bytes : List Char) (tree1 : List connection_t)
    (h : broadcast_meta env tree sender bytes = some tree1) :
    List.Forall₂ (fun c c1 : connection_t =>
      if some c.id ≠ sender ∧ c.active = true then
        c1.id = c.id ∧ c1.active = c.active ∧
        ∃ r, send_meta env c bytes = some (r, c1) ∧
          (c.outbuf_ok env → c.outbufstart + c.outbuflen + bytes.length ≤ env.INT_MAX →
            (r = true → c1.pending = c.pending ++ send_meta_payload env c bytes) ∧
            (r = false → c.encryptout = true ∧ c1.pending = c.pending) ∧
            (c.encryptout = false → c1.pending = c.pending ++ bytes))
      else c1 = c) tree tree1 := by
  induction tree generalizing tree1 with
  | nil =>
    simp only [broadcast_meta, Option.some.injEq] at h
    subst h
    exact List.Forall₂.nil
  | cons c tree ih =>
    unfold broadcast_meta at h
    by_cases hq : some c.id ≠ sender ∧ c.active = true
    · rw [if_pos hq] at h
      cases hs : send_meta env c bytes with
      | none => rw [hs] at h; cases h
      | some rc =>
        obtain ⟨r, c1⟩ := rc
        rw [hs] at h
        simp only at h
        cases hb : broadcast_meta env tree sender bytes with
        | none => rw [hb] at h; cases h
        | some tree2 =>
          rw [hb] at h
          simp only [Option.some.injEq] at h
          subst h
          refine List.Forall₂.cons ?_ (ih tree2 hb)
          rw [if_pos hq]
          have hid := send_meta_id env c bytes r c1 hs
          refine ⟨hid.1, hid.2, r, hs, fun hok hfit => ?_⟩
          have h4 := (send_meta_cases env c bytes hok hfit).2 r c1 hs
          refine ⟨fun hr => (h4.2.2.2.1 hr).1, fun hr => ⟨(h4.2.2.2.2 hr).1, (h4.2.2.2.2 hr).2.1⟩,
            fun henc => ?_⟩
          cases r with
          | true =>
            rw [(h4.2.2.2.1 rfl).1]
            unfold send_meta_payload
            rw [henc]; simp
          | false =>
            have := (h4.2.2.2.2 rfl).1
            rw [henc] at this; cases this
    · rw [if_neg hq] at h
      cases hb : broadcast_meta env tree sender bytes with
      | none => rw [hb] at h; cases h
      | some tree2 =>
        rw [hb] at h
        simp only [Option.some.injEq] at h
        subst h
        refine List.Forall₂.cons ?_ (ih tree2 hb)
        rw [if_neg hq]

/-- The amended frame property on the four example connections. -/
theorem broadcast_meta_frame_witness :
    ∃ tree1, broadcast_meta example_send_env
      [example_out_connection 1 true false, example_out_connection 2 true true,
       example_out_connection 3 false false, example_out_connection 4 true false]
      (some 1) ['a', 'b'] = some tree1 ∧
    List.Forall₂ (fun c c1 : connection_t =>
      if some c.id ≠ some 1 ∧ c.active = true then
        c1.id = c.id ∧ c1.active = c.active ∧
        ∃ r, send_meta example_send_env c ['a', 'b'] = some (r, c1) ∧
          (c.outbuf_ok example_send_env →
            c.outbufstart + c.outbuflen + (['a', 'b'] : List Char).length ≤
              example_send_env.INT_MAX →
            (r = true → c1.pending = c.pending ++ send_meta_payload example_send_env c ['a', 'b']) ∧
            (r = false → c.encryptout = true ∧ c1.pending = c.pending) ∧
            (c.encryptout = false → c1.pending = c.pending ++ ['a', 'b']))
      else c1 = c)
      [example_out_connection 1 true false, example_out_connection 2 true true,
       example_out_connection 3 false false, example_out_connection 4 true false] tree1 :=
  ⟨_, rfl, broadcast_meta_frame example_send_env _ (some 1) ['a', 'b'] _ rfl⟩

/-- C14 (as stated) fails: `maxoutbufsize` is 10, the outbound buffer is empty
and the payload has 11 bytes.  `send_meta` returns true, enlarges the memory
block to 11 bytes and keeps all 11 bytes pending. -/
theorem send_meta_exceeds_maxoutbufsize :
    (example_out_connection 1 true false).outbuflen + ("hello world".toList.length : Int) >
      example_send_env.maxoutbufsize ∧
    (send_meta example_send_env (example_out_connection 1 true false) "hello world".toList).map
      (fun r => (r.1, r.2.outbufsize, r.2.pending)) =
      some (true, 11, "hello world".toList) := by
  decide

/-- C14 (amended): `send_meta` does not consult `maxoutbufsize`.  On a
connection that does not encrypt and whose outbound buffer is sound, for a
payload that keeps the end of the pending bytes within the range of the type `int`,
it returns true, appends the payload, and leaves a memory block of
`max outbufsize (length + outbuflen)` bytes: the block grows to whatever the
pending bytes need.  It returns false only on a connection that encrypts. -/
theorem send_meta_grows (env : send_env) (c : connection_t) (buffer : List Char)
    (henc : c.encryptout = false) (hok : c.outbuf_ok env)
    (hfit : c.outbufstart + c.outbuflen + buffer.length ≤ env.INT_MAX) :
    (∀ m, send_meta { env with maxoutbufsize := m } c buffer = send_meta env c buffer) ∧
    (∀ c2 : connection_t, ∀ c3, send_meta env c2 buffer = some (false, c3) →
      c2.encryptout = true) ∧
    ∃ c1, send_meta env c buffer = some (true, c1) ∧ c1.pending = c.pending ++ buffer ∧
      c1.outbufsize = max c.outbufsize (buffer.length + c.outbuflen) := by
  refine ⟨fun m => rfl, ?_, ?_⟩
  · intro c2 c3 h
    cases h2 : c2.encryptout with
    | true => rfl
    | false =>
      unfold send_meta at h
      simp only at h
      rw [(send_meta_room_fields env c2 buffer.length).2.1, h2] at h
      simp at h
  · obtain ⟨c1, h1, h2, -, h4, -⟩ := send_meta_plain env c buffer henc hok hfit
    exact ⟨c1, h1, h2, h4⟩

/-- The growth of the buffer on the example connection, beyond `maxoutbufsize`. -/
theorem send_meta_grows_witness :
    (∀ m, send_meta { example_send_env with maxoutbufsize := m }
      (example_out_connection 1 true false) "hello world".toList =
      send_meta example_send_env (example_out_connection 1 true false) "hello world".toList) ∧
    (∀ c2 : connection_t, ∀ c3,
      send_meta example_send_env c2 "hello world".toList = some (false, c3) →
      c2.encryptout = true) ∧
    ∃ c1, send_meta example_send_env (example_out_connection 1 true false)
        "hello world".toList = some (true, c1) ∧
      c1.pending = (example_out_connection 1 true false).pending ++ "hello world".toList ∧
      c1.outbufsize = max (example_out_connection 1 true false).outbufsize
        (("hello world".toList.length : Int) + (example_out_connection 1 true false).outbuflen) :=
  send_meta_grows example_send_env (example_out_connection 1 true false) "hello world".toList
    rfl (by unfold connection_t.outbuf_ok; decide) (by decide)

/-- What `flush_meta` hands to the socket, followed by what stays pending, is
what was pending before; the outbound buffer stays sound and the end of the
pending bytes does not move up. -/
theorem flush_meta_pending (env : send_env) (answers : List send_t) (c : connection_t)
    (hok : c.outbuf_ok env) :
    (flush_meta env answers c).handed ++ (flush_meta env answers c).c.pending = c.pending ∧
    (flush_meta env answers c).c.outbuf_ok env ∧
    (flush_meta env answers c).c.encryptout = c.encryptout ∧
    (flush_meta env answers c).c.outbufstart + (flush_meta env answers c).c.outbuflen ≤
      c.outbufstart + c.outbuflen := by
  have hempty : ∀ c : connection_t, c.outbuf_ok env → c.outbuflen = 0 →
      ([] : List Char) ++ ({ c with outbufstart := 0 } : connection_t).pending = c.pending ∧
      ({ c with outbufstart := 0 } : connection_t).outbuf_ok env ∧
      ({ c with outbufstart := 0 } : connection_t).encryptout = c.encryptout ∧
      ({ c with outbufstart := 0 } : connection_t).outbufstart +
        ({ c with outbufstart := 0 } : connection_t).outbuflen ≤ c.outbufstart + c.outbuflen := by
    intro c hok h0
    obtain ⟨h1, h2, h3, h4⟩ := hok
    refine ⟨?_, ⟨le_refl _, h2, ?_, h4⟩, rfl, ?_⟩
    · unfold connection_t.pending
      simp only [h0]
      rfl
    · simp only; omega
    · simp only; omega
  induction answers generalizing c with
  | nil =>
    unfold flush_meta
    by_cases h0 : c.outbuflen = 0
    · rw [if_pos h0]; exact hempty c hok h0
    · rw [if_neg h0]; exact ⟨rfl, hok, rfl, le_refl _⟩
  | cons answer rest ih =>
    unfold flush_meta
    by_cases h0 : c.outbuflen = 0
    · rw [if_pos h0]; exact hempty c hok h0
    · rw [if_neg h0]
      cases answer with
      | sent n =>
        simp only
        by_cases hr : min (n : Int) c.outbuflen ≤ 0
        · rw [if_pos hr]; exact ⟨rfl, hok, rfl, le_refl _⟩
        · rw [if_neg hr]
          simp only
          obtain ⟨h1, h2, h3, h4⟩ := hok
          have hle : min (n : Int) c.outbuflen ≤ c.outbuflen := min_le_right _ _
          have ht1 : wrap_int env.INT_MAX (c.outbufstart + min (n : Int) c.outbuflen) =
              c.outbufstart + min (n : Int) c.outbuflen := wrap_int_eq _ _ (by omega) (by omega)
          have ht2 : wrap_int env.INT_MAX (c.outbuflen - min (n : Int) c.outbuflen) =
              c.outbuflen - min (n : Int) c.outbuflen := wrap_int_eq _ _ (by omega) (by omega)
          rw [ht1, ht2]
          have hrec := ih { c with outbufstart := c.outbufstart + min (n : Int) c.outbuflen,
                                   outbuflen := c.outbuflen - min (n : Int) c.outbuflen }
            ⟨by simp only; omega, by simp only; omega, by simp only; omega, h4⟩
          refine ⟨?_, hrec.2.1, hrec.2.2.1, ?_⟩
          · rw [List.append_assoc, hrec.1]
            unfold connection_t.pending
            simp only
            have hsplit : c.outbuflen.toNat = (min (n : Int) c.outbuflen).toNat +
                (c.outbuflen - min (n : Int) c.outbuflen).toNat := by omega
            rw [hsplit, mem_read_append]
            congr 2
            all_goals omega
          · have := hrec.2.2.2
            simp only at this
            omega
      | closed => exact ⟨rfl, hok, rfl, le_refl _⟩
      | eintr => exact ih c hok
      | wouldblock => exact ⟨rfl, hok, rfl, le_refl _⟩
      | error => exact ⟨rfl, hok, rfl, le_refl _⟩

/-- A sequence that starts with a call of `send_meta`. -/
theorem meta_run_send (env : send_env) (payload : List Char) (ops : List meta_op)
    (c : connection_t) (handed : List Char) :
    meta_run env (.send payload :: ops) c handed =
      match send_meta env c payload with
      | none => none
      | some (_, c1) => meta_run env ops c1 handed := rfl

/-- A sequence that starts with a call of `flush_meta`. -/
theorem meta_run_flush (env : send_env) (answers : List send_t) (ops : List meta_op)
    (c : connection_t) (handed : List Char) :
    meta_run env (.flush answers :: ops) c handed =
      meta_run env ops (flush_meta env answers c).c
        (handed ++ (flush_meta env answers c).handed) := rfl

theorem meta_run_invariant (env : send_env) (ops : List meta_op) :
    ∀ (c : connection_t) (handed : List Char), c.encryptout = false → c.outbuf_ok env →
      c.outbufstart + c.outbuflen + (meta_payloads ops).length ≤ env.INT_MAX →
      ∃ c1 handed1, meta_run env ops c handed = some (c1, handed1) ∧
        handed1 ++ c1.pending = handed ++ c.pending ++ meta_payloads ops ∧
        c1.outbuf_ok env ∧ c1.encryptout = false := by
  induction ops with
  | nil =>
    intro c handed henc hok _
    exact ⟨c, handed, rfl, by simp [meta_payloads], hok, henc⟩
  | cons op ops ih =>
    intro c handed henc hok hfit
    cases op with
    | send payload =>
      simp only [meta_payloads, List.length_append, Nat.cast_add] at hfit
      have hl0 : (0 : Int) ≤ (meta_payloads ops).length := Int.natCast_nonneg _
      obtain ⟨c2, h1, h2, h3, -, h5, -, -, h8a⟩ :=
        send_meta_plain env c payload henc hok (by omega)
      obtain ⟨c1, handed1, h6, h7, h8, h9⟩ := ih c2 handed h5 h3 (by omega)
      refine ⟨c1, handed1, ?_, ?_, h8, h9⟩
      · rw [meta_run_send, h1]
        exact h6
      · rw [h7, h2]
        simp only [meta_payloads, List.append_assoc]
    | flush answers =>
      simp only [meta_payloads] at hfit
      have hf := flush_meta_pending env answers c hok
      obtain ⟨c1, handed1, h6, h7, h8, h9⟩ := ih (flush_meta env answers c).c
        (handed ++ (flush_meta env answers c).handed) (hf.2.2.1.trans henc) hf.2.1
        (by have := hf.2.2.2; omega)
      refine ⟨c1, handed1, ?_, ?_, h8, h9⟩
      · rw [meta_run_flush]
        exact h6
      · rw [h7, List.append_assoc handed, hf.1]
        simp only [meta_payloads]

/-- The payloads of the first calls of a sequence are no longer than the
payloads of all of them. -/
theorem meta_payloads_take (ops : List meta_op) (k : Nat) :
    (meta_payloads (ops.take k)).length ≤ (meta_payloads ops).length := by
  induction ops generalizing k with
  | nil => simp
  | cons op ops ih =>
    cases k with
    | zero => simp [meta_payloads]
    | succ k =>
      cases op with
      | send payload =>
        simp only [List.take_succ_cons, meta_payloads, List.length_append]
        have := ih k
        omega
      | flush answers =>
        simp only [List.take_succ_cons, meta_payloads]
        exact ih k

/-- The stream property within the range of the type `int`: for every sequence of
`send_meta` and `flush_meta` calls on a connection that does not encrypt,
started with a sound outbound buffer, such that the end of the pending bytes
and all the payloads together stay within `INT_MAX`, and after every call of
the sequence (every prefix `ops.take k`): the bytes handed to the socket so
far, followed by the pending bytes
`outbuf[outbufstart .. outbufstart + outbuflen)`, are the bytes that were
pending at the start followed by all payloads in call order, and
`outbufstart + outbuflen ≤ outbufsize` holds. -/
theorem meta_run_stream (env : send_env) (ops : List meta_op) (c : connection_t)
    (henc : c.encryptout = false) (hok : c.outbuf_ok env)
    (hfit : c.outbufstart + c.outbuflen + (meta_payloads ops).length ≤ env.INT_MAX) (k : Nat) :
    ∃ c1 handed, meta_run env (ops.take k) c [] = some (c1, handed) ∧
      handed ++ c1.pending = c.pending ++ meta_payloads (ops.take k) ∧
      0 ≤ c1.outbufstart ∧ 0 ≤ c1.outbuflen ∧ c1.outbufstart + c1.outbuflen ≤ c1.outbufsize := by
  have hk := meta_payloads_take ops k
  obtain ⟨c1, handed, h1, h2, h3, -⟩ := meta_run_invariant env (ops.take k) c [] henc hok
    (by omega)
  exact ⟨c1, handed, h1, by simpa using h2, h3.1, h3.2.1, h3.2.2.1⟩

/-- The stream property on a fresh connection: two payloads, a partial flush
interrupted once, a third payload, a flush that would block. -/
theorem meta_run_stream_witness :
    (example_out_connection 1 true false).encryptout = false ∧
    (example_out_connection 1 true false).outbuf_ok example_send_env ∧
    ∃ c1 handed, meta_run example_send_env
        ([.send "8\n".toList, .send "9\n".toList, .flush [.sent 3, .eintr, .wouldblock],
          .send "17 2\n".toList, .flush [.sent 4, .wouldblock]].take 5)
        (example_out_connection 1 true false) [] = some (c1, handed) ∧
      handed ++ c1.pending = (example_out_connection 1 true false).pending ++
        meta_payloads ([.send "8\n".toList, .send "9\n".toList,
          .flush [.sent 3, .eintr, .wouldblock], .send "17 2\n".toList,
          .flush [.sent 4, .wouldblock]].take 5) ∧
      0 ≤ c1.outbufstart ∧ 0 ≤ c1.outbuflen ∧ c1.outbufstart + c1.outbuflen ≤ c1.outbufsize :=
  ⟨rfl, by unfold connection_t.outbuf_ok; decide,
    meta_run_stream example_send_env _ (example_out_connection 1 true false) rfl
      (by unfold connection_t.outbuf_ok; decide) (by decide) 5⟩

/-- C15 fails when the sum of `int`s in `send_meta` overflows.  The
connection does not encrypt, its outbound buffer is sound and holds `INT_MAX`
pending bytes in a block of `INT_MAX` bytes.  `send_meta` of one byte finds
`length + outbuflen` negative, so it neither enlarges the block nor moves the
pending bytes: it writes the byte at offset `INT_MAX`, one past the block, and
leaves `outbuflen` negative.  Nothing was handed to the socket and no byte is
pending any more, so the bytes handed to the socket followed by the pending
bytes are not the bytes that were pending followed by the payload. -/
theorem meta_run_overflow :
    example_full_connection.encryptout = false ∧
    example_full_connection.outbuf_ok example_send_env ∧
    (meta_run example_send_env [.send ['x']] example_full_connection []).map
      (fun r => (r.1.outbufsize, r.1.outbufstart, r.1.outbuflen)) =
      some (2147483647, 0, -2147483648) ∧
    (meta_run example_send_env [.send ['x']] example_full_connection []).map
      (fun r => (r.1.outbuf 2147483647, r.1.pending, r.2)) = some ('x', [], []) ∧
    (meta_run example_send_env [.send ['x']] example_full_connection []).map
      (fun r => r.2 ++ r.1.pending) ≠
      some (example_full_connection.pending ++ meta_payloads [.send ['x']]) := by
  have h1 : (meta_run example_send_env [.send ['x']] example_full_connection []).map
      (fun r => r.2 ++ r.1.pending) = some [] := by
    decide
  refine ⟨rfl, by unfold connection_t.outbuf_ok; decide, by decide, by decide, ?_⟩
  rw [h1]
  intro h2
  have h3 : meta_payloads [meta_op.send ['x']] = [] :=
    (List.append_eq_nil.1 (Option.some.inj h2).symm).2
  exact absurd h3 (by decide)

/-! ### Aging of the past-request cache -/

theorem age_past_requests_loop_filter (pingtimeout now : Int) (rest : List past_request_t) :
    ∀ kept : List past_request_t, (∀ p ∈ kept, ¬ p.firstseen + pingtimeout < now) →
      age_past_requests_loop pingtimeout now rest (kept ++ rest) =
        kept ++ rest.filter (fun p => decide (p.firstseen + pingtimeout ≥ now)) := by
  induction rest with
  | nil => intro kept _; simp [age_past_requests_loop]
  | cons p rest ih =>
    intro kept hkept
    unfold age_past_requests_loop
    by_cases hp : p.firstseen + pingtimeout < now
    · rw [if_pos hp]
      have hnot : p ∉ kept := fun hmem => hkept p hmem hp
      have herase : avl_delete_node (kept ++ p :: rest) p = kept ++ rest := by
        unfold avl_delete_node
        rw [List.erase_append_right _ hnot, List.erase_cons_head]
      rw [herase, ih kept hkept]
      have : decide (p.firstseen + pingtimeout ≥ now) = false := by
        simp only [decide_eq_false_iff_not, ge_iff_le, not_le]; exact hp
      simp only [List.filter_cons, this, Bool.false_eq_true, if_false]
    · rw [if_neg hp]
      have h1 : kept ++ p :: rest = (kept ++ [p]) ++ rest := by simp
      rw [h1, ih (kept ++ [p])]
      · have : decide (p.firstseen + pingtimeout ≥ now) = true := by
          simp only [decide_eq_true_eq, ge_iff_le]; omega
        simp only [List.filter_cons, this, if_true]
        simp
      · intro q hq
        rcases List.mem_append.1 hq with h2 | h2
        · exact hkept q h2
        · simp only [List.mem_singleton] at h2
          rw [h2]; exact hp

/-- C18: after `age_past_requests` the past-request cache holds exactly the
entries it held before with `firstseen + pingtimeout ≥ now`, unaltered and in
their order: every entry with `firstseen + pingtimeout < now` is gone, no other
entry is, and nothing else in the state changes. -/
theorem age_past_requests_filter (pingtimeout : Int) (w : world_t) :
    (age_past_requests pingtimeout w).past_request_tree =
      w.past_request_tree.filter (fun p => decide (p.firstseen + pingtimeout ≥ w.now)) ∧
    (∀ p, p ∈ (age_past_requests pingtimeout w).past_request_tree ↔
      p ∈ w.past_request_tree ∧ p.firstseen + pingtimeout ≥ w.now) ∧
    age_past_requests pingtimeout w =
      { w with past_request_tree := (age_past_requests pingtimeout w).past_request_tree } := by
  have h := age_past_requests_loop_filter pingtimeout w.now w.past_request_tree [] (by simp)
  simp only [List.nil_append] at h
  refine ⟨h, ?_, rfl⟩
  intro p
  have : (age_past_requests pingtimeout w).past_request_tree =
      w.past_request_tree.filter (fun p => decide (p.firstseen + pingtimeout ≥ w.now)) := h
  rw [this]
  simp [List.mem_filter]

/-! ### The subnet handlers in and out of tunnel-server mode -/

theorem mem_avl_insert {α : Type} (compare : α → α → Int) (tree : List α) (a x : α)
    (h : x ∈ avl_insert compare tree a) : x ∈ tree ∨ x = a := by
  induction tree with
  | nil => simp [avl_insert] at h; exact Or.inr h
  | cons y ys ih =>
    simp only [avl_insert] at h
    split_ifs at h with h1 h2
    · rcases List.mem_cons.1 h with h3 | h3
      · exact Or.inr h3
      · exact Or.inl h3
    · exact Or.inl h
    · rcases List.mem_cons.1 h with h3 | h3
      · exact Or.inl (by rw [h3]; exact List.mem_cons_self _ _)
      · rcases ih h3 with h4 | h4
        · exact Or.inl (List.mem_cons_of_mem _ h4)
        · exact Or.inr h4

theorem mem_avl_insert_of_mem {α : Type} (compare : α → α → Int) (tree : List α) (a x : α)
    (h : x ∈ tree) : x ∈ avl_insert compare tree a := by
  induction tree with
  | nil => simp at h
  | cons y ys ih =>
    simp only [avl_insert]
    split_ifs with h1 h2
    · exact List.mem_cons_of_mem _ h
    · exact h
    · rcases List.mem_cons.1 h with h3 | h3
      · rw [h3]; exact List.mem_cons_self _ _
      · exact List.mem_cons_of_mem _ (ih h3)

theorem find_avl_insert_of_not {α : Type} (compare : α → α → Int) (p : α → Bool)
    (tree : List α) (a : α) (ha : p a = false) :
    (avl_insert compare tree a).find? p = tree.find? p := by
  induction tree with
  | nil => simp [avl_insert, ha]
  | cons y ys ih =>
    simp only [avl_insert]
    split_ifs with h1 h2
    · simp [List.find?_cons, ha]
    · rfl
    · simp only [List.find?_cons]
      rw [ih]

theorem find_avl_insert_self {α : Type} (compare : α → α → Int) (p : α → Bool)
    (tree : List α) (a : α) (ha : p a = true) (hnone : ∀ y ∈ tree, p y = false)
    (hcmp : ∀ y ∈ tree, compare a y ≠ 0) :
    (avl_insert compare tree a).find? p = some a := by
  induction tree with
  | nil => simp [avl_insert, ha]
  | cons y ys ih =>
    simp only [avl_insert]
    have hy := hcmp y (List.mem_cons_self _ _)
    split_ifs with h1
    · simp [List.find?_cons, ha]
    · simp only [List.find?_cons]
      rw [hnone y (List.mem_cons_self _ _)]
      exact ih (fun z hz => hnone z (List.mem_cons_of_mem _ hz))
        (fun z hz => hcmp z (List.mem_cons_of_mem _ hz))

theorem lookup_node_eq_find (w : world_t) (x : List Char) :
    lookup_node w x = w.node_tree.find? (fun y => decide (strcmp x y.name = 0)) := rfl

theorem lookup_node_node_add_other (w : world_t) (name x : List Char) (hx : x ≠ name) :
    lookup_node (node_add w name) x = lookup_node w x := by
  rw [lookup_node_eq_find, lookup_node_eq_find]
  unfold node_add
  simp only
  apply find_avl_insert_of_not
  simp only [decide_eq_false_iff_not]
  rw [strcmp_eq_zero_iff]
  exact hx

theorem lookup_node_node_add_self (w : world_t) (name : List Char)
    (h : lookup_node w name = none) :
    lookup_node (node_add w name) name = some ⟨name, [], false⟩ := by
  rw [lookup_node_eq_find] at h ⊢
  unfold node_add
  simp only
  rw [List.find?_eq_none] at h
  apply find_avl_insert_self
  · simp only [decide_eq_true_eq]
    rw [strcmp_eq_zero_iff]
  · intro y hy
    have := h y hy
    simpa using this
  · intro y hy
    have := h y hy
    unfold node_compare
    simpa using this

theorem lookup_node_map (w : world_t) (f : node_t → node_t) (hf : ∀ n, (f n).name = n.name)
    (x : List Char) :
    lookup_node { w with node_tree := w.node_tree.map f } x = (lookup_node w x).map f := by
  rw [lookup_node_eq_find, lookup_node_eq_find]
  simp only
  rw [List.find?_map]
  congr 1
  apply congrArg (fun p => List.find? p w.node_tree)
  funext n
  simp [hf n]

theorem lookup_node_name (w : world_t) (x : List Char) (n : node_t)
    (h : lookup_node w x = some n) : n.name = x := by
  rw [lookup_node_eq_find] at h
  have := List.find?_some h
  simp only [decide_eq_true_eq] at this
  exact ((strcmp_eq_zero_iff _ _).1 this).symm

/-- C11: in tunnel-server mode, an ADD_SUBNET that is not in the past-request
cache and whose owner is neither `myself` nor the node of the connection makes
`add_subnet_h` return false with the subnet index and the subnet set of every
node unchanged (the registry can only gain the owner as a node without
subnets); and a DEL_SUBNET whose owner is a registered node other than `myself`
and the node of the connection makes `del_subnet_h` return false with the whole
state unchanged. -/
theorem tunnelserver_rejects (env : subnet_env) (w : world_t) (ca cd : connection_t)
    (owner_a str_a owner_d str_d : List Char)
    (hts : w.tunnelserver = true)
    (hparse_a : sscanf_d_x_s_s env.MAX_STRING_SIZE ca.request = some (owner_a, str_a))
    (hnew : ¬ ∃ p ∈ w.past_request_tree, p.request = ca.request)
    (hme_a : owner_a ≠ w.myself) (hnode_a : ca.node ≠ some owner_a)
    (hparse_d : sscanf_d_x_s_s env.MAX_STRING_SIZE cd.request = some (owner_d, str_d))
    (hknown : (lookup_node w owner_d).isSome = true)
    (hme_d : owner_d ≠ w.myself) (hnode_d : cd.node ≠ some owner_d) :
    ((add_subnet_h env ca w).1 = false ∧
      (add_subnet_h env ca w).2.2.subnet_tree = w.subnet_tree ∧
      (∀ n ∈ (add_subnet_h env ca w).2.2.node_tree, n ∈ w.node_tree ∨ n = ⟨owner_a, [], false⟩) ∧
      (∀ n ∈ w.node_tree, n ∈ (add_subnet_h env ca w).2.2.node_tree)) ∧
    ((del_subnet_h env cd w).1 = false ∧ (del_subnet_h env cd w).2.2 = w) := by
  constructor
  · unfold add_subnet_h
    simp only [hparse_a]
    by_cases hid : (!check_id owner_a) = true
    · rw [if_pos hid]
      exact ⟨rfl, rfl, fun n hn => Or.inl hn, fun n hn => hn⟩
    · rw [if_neg hid]
      cases hn : env.str2net str_a with
      | none => exact ⟨rfl, rfl, fun n hn => Or.inl hn, fun n hn => hn⟩
      | some s =>
        simp only [seen_request_of_not_mem w _ hnew]
        by_cases hl : (lookup_node { w with past_request_tree :=
            (avl_insert past_request_compare w.past_request_tree ⟨ca.request, w.now⟩) }
            owner_a).isNone = true
        · rw [if_pos hl]
          have hcond : (node_add { w with past_request_tree :=
              (avl_insert past_request_compare w.past_request_tree ⟨ca.request, w.now⟩) }
              owner_a).tunnelserver = true ∧
              owner_a ≠ (node_add { w with past_request_tree :=
                (avl_insert past_request_compare w.past_request_tree ⟨ca.request, w.now⟩) }
                owner_a).myself ∧ ca.node ≠ some owner_a := ⟨hts, hme_a, hnode_a⟩
          rw [if_pos hcond]
          refine ⟨rfl, rfl, ?_, ?_⟩
          · intro n hn
            exact mem_avl_insert _ _ _ _ hn
          · intro n hn
            exact mem_avl_insert_of_mem _ _ _ _ hn
        · rw [if_neg hl]
          have hcond : ({ w with past_request_tree :=
              (avl_insert past_request_compare w.past_request_tree ⟨ca.request, w.now⟩) }
              : world_t).tunnelserver = true ∧
              owner_a ≠ ({ w with past_request_tree :=
                (avl_insert past_request_compare w.past_request_tree ⟨ca.request, w.now⟩) }
                : world_t).myself ∧ ca.node ≠ some owner_a := ⟨hts, hme_a, hnode_a⟩
          rw [if_pos hcond]
          exact ⟨rfl, rfl, fun n hn => Or.inl hn, fun n hn => hn⟩
  · unfold del_subnet_h
    simp only [hparse_d]
    by_cases hid : (!check_id owner_d) = true
    · rw [if_pos hid]; exact ⟨rfl, rfl⟩
    · rw [if_neg hid]
      cases hl : lookup_node w owner_d with
      | none => rw [hl] at hknown; simp at hknown
      | some n =>
        simp only
        rw [if_pos ⟨hts, hme_d, hnode_d⟩]
        exact ⟨rfl, rfl⟩

/-- The rejections on the example state in tunnel-server mode: the peer
announces `10.0.0.0/24` for `other` and withdraws the subnet that `other` owns. -/
theorem tunnelserver_rejects_witness :
    ((add_subnet_h example_env (example_connection 1 "10 4d2 other 10.0.0.0/24")
        example_world_tunnelserver).1 = false ∧
      (add_subnet_h example_env (example_connection 1 "10 4d2 other 10.0.0.0/24")
        example_world_tunnelserver).2.2.subnet_tree = example_world_tunnelserver.subnet_tree ∧
      (∀ n ∈ (add_subnet_h example_env (example_connection 1 "10 4d2 other 10.0.0.0/24")
          example_world_tunnelserver).2.2.node_tree,
        n ∈ example_world_tunnelserver.node_tree ∨ n = ⟨"other".toList, [], false⟩) ∧
      (∀ n ∈ example_world_tunnelserver.node_tree,
        n ∈ (add_subnet_h example_env (example_connection 1 "10 4d2 other 10.0.0.0/24")
          example_world_tunnelserver).2.2.node_tree)) ∧
    ((del_subnet_h example_env (example_connection 1 "11 4d3 other 192.168.7.0/24")
        example_world_tunnelserver).1 = false ∧
      (del_subnet_h example_env (example_connection 1 "11 4d3 other 192.168.7.0/24")
        example_world_tunnelserver).2.2 = example_world_tunnelserver) :=
  tunnelserver_rejects example_env example_world_tunnelserver
    (example_connection 1 "10 4d2 other 10.0.0.0/24")
    (example_connection 1 "11 4d3 other 192.168.7.0/24")
    "other".toList "10.0.0.0/24".toList "other".toList "192.168.7.0/24".toList
    (by decide) (by decide) (by decide) (by decide) (by decide) (by decide) (by decide)
    (by decide) (by decide)

/-- The recipients of `broadcast_meta`: every connection that is active and is
not the sender is the result of `send_meta` on it, every other connection is
unchanged. -/
theorem broadcast_meta_calls (env : send_env) (tree : List connection_t) (sender : Option Nat)
    (bytes : List Char) (tree1 : List connection_t)
    (h : broadcast_meta env tree sender bytes = some tree1) :
    List.Forall₂ (fun c c1 : connection_t =>
      if some c.id ≠ sender ∧ c.active = true then
        ∃ r, send_meta env c bytes = some (r, c1)
      else c1 = c) tree tree1 := by
  induction tree generalizing tree1 with
  | nil =>
    simp only [broadcast_meta, Option.some.injEq] at h
    subst h
    exact List.Forall₂.nil
  | cons c tree ih =>
    unfold broadcast_meta at h
    by_cases hq : some c.id ≠ sender ∧ c.active = true
    · rw [if_pos hq] at h
      cases hs : send_meta env c bytes with
      | none => rw [hs] at h; cases h
      | some rc =>
        obtain ⟨r, c1⟩ := rc
        rw [hs] at h
        simp only at h
        cases hb : broadcast_meta env tree sender bytes with
        | none => rw [hb] at h; cases h
        | some tree2 =>
          rw [hb] at h
          simp only [Option.some.injEq] at h
          subst h
          refine List.Forall₂.cons ?_ (ih tree2 hb)
          rw [if_pos hq]
          exact ⟨r, hs⟩
    · rw [if_neg hq] at h
      cases hb : broadcast_meta env tree sender bytes with
      | none => rw [hb] at h; cases h
      | some tree2 =>
        rw [hb] at h
        simp only [Option.some.injEq] at h
        subst h
        refine List.Forall₂.cons ?_ (ih tree2 hb)
        rw [if_neg hq]

theorem mem_read_write_last (b : Int → Char) (n : Int) (hn : 1 ≤ n) (x : Char) :
    mem_read (mem_write b (n - 1) [x]) 0 n.toNat = mem_read b 0 (n - 1).toNat ++ [x] := by
  have h := mem_read_write_behind b 0 (n - 1) (by omega) [x]
  simp only [zero_add, List.length_singleton, Nat.cast_one] at h
  have h2 : n - 1 + 1 = n := by ring
  rw [h2] at h
  exact h

/-- C12: with tunnel-server mode off, a well-formed ADD_SUBNET that is not in
the past-request cache, names an owner other than `myself` and a subnet the
owner does not have, makes `add_subnet_h` return true; the owner is registered
afterwards and its subnet set is the old one (empty for a new node) plus that
subnet, the set of no other node changes; and the last thing the handler does
is to pass the received bytes, with the newline back in the place of the
terminator, to `broadcast_meta` with the connection as sender, which hands them
to `send_meta` on every active connection other than that one and on no other. -/
theorem add_subnet_h_accepts (env : subnet_env) (c : connection_t) (w : world_t)
    (name subnetstr : List Char) (s : subnet_t)
    (hts : w.tunnelserver = false)
    (hparse : sscanf_d_x_s_s env.MAX_STRING_SIZE c.request = some (name, subnetstr))
    (hid : check_id name = true)
    (hnet : env.str2net subnetstr = some s)
    (hnew : ¬ ∃ p ∈ w.past_request_tree, p.request = c.request)
    (hme : name ≠ w.myself)
    (hunknown : lookup_subnet env w name s = none)
    (hcmp : ∀ y, env.subnet_compare { s with owner := some name } y = 0 →
      env.subnet_compare s y = 0)
    (hreq : 1 ≤ c.reqlen) :
    (add_subnet_h env c w).1 = true ∧
    (∃ n1, lookup_node (add_subnet_h env c w).2.2 name = some n1 ∧
      n1.subnet_tree.Perm ({ s with owner := some name } ::
        (match lookup_node w name with
          | some n => n.subnet_tree
          | none => []))) ∧
    (∀ x, x ≠ name → lookup_node (add_subnet_h env c w).2.2 x = lookup_node w x) ∧
    (∃ scripts, (add_subnet_h env c w).2.2.effects = w.effects ++ scripts ++
        [.broadcast_meta (some c.id)
          (mem_read c.buffer 0 (c.reqlen - 1).toNat ++ [Char.ofNat 10])] ∧
      ∀ e ∈ scripts, e = .subnet_update name (some { s with owner := some name }) true) ∧
    (∀ (senv : send_env) (tree tree1 : List connection_t),
      broadcast_meta senv tree (some c.id)
        (mem_read c.buffer 0 (c.reqlen - 1).toNat ++ [Char.ofNat 10]) = some tree1 →
      List.Forall₂ (fun x x1 : connection_t =>
        if some x.id ≠ some c.id ∧ x.active = true then
          ∃ r, send_meta senv x
            (mem_read c.buffer 0 (c.reqlen - 1).toNat ++ [Char.ofNat 10]) = some (r, x1)
        else x1 = x) tree tree1) := by
  -- the state after the request has entered the cache, and after the owner is registered
  obtain ⟨w0, hw0⟩ : ∃ w0 : world_t, w0 = { w with past_request_tree :=
    (avl_insert past_request_compare w.past_request_tree ⟨c.request, w.now⟩) } := ⟨_, rfl⟩
  obtain ⟨w1, hw1⟩ : ∃ w1 : world_t,
    w1 = if (lookup_node w0 name).isNone then node_add w0 name else w0 := ⟨_, rfl⟩
  have hl0 : ∀ x, lookup_node w0 x = lookup_node w x := by intro x; rw [hw0]; rfl
  have hts1 : w1.tunnelserver = false := by
    rw [hw1]; split_ifs <;> (rw [hw0]; exact hts)
  have hmy1 : w1.myself = w.myself := by
    rw [hw1]; split_ifs <;> (subst hw0; rfl)
  have heff1 : w1.effects = w.effects := by
    rw [hw1]; split_ifs <;> (subst hw0; rfl)
  -- the owner in the registry before the subnet is added
  have hown : ∃ n0, lookup_node w1 name = some n0 ∧ n0.name = name ∧
      n0.subnet_tree = (match lookup_node w name with
        | some n => n.subnet_tree
        | none => []) ∧
      avl_search env.subnet_compare n0.subnet_tree s = none := by
    cases hl : lookup_node w name with
    | none =>
      have h1 : (lookup_node w0 name).isNone = true := by rw [hl0, hl]; rfl
      rw [hw1, if_pos h1]
      refine ⟨⟨name, [], false⟩, lookup_node_node_add_self w0 name (by rw [hl0, hl]), rfl, rfl, rfl⟩
    | some n =>
      have h1 : ¬ (lookup_node w0 name).isNone = true := by rw [hl0, hl]; simp
      rw [hw1, if_neg h1, hl0, hl]
      refine ⟨n, rfl, lookup_node_name w name n hl, rfl, ?_⟩
      unfold lookup_subnet at hunknown
      rw [hl] at hunknown
      exact hunknown
  have hoth : ∀ x, x ≠ name → lookup_node w1 x = lookup_node w x := by
    intro x hx
    rw [hw1]
    split_ifs
    · rw [lookup_node_node_add_other w0 name x hx, hl0]
    · exact hl0 x
  obtain ⟨n0, hn0, hn0name, hn0tree, hn0none⟩ := hown
  have hsub1 : lookup_subnet env w1 name s = none := by
    unfold lookup_subnet
    rw [hn0]
    exact hn0none
  -- the state after the subnet is added
  obtain ⟨w2, hw2⟩ : ∃ w2 : world_t, w2 = subnet_add env w1 name s := ⟨_, rfl⟩
  have hl2 : ∀ x, lookup_node w2 x = (lookup_node w1 x).map (fun n =>
      if n.name = name then
        { n with subnet_tree :=
            avl_insert env.subnet_compare n.subnet_tree { s with owner := some name } }
      else n) := by
    intro x
    rw [hw2]
    unfold subnet_add
    exact lookup_node_map _ _ (fun n => by split_ifs <;> rfl) x
  obtain ⟨w3, hw3⟩ : ∃ w3 : world_t, w3 = if node_reachable w2 name then
      subnet_update w2 name (some { s with owner := some name }) true else w2 := ⟨_, rfl⟩
  have hl3 : ∀ x, lookup_node w3 x = lookup_node w2 x := by
    intro x; rw [hw3]; split_ifs <;> rfl
  have hts3 : w3.tunnelserver = false := by
    rw [hw3]; split_ifs <;> (try unfold subnet_update) <;> (rw [hw2]; exact hts1)
  have key : add_subnet_h env c w = (true, (forward_request c w3).1, (forward_request c w3).2) := by
    unfold add_subnet_h
    simp only [hparse, hid, hnet, seen_request_of_not_mem w _ hnew, Bool.not_true,
      Bool.false_eq_true, if_false]
    rw [← hw0, ← hw1]
    have hc1 : ¬ (w1.tunnelserver = true ∧ name ≠ w1.myself ∧ c.node ≠ some name) := by
      rw [hts1]; simp
    have hc2 : ¬ (lookup_subnet env w1 name s).isSome = true := by rw [hsub1]; simp
    have hc3 : ¬ name = w1.myself := by rw [hmy1]; exact hme
    have hc4 : ¬ (w1.tunnelserver = true ∧ ¬ config_allows env s c.config_tree = true) := by
      rw [hts1]; simp
    rw [if_neg hc1, if_neg hc2, if_neg hc3, if_neg hc4]
    rw [← hw2, ← hw3]
    have hc5 : (!w3.tunnelserver) = true := by rw [hts3]; rfl
    rw [if_pos hc5]
  rw [key]
  refine ⟨rfl, ?_, ?_, ?_, ?_⟩
  · have hfw : lookup_node (forward_request c w3).2 name = lookup_node w3 name := rfl
    simp only
    rw [hfw, hl3, hl2, hn0]
    simp only [Option.map_some', hn0name, if_true]
    refine ⟨_, rfl, ?_⟩
    simp only
    rw [← hn0tree]
    apply avl_insert_perm
    intro y hy h0
    rw [avl_search_none_iff] at hn0none
    exact hn0none y hy (hcmp y h0)
  · intro x hx
    have hfw : lookup_node (forward_request c w3).2 x = lookup_node w3 x := rfl
    simp only
    rw [hfw, hl3, hl2, hoth x hx]
    cases hlx : lookup_node w x with
    | none => rfl
    | some n =>
      simp only [Option.map_some']
      have hnx := lookup_node_name w x n hlx
      rw [if_neg (by rw [hnx]; exact hx)]
  · have hfw : (forward_request c w3).2.effects = w3.effects ++
        [.broadcast_meta (some c.id)
          (mem_read (mem_write c.buffer (c.reqlen - 1) [Char.ofNat 10]) 0 c.reqlen.toNat)] := rfl
    simp only
    rw [hfw, mem_read_write_last c.buffer c.reqlen hreq]
    have heff2 : w2.effects = w.effects := by rw [hw2]; unfold subnet_add; exact heff1
    by_cases hr : node_reachable w2 name = true
    · refine ⟨[.subnet_update name (some { s with owner := some name }) true], ?_, ?_⟩
      · rw [hw3, if_pos hr]
        unfold subnet_update
        simp only
        rw [heff2]
      · intro e he
        simpa using he
    · refine ⟨[], ?_, by simp⟩
      rw [hw3, if_neg hr, heff2]
      simp
  · intro senv tree tree1 hb
    exact broadcast_meta_calls senv tree (some c.id) _ tree1 hb

/-- The example comparator sees a subnet without owner as equal to whatever
the same subnet with an owner is equal to. -/
theorem example_env_compare_owner (s : subnet_t) (name : List Char) (y : subnet_t)
    (hs : s.owner = none)
    (h : example_env.subnet_compare { s with owner := some name } y = 0) :
    example_env.subnet_compare s y = 0 := by
  simp only [example_env] at h ⊢
  by_cases h1 : s.address ≠ y.address
  · rw [if_pos h1] at h
    split_ifs at h
    omega
  · rw [if_neg h1] at h ⊢
    by_cases h2 : s.prefixlength ≠ y.prefixlength
    · rw [if_pos h2] at h ⊢
      exact h
    · rw [if_neg h2]
      rw [hs]

/-- The acceptance on the example state: the peer announces `192.168.7.0/24`
for itself. -/
theorem add_subnet_h_accepts_witness :
    (add_subnet_h example_env (example_connection 1 "10 4d2 peer 192.168.7.0/24")
      example_world).1 = true ∧
    (∃ n1, lookup_node (add_subnet_h example_env
        (example_connection 1 "10 4d2 peer 192.168.7.0/24") example_world).2.2
        "peer".toList = some n1 ∧
      n1.subnet_tree.Perm ({ example_subnet_b none with owner := some "peer".toList } ::
        (match lookup_node example_world "peer".toList with
          | some n => n.subnet_tree
          | none => []))) ∧
    (∀ x, x ≠ "peer".toList → lookup_node (add_subnet_h example_env
        (example_connection 1 "10 4d2 peer 192.168.7.0/24") example_world).2.2 x =
      lookup_node example_world x) ∧
    (∃ scripts, (add_subnet_h example_env
        (example_connection 1 "10 4d2 peer 192.168.7.0/24") example_world).2.2.effects =
        example_world.effects ++ scripts ++
        [.broadcast_meta (some (example_connection 1 "10 4d2 peer 192.168.7.0/24").id)
          (mem_read (example_connection 1 "10 4d2 peer 192.168.7.0/24").buffer 0
            ((example_connection 1 "10 4d2 peer 192.168.7.0/24").reqlen - 1).toNat ++
            [Char.ofNat 10])] ∧
      ∀ e ∈ scripts, e = .subnet_update "peer".toList
        (some { example_subnet_b none with owner := some "peer".toList }) true) ∧
    (∀ (senv : send_env) (tree tree1 : List connection_t),
      broadcast_meta senv tree (some (example_connection 1 "10 4d2 peer 192.168.7.0/24").id)
        (mem_read (example_connection 1 "10 4d2 peer 192.168.7.0/24").buffer 0
          ((example_connection 1 "10 4d2 peer 192.168.7.0/24").reqlen - 1).toNat ++
          [Char.ofNat 10]) = some tree1 →
      List.Forall₂ (fun x x1 : connection_t =>
        if some x.id ≠ some (example_connection 1 "10 4d2 peer 192.168.7.0/24").id ∧
            x.active = true then
          ∃ r, send_meta senv x
            (mem_read (example_connection 1 "10 4d2 peer 192.168.7.0/24").buffer 0
              ((example_connection 1 "10 4d2 peer 192.168.7.0/24").reqlen - 1).toNat ++
              [Char.ofNat 10]) = some (r, x1)
        else x1 = x) tree tree1) :=
  add_subnet_h_accepts example_env (example_connection 1 "10 4d2 peer 192.168.7.0/24")
    example_world "peer".toList "192.168.7.0/24".toList (example_subnet_b none)
    (by decide) (by decide) (by decide) (by decide) (by decide) (by decide) (by decide)
    (fun y h => example_env_compare_owner _ _ y rfl h) (by decide)

/-! ### The graph engine: edges without a reverse, next hops -/

/-- C19 at the failing input: `example_graph_dangling` is `example_graph_pair`
plus one edge `X -> A` whose `reverse` is NULL.  Without that edge
`mst_kruskal` starts at `A`, adds `A - D` and flags the connection 7; with it
the starting point is `X`, no edge is added and the connection 7 stays
unflagged.  What `sssp_bfs` leaves in `reachable`, `nexthop` and `via` is the
same with and without the edge. -/
theorem mst_kruskal_reverseless_head :
    example_edge_dangling.reverse = none ∧
    example_graph_dangling.edge_weight_tree =
      example_edge_dangling :: example_graph_pair.edge_weight_tree ∧
    example_graph_dangling.edge_tree ['X'] =
      example_edge_dangling :: example_graph_pair.edge_tree ['X'] ∧
    (∀ n ∈ example_graph_pair.node_tree, n ≠ ['X'] →
      example_graph_dangling.edge_tree n = example_graph_pair.edge_tree n) ∧
    example_graph_dangling.node_tree = example_graph_pair.node_tree ∧
    example_graph_dangling.connection_tree = example_graph_pair.connection_tree ∧
    (mst_kruskal 40 example_graph_pair example_graph_state).map (fun r => (r.2, r.1.mst 7)) =
      some ([example_edge 'A' 'D' 5 (some 7)], true) ∧
    (mst_kruskal 40 example_graph_dangling example_graph_state).map
      (fun r => (r.2, r.1.mst 7)) = some ([], false) ∧
    (sssp_bfs 40 example_graph_dangling example_graph_state).map
      (fun s => example_graph_pair.node_tree.map
        (fun n => ((s.node n).reachable, (s.node n).nexthop, (s.node n).via))) =
    (sssp_bfs 40 example_graph_pair example_graph_state).map
      (fun s => example_graph_pair.node_tree.map
        (fun n => ((s.node n).reachable, (s.node n).nexthop, (s.node n).via))) := by
  decide

/-- An edge without a reverse leaves the state of `sssp_bfs` alone. -/
theorem sssp_bfs_fold_filter (g : graph_t) (n : List Char) (es : List edge_t)
    (st : graph_state_t × List (List Char)) :
    es.foldl (sssp_bfs_edge g n) st =
      (es.filter (fun e => e.reverse.isSome)).foldl (sssp_bfs_edge g n) st := by
  induction es generalizing st with
  | nil => rfl
  | cons e es ih =>
    cases hr : e.reverse with
    | none =>
      have h1 : sssp_bfs_edge g n st e = st := by
        unfold sssp_bfs_edge
        rw [hr]
      simp only [List.foldl_cons, h1, List.filter_cons, hr, Option.isSome_none,
        Bool.false_eq_true, if_false]
      exact ih st
    | some r =>
      simp only [List.foldl_cons, List.filter_cons, hr, Option.isSome_some, if_true]
      exact ih _

theorem sssp_bfs_edge_congr (g g1 : graph_t) (hmy : g1.myself = g.myself)
    (hmtu : g1.MTU = g.MTU) : sssp_bfs_edge g1 = sssp_bfs_edge g := by
  funext n st e
  unfold sssp_bfs_edge sssp_bfs_indirect sssp_bfs_target
  rw [hmy, hmtu]

/-- The part of C19 that holds: `sssp_bfs` ignores the edges without a reverse.
Two graphs with the same `myself`, `MTU` and registry whose edge lists agree
once the edges without a reverse are left out (any number of such edges added
or removed) give the same result, in every field of every node. -/
theorem sssp_bfs_ignores_reverseless (g g1 : graph_t) (fuel : Nat) (s : graph_state_t)
    (hmy : g1.myself = g.myself) (hmtu : g1.MTU = g.MTU) (hnodes : g1.node_tree = g.node_tree)
    (hedges : ∀ n, (g1.edge_tree n).filter (fun e => e.reverse.isSome) =
      (g.edge_tree n).filter (fun e => e.reverse.isSome)) :
    sssp_bfs fuel g1 s = sssp_bfs fuel g s := by
  have hloop : ∀ (fuel : Nat) (s : graph_state_t) (todo : List (List Char)),
      sssp_bfs_loop g1 fuel s todo = sssp_bfs_loop g fuel s todo := by
    intro fuel
    induction fuel with
    | zero =>
      intro s todo
      cases todo <;> rfl
    | succ fuel ih =>
      intro s todo
      cases todo with
      | nil => rfl
      | cons n todo =>
        simp only [sssp_bfs_loop]
        rw [sssp_bfs_fold_filter g1, sssp_bfs_fold_filter g, hedges n,
          sssp_bfs_edge_congr g g1 hmy hmtu]
        exact ih _ _
  have hcheck : sssp_bfs_check g1 = sssp_bfs_check g := by
    funext s n
    unfold sssp_bfs_check
    rw [hmtu]
  unfold sssp_bfs
  simp only [hmy, hnodes, hloop, hcheck]

/-- C20 at the counterexample: after `sssp_bfs` on the example graph the node
`D` is reachable and is a direct neighbour of `myself` (the edge `A -> D` has
its reverse), yet `D.nexthop` is `D`, not `myself`; and `myself` is reachable
with `nexthop == myself` although no edge leads from `myself` to itself. -/
theorem sssp_bfs_neighbour_nexthop :
    example_graph.myself = ['A'] ∧
    example_edge 'A' 'D' 5 (some 7) ∈ example_graph.edge_tree ['A'] ∧
    (example_edge 'A' 'D' 5 (some 7)).to_ = ['D'] ∧
    (example_edge 'A' 'D' 5 (some 7)).reverse.isSome = true ∧
    (sssp_bfs 40 example_graph example_graph_state).map
      (fun s => ((s.node ['D']).reachable, (s.node ['D']).nexthop)) = some (true, ['D']) ∧
    (sssp_bfs 40 example_graph example_graph_state).map
      (fun s => ((s.node ['A']).reachable, (s.node ['A']).nexthop)) = some (true, ['A']) ∧
    (∀ e ∈ example_graph.edge_tree ['A'], e.to_ ≠ ['A']) := by
  decide

/-- The record of `myself` after `sssp_bfs`: its `nexthop` is `myself`. -/
theorem sssp_bfs_self (g : graph_t) (s : graph_state_t) (fuel : Nat) (hg : g.closed)
    (hfuel : 2 * g.node_tree.length + 1 ≤ fuel) :
    ∃ s1, sssp_bfs fuel g s = some s1 ∧ (s1.node g.myself).nexthop = g.myself := by
  unfold sssp_bfs
  simp only
  generalize hs0 : (graph_state_t.set _ g.myself _) = s0
  have hs0m : (s0.node g.myself).visited = true ∧ (s0.node g.myself).indirect = false ∧
      (s0.node g.myself).nexthop = g.myself := by
    rw [← hs0]; simp [graph_state_t.set]
  have hs0x : ∀ x ∈ g.node_tree, x ≠ g.myself → (s0.node x).visited = false := by
    intro x hx hxm
    rw [← hs0]; simp [graph_state_t.set, hxm, hx]
  have hinv : sssp_inv g s0 [g.myself] [] := by
    constructor
    · intro x hx
      simp only [List.append_nil, List.mem_singleton] at hx
      rw [hx]; exact ⟨hg.1, hs0m.1⟩
    · intro x hx hv
      by_cases hxm : x = g.myself
      · rw [hxm]; exact Relation.ReflTransGen.refl
      · rw [hs0x x hx hxm] at hv; cases hv
    · exact hs0m
    · intro x hx hv hxm
      rw [hs0x x hx hxm] at hv; cases hv
    · intro x hx hv
      by_cases hxm : x = g.myself
      · left; simp [hxm]
      · rw [hs0x x hx hxm] at hv; cases hv
  have hpot : sssp_potential g s0 ≤ 2 * g.node_tree.length := by
    unfold sssp_potential
    generalize g.node_tree = l
    induction l with
    | nil => simp
    | cons a l ih =>
      simp only [List.map_cons, List.sum_cons, List.length_cons]
      have : sssp_rank (s0.node a) ≤ 2 := by unfold sssp_rank; split_ifs <;> omega
      omega
  obtain ⟨s1, hloop, hfin⟩ := sssp_bfs_loop_inv g hg fuel s0 [g.myself] hinv
    (by simp only [List.length_singleton]; omega)
  rw [hloop]
  refine ⟨_, rfl, ?_⟩
  have hc := sssp_bfs_check_fold g g.node_tree s1
  rw [(hc.1 g.myself).2.2.1]
  exact hfin.self.2.2

/-- C20, amended: on a registry closed under the edges, after `sssp_bfs` a
reachable node `n` has `n.nexthop == myself` if and only if `n` is `myself`;
for every other reachable node `n.nexthop` is a direct neighbour of `myself`
(the far end of a reverse-confirmed edge leaving `myself`) through which `n` is
reached: a path of reverse-confirmed edges leads from `n.nexthop` to `n`. -/
theorem sssp_bfs_nexthop_myself_iff (g : graph_t) (s : graph_state_t) (fuel : Nat)
    (hg : g.closed) (hfuel : 2 * g.node_tree.length + 1 ≤ fuel) :
    ∃ s1, sssp_bfs fuel g s = some s1 ∧
      ∀ n ∈ g.node_tree, (s1.node n).reachable = true →
        ((s1.node n).nexthop = g.myself ↔ n = g.myself) ∧
        (n ≠ g.myself → confirmed_edge g g.myself (s1.node n).nexthop ∧
          confirmed_path g (s1.node n).nexthop n) := by
  obtain ⟨s1, h1, -, -, h4⟩ := sssp_bfs_correct g s fuel hg hfuel
  obtain ⟨s2, h5, h6⟩ := sssp_bfs_self g s fuel hg hfuel
  have h7 : s2 = s1 := Option.some.inj (h5.symm.trans h1)
  subst h7
  refine ⟨s2, h1, fun n hn hr => ⟨⟨fun h => ?_, fun h => ?_⟩, fun hnm => (h4 n hn hr hnm).2⟩⟩
  · by_contra hnm
    exact (h4 n hn hr hnm).1 h
  · rw [h]; exact h6

/-- The amended next-hop result on the example graph, whose registry is closed. -/
theorem sssp_bfs_nexthop_myself_iff_witness :
    example_graph.closed ∧ 2 * example_graph.node_tree.length + 1 ≤ 40 ∧
    ∃ s1, sssp_bfs 40 example_graph example_graph_state = some s1 ∧
      ∀ n ∈ example_graph.node_tree, (s1.node n).reachable = true →
        ((s1.node n).nexthop = example_graph.myself ↔ n = example_graph.myself) ∧
        (n ≠ example_graph.myself →
          confirmed_edge example_graph example_graph.myself (s1.node n).nexthop ∧
          confirmed_path example_graph (s1.node n).nexthop n) :=
  ⟨example_graph_closed, by decide,
    sssp_bfs_nexthop_myself_iff example_graph example_graph_state 40 example_graph_closed
      (by decide)⟩

/-! ### The meta reader: framing of request lines -/

theorem char_toNat_eq_ten (ch : Char) (h : ch.toNat = 10) : ch = Char.ofNat 10 :=
  char_eq_of_toNat_eq (by rw [h]; rfl)

/-- A byte string has no newline, or it splits at its first newline. -/
theorem first_newline (q : List Char) :
    (∀ ch ∈ q, ch.toNat ≠ 10) ∨
    ∃ a r, q = a ++ Char.ofNat 10 :: r ∧ ∀ ch ∈ a, ch.toNat ≠ 10 := by
  induction q with
  | nil => left; simp
  | cons x q ih =>
    by_cases hx : x.toNat = 10
    · right
      exact ⟨[], q, by rw [char_toNat_eq_ten x hx]; rfl, by simp⟩
    · rcases ih with h | ⟨a, r, h1, h2⟩
      · left
        intro ch hch
        rcases List.mem_cons.1 hch with rfl | h3
        · exact hx
        · exact h ch h3
      · right
        refine ⟨x :: a, r, by rw [h1]; rfl, ?_⟩
        intro ch hch
        rcases List.mem_cons.1 hch with rfl | h3
        · exact hx
        · exact h2 ch h3

theorem find_newline_none (b : Int → Char) (n : Nat) (i : Int)
    (h : ∀ ch ∈ mem_read b i n, ch.toNat ≠ 10) : find_newline b n i = none := by
  induction n generalizing i with
  | zero => rfl
  | succ n ih =>
    simp only [mem_read, List.mem_cons, forall_eq_or_imp] at h
    simp only [find_newline, if_neg h.1]
    exact ih _ h.2

theorem find_newline_some (b : Int → Char) (n : Nat) (i : Int) (a r : List Char)
    (hp : mem_read b i n = a ++ Char.ofNat 10 :: r) (ha : ∀ ch ∈ a, ch.toNat ≠ 10) :
    find_newline b n i = some (i + a.length) := by
  induction a generalizing n i with
  | nil =>
    cases n with
    | zero => simp [mem_read] at hp
    | succ n =>
      simp only [mem_read, List.nil_append, List.cons.injEq] at hp
      have h1 : (b i).toNat = 10 := by rw [hp.1]; rfl
      simp [find_newline, h1]
  | cons x a ih =>
    cases n with
    | zero => simp [mem_read] at hp
    | succ n =>
      simp only [mem_read, List.cons_append, List.cons.injEq] at hp
      have hx : (b i).toNat ≠ 10 := by rw [hp.1]; exact ha x (List.mem_cons_self _ _)
      simp only [find_newline, if_neg hx]
      rw [ih n (i + 1) hp.2 (fun ch hch => ha ch (List.mem_cons_of_mem _ hch))]
      simp only [List.length_cons, Nat.cast_add, Nat.cast_one, Option.some.injEq]
      ring

/-- Two byte strings that agree up to and including their first newline. -/
theorem append_newline_inj (x l y z : List Char) (hx : ∀ ch ∈ x, ch.toNat ≠ 10)
    (hl : ∀ ch ∈ l, ch.toNat ≠ 10)
    (h : x ++ Char.ofNat 10 :: y = l ++ Char.ofNat 10 :: z) : x = l ∧ y = z := by
  induction x generalizing l with
  | nil =>
    cases l with
    | nil => simp at h; exact ⟨rfl, h⟩
    | cons b l =>
      simp only [List.nil_append, List.cons_append, List.cons.injEq] at h
      exact absurd (by rw [← h.1]; rfl) (hl b (List.mem_cons_self _ _))
  | cons a x ih =>
    cases l with
    | nil =>
      simp only [List.nil_append, List.cons_append, List.cons.injEq] at h
      exact absurd (by rw [h.1]; rfl) (hx a (List.mem_cons_self _ _))
    | cons b l =>
      simp only [List.cons_append, List.cons.injEq] at h
      obtain ⟨h1, h2⟩ := ih l (fun ch hch => hx ch (List.mem_cons_of_mem _ hch))
        (fun ch hch => hl ch (List.mem_cons_of_mem _ hch)) h.2
      exact ⟨by rw [h.1, h1], h2⟩

/-- The first line of a stream of request lines. -/
theorem request_stream_split (x y : List Char) (rest : List (List Char))
    (hx : ∀ ch ∈ x, ch.toNat ≠ 10) (hrest : ∀ l ∈ rest, ∀ ch ∈ l, ch.toNat ≠ 10)
    (h : x ++ Char.ofNat 10 :: y = request_stream rest) :
    ∃ rest1, rest = x :: rest1 ∧ y = request_stream rest1 := by
  cases rest with
  | nil => simp [request_stream] at h
  | cons l rest1 =>
    simp only [request_stream] at h
    obtain ⟨h1, h2⟩ := append_newline_inj x l y _ hx (hrest l (List.mem_cons_self _ _)) h
    exact ⟨rest1, by rw [h1], h2⟩

/-- A newline-free start of a stream of request lines is part of the first line. -/
theorem request_stream_start (x more : List Char) (rest : List (List Char)) (M : Int)
    (hM : 0 < M) (hx : ∀ ch ∈ x, ch.toNat ≠ 10) (hrest : ∀ l ∈ rest, (l.length : Int) < M)
    (h : x ++ more = request_stream rest) : (x.length : Int) < M := by
  cases rest with
  | nil =>
    simp only [request_stream, List.append_eq_nil] at h
    rw [h.1]; exact hM
  | cons l rest1 =>
    simp only [request_stream] at h
    have hl := hrest l (List.mem_cons_self _ _)
    rcases List.append_eq_append_iff.1 h with ⟨a, h1, -⟩ | ⟨a, h1, h2⟩
    · rw [h1, List.length_append] at hl
      push_cast at hl
      omega
    · cases a with
      | nil => simp only [List.append_nil] at h1; rw [h1]; exact hl
      | cons b a =>
        simp only [List.cons_append, List.cons.injEq] at h2
        exact absurd (by rw [← h2.1]; rfl) (hx b (by rw [h1]; simp))

theorem receive_meta_loop_lines {W : Type} (env : meta_env W) (P : connection_t → Prop)
    (f : List Char → W → W) (lines : List (List Char))
    (hM : 0 < env.MAXBUFSIZE)
    (hlines : ∀ l ∈ lines, (∀ ch ∈ l, ch.toNat ≠ 10) ∧ (l.length : Int) < env.MAXBUFSIZE)
    (hframe : ∀ c b n r, P c → P { c with buffer := b, buflen := n, reqlen := r })
    (hhandlers : ∀ l ∈ lines, ∀ c w, P c → c.decryptin = false → c.tcplen = 0 →
      c.reqlen = l.length + 1 → mem_read c.buffer 0 l.length = l →
      (c.buffer l.length).toNat = 0 →
      ∀ d, receive_request env.request_handlers c w = d →
        d.ret = true ∧ d.w = f l w ∧ P d.c ∧ d.c.decryptin = false ∧ d.c.tcplen = 0 ∧
        d.c.buflen = c.buflen ∧ ∀ i, c.reqlen ≤ i → d.c.buffer i = c.buffer i)
    (fuel : Nat) :
    ∀ (rest : List (List Char)) (more t0 q : List Char) (decrypted : Bool)
      (c : connection_t) (w : W),
      (∀ l ∈ rest, l ∈ lines) → P c → c.decryptin = false → c.tcplen = 0 →
      c.buflen = t0.length + q.length →
      mem_read c.buffer 0 t0.length = t0 → mem_read c.buffer t0.length q.length = q →
      (∀ ch ∈ t0, ch.toNat ≠ 10) →
      t0 ++ q ++ more = request_stream rest →
      q.length < fuel →
      ∃ done rest1 c1 w1 t1, rest = done ++ rest1 ∧
        receive_meta_loop env fuel q.length t0.length decrypted c w = .returned true c1 w1 ∧
        w1 = done.foldl (fun w l => f l w) w ∧ P c1 ∧ c1.decryptin = false ∧ c1.tcplen = 0 ∧
        c1.buflen = t1.length ∧ mem_read c1.buffer 0 t1.length = t1 ∧
        (∀ ch ∈ t1, ch.toNat ≠ 10) ∧ t1 ++ more = request_stream rest1 ∧
        (t1.length : Int) < env.MAXBUFSIZE := by
  induction fuel with
  | zero => intro _ _ _ q _ _ _ _ _ _ _ _ _ _ _ _ hf; omega
  | succ fuel ih =>
    intro rest more t0 q decrypted c w hrest hP hdec htcp hbuflen ht0 hq hnl hstream hfuel
    have hrl : ∀ l ∈ rest, (l.length : Int) < env.MAXBUFSIZE :=
      fun l hl => (hlines l (hrest l hl)).2
    have hrn : ∀ l ∈ rest, ∀ ch ∈ l, ch.toNat ≠ 10 := fun l hl => (hlines l (hrest l hl)).1
    have hcount : (c.buflen - (t0.length : Int)).toNat = q.length := by
      rw [hbuflen]; omega
    rcases first_newline q with hq0 | ⟨a, r, hqs, ha⟩
    · -- no newline among the new bytes: the loop ends
      have hall : ∀ ch ∈ t0 ++ q, ch.toNat ≠ 10 := by
        intro ch hch
        rcases List.mem_append.1 hch with h | h
        · exact hnl ch h
        · exact hq0 ch h
      have hlt := request_stream_start (t0 ++ q) more rest _ hM hall hrl hstream
      have hfin : receive_meta_finish env c w = .returned true c w := by
        unfold receive_meta_finish
        rw [if_neg]
        rw [hbuflen]
        rw [List.length_append] at hlt
        push_cast at hlt
        omega
      refine ⟨[], rest, c, w, t0 ++ q, rfl, ?_, rfl, hP, hdec, htcp, ?_, ?_, hall, hstream, hlt⟩
      · rw [receive_meta_loop]
        by_cases hl : (q.length : Int) > 0
        · rw [if_neg (not_not.2 hl)]
          simp only [hdec, Bool.false_eq_true, false_and, if_false, htcp, ne_eq,
            not_true_eq_false]
          rw [hcount, find_newline_none _ _ _ (by rw [hq]; exact hq0)]
          exact hfin
        · rw [if_pos hl]
          exact hfin
      · rw [hbuflen, List.length_append]; push_cast; rfl
      · rw [List.length_append, mem_read_append, ht0, zero_add, hq]
    · -- the first newline among the new bytes ends the line `t0 ++ a`
      have hline : ∀ ch ∈ t0 ++ a, ch.toNat ≠ 10 := by
        intro ch hch
        rcases List.mem_append.1 hch with h | h
        · exact hnl ch h
        · exact ha ch h
      have hs2 : (t0 ++ a) ++ Char.ofNat 10 :: (r ++ more) = request_stream rest := by
        rw [← hstream, hqs]; simp
      obtain ⟨rest1, hr1, hr2⟩ := request_stream_split _ _ rest hline hrn hs2
      have hmem : t0 ++ a ∈ lines := hrest _ (by rw [hr1]; exact List.mem_cons_self _ _)
      have hqlen : q.length = a.length + 1 + r.length := by
        rw [hqs]; simp; omega
      have hfind : find_newline c.buffer q.length t0.length =
          some ((t0.length : Int) + a.length) :=
        find_newline_some _ _ _ a r (hq.trans hqs) ha
      -- the connection that `receive_request` sees
      obtain ⟨creq, hcreq⟩ : ∃ creq : connection_t, creq = { c with
        buffer := mem_write c.buffer ((t0.length : Int) + a.length) [Char.ofNat 0],
        reqlen := (t0.length : Int) + a.length + 1 } := ⟨_, rfl⟩
      have hPreq : P creq := by rw [hcreq]; exact hframe c _ c.buflen _ hP
      have hqa : mem_read c.buffer t0.length a.length = a ∧
          mem_read c.buffer ((t0.length : Int) + a.length + 1) r.length = r := by
        have h4 : mem_read c.buffer t0.length (a.length + (1 + r.length)) =
            a ++ ([Char.ofNat 10] ++ r) := by
          have h5 : q.length = a.length + (1 + r.length) := by omega
          rw [← h5, hq, hqs]
          simp
        rw [mem_read_append, mem_read_append] at h4
        have h6 := List.append_inj h4 (by rw [mem_read_length])
        have h7 := List.append_inj h6.2 (by rw [mem_read_length]; rfl)
        have h8 := h7.2
        simp only [Nat.cast_one] at h8
        exact ⟨h6.1, h8⟩
      have hreq1 : mem_read creq.buffer 0 (t0 ++ a).length = t0 ++ a := by
        rw [hcreq, List.length_append]
        have h3 : mem_read (mem_write c.buffer ((t0.length : Int) + a.length) [Char.ofNat 0]) 0
            (t0.length + a.length) = mem_read c.buffer 0 (t0.length + a.length) := by
          apply mem_read_congr
          intro j _ h2
          simp only [mem_write]
          rw [if_neg]
          push_cast at h2
          omega
        show mem_read (mem_write c.buffer ((t0.length : Int) + a.length) [Char.ofNat 0]) 0
            (t0.length + a.length) = t0 ++ a
        rw [h3, mem_read_append, ht0, zero_add, hqa.1]
      have hreq2 : (creq.buffer (t0 ++ a).length).toNat = 0 := by
        rw [hcreq]
        simp [mem_write]
      have hreq3 : creq.reqlen = (t0 ++ a).length + 1 := by
        rw [hcreq]
        simp
      obtain ⟨hd1, hd2, hd3, hd4, hd5, hd6, hd7⟩ := hhandlers _ hmem creq w hPreq
        (by rw [hcreq]; exact hdec) (by rw [hcreq]; exact htcp) hreq3 hreq1 hreq2 _ rfl
      -- the connection at the next round
      obtain ⟨c2, hc2⟩ : ∃ c2 : connection_t, c2 =
        { (receive_request env.request_handlers creq w).c with
          buflen := (receive_request env.request_handlers creq w).c.buflen -
            ((t0.length : Int) + a.length + 1),
          buffer := memmove (receive_request env.request_handlers creq w).c.buffer
            ((t0.length : Int) + a.length + 1)
            ((receive_request env.request_handlers creq w).c.buflen -
              ((t0.length : Int) + a.length + 1)) } := ⟨_, rfl⟩
      have hstep : receive_meta_loop env (fuel + 1) q.length t0.length decrypted c w =
          receive_meta_loop env fuel
            ((q.length : Int) - ((t0.length : Int) + a.length + 1 - t0.length)) 0 decrypted c2
            (receive_request env.request_handlers creq w).w := by
        rw [receive_meta_loop]
        rw [if_neg (by rw [hqlen]; push_cast; omega)]
        dsimp only
        rw [if_neg (by rw [hdec]; simp)]
        dsimp only
        rw [if_neg (by rw [htcp]; simp)]
        rw [hcount, hfind]
        dsimp only
        rw [← hcreq, if_neg (by rw [hd1]; simp), hc2]
      have hlen2 : (receive_request env.request_handlers creq w).c.buflen -
          ((t0.length : Int) + a.length + 1) = (r.length : Int) := by
        rw [hd6, hcreq]
        show c.buflen - ((t0.length : Int) + a.length + 1) = (r.length : Int)
        rw [hbuflen, hqlen]
        push_cast
        omega
      have hbuf2 : mem_read c2.buffer 0 r.length = r := by
        rw [hc2]
        show mem_read (memmove (receive_request env.request_handlers creq w).c.buffer
            ((t0.length : Int) + a.length + 1)
            ((receive_request env.request_handlers creq w).c.buflen -
              ((t0.length : Int) + a.length + 1))) 0 r.length = r
        rw [hlen2, mem_read_memmove]
        have h3 : mem_read (receive_request env.request_handlers creq w).c.buffer
            ((t0.length : Int) + a.length + 1) r.length =
            mem_read c.buffer ((t0.length : Int) + a.length + 1) r.length := by
          apply mem_read_congr
          intro j h1 _
          rw [hd7 j (by rw [hreq3, List.length_append]; push_cast; omega), hcreq]
          simp only [mem_write]
          rw [if_neg]
          simp only [List.length_singleton, Nat.cast_one]
          omega
        rw [h3, hqa.2]
      have hih := ih rest1 more [] r decrypted c2 (receive_request env.request_handlers creq w).w
        (fun l hl => hrest l (by rw [hr1]; exact List.mem_cons_of_mem _ hl))
        (by rw [hc2]; exact hframe _ _ _ (receive_request env.request_handlers creq w).c.reqlen hd3)
        (by rw [hc2]; exact hd4) (by rw [hc2]; exact hd5)
        (by rw [hc2]; simp only [List.length_nil, Nat.cast_zero, zero_add]; exact hlen2)
        rfl hbuf2 (by simp) (by simp only [List.nil_append]; exact hr2)
        (by rw [hqlen] at hfuel; omega)
      obtain ⟨done, rest2, c1, w1, t1, h1, h2, h3, h4⟩ := hih
      refine ⟨(t0 ++ a) :: done, rest2, c1, w1, t1, by rw [hr1, h1]; rfl, ?_, ?_, h4⟩
      · rw [hstep]
        have e1 : (q.length : Int) - ((t0.length : Int) + a.length + 1 - t0.length) =
            (r.length : Int) := by
          rw [hqlen]
          push_cast
          omega
        rw [e1]
        exact h2
      · rw [h3, hd2]
        rfl

/-- One call of `receive_meta` on a connection whose buffer holds the start
`t0` of a request line, when `avail` bytes of the stream have arrived. -/
theorem receive_meta_lines {W : Type} (env : meta_env W) (P : connection_t → Prop)
    (f : List Char → W → W) (lines : List (List Char))
    (hM : 0 < env.MAXBUFSIZE) (hM2 : env.MAXBUFSIZE < 2 ^ 64)
    (hlines : ∀ l ∈ lines, (∀ ch ∈ l, ch.toNat ≠ 10) ∧ (l.length : Int) < env.MAXBUFSIZE)
    (hframe : ∀ c b n r, P c → P { c with buffer := b, buflen := n, reqlen := r })
    (hhandlers : ∀ l ∈ lines, ∀ c w, P c → c.decryptin = false → c.tcplen = 0 →
      c.reqlen = l.length + 1 → mem_read c.buffer 0 l.length = l →
      (c.buffer l.length).toNat = 0 →
      ∀ d, receive_request env.request_handlers c w = d →
        d.ret = true ∧ d.w = f l w ∧ P d.c ∧ d.c.decryptin = false ∧ d.c.tcplen = 0 ∧
        d.c.buflen = c.buflen ∧ ∀ i, c.reqlen ≤ i → d.c.buffer i = c.buffer i)
    (fuel : Nat) (hfuel : env.MAXBUFSIZE < fuel)
    (rest : List (List Char)) (stream t0 : List Char) (n : Nat) (c : connection_t) (w : W)
    (hrest : ∀ l ∈ rest, l ∈ lines) (hP : P c) (hdec : c.decryptin = false)
    (htcp : c.tcplen = 0) (hbuflen : c.buflen = t0.length)
    (ht0 : mem_read c.buffer 0 t0.length = t0) (hnl : ∀ ch ∈ t0, ch.toNat ≠ 10)
    (hlt : (t0.length : Int) < env.MAXBUFSIZE)
    (hstream : t0 ++ stream = request_stream rest) :
    ∃ done rest1 c1 w1 t1, rest = done ++ rest1 ∧
      receive_meta env fuel (socket_recv (stream.take n)) c w = .returned true c1 w1 ∧
      w1 = done.foldl (fun w l => f l w) w ∧ P c1 ∧ c1.decryptin = false ∧ c1.tcplen = 0 ∧
      c1.buflen = t1.length ∧ mem_read c1.buffer 0 t1.length = t1 ∧
      (∀ ch ∈ t1, ch.toNat ≠ 10) ∧
      t1 ++ stream.drop (min n ((env.MAXBUFSIZE - c.buflen) % 2 ^ 64).toNat) =
        request_stream rest1 ∧
      (t1.length : Int) < env.MAXBUFSIZE := by
  have hlen : ((env.MAXBUFSIZE - c.buflen) % 2 ^ 64).toNat =
      (env.MAXBUFSIZE - t0.length).toNat := by
    rw [hbuflen, Int.emod_eq_of_lt (by omega) (by omega)]
  rw [hlen]
  cases havail : stream.take n with
  | nil =>
    refine ⟨[], rest, c, w, t0, rfl, rfl, rfl, hP, hdec, htcp, hbuflen, ht0, hnl, ?_, hlt⟩
    have h0 : stream.drop (min n (env.MAXBUFSIZE - t0.length).toNat) = stream := by
      rcases List.take_eq_nil_iff.1 havail with h | h
      · rw [h]; simp
      · rw [h]; simp
    rw [h0]
    exact hstream
  | cons b bytes =>
    obtain ⟨got, hgot⟩ : ∃ got, got = stream.take (min n (env.MAXBUFSIZE - t0.length).toNat) :=
      ⟨_, rfl⟩
    have hgot2 : (b :: bytes).take ((env.MAXBUFSIZE - c.buflen) % 2 ^ 64).toNat = got := by
      rw [hlen, ← havail, List.take_take, hgot, Nat.min_comm]
    have hpos : 0 < got.length := by
      rw [hgot, List.length_take]
      have h1 : 0 < stream.length := by
        rcases stream with _ | ⟨x, s⟩
        · simp at havail
        · simp
      have h2 : 0 < n := by
        rcases n with _ | n
        · simp at havail
        · omega
      have h3 : 0 < (env.MAXBUFSIZE - t0.length).toNat := by omega
      omega
    have hle : (got.length : Int) ≤ env.MAXBUFSIZE - t0.length := by
      rw [hgot, List.length_take]
      omega
    obtain ⟨c0, hc0⟩ : ∃ c0 : connection_t, c0 = { c with
      buffer := mem_write c.buffer c.buflen got, buflen := c.buflen + (got.length : Int) } :=
      ⟨_, rfl⟩
    have hcall : receive_meta env fuel (socket_recv (b :: bytes)) c w =
        receive_meta_loop env fuel got.length t0.length false c0 w := by
      simp only [socket_recv, receive_meta]
      rw [hgot2, if_neg (by omega), ← hc0, hbuflen]
    have h1 : mem_read c0.buffer 0 t0.length = t0 := by
      rw [hc0]
      show mem_read (mem_write c.buffer c.buflen got) 0 t0.length = t0
      refine Eq.trans ?_ ht0
      apply mem_read_congr
      intro j _ h2
      simp only [mem_write]
      rw [if_neg]
      omega
    have h2 : mem_read c0.buffer t0.length got.length = got := by
      rw [hc0]
      show mem_read (mem_write c.buffer c.buflen got) t0.length got.length = got
      rw [hbuflen, mem_read_mem_write]
    obtain ⟨done, rest1, c1, w1, t1, h3, h4, h5⟩ :=
      receive_meta_loop_lines env P f lines hM hlines hframe hhandlers fuel rest
        (stream.drop (min n (env.MAXBUFSIZE - t0.length).toNat)) t0 got false c0 w hrest
        (by rw [hc0]; exact hframe c _ _ c.reqlen hP) (by rw [hc0]; exact hdec)
        (by rw [hc0]; exact htcp) (by rw [hc0, ← hbuflen]) h1 h2 hnl
        (by rw [List.append_assoc, hgot, List.take_append_drop]; exact hstream)
        (by omega)
    exact ⟨done, rest1, c1, w1, t1, h3, by rw [hcall]; exact h4, h5⟩

/-- A run of `receive_meta` over a stream of request lines, from a connection
whose buffer holds the start `t0` of a line. -/
theorem receive_meta_run_lines_from {W : Type} (env : meta_env W) (P : connection_t → Prop)
    (f : List Char → W → W) (lines : List (List Char))
    (hM : 0 < env.MAXBUFSIZE) (hM2 : env.MAXBUFSIZE < 2 ^ 64)
    (hlines : ∀ l ∈ lines, (∀ ch ∈ l, ch.toNat ≠ 10) ∧ (l.length : Int) < env.MAXBUFSIZE)
    (hframe : ∀ c b n r, P c → P { c with buffer := b, buflen := n, reqlen := r })
    (hhandlers : ∀ l ∈ lines, ∀ c w, P c → c.decryptin = false → c.tcplen = 0 →
      c.reqlen = l.length + 1 → mem_read c.buffer 0 l.length = l →
      (c.buffer l.length).toNat = 0 →
      ∀ d, receive_request env.request_handlers c w = d →
        d.ret = true ∧ d.w = f l w ∧ P d.c ∧ d.c.decryptin = false ∧ d.c.tcplen = 0 ∧
        d.c.buflen = c.buflen ∧ ∀ i, c.reqlen ≤ i → d.c.buffer i = c.buffer i)
    (fuel : Nat) (hfuel : env.MAXBUFSIZE < fuel) (reads : List Nat) :
    ∀ (rest : List (List Char)) (stream t0 : List Char) (c : connection_t) (w : W),
      (∀ l ∈ rest, l ∈ lines) → P c → c.decryptin = false → c.tcplen = 0 →
      c.buflen = t0.length → mem_read c.buffer 0 t0.length = t0 →
      (∀ ch ∈ t0, ch.toNat ≠ 10) → (t0.length : Int) < env.MAXBUFSIZE →
      t0 ++ stream = request_stream rest →
      ∃ done rest1 c1 w1 unread t1, rest = done ++ rest1 ∧
        receive_meta_run env fuel reads stream c w = some (c1, w1, unread) ∧
        w1 = done.foldl (fun w l => f l w) w ∧ P c1 ∧ c1.decryptin = false ∧ c1.tcplen = 0 ∧
        c1.buflen = t1.length ∧ mem_read c1.buffer 0 t1.length = t1 ∧
        (∀ ch ∈ t1, ch.toNat ≠ 10) ∧ t1 ++ unread = request_stream rest1 := by
  induction reads with
  | nil =>
    intro rest stream t0 c w _ hP hdec htcp hbuflen ht0 hnl _ hstream
    exact ⟨[], rest, c, w, stream, t0, rfl, rfl, rfl, hP, hdec, htcp, hbuflen, ht0, hnl, hstream⟩
  | cons n reads ih =>
    intro rest stream t0 c w hrest hP hdec htcp hbuflen ht0 hnl hlt hstream
    obtain ⟨done, rest1, c1, w1, t1, h1, h2, h3, h4, h5, h6, h7, h8, h9, h10, h11⟩ :=
      receive_meta_lines env P f lines hM hM2 hlines hframe hhandlers fuel hfuel rest stream t0 n
        c w hrest hP hdec htcp hbuflen ht0 hnl hlt hstream
    obtain ⟨done2, rest2, c2, w2, unread, t2, k1, k2, k3, k4⟩ :=
      ih rest1 _ t1 c1 w1 (fun l hl => hrest l (by rw [h1]; exact List.mem_append_right _ hl))
        h4 h5 h6 h7 h8 h9 h11 h10
    refine ⟨done ++ done2, rest2, c2, w2, unread, t2, by rw [h1, k1, List.append_assoc], ?_,
      by rw [k3, h3, List.foldl_append], k4⟩
    simp only [receive_meta_run]
    rw [h2]
    exact k2

/-- The request text of a buffer that holds a line without NUL and a NUL
behind it. -/
theorem cstring_of_mem_read (b : Int → Char) (l : List Char) (s : Int) (k : Nat)
    (h : mem_read b s l.length = l) (hz : (b (s + l.length)).toNat = 0)
    (hnz : ∀ ch ∈ l, ch.toNat ≠ 0) (hk : l.length < k) : cstring b k s = l := by
  induction l generalizing s k with
  | nil =>
    cases k with
    | zero => rfl
    | succ k =>
      simp only [List.length_nil, Nat.cast_zero, add_zero] at hz
      simp [cstring, hz]
  | cons x l ih =>
    cases k with
    | zero => simp at hk
    | succ k =>
      simp only [List.length_cons, mem_read, List.cons.injEq] at h
      have hx : (b s).toNat ≠ 0 := by rw [h.1]; exact hnz x (List.mem_cons_self _ _)
      simp only [cstring, if_neg hx, List.cons.injEq]
      refine ⟨h.1, ih (s + 1) k h.2 ?_ (fun ch hch => hnz ch (List.mem_cons_of_mem _ hch)) ?_⟩
      · rw [← hz]
        congr 2
        simp only [List.length_cons, Nat.cast_add, Nat.cast_one]
        ring
      · simp only [List.length_cons] at hk
        omega

/-- The request text that `receive_request` reads when the meta reader has
framed the line `l`. -/
theorem request_of_line (c : connection_t) (l : List Char)
    (hreqlen : c.reqlen = l.length + 1) (hread : mem_read c.buffer 0 l.length = l)
    (hnul : (c.buffer l.length).toNat = 0) (hnz : ∀ ch ∈ l, ch.toNat ≠ 0) :
    c.request = l := by
  unfold connection_t.request
  apply cstring_of_mem_read _ _ _ _ hread (by rw [zero_add]; exact hnul) hnz
  rw [hreqlen]
  omega

/-- C16, amended: on an unencrypted connection with no TCP packet pending and
an empty buffer, take a stream of request lines, each shorter than
`MAXBUFSIZE`, whose handlers succeed and leave the connection unencrypted, with
no TCP packet pending and with its buffered bytes in place.  However the bytes
arrive (`reads` lists how many are readable at each call), every call of
`receive_meta` returns true, and the lines passed to `receive_request` so far
are a start `done` of the sequence of lines, each once and in arrival order
(the program state is the one that the effects `f` of these lines produce in
that order); the bytes of the other lines are in the buffer or unread.  Once
the socket is drained every line has been dispatched and the buffer is empty,
whatever the split was. -/
theorem receive_meta_run_lines {W : Type} (env : meta_env W) (P : connection_t → Prop)
    (f : List Char → W → W) (lines : List (List Char)) (fuel : Nat) (reads : List Nat)
    (c : connection_t) (w : W)
    (hM : 0 < env.MAXBUFSIZE) (hM2 : env.MAXBUFSIZE < 2 ^ 64) (hfuel : env.MAXBUFSIZE < fuel)
    (hlines : ∀ l ∈ lines, (∀ ch ∈ l, ch.toNat ≠ 10) ∧ (l.length : Int) < env.MAXBUFSIZE)
    (hframe : ∀ c b n r, P c → P { c with buffer := b, buflen := n, reqlen := r })
    (hhandlers : ∀ l ∈ lines, ∀ c w, P c → c.decryptin = false → c.tcplen = 0 →
      c.reqlen = l.length + 1 → mem_read c.buffer 0 l.length = l →
      (c.buffer l.length).toNat = 0 →
      ∀ d, receive_request env.request_handlers c w = d →
        d.ret = true ∧ d.w = f l w ∧ P d.c ∧ d.c.decryptin = false ∧ d.c.tcplen = 0 ∧
        d.c.buflen = c.buflen ∧ ∀ i, c.reqlen ≤ i → d.c.buffer i = c.buffer i)
    (hP : P c) (hdec : c.decryptin = false) (htcp : c.tcplen = 0) (hbuf : c.buflen = 0) :
    ∃ done rest c1 w1 unread, lines = done ++ rest ∧
      receive_meta_run env fuel reads (request_stream lines) c w = some (c1, w1, unread) ∧
      w1 = done.foldl (fun w l => f l w) w ∧
      mem_read c1.buffer 0 c1.buflen.toNat ++ unread = request_stream rest ∧
      (∀ ch ∈ mem_read c1.buffer 0 c1.buflen.toNat, ch.toNat ≠ 10) ∧
      (unread = [] → rest = [] ∧ c1.buflen = 0 ∧ w1 = lines.foldl (fun w l => f l w) w) := by
  obtain ⟨done, rest, c1, w1, unread, t1, h1, h2, h3, -, -, -, h7, h8, h9, h10⟩ :=
    receive_meta_run_lines_from env P f lines hM hM2 hlines hframe hhandlers fuel hfuel reads
      lines (request_stream lines) [] c w (fun _ h => h) hP hdec htcp (by rw [hbuf]; rfl) rfl
      (by simp) (by simpa using hM) rfl
  have h11 : c1.buflen.toNat = t1.length := by rw [h7]; rfl
  refine ⟨done, rest, c1, w1, unread, h1, h2, h3, by rw [h11, h8]; exact h10,
    by rw [h11, h8]; exact h9, ?_⟩
  intro hu
  rw [hu, List.append_nil] at h10
  have hrest : rest = [] := by
    cases rest with
    | nil => rfl
    | cons l rest =>
      exfalso
      have hmem : Char.ofNat 10 ∈ t1 := by rw [h10]; simp [request_stream]
      exact h9 _ hmem rfl
  rw [hrest] at h10 h1
  simp only [request_stream] at h10
  rw [List.append_nil] at h1
  refine ⟨hrest, by rw [h7, h10]; rfl, by rw [h3, ← h1]⟩

/-- The handlers of `example_log_env` behind `receive_request`, for a request
other than PACKET. -/
theorem example_log_env_dispatch (c : connection_t) (w : List (List Char)) (r : Int)
    (hs : sscanf_d c.request = some r) (h0 : 0 ≤ r) (h1 : r < 17)
    (hall : c.allow_request = ALL) :
    receive_request example_log_env.request_handlers c w =
      ⟨true, c, w ++ [c.request], some r.toNat⟩ := by
  unfold receive_request
  rw [hs]
  simp only
  rw [if_neg (by simp only [LAST]; omega), if_neg (by rw [hall]; simp)]
  have h2 : r.toNat ≠ 17 := by omega
  simp only [example_log_env, if_neg h2]

/-- The amended framing result on a stream of two lines, a PING and a PONG,
with handlers that record what they are given, when one byte is readable at
the first call, none at the second, two at the third and all at the fourth:
the record is a start of `["8", "9"]`, and all of it once the socket is
drained. -/
theorem receive_meta_run_lines_witness :
    ∃ done rest c1 w1 unread, ["8".toList, "9".toList] = done ++ rest ∧
      receive_meta_run example_log_env 2177 [1, 0, 2, 5] (request_stream ["8".toList, "9".toList])
        example_idle_connection [] = some (c1, w1, unread) ∧
      w1 = done.foldl (fun w l => w ++ [l]) [] ∧
      mem_read c1.buffer 0 c1.buflen.toNat ++ unread = request_stream rest ∧
      (∀ ch ∈ mem_read c1.buffer 0 c1.buflen.toNat, ch.toNat ≠ 10) ∧
      (unread = [] → rest = [] ∧ c1.buflen = 0 ∧
        w1 = ["8".toList, "9".toList].foldl (fun w l => w ++ [l]) []) :=
  receive_meta_run_lines example_log_env (fun c => c.allow_request = ALL)
    (fun l w => w ++ [l]) ["8".toList, "9".toList] 2177 [1, 0, 2, 5] example_idle_connection []
    (by decide) (by decide) (by decide) (by decide) (fun _ _ _ _ h => h)
    (by
      intro l hl c w hP hdec htcp hreqlen hread hnul d hd
      have key : ∀ l ∈ ["8".toList, "9".toList], (∀ ch ∈ l, ch.toNat ≠ 0) ∧
          (sscanf_d l = some 8 ∨ sscanf_d l = some 9) := by decide
      have hreq := request_of_line c l hreqlen hread hnul (key l hl).1
      have hs : ∃ r, sscanf_d l = some r ∧ 0 ≤ r ∧ r < 17 := by
        rcases (key l hl).2 with h | h
        · exact ⟨8, h, by decide, by decide⟩
        · exact ⟨9, h, by decide, by decide⟩
      obtain ⟨r, hr1, hr2, hr3⟩ := hs
      rw [← hd, example_log_env_dispatch c w r (by rw [hreq]; exact hr1) hr2 hr3 hP, hreq]
      exact ⟨rfl, rfl, hP, hdec, htcp, rfl, fun _ _ => rfl⟩)
    rfl rfl rfl rfl

/-- A read that fills the empty buffer without a newline ends the run: the
call returns false before any request is dispatched. -/
theorem receive_meta_run_overflow {W : Type} (env : meta_env W) (fuel n : Nat)
    (reads : List Nat) (x more : List Char) (c : connection_t) (w : W)
    (hM : 0 < env.MAXBUFSIZE) (hM2 : env.MAXBUFSIZE < 2 ^ 64) (hfuel : 0 < fuel)
    (hx : (x.length : Int) = env.MAXBUFSIZE) (hnl : ∀ ch ∈ x, ch.toNat ≠ 10)
    (hn : x.length ≤ n) (hdec : c.decryptin = false) (htcp : c.tcplen = 0)
    (hbuf : c.buflen = 0) :
    receive_meta_run env fuel (n :: reads) (x ++ more) c w = none := by
  have hlen : ((env.MAXBUFSIZE - c.buflen) % 2 ^ 64).toNat = x.length := by
    rw [hbuf, sub_zero, Int.emod_eq_of_lt (by omega) (by omega), ← hx]
    rfl
  have hxpos : 0 < x.length := by omega
  cases havail : (x ++ more).take n with
  | nil =>
    rcases List.take_eq_nil_iff.1 havail with h | h
    · omega
    · rw [List.append_eq_nil] at h
      rw [h.1] at hxpos
      simp at hxpos
  | cons b bytes =>
    have hgot : (b :: bytes).take ((env.MAXBUFSIZE - c.buflen) % 2 ^ 64).toNat = x := by
      rw [hlen, ← havail, List.take_take, Nat.min_eq_left hn, List.take_left]
    obtain ⟨fuel1, hfuel1⟩ : ∃ fuel1, fuel = fuel1 + 1 := ⟨fuel - 1, by omega⟩
    have hcall : receive_meta env fuel (socket_recv (b :: bytes)) c w =
        .returned false { c with buffer := mem_write c.buffer c.buflen x,
                                 buflen := c.buflen + (x.length : Int) } w := by
      simp only [socket_recv, receive_meta]
      rw [hgot, if_neg (by omega), hfuel1, receive_meta_loop]
      rw [if_neg (by omega)]
      dsimp only
      rw [if_neg (by rw [hdec]; simp)]
      dsimp only
      rw [if_neg (by rw [htcp]; simp)]
      have hcount : (c.buflen + (x.length : Int) - c.buflen).toNat = x.length := by omega
      rw [hcount, find_newline_none _ _ _ (by rw [mem_read_mem_write]; exact hnl)]
      dsimp only
      unfold receive_meta_finish
      rw [if_pos (by show c.buflen + (x.length : Int) ≥ env.MAXBUFSIZE; omega)]
    simp only [receive_meta_run]
    rw [havail, hcall]

set_option maxRecDepth 100000 in
/-- C16 at the counterexamples, with handlers that record the requests they
are given.  First, the stream of the two request lines `17 2` and `8`: the
PACKET handler succeeds and announces two bytes, so the bytes of the second
line are taken as a packet and only `17 2` is dispatched although the socket is
drained.  Second, one request line of 2177 bytes (`8` followed by 2176 times
`x`) with `MAXBUFSIZE` 2176: the first read fills the buffer without a newline,
`receive_meta` returns false and nothing is dispatched. -/
theorem receive_meta_run_not_all_lines :
    (receive_meta_run example_log_env 2177 [100]
        (request_stream ["17 2".toList, "8".toList]) example_idle_connection []).map
      (fun r => (r.2.1, r.2.2, r.1.buflen, r.1.tcplen)) =
      some (["17 2".toList], [], 0, 0) ∧
    receive_meta_run example_log_env 2177 [3000]
      (request_stream [Char.ofNat 56 :: List.replicate 2176 (Char.ofNat 120)])
      example_idle_connection [] = none := by
  constructor
  · decide
  · have hs : request_stream [Char.ofNat 56 :: List.replicate 2176 (Char.ofNat 120)] =
        (Char.ofNat 56 :: List.replicate 2175 (Char.ofNat 120)) ++
          [Char.ofNat 120, Char.ofNat 10] := by
      show Char.ofNat 56 :: (List.replicate (2175 + 1) (Char.ofNat 120) ++ [Char.ofNat 10]) = _
      rw [List.replicate_succ']
      simp
    rw [hs]
    apply receive_meta_run_overflow
    · decide
    · decide
    · decide
    · simp [example_log_env]
    · intro ch hch
      rcases List.mem_cons.1 hch with h | h
      · rw [h]; decide
      · rw [List.eq_of_mem_replicate h]; decide
    · simp
    · rfl
    · rfl
    · rfl

/-! ### Packets over TCP -/

theorem digit_val_digitChar (d : Nat) (h : d < 10) : digit_val (Nat.digitChar d) = some d := by
  interval_cases d <;> rfl

theorem digitChar_range (d : Nat) (h : d < 10) :
    48 ≤ (Nat.digitChar d).toNat ∧ (Nat.digitChar d).toNat ≤ 57 := by
  interval_cases d <;> decide

/-- Scanning the decimal digits that `printf` wrote gives the number back. -/
theorem scan_digits_toDigitsCore (fuel : Nat) :
    ∀ (n : Nat) (ds rest : List Char), n < fuel →
      scan_digits digit_val 10 0 (Nat.toDigitsCore 10 fuel n ds ++ rest) =
        scan_digits digit_val 10 n (ds ++ rest) := by
  induction fuel with
  | zero => intro n _ _ h; omega
  | succ fuel ih =>
    intro n ds rest h
    simp only [Nat.toDigitsCore]
    have hd := digit_val_digitChar (n % 10) (Nat.mod_lt _ (by decide))
    by_cases h0 : n / 10 = 0
    · rw [if_pos h0]
      simp only [List.cons_append, scan_digits, hd]
      congr 1
      omega
    · rw [if_neg h0, ih (n / 10) _ rest (by omega)]
      simp only [List.cons_append, scan_digits, hd]
      congr 1
      omega

theorem toDigitsCore_range (fuel : Nat) :
    ∀ (n : Nat) (ds : List Char), (∀ ch ∈ ds, 48 ≤ ch.toNat ∧ ch.toNat ≤ 57) →
      ∀ ch ∈ Nat.toDigitsCore 10 fuel n ds, 48 ≤ ch.toNat ∧ ch.toNat ≤ 57 := by
  induction fuel with
  | zero => intro n ds h; exact h
  | succ fuel ih =>
    intro n ds h
    simp only [Nat.toDigitsCore]
    have hd := digitChar_range (n % 10) (Nat.mod_lt _ (by decide))
    have h2 : ∀ ch ∈ Nat.digitChar (n % 10) :: ds, 48 ≤ ch.toNat ∧ ch.toNat ≤ 57 := by
      intro ch hch
      rcases List.mem_cons.1 hch with rfl | h3
      · exact hd
      · exact h ch h3
    by_cases h0 : n / 10 = 0
    · rw [if_pos h0]; exact h2
    · rw [if_neg h0]; exact ih _ _ h2

theorem toDigitsCore_ne_nil (fuel n : Nat) (ds : List Char) (h : ds ≠ []) :
    Nat.toDigitsCore 10 fuel n ds ≠ [] := by
  induction fuel generalizing n ds with
  | zero => exact h
  | succ fuel ih =>
    simp only [Nat.toDigitsCore]
    by_cases h0 : n / 10 = 0
    · rw [if_pos h0]; simp
    · rw [if_neg h0]; exact ih _ _ (by simp)

/-- The digits of a number as `printf` writes them: at least one, all decimal. -/
theorem toDigits_digits (n : Nat) :
    Nat.toDigits 10 n ≠ [] ∧ ∀ ch ∈ Nat.toDigits 10 n, 48 ≤ ch.toNat ∧ ch.toNat ≤ 57 := by
  constructor
  · unfold Nat.toDigits
    simp only [Nat.toDigitsCore]
    by_cases h0 : n / 10 = 0
    · rw [if_pos h0]; simp
    · rw [if_neg h0]; exact toDigitsCore_ne_nil _ _ _ (by simp)
  · exact toDigitsCore_range _ _ _ (by simp)

/-- The conversion `%d` reads back a number that `printf` wrote, when no digit
follows it. -/
theorem scan_int_toDigits (n : Nat) (rest : List Char)
    (hrest : ∀ x xs, rest = x :: xs → digit_val x = none) :
    scan_int (Nat.toDigits 10 n ++ rest) = some ((n : Int), rest) := by
  obtain ⟨hne, hdig⟩ := toDigits_digits n
  have hscan := scan_digits_toDigitsCore (n + 1) n [] rest (by omega)
  rw [List.nil_append] at hscan
  have hfin : scan_digits digit_val 10 n rest = (n, rest) := by
    cases rest with
    | nil => rfl
    | cons x xs => simp only [scan_digits, hrest x xs rfl]
  rw [hfin] at hscan
  change scan_digits digit_val 10 0 (Nat.toDigits 10 n ++ rest) = (n, rest) at hscan
  cases hds : Nat.toDigits 10 n with
  | nil => exact absurd hds hne
  | cons c cs =>
    rw [hds] at hscan hdig
    have hc := hdig c (List.mem_cons_self _ _)
    have h1 : isspace c = false := by
      simp only [isspace]
      simp only [Bool.or_eq_false_iff, Bool.and_eq_false_iff, decide_eq_false_iff_not]
      omega
    have h2 : (digit_val c).isSome = true := by
      simp only [digit_val]
      rw [if_pos hc]
      rfl
    have h3 : skip_space (c :: (cs ++ rest)) = c :: (cs ++ rest) := by
      simp only [skip_space, h1]
      rfl
    have h4 : scan_sign (c :: (cs ++ rest)) = (false, c :: (cs ++ rest)) := by
      simp only [scan_sign]
      rw [if_neg (by omega), if_neg (by omega)]
    simp only [List.cons_append] at hscan
    unfold scan_int
    rw [List.cons_append, h3, h4]
    simp only [h2, if_true, hscan]
    rfl

/-- The loop of `receive_meta` while a packet of `len` bytes is awaited: the
buffer holds the bytes `t` from earlier calls and the new bytes `q`, `more`
bytes of the packet are still to come. -/
theorem receive_meta_loop_packet {W : Type} (env : meta_env W) (fuel : Nat)
    (t q more : List Char) (decrypted : Bool) (c : connection_t) (w : W) (len : Int)
    (hfuel : 2 ≤ fuel) (hdec : c.decryptin = false) (hnode : c.node.isSome = true)
    (hall : c.allow_request = ALL) (htcp : c.tcplen = len) (hlenM : len < env.MAXBUFSIZE)
    (hbuflen : c.buflen = t.length + q.length) (hq : 0 < q.length)
    (htot : ((t ++ q ++ more).length : Int) = len) :
    (more = [] → receive_meta_loop env fuel q.length t.length decrypted c w =
      .returned true { c with buflen := c.buflen - c.tcplen,
                              buffer := memmove c.buffer c.tcplen (c.buflen - c.tcplen),
                              tcplen := 0 }
        (env.receive_tcppacket c c.buffer c.tcplen w)) ∧
    (more ≠ [] → receive_meta_loop env fuel q.length t.length decrypted c w =
      .returned true c w) := by
  obtain ⟨fuel1, hfuel1⟩ : ∃ fuel1, fuel = fuel1 + 1 + 1 := ⟨fuel - 2, by omega⟩
  obtain ⟨nd, hnd⟩ := Option.isSome_iff_exists.1 hnode
  simp only [List.length_append, Nat.cast_add] at htot
  constructor
  · intro hmore
    rw [hmore] at htot
    simp only [List.length_nil, Nat.cast_zero, add_zero] at htot
    rw [hfuel1, receive_meta_loop]
    rw [if_neg (by omega)]
    dsimp only
    rw [if_neg (by rw [hdec]; simp)]
    dsimp only
    rw [if_pos (by rw [htcp]; omega), if_pos (by rw [htcp, hbuflen]; omega)]
    rw [hnd]
    dsimp only
    rw [if_pos hall]
    dsimp only
    rw [receive_meta_loop, if_pos (by rw [htcp]; omega)]
    unfold receive_meta_finish
    rw [if_neg (by show ¬ (c.buflen - c.tcplen ≥ env.MAXBUFSIZE); rw [htcp, hbuflen]; omega)]
  · intro hmore
    have hpos : 0 < more.length := List.length_pos.2 hmore
    rw [hfuel1, receive_meta_loop]
    rw [if_neg (by omega)]
    dsimp only
    rw [if_neg (by rw [hdec]; simp)]
    dsimp only
    rw [if_pos (by rw [htcp]; omega), if_neg (by rw [htcp, hbuflen]; omega)]
    unfold receive_meta_finish
    rw [if_neg (by rw [hbuflen]; omega)]

/-- A newline-free start of `H ++ "\n" ++ D` is a start of `H`. -/
theorem newline_free_start (x more H D : List Char) (hx : ∀ ch ∈ x, ch.toNat ≠ 10)
    (h : x ++ more = H ++ Char.ofNat 10 :: D) : x.length ≤ H.length ∧ more ≠ [] := by
  rcases List.append_eq_append_iff.1 h with ⟨a, h1, h2⟩ | ⟨a, h1, h2⟩
  · rw [h1, List.length_append]
    refine ⟨by omega, ?_⟩
    rw [h2]
    simp
  · cases a with
    | nil =>
      simp only [List.append_nil] at h1
      simp only [List.nil_append] at h2
      rw [h1, ← h2]
      exact ⟨le_refl _, by simp⟩
    | cons b a =>
      simp only [List.cons_append, List.cons.injEq] at h2
      exact absurd (by rw [← h2.1]; rfl) (hx b (by rw [h1]; simp))

/-- The loop of `receive_meta` while the request line of a packet arrives: the
buffer holds the start `t` of the line from earlier calls and the new bytes
`q`; `more` bytes of the frame are still to come. -/
theorem receive_meta_loop_header {W : Type} (env : meta_env W) (fuel : Nat)
    (H D : List Char) (len : Int) (t q more : List Char) (decrypted : Bool)
    (c : connection_t) (w : W)
    (hfuel : 3 ≤ fuel) (hM : (H.length : Int) + 1 + len < env.MAXBUFSIZE) (hlen : 0 < len)
    (hD : (D.length : Int) = len)
    (hHnl : ∀ ch ∈ H, ch.toNat ≠ 10) (hHnz : ∀ ch ∈ H, ch.toNat ≠ 0)
    (hdisp : ∀ c w, c.allow_request = ALL → c.request = H →
      receive_request env.request_handlers c w = ⟨true, { c with tcplen := len }, w, some 17⟩)
    (hdec : c.decryptin = false) (hnode : c.node.isSome = true)
    (hall : c.allow_request = ALL) (htcp : c.tcplen = 0)
    (hbuflen : c.buflen = t.length + q.length)
    (ht : mem_read c.buffer 0 t.length = t) (hq : mem_read c.buffer t.length q.length = q)
    (hqpos : 0 < q.length) (hnl : ∀ ch ∈ t, ch.toNat ≠ 10)
    (hstream : t ++ q ++ more = H ++ Char.ofNat 10 :: D) :
    ∃ c1 w1, receive_meta_loop env fuel q.length t.length decrypted c w =
        .returned true c1 w1 ∧ packet_phase env H D len w c1 w1 more := by
  obtain ⟨fuel1, hfuel1⟩ : ∃ fuel1, fuel = fuel1 + 2 + 1 := ⟨fuel - 3, by omega⟩
  have hcount : (c.buflen - (t.length : Int)).toNat = q.length := by
    rw [hbuflen]; omega
  rcases first_newline q with hq0 | ⟨a, r, hqs, ha⟩
  · -- no newline among the new bytes: the loop ends
    have hall2 : ∀ ch ∈ t ++ q, ch.toNat ≠ 10 := by
      intro ch hch
      rcases List.mem_append.1 hch with h | h
      · exact hnl ch h
      · exact hq0 ch h
    have hpre := newline_free_start (t ++ q) more H D hall2 hstream
    rw [List.length_append] at hpre
    refine ⟨c, w, ?_, hdec, hnode, hall, Or.inl ⟨t ++ q, htcp, ?_, ?_, hall2, hstream, rfl⟩⟩
    · rw [hfuel1, receive_meta_loop]
      rw [if_neg (by omega)]
      dsimp only
      rw [if_neg (by rw [hdec]; simp)]
      dsimp only
      rw [if_neg (by rw [htcp]; simp)]
      rw [hcount, find_newline_none _ _ _ (by rw [hq]; exact hq0)]
      dsimp only
      unfold receive_meta_finish
      rw [if_neg (by rw [hbuflen]; omega)]
    · rw [hbuflen, List.length_append]; push_cast; rfl
    · rw [List.length_append, mem_read_append, ht, zero_add, hq]
  · -- the newline among the new bytes ends the request line
    have hline : ∀ ch ∈ t ++ a, ch.toNat ≠ 10 := by
      intro ch hch
      rcases List.mem_append.1 hch with h | h
      · exact hnl ch h
      · exact ha ch h
    have hs2 : (t ++ a) ++ Char.ofNat 10 :: (r ++ more) = H ++ Char.ofNat 10 :: D := by
      rw [← hstream, hqs]; simp
    obtain ⟨hH, hrD⟩ := append_newline_inj _ _ _ _ hline hHnl hs2
    have hqlen : q.length = a.length + 1 + r.length := by
      rw [hqs]; simp; omega
    have hfind : find_newline c.buffer q.length t.length =
        some ((t.length : Int) + a.length) :=
      find_newline_some _ _ _ a r (hq.trans hqs) ha
    obtain ⟨creq, hcreq⟩ : ∃ creq : connection_t, creq = { c with
      buffer := mem_write c.buffer ((t.length : Int) + a.length) [Char.ofNat 0],
      reqlen := (t.length : Int) + a.length + 1 } := ⟨_, rfl⟩
    have hqa : mem_read c.buffer t.length a.length = a ∧
        mem_read c.buffer ((t.length : Int) + a.length + 1) r.length = r := by
      have h4 : mem_read c.buffer t.length (a.length + (1 + r.length)) =
          a ++ ([Char.ofNat 10] ++ r) := by
        have h5 : q.length = a.length + (1 + r.length) := by omega
        rw [← h5, hq, hqs]
        simp
      rw [mem_read_append, mem_read_append] at h4
      have h6 := List.append_inj h4 (by rw [mem_read_length])
      have h7 := List.append_inj h6.2 (by rw [mem_read_length]; rfl)
      have h8 := h7.2
      simp only [Nat.cast_one] at h8
      exact ⟨h6.1, h8⟩
    have hreq1 : mem_read creq.buffer 0 (t ++ a).length = t ++ a := by
      rw [hcreq, List.length_append]
      have h3 : mem_read (mem_write c.buffer ((t.length : Int) + a.length) [Char.ofNat 0]) 0
          (t.length + a.length) = mem_read c.buffer 0 (t.length + a.length) := by
        apply mem_read_congr
        intro j _ h2
        simp only [mem_write]
        rw [if_neg]
        push_cast at h2
        omega
      show mem_read (mem_write c.buffer ((t.length : Int) + a.length) [Char.ofNat 0]) 0
          (t.length + a.length) = t ++ a
      rw [h3, mem_read_append, ht, zero_add, hqa.1]
    have hreq2 : (creq.buffer (t ++ a).length).toNat = 0 := by
      rw [hcreq]
      simp [mem_write]
    have hreq3 : creq.reqlen = (t ++ a).length + 1 := by
      rw [hcreq]
      simp
    have hreq : creq.request = H := by
      rw [← hH]
      exact request_of_line creq (t ++ a) hreq3 hreq1 hreq2 (by rw [hH]; exact hHnz)
    have hd := hdisp creq w (by rw [hcreq]; exact hall) hreq
    -- the connection at the next round
    obtain ⟨c2, hc2⟩ : ∃ c2 : connection_t, c2 =
      { creq with
        tcplen := len,
        buflen := creq.buflen - ((t.length : Int) + a.length + 1),
        buffer := memmove creq.buffer ((t.length : Int) + a.length + 1)
          (creq.buflen - ((t.length : Int) + a.length + 1)) } := ⟨_, rfl⟩
    have hstep : receive_meta_loop env fuel q.length t.length decrypted c w =
        receive_meta_loop env (fuel1 + 2)
          ((q.length : Int) - ((t.length : Int) + a.length + 1 - t.length)) 0 decrypted c2
          w := by
      rw [hfuel1, receive_meta_loop]
      rw [if_neg (by omega)]
      dsimp only
      rw [if_neg (by rw [hdec]; simp)]
      dsimp only
      rw [if_neg (by rw [htcp]; simp)]
      rw [hcount, hfind]
      dsimp only
      rw [← hcreq, hd]
      dsimp only
      rw [if_neg (by simp), hc2]
    have e1 : (q.length : Int) - ((t.length : Int) + a.length + 1 - t.length) =
        (r.length : Int) := by
      rw [hqlen]
      push_cast
      omega
    rw [e1] at hstep
    have hlen2 : c2.buflen = (r.length : Int) := by
      rw [hc2, hcreq]
      show c.buflen - ((t.length : Int) + a.length + 1) = (r.length : Int)
      rw [hbuflen, hqlen]
      push_cast
      omega
    have hbuf2 : mem_read c2.buffer 0 r.length = r := by
      rw [hc2, hcreq]
      show mem_read (memmove (mem_write c.buffer ((t.length : Int) + a.length) [Char.ofNat 0])
          ((t.length : Int) + a.length + 1)
          (c.buflen - ((t.length : Int) + a.length + 1))) 0 r.length = r
      have h0 : c.buflen - ((t.length : Int) + a.length + 1) = (r.length : Int) := by
        rw [hbuflen, hqlen]
        push_cast
        omega
      rw [h0, mem_read_memmove]
      refine Eq.trans ?_ hqa.2
      apply mem_read_congr
      intro j h1 _
      simp only [mem_write]
      rw [if_neg]
      simp only [List.length_singleton, Nat.cast_one]
      omega
    have hdec2 : c2.decryptin = false := by rw [hc2, hcreq]; exact hdec
    have hnode2 : c2.node.isSome = true := by rw [hc2, hcreq]; exact hnode
    have hall3 : c2.allow_request = ALL := by rw [hc2, hcreq]; exact hall
    have htcp2 : c2.tcplen = len := by rw [hc2]
    have hrlen : ((r ++ more).length : Int) = len := by rw [hrD, hD]
    rw [List.length_append] at hrlen
    push_cast at hrlen
    have hHlen : H.length = t.length + a.length := by rw [← hH, List.length_append]
    rw [hstep]
    by_cases hr : r = []
    · -- the request line ends the read
      refine ⟨c2, w, ?_, hdec2, hnode2, hall3, Or.inr (Or.inl ⟨[], htcp2, ?_, rfl, ?_, ?_, rfl⟩)⟩
      · rw [hr, receive_meta_loop, if_pos (by simp)]
        unfold receive_meta_finish
        rw [if_neg (by rw [hlen2, hr]; simp; omega)]
      · rw [hlen2, hr]
      · rw [← hrD, hr]
      · intro hm
        rw [hr, hm] at hrlen
        simp at hrlen
        omega
    · have hrpos : 0 < r.length := List.length_pos.2 hr
      obtain ⟨k1, k2⟩ := receive_meta_loop_packet env (fuel1 + 2) [] r more decrypted c2 w len
        (by omega) hdec2 hnode2 hall3 htcp2 (by omega)
        (by rw [hlen2]; simp) hrpos
        (by simp only [List.nil_append, List.length_append]; push_cast; exact hrlen)
      simp only [List.length_nil, Nat.cast_zero] at k1 k2
      by_cases hm : more = []
      · refine ⟨_, _, k1 hm, hdec2, hnode2, hall3, Or.inr (Or.inr ⟨rfl, ?_, hm, c2, c2.buffer,
          ?_, by rw [htcp2]⟩)⟩
        · show c2.buflen - c2.tcplen = 0
          rw [hlen2, htcp2, ← hrlen, hm]
          simp
        · rw [← hrD, hm, List.append_nil]
          have h9 : len.toNat = r.length := by
            rw [← hrlen, hm]
            simp
          rw [h9]
          exact hbuf2
      · exact ⟨c2, w, k2 hm, hdec2, hnode2, hall3,
          Or.inr (Or.inl ⟨r, htcp2, hlen2, hbuf2, hrD, hm, rfl⟩)⟩

/-- How `receive_meta` starts on the socket: `recv` takes the readable bytes,
at most as many as fit the buffer; with none it would block and the function
returns true, otherwise the bytes enter the buffer and the loop runs. -/
theorem receive_meta_socket {W : Type} (env : meta_env W) (fuel : Nat) (stream : List Char)
    (n : Nat) (c : connection_t) (w : W) (h0 : 0 ≤ c.buflen)
    (hlt : c.buflen < env.MAXBUFSIZE) (hM2 : env.MAXBUFSIZE < 2 ^ 64) :
    ((env.MAXBUFSIZE - c.buflen) % 2 ^ 64).toNat = (env.MAXBUFSIZE - c.buflen).toNat ∧
    (stream.take (min n (env.MAXBUFSIZE - c.buflen).toNat) = [] →
      receive_meta env fuel (socket_recv (stream.take n)) c w = .returned true c w ∧
      stream.drop (min n (env.MAXBUFSIZE - c.buflen).toNat) = stream) ∧
    (stream.take (min n (env.MAXBUFSIZE - c.buflen).toNat) ≠ [] →
      receive_meta env fuel (socket_recv (stream.take n)) c w =
        receive_meta_loop env fuel
          ((stream.take (min n (env.MAXBUFSIZE - c.buflen).toNat)).length : Int) c.buflen false
          { c with
            buffer := mem_write c.buffer c.buflen
              (stream.take (min n (env.MAXBUFSIZE - c.buflen).toNat)),
            buflen := c.buflen +
              ((stream.take (min n (env.MAXBUFSIZE - c.buflen).toNat)).length : Int) } w) := by
  have hlen : ((env.MAXBUFSIZE - c.buflen) % 2 ^ 64).toNat =
      (env.MAXBUFSIZE - c.buflen).toNat := by
    rw [Int.emod_eq_of_lt (by omega) (by omega)]
  have hcap : 0 < (env.MAXBUFSIZE - c.buflen).toNat := by omega
  refine ⟨hlen, ?_, ?_⟩
  · intro hgot
    have h1 : stream.take n = [] := by
      rcases List.take_eq_nil_iff.1 hgot with h | h
      · have h2 : n = 0 := by omega
        rw [h2]; rfl
      · rw [h]; simp
    constructor
    · rw [h1]; rfl
    · rcases List.take_eq_nil_iff.1 hgot with h | h
      · rw [h]; rfl
      · rw [h]; simp
  · intro hgot
    cases havail : stream.take n with
    | nil =>
      exfalso
      apply hgot
      rcases List.take_eq_nil_iff.1 havail with h | h
      · rw [h]; simp
      · rw [h]; simp
    | cons b bytes =>
      have hgot2 : (b :: bytes).take ((env.MAXBUFSIZE - c.buflen) % 2 ^ 64).toNat =
          stream.take (min n (env.MAXBUFSIZE - c.buflen).toNat) := by
        rw [hlen, ← havail, List.take_take, Nat.min_comm]
      have hpos : 0 < (stream.take (min n (env.MAXBUFSIZE - c.buflen).toNat)).length :=
        List.length_pos.2 hgot
      simp only [socket_recv, receive_meta]
      rw [hgot2, if_neg (by omega)]

/-- One call of `receive_meta` while the frame of a packet arrives. -/
theorem receive_meta_packet_step {W : Type} (env : meta_env W) (fuel : Nat)
    (H D : List Char) (len : Int) (w0 : W)
    (hfuel : 3 ≤ fuel) (hM : (H.length : Int) + 1 + len < env.MAXBUFSIZE)
    (hM2 : env.MAXBUFSIZE < 2 ^ 64) (hlen : 0 < len) (hD : (D.length : Int) = len)
    (hHnl : ∀ ch ∈ H, ch.toNat ≠ 10) (hHnz : ∀ ch ∈ H, ch.toNat ≠ 0)
    (hdisp : ∀ c w, c.allow_request = ALL → c.request = H →
      receive_request env.request_handlers c w = ⟨true, { c with tcplen := len }, w, some 17⟩)
    (c : connection_t) (w1 : W) (unread : List Char) (n : Nat)
    (hph : packet_phase env H D len w0 c w1 unread) :
    ∃ c1 w2, receive_meta env fuel (socket_recv (unread.take n)) c w1 = .returned true c1 w2 ∧
      packet_phase env H D len w0 c1 w2
        (unread.drop (min n ((env.MAXBUFSIZE - c.buflen) % 2 ^ 64).toNat)) := by
  obtain ⟨hdec, hnode, hall, hcase⟩ := hph
  rcases hcase with ⟨t, htcp, hbuflen, ht, hnl, hstream, hw⟩ | ⟨t, htcp, hbuflen, ht, hstream,
    hne, hw⟩ | ⟨htcp, hbuflen, hun, hdel⟩
  · -- a start of the request line is in the buffer
    have hpre := newline_free_start t unread H D hnl hstream
    obtain ⟨k1, k2, k3⟩ := receive_meta_socket env fuel unread n c w1 (by omega) (by omega) hM2
    rw [k1]
    by_cases hgot : unread.take (min n (env.MAXBUFSIZE - c.buflen).toNat) = []
    · obtain ⟨k4, k5⟩ := k2 hgot
      rw [k5]
      exact ⟨c, w1, k4, hdec, hnode, hall, Or.inl ⟨t, htcp, hbuflen, ht, hnl, hstream, hw⟩⟩
    · obtain ⟨got, hgotdef⟩ : ∃ got, got = unread.take (min n (env.MAXBUFSIZE - c.buflen).toNat) :=
        ⟨_, rfl⟩
      obtain ⟨more, hmoredef⟩ : ∃ more,
          more = unread.drop (min n (env.MAXBUFSIZE - c.buflen).toNat) := ⟨_, rfl⟩
      have hsplit : got ++ more = unread := by
        rw [hgotdef, hmoredef, List.take_append_drop]
      rw [k3 hgot, ← hgotdef, ← hmoredef, hbuflen, hw]
      obtain ⟨c0, hc0⟩ : ∃ c0 : connection_t, c0 = { c with
        buffer := mem_write c.buffer (t.length : Int) got,
        buflen := (t.length : Int) + (got.length : Int) } := ⟨_, rfl⟩
      rw [← hc0]
      apply receive_meta_loop_header env fuel H D len t got more false c0 w0 hfuel hM hlen hD
        hHnl hHnz hdisp (by rw [hc0]; exact hdec) (by rw [hc0]; exact hnode)
        (by rw [hc0]; exact hall) (by rw [hc0]; exact htcp) (by rw [hc0])
      · rw [hc0]
        show mem_read (mem_write c.buffer (t.length : Int) got) 0 t.length = t
        refine Eq.trans ?_ ht
        apply mem_read_congr
        intro j _ h2
        simp only [mem_write]
        rw [if_neg]
        omega
      · rw [hc0]
        show mem_read (mem_write c.buffer (t.length : Int) got) t.length got.length = got
        rw [mem_read_mem_write]
      · exact List.length_pos.2 (by rw [hgotdef]; exact hgot)
      · exact hnl
      · rw [List.append_assoc, hsplit]
        exact hstream
  · -- a start of the data is in the buffer
    have hlt : (t.length : Int) < len := by
      have h1 : ((t ++ unread).length : Int) = len := by rw [hstream, hD]
      rw [List.length_append] at h1
      have h2 : 0 < unread.length := List.length_pos.2 hne
      push_cast at h1
      omega
    obtain ⟨k1, k2, k3⟩ := receive_meta_socket env fuel unread n c w1 (by omega) (by omega) hM2
    rw [k1]
    by_cases hgot : unread.take (min n (env.MAXBUFSIZE - c.buflen).toNat) = []
    · obtain ⟨k4, k5⟩ := k2 hgot
      rw [k5]
      exact ⟨c, w1, k4, hdec, hnode, hall, Or.inr (Or.inl ⟨t, htcp, hbuflen, ht, hstream, hne, hw⟩)⟩
    · obtain ⟨got, hgotdef⟩ : ∃ got, got = unread.take (min n (env.MAXBUFSIZE - c.buflen).toNat) :=
        ⟨_, rfl⟩
      obtain ⟨more, hmoredef⟩ : ∃ more,
          more = unread.drop (min n (env.MAXBUFSIZE - c.buflen).toNat) := ⟨_, rfl⟩
      have hsplit : got ++ more = unread := by
        rw [hgotdef, hmoredef, List.take_append_drop]
      rw [k3 hgot, ← hgotdef, ← hmoredef, hbuflen, hw]
      obtain ⟨c0, hc0⟩ : ∃ c0 : connection_t, c0 = { c with
        buffer := mem_write c.buffer (t.length : Int) got,
        buflen := (t.length : Int) + (got.length : Int) } := ⟨_, rfl⟩
      rw [← hc0]
      have hread0 : mem_read c0.buffer 0 (t.length + got.length) = t ++ got := by
        rw [hc0]
        show mem_read (mem_write c.buffer (t.length : Int) got) 0 (t.length + got.length) = t ++ got
        have h1 := mem_read_write_behind c.buffer 0 t.length (by omega) got
        simp only [zero_add, Int.toNat_ofNat] at h1
        rw [ht] at h1
        rw [← h1]
        congr 1
      obtain ⟨j1, j2⟩ := receive_meta_loop_packet env fuel t got more false c0 w0 len (by omega)
        (by rw [hc0]; exact hdec) (by rw [hc0]; exact hnode) (by rw [hc0]; exact hall)
        (by rw [hc0]; exact htcp) (by omega) (by rw [hc0]) (List.length_pos.2 (by rw [hgotdef]; exact hgot))
        (by rw [List.append_assoc, hsplit, hstream, hD])
      by_cases hm : more = []
      · refine ⟨_, _, j1 hm, by rw [hc0]; exact hdec, by rw [hc0]; exact hnode,
          by rw [hc0]; exact hall, Or.inr (Or.inr ⟨rfl, ?_, hm, c0, c0.buffer, ?_, ?_⟩)⟩
        · have h1 : ((t ++ got).length : Int) = len := by
            rw [← hD, ← hstream, ← hsplit, hm, List.append_nil]
          rw [List.length_append] at h1
          push_cast at h1
          rw [hc0]
          show (t.length : Int) + (got.length : Int) - c.tcplen = 0
          rw [htcp]
          omega
        · have h1 : ((t ++ got).length : Int) = len := by
            rw [← hD, ← hstream, ← hsplit, hm, List.append_nil]
          rw [List.length_append] at h1
          have h2 : len.toNat = t.length + got.length := by
            push_cast at h1
            omega
          rw [h2, hread0, ← hstream, ← hsplit, hm, List.append_nil]
        · have h3 : c0.tcplen = len := by rw [hc0]; exact htcp
          rw [h3]
      · refine ⟨c0, w0, j2 hm, by rw [hc0]; exact hdec, by rw [hc0]; exact hnode,
          by rw [hc0]; exact hall, Or.inr (Or.inl ⟨t ++ got, by rw [hc0]; exact htcp, ?_, ?_, ?_,
            hm, rfl⟩)⟩
        · rw [hc0, List.length_append]
          push_cast
          rfl
        · rw [List.length_append]
          exact hread0
        · rw [List.append_assoc, hsplit, hstream]
  · -- the packet has been delivered: nothing is left to read
    rw [hun]
    refine ⟨c, w1, by simp [socket_recv, receive_meta], hdec, hnode, hall,
      Or.inr (Or.inr ⟨htcp, hbuflen, by simp, hdel⟩)⟩

/-- A run of `receive_meta` while the frame of a packet arrives. -/
theorem receive_meta_run_packet {W : Type} (env : meta_env W) (fuel : Nat)
    (H D : List Char) (len : Int) (w0 : W)
    (hfuel : 3 ≤ fuel) (hM : (H.length : Int) + 1 + len < env.MAXBUFSIZE)
    (hM2 : env.MAXBUFSIZE < 2 ^ 64) (hlen : 0 < len) (hD : (D.length : Int) = len)
    (hHnl : ∀ ch ∈ H, ch.toNat ≠ 10) (hHnz : ∀ ch ∈ H, ch.toNat ≠ 0)
    (hdisp : ∀ c w, c.allow_request = ALL → c.request = H →
      receive_request env.request_handlers c w = ⟨true, { c with tcplen := len }, w, some 17⟩)
    (reads : List Nat) :
    ∀ (c : connection_t) (w1 : W) (unread : List Char),
      packet_phase env H D len w0 c w1 unread →
      ∃ c1 w2 unread1, receive_meta_run env fuel reads unread c w1 = some (c1, w2, unread1) ∧
        packet_phase env H D len w0 c1 w2 unread1 := by
  induction reads with
  | nil => intro c w1 unread hph; exact ⟨c, w1, unread, rfl, hph⟩
  | cons n reads ih =>
    intro c w1 unread hph
    obtain ⟨c1, w2, h1, h2⟩ := receive_meta_packet_step env fuel H D len w0 hfuel hM hM2 hlen hD
      hHnl hHnz hdisp c w1 unread n hph
    obtain ⟨c2, w3, unread2, h3, h4⟩ := ih c1 w2 _ h2
    refine ⟨c2, w3, unread2, ?_, h4⟩
    simp only [receive_meta_run]
    rw [h1]
    exact h3

theorem to_short_id (v : Int) (h0 : 0 ≤ v) (h1 : v < 32768) : to_short v = v := by
  unfold to_short
  have h2 : max (-(2 ^ 63 : Int)) (min v (2 ^ 63 - 1)) = v := by
    rw [min_eq_left (by omega), max_eq_right (by omega)]
  simp only [h2]
  omega

theorem to_int_id (v : Int) (h0 : 0 ≤ v) (h1 : v < 32768) : to_int v = v := by
  unfold to_int
  have h2 : max (-(2 ^ 63 : Int)) (min v (2 ^ 63 - 1)) = v := by
    rw [min_eq_left (by omega), max_eq_right (by omega)]
  simp only [h2]
  omega

/-- The request line that `send_tcppacket` writes for a length that fits a
`short int`. -/
theorem format_d_hd_packet (len : Int) (h0 : 0 ≤ len) (h1 : len < 32768) :
    format_d_hd PACKET len =
      Nat.toDigits 10 17 ++ Char.ofNat 32 :: Nat.toDigits 10 len.toNat := by
  unfold format_d_hd
  simp only [to_short_id len h0 h1]
  rw [if_neg (by omega)]
  simp [PACKET]

theorem scan_int_space (xs : List Char) : scan_int (Char.ofNat 32 :: xs) = scan_int xs := by
  have h : skip_space (Char.ofNat 32 :: xs) = skip_space xs := by
    have h1 : isspace (Char.ofNat 32) = true := by decide
    simp only [skip_space, h1, if_true]
  unfold scan_int
  rw [h]

/-- What the reader needs to know about the request line of a packet. -/
theorem packet_line (len : Int) (h0 : 0 ≤ len) (h1 : len < 32768) :
    ((format_d_hd PACKET len).length : Int) ≤ 8 ∧
    (∀ ch ∈ format_d_hd PACKET len, ch.toNat ≠ 10) ∧
    (∀ ch ∈ format_d_hd PACKET len, ch.toNat ≠ 0) ∧
    sscanf_d (format_d_hd PACKET len) = some 17 ∧
    sscanf_d_hd (format_d_hd PACKET len) = some len := by
  rw [format_d_hd_packet len h0 h1]
  have hdig := (toDigits_digits len.toNat).2
  have hrange : ∀ ch ∈ Nat.toDigits 10 17 ++ Char.ofNat 32 :: Nat.toDigits 10 len.toNat,
      ch.toNat = 32 ∨ (48 ≤ ch.toNat ∧ ch.toNat ≤ 57) := by
    intro ch hch
    rcases List.mem_append.1 hch with h | h
    · right; exact (toDigits_digits 17).2 ch h
    · rcases List.mem_cons.1 h with h2 | h2
      · left; rw [h2]; rfl
      · right; exact hdig ch h2
  have hscan1 : scan_int (Nat.toDigits 10 17 ++ Char.ofNat 32 :: Nat.toDigits 10 len.toNat) =
      some ((17 : Int), Char.ofNat 32 :: Nat.toDigits 10 len.toNat) := by
    have h := scan_int_toDigits 17 (Char.ofNat 32 :: Nat.toDigits 10 len.toNat)
      (by intro x xs hx; rw [(List.cons.inj hx).1.symm]; rfl)
    exact h
  have hscan2 : scan_int (Char.ofNat 32 :: Nat.toDigits 10 len.toNat) =
      some (len, []) := by
    rw [scan_int_space]
    have h := scan_int_toDigits len.toNat [] (by intro x xs hx; cases hx)
    rw [List.append_nil] at h
    rw [h, Int.toNat_of_nonneg h0]
  refine ⟨?_, ?_, ?_, ?_, ?_⟩
  · have h2 : (Nat.toDigits 10 len.toNat).length ≤ 5 :=
      Nat.toDigitsCore_length 10 (by decide) _ _ 5 (by omega) (by decide)
    have h3 : (Nat.toDigits 10 17).length = 2 := by decide
    simp only [List.length_append, List.length_cons, h3]
    push_cast
    omega
  · intro ch hch
    rcases hrange ch hch with h | h <;> omega
  · intro ch hch
    rcases hrange ch hch with h | h <;> omega
  · unfold sscanf_d
    rw [hscan1]
    simp only
    rw [to_int_id 17 (by decide) (by decide)]
  · unfold sscanf_d_hd
    rw [hscan1]
    simp only
    rw [hscan2]
    simp only
    rw [to_short_id len h0 h1]

/-- The calls of `send_meta` that a successful `send_tcppacket` makes on a
connection other than the pseudo connection `broadcast`: the request line with
its newline, then the data. -/
theorem send_tcppacket_effects (env : subnet_env) (w : world_t) (c : Nat)
    (packet : vpn_packet_t) (hbc : c ≠ w.broadcast)
    (hsend : (send_tcppacket env w c packet).1 = true) :
    (send_tcppacket env w c packet).2.effects = w.effects ++
      [.send_meta c (format_d_hd PACKET packet.len ++ [Char.ofNat 10]),
       .send_meta c (mem_read packet.data 0 packet.len.toNat)] := by
  unfold send_tcppacket send_request at hsend ⊢
  by_cases hfit : ((format_d_hd PACKET packet.len).length : Int) > (env.MAXBUFSIZE : Int) - 1
  · rw [if_pos hfit] at hsend
    simp at hsend
  · rw [if_neg hfit] at hsend ⊢
    simp only [if_neg hbc] at hsend ⊢
    cases h1 : env.send_meta c (format_d_hd PACKET packet.len ++ [Char.ofNat 10])
    · rw [h1] at hsend
      simp at hsend
    · simp

theorem sent_bytes_packet (c : Nat) (es : List effect_t) (a b : List Char) :
    sent_bytes c ((es ++ [effect_t.send_meta c a, effect_t.send_meta c b]).drop es.length) =
      a ++ b := by
  rw [List.drop_left]
  simp [sent_bytes]

/-- C17: take a packet with `0 < len <= MTU`, where `MTU` fits a `short int`
and `MTU + 9 < MAXBUFSIZE`, and the bytes that a successful `send_tcppacket`
hands to `send_meta` for a connection: the request line `17 <len>`, a newline
and the `len` data bytes.  Feed them to `receive_meta` on an unencrypted,
authenticated connection with `allow_request == ALL`, an empty buffer and no
packet pending, whose handler 17 is `tcppacket_h`.  However the bytes arrive
(`reads` lists how many are readable at each call), every call returns true;
as long as bytes are unread `receive_tcppacket` has not been called; once the
socket is drained it has been called exactly once, with a buffer that holds
the `len` data bytes (newlines among them included), and `tcplen` and `buflen`
are 0. -/
theorem tcppacket_roundtrip {W : Type} (senv : subnet_env) (sw : world_t) (cid : Nat)
    (packet : vpn_packet_t) (MTU : Int) (env : meta_env W) (fuel : Nat) (reads : List Nat)
    (c : connection_t) (w : W)
    (hlen : 0 < packet.len) (hmtu : packet.len ≤ MTU) (hMTU : MTU < 32768)
    (hM : MTU + 9 < env.MAXBUFSIZE) (hM2 : env.MAXBUFSIZE < 2 ^ 64) (hfuel : 3 ≤ fuel)
    (hbc : cid ≠ sw.broadcast) (hsend : (send_tcppacket senv sw cid packet).1 = true)
    (hh : env.request_handlers 17 = tcppacket_h)
    (hdec : c.decryptin = false) (hnode : c.node.isSome = true)
    (hall : c.allow_request = ALL) (htcp : c.tcplen = 0) (hbuf : c.buflen = 0) :
    sent_bytes cid ((send_tcppacket senv sw cid packet).2.effects.drop sw.effects.length) =
      format_d_hd PACKET packet.len ++ Char.ofNat 10 ::
        mem_read packet.data 0 packet.len.toNat ∧
    ∃ c1 w1 unread,
      receive_meta_run env fuel reads
        (sent_bytes cid ((send_tcppacket senv sw cid packet).2.effects.drop sw.effects.length))
        c w = some (c1, w1, unread) ∧
      (unread = [] → c1.tcplen = 0 ∧ c1.buflen = 0 ∧
        ∃ c2 b, mem_read b 0 packet.len.toNat = mem_read packet.data 0 packet.len.toNat ∧
          w1 = env.receive_tcppacket c2 b packet.len w) ∧
      (unread ≠ [] → w1 = w) := by
  have hstream : sent_bytes cid
      ((send_tcppacket senv sw cid packet).2.effects.drop sw.effects.length) =
      format_d_hd PACKET packet.len ++ Char.ofNat 10 ::
        mem_read packet.data 0 packet.len.toNat := by
    rw [send_tcppacket_effects senv sw cid packet hbc hsend, sent_bytes_packet]
    simp
  refine ⟨hstream, ?_⟩
  rw [hstream]
  obtain ⟨hl1, hl2, hl3, hl4, hl5⟩ := packet_line packet.len (by omega) (by omega)
  have hdisp : ∀ (c : connection_t) (w : W), c.allow_request = ALL →
      c.request = format_d_hd PACKET packet.len →
      receive_request env.request_handlers c w =
        ⟨true, { c with tcplen := packet.len }, w, some 17⟩ := by
    intro c w hc hr
    have hcall : env.request_handlers 17 c w = (true, { c with tcplen := packet.len }, w) := by
      rw [hh]
      simp only [tcppacket_h, hr, hl5]
    unfold receive_request
    rw [hr, hl4]
    dsimp only
    rw [if_neg (by simp [LAST]), if_neg (by rw [hc]; simp)]
    show (⟨(env.request_handlers 17 c w).1, (env.request_handlers 17 c w).2.1,
      (env.request_handlers 17 c w).2.2, some 17⟩ : dispatch_t W) = _
    rw [hcall]
  obtain ⟨c1, w1, unread, h1, hdec1, hnode1, hall1, hcase⟩ :=
    receive_meta_run_packet env fuel (format_d_hd PACKET packet.len)
      (mem_read packet.data 0 packet.len.toNat) packet.len w hfuel (by omega) hM2 hlen
      (by rw [mem_read_length]; omega) hl2 hl3 hdisp reads c w _
      ⟨hdec, hnode, hall, Or.inl ⟨[], htcp, by rw [hbuf]; rfl, rfl, by simp, rfl, rfl⟩⟩
  refine ⟨c1, w1, unread, h1, ?_, ?_⟩
  · intro hu
    rcases hcase with ⟨t, _, _, _, k4, k5, _⟩ | ⟨t, _, _, _, _, k5, _⟩ | ⟨k1, k2, _, k4⟩
    · exact absurd hu (newline_free_start t unread _ _ k4 k5).2
    · exact absurd hu k5
    · exact ⟨k1, k2, k4⟩
  · intro hu
    rcases hcase with ⟨t, _, _, _, _, _, k6⟩ | ⟨t, _, _, _, _, _, k6⟩ | ⟨_, _, k3, _⟩
    · exact k6
    · exact k6
    · exact absurd k3 hu

/-- The packet `a`, newline, `b` sent on the example connection and received
in reads of two bytes, three bytes, one byte and the rest. -/
theorem tcppacket_roundtrip_witness :
    sent_bytes 1 ((send_tcppacket example_env example_world 1
        ⟨3, buffer_of [Char.ofNat 97, Char.ofNat 10, Char.ofNat 98]⟩).2.effects.drop
        example_world.effects.length) =
      format_d_hd PACKET 3 ++ Char.ofNat 10 ::
        mem_read (buffer_of [Char.ofNat 97, Char.ofNat 10, Char.ofNat 98]) 0 3 ∧
    ∃ c1 w1 unread,
      receive_meta_run example_meta_env 3 [2, 3, 1, 10]
        (sent_bytes 1 ((send_tcppacket example_env example_world 1
          ⟨3, buffer_of [Char.ofNat 97, Char.ofNat 10, Char.ofNat 98]⟩).2.effects.drop
          example_world.effects.length))
        example_idle_connection 0 = some (c1, w1, unread) ∧
      (unread = [] → c1.tcplen = 0 ∧ c1.buflen = 0 ∧
        ∃ c2 b, mem_read b 0 3 =
            mem_read (buffer_of [Char.ofNat 97, Char.ofNat 10, Char.ofNat 98]) 0 3 ∧
          w1 = example_meta_env.receive_tcppacket c2 b 3 0) ∧
      (unread ≠ [] → w1 = 0) :=
  tcppacket_roundtrip example_env example_world 1
    ⟨3, buffer_of [Char.ofNat 97, Char.ofNat 10, Char.ofNat 98]⟩ 1518 example_meta_env 3
    [2, 3, 1, 10] example_idle_connection 0 (by decide) (by decide) (by decide) (by decide)
    (by decide) (by decide) (by decide) (by decide) rfl rfl rfl rfl rfl rfl

/-! ### PING and PONG, node names, masks, inherited sockets -/

/-- C23 (as stated) fails: on a connection pinged at time 5, with the time now
at 1000, `ping_h` returns true and leaves `pinged` set and `last_ping_time` at
5; `pong_h` clears `pinged` but leaves `last_ping_time` at 5. -/
theorem ping_h_keeps_last_ping_time :
    example_world.now = 1000 ∧
    example_pinged_connection.pinged = true ∧ example_pinged_connection.last_ping_time = 5 ∧
    (ping_h example_env example_pinged_connection example_world).1 = true ∧
    (ping_h example_env example_pinged_connection example_world).2.1.pinged = true ∧
    (ping_h example_env example_pinged_connection example_world).2.1.last_ping_time = 5 ∧
    (pong_h example_pinged_connection example_world).2.1.pinged = false ∧
    (pong_h example_pinged_connection example_world).2.1.last_ping_time = 5 := by
  decide

/-- C23 (amended): `ping_h` answers with a PONG on the same connection (its
result is that of `send_pong`) and leaves the connection as it was,
`last_ping_time` and `pinged` included; `pong_h` returns true, clears `pinged`,
resets the retry delay of an outgoing connection, and leaves `last_ping_time`
and the program state as they were.  The time stamp and the flag are set by
`send_ping`. -/
theorem ping_pong_fields {W : Type} (env : subnet_env) (c : connection_t) (w : world_t)
    (w1 : W) :
    (ping_h env c w).2.1 = c ∧
    ((ping_h env c w).1, (ping_h env c w).2.2) = send_request env w c.id (format_d PONG) ∧
    (pong_h c w1).1 = true ∧ (pong_h c w1).2.2 = w1 ∧
    (pong_h c w1).2.1.pinged = false ∧
    (pong_h c w1).2.1.last_ping_time = c.last_ping_time ∧
    (pong_h c w1).2.1 = { c with
      pinged := false
      outgoing_timeout := (if c.outgoing then 0 else c.outgoing_timeout) } ∧
    (send_ping env c w).2.1 = { c with pinged := true, last_ping_time := w.now } := by
  refine ⟨rfl, rfl, rfl, rfl, ?_, ?_, ?_, rfl⟩
  · unfold pong_h
    dsimp only
    split_ifs <;> rfl
  · unfold pong_h
    dsimp only
    split_ifs <;> rfl
  · unfold pong_h
    dsimp only
    split_ifs with h
    · rfl
    · rfl

/-- C24 (as stated) fails: a name of 65 letters `a` is longer than 64
characters, and `check_id` returns true for it. -/
theorem check_id_long_name :
    (List.replicate 65 (Char.ofNat 97)).length = 65 ∧
    check_id (List.replicate 65 (Char.ofNat 97)) = true := by
  decide

/-- C24 (amended): `check_id(id)` returns true if and only if every character
of `id` is alphanumeric or an underscore, whatever the length of `id`. -/
theorem check_id_iff (id : List Char) :
    check_id id = true ↔ ∀ ch ∈ id, isalnum ch = true ∨ ch.toNat = 95 := by
  induction id with
  | nil => simp [check_id]
  | cons ch id ih =>
    simp only [check_id, List.mem_cons, forall_eq_or_imp]
    by_cases h : (!isalnum ch && decide (ch.toNat ≠ 95)) = true
    · rw [if_pos h]
      simp only [Bool.and_eq_true, Bool.not_eq_true', decide_eq_true_eq] at h
      constructor
      · intro h1; cases h1
      · intro h1
        rcases h1.1 with h2 | h2
        · rw [h.1] at h2; cases h2
        · exact absurd h2 h.2
    · rw [if_neg h, ih]
      simp only [Bool.and_eq_true, Bool.not_eq_true', decide_eq_true_eq, not_and,
        not_not] at h
      constructor
      · intro h1
        refine ⟨?_, h1⟩
        cases ha : isalnum ch with
        | true => left; rfl
        | false => right; exact h ha
      · intro h1; exact h1.2

set_option maxRecDepth 100000 in
/-- C27 at the failing inputs: `tcppacket_h` accepts the request `17 -3000`
and leaves `tcplen = -3000`, and it accepts `17 32767` and leaves
`tcplen = 32767`, above `MAXBUFSIZE = 2176`.  With the negative length the next
call of `receive_meta` shifts the buffer by -3000 and leaves 3001 bytes in it. -/
theorem tcppacket_h_accepts_any_length :
    (tcppacket_h (example_connection 1 "17 -3000") (0 : Nat)).1 = true ∧
    (tcppacket_h (example_connection 1 "17 -3000") (0 : Nat)).2.1.tcplen = -3000 ∧
    (tcppacket_h (example_connection 1 "17 32767") (0 : Nat)).1 = true ∧
    (tcppacket_h (example_connection 1 "17 32767") (0 : Nat)).2.1.tcplen = 32767 ∧
    example_meta_env.MAXBUFSIZE = 2176 ∧
    ∃ c2 : connection_t,
      receive_meta example_meta_env 8 (.data "x".toList)
        { example_idle_connection with tcplen := -3000 } 0 = .returned false c2 1 ∧
      c2.buflen = 3001 := by
  refine ⟨by decide, by decide, by decide, by decide, rfl, _, rfl, rfl⟩

/-- C28 at the failing inputs: one byte `0xff`.  With `masklen = 1`, `mask`
leaves `0xfe`: the bits 2 to 7 are not cleared, and `maskcheck` returns false.
With `masklen = 7`, `mask` leaves `0x80`: the bits 2 to 7, which are among the
first 7, are cleared.  An address of 8 bits with the first bit kept is `0x80`,
with the first 7 bits kept `0xfe`. -/
theorem mask_keeps_wrong_bits :
    mask (bytes_of [0xff]) 1 1 0 = 0xfe ∧
    maskcheck (mask (bytes_of [0xff]) 1 1) 1 1 = false ∧
    mask (bytes_of [0xff]) 7 1 0 = 0x80 ∧
    maskcheck (bytes_of [0x80]) 1 1 = true ∧
    maskcheck (bytes_of [0xfe]) 7 1 = true := by
  decide

/-- C26 at the failing input: `LISTEN_FDS=1` with 8 slots.  The loop runs once
for `i = 0` and the set-up goes on: `listen_socket[0].tcp` is 3 and its TCP
event is armed, but the UDP event of `listen_socket[0]` carries the argument 1
(the value of `listen_sockets`) and is not armed; the event that is armed is
the UDP event of `listen_socket[1]`, on which `event_set` was never called. -/
theorem setup_myself_listen_fds_wrong_event :
    (match setup_myself_listen_fds example_setup_env "1".toList example_listen_socket with
      | .done ls => some (ls 0, (ls 1).ev_udp)
      | _ => none) =
      some (⟨3, 103, .inet 0 3, ⟨some (3, .handle_new_meta_connection, none), true⟩,
        ⟨some (103, .handle_incoming_vpn_data, some 1), false⟩⟩, ⟨none, true⟩) := by
  decide

/-- C22: a well-formed DEL_SUBNET that is not in the past-request cache and
names `myself` as the owner of a subnet that is in the subnet set of `myself`
makes `del_subnet_h` return true and send exactly one request, an ADD_SUBNET
for that subnet with owner `myself`, on the connection it arrived on: nothing
is handed to `broadcast_meta`, and the node registry, every node's subnet set
and the subnet index are unchanged. -/
theorem del_subnet_h_retaliates (env : subnet_env) (c : connection_t) (w : world_t)
    (subnetstr netstr : List Char) (s find : subnet_t)
    (hparse : sscanf_d_x_s_s env.MAX_STRING_SIZE c.request = some (w.myself, subnetstr))
    (hid : check_id w.myself = true)
    (hnet : env.str2net subnetstr = some s)
    (hnew : ¬ ∃ p ∈ w.past_request_tree, p.request = c.request)
    (hfind : lookup_subnet env w w.myself { s with owner := some w.myself } = some find)
    (howner : find.owner = some w.myself)
    (hstr : env.net2str find = some netstr)
    (hfit : ((format_d_lx_s_s ADD_SUBNET (env.random w.randoms) w.myself netstr).length : Int)
      ≤ (env.MAXBUFSIZE : Int) - 1)
    (hc : c.id ≠ w.broadcast) :
    (del_subnet_h env c w).1 = true ∧
    (del_subnet_h env c w).2.2.effects = w.effects ++
      [.send_meta c.id (format_d_lx_s_s ADD_SUBNET (env.random w.randoms) w.myself netstr ++
        [Char.ofNat 10])] ∧
    (del_subnet_h env c w).2.2.node_tree = w.node_tree ∧
    (del_subnet_h env c w).2.2.subnet_tree = w.subnet_tree ∧
    lookup_subnet env (del_subnet_h env c w).2.2 w.myself { s with owner := some w.myself } =
      some find := by
  have hme : ∃ n, lookup_node w w.myself = some n := by
    unfold lookup_subnet at hfind
    cases h : lookup_node w w.myself with
    | none => rw [h] at hfind; cases hfind
    | some n => exact ⟨n, rfl⟩
  obtain ⟨n, hn⟩ := hme
  have hfind2 : lookup_subnet env { w with past_request_tree :=
      (avl_insert past_request_compare w.past_request_tree ⟨c.request, w.now⟩) }
      w.myself { s with owner := some w.myself } = some find := hfind
  have hfit2 : ¬ ((format_d_lx_s_s ADD_SUBNET (env.random w.randoms) w.myself netstr).length
      : Int) > (env.MAXBUFSIZE : Int) - 1 := by omega
  unfold del_subnet_h
  simp only [hparse, hid, hn, hnet, seen_request_of_not_mem w _ hnew, Bool.not_true,
    Bool.false_eq_true, if_false, hfind2, ne_eq, not_true_eq_false, false_and, and_false,
    if_true, send_add_subnet, send_subnet_request, hstr, howner, send_request, if_neg hfit2,
    if_neg hc]
  refine ⟨trivial, ?_, trivial, trivial, ?_⟩
  · simp
  · exact hfind

/-- The retaliation on the example state: a peer withdraws `10.0.0.0/24` for
`me`, which `me` owns. -/
theorem del_subnet_h_retaliates_witness :
    (del_subnet_h example_env (example_connection 1 "11 4d2 me 10.0.0.0/24")
      example_world).1 = true ∧
    (del_subnet_h example_env (example_connection 1 "11 4d2 me 10.0.0.0/24")
      example_world).2.2.effects = example_world.effects ++
      [.send_meta (example_connection 1 "11 4d2 me 10.0.0.0/24").id
        (format_d_lx_s_s ADD_SUBNET (example_env.random example_world.randoms)
          example_world.myself "10.0.0.0/24".toList ++ [Char.ofNat 10])] ∧
    (del_subnet_h example_env (example_connection 1 "11 4d2 me 10.0.0.0/24")
      example_world).2.2.node_tree = example_world.node_tree ∧
    (del_subnet_h example_env (example_connection 1 "11 4d2 me 10.0.0.0/24")
      example_world).2.2.subnet_tree = example_world.subnet_tree ∧
    lookup_subnet example_env (del_subnet_h example_env
      (example_connection 1 "11 4d2 me 10.0.0.0/24") example_world).2.2 example_world.myself
      { example_subnet_a none with owner := some example_world.myself } =
      some (example_subnet_a (some "me".toList)) :=
  del_subnet_h_retaliates example_env (example_connection 1 "11 4d2 me 10.0.0.0/24")
    example_world "10.0.0.0/24".toList "10.0.0.0/24".toList (example_subnet_a none)
    (example_subnet_a (some "me".toList))
    (by decide) (by decide) (by decide) (by decide) (by decide) (by decide) (by decide)
    (by decide) (by decide)

/-! ### The graph engine: frames, hooks, `via`, termination, repetition -/

theorem memcmp_eq_zero (a b : Nat) (h : memcmp a b = 0) : a = b := by
  unfold memcmp at h
  split_ifs at h <;> omega

/-- Addresses that `sockaddrcmp` does not tell apart are equal. -/
theorem sockaddrcmp_eq_zero (a b : sockaddr_t) (h : sockaddrcmp a b = 0) : a = b := by
  unfold sockaddrcmp at h
  cases a <;> cases b <;> simp only [sockaddr_t.sa_family] at h <;>
    first
    | rfl
    | (exfalso; revert h; decide)
    | skip
  · rename_i aa ap ba bp
    simp only [sub_self, ne_eq, not_true_eq_false, if_false] at h
    by_cases h1 : strcmp aa ba = 0
    · rw [if_neg (not_not.2 h1)] at h
      rw [(strcmp_eq_zero_iff aa ba).1 h1, (strcmp_eq_zero_iff ap bp).1 h]
    · rw [if_pos h1] at h
      exact absurd h h1
  · rename_i aa ap ba bp
    simp only [sub_self, ne_eq, not_true_eq_false, if_false] at h
    by_cases h1 : memcmp aa ba = 0
    · rw [if_neg (not_not.2 h1)] at h
      rw [memcmp_eq_zero aa ba h1, memcmp_eq_zero ap bp h]
    · rw [if_pos h1] at h
      exact absurd h h1
  · rename_i aa ap ba bp
    simp only [sub_self, ne_eq, not_true_eq_false, if_false] at h
    by_cases h1 : memcmp aa ba = 0
    · rw [if_neg (not_not.2 h1)] at h
      rw [memcmp_eq_zero aa ba h1, memcmp_eq_zero ap bp h]
    · rw [if_pos h1] at h
      exact absurd h h1

/-- The record that `sssp_bfs` writes for the far end of an edge. -/
theorem sssp_bfs_target_record (g : graph_t) (s : graph_state_t) (n : List Char) (e : edge_t)
    (indirect : Bool) :
    (sssp_bfs_target g s n e indirect).visited = true ∧
    (sssp_bfs_target g s n e indirect).indirect = indirect ∧
    (sssp_bfs_target g s n e indirect).nexthop =
      (if (s.node n).nexthop = g.myself then e.to_ else (s.node n).nexthop) ∧
    (sssp_bfs_target g s n e indirect).via = (if indirect then (s.node n).via else e.to_) ∧
    (sssp_bfs_target g s n e indirect).options = e.options ∧
    (sssp_bfs_target g s n e indirect).address = e.address ∧
    (sssp_bfs_target g s n e indirect).reachable = (s.node e.to_).reachable ∧
    (sssp_bfs_target g s n e indirect).validkey = (s.node e.to_).validkey ∧
    (sssp_bfs_target g s n e indirect).waitingforkey = (s.node e.to_).waitingforkey := by
  unfold sssp_bfs_target
  dsimp only
  by_cases hc : sssp_bfs_changed s e = true
  · rw [if_pos hc]
    split_ifs <;> exact ⟨rfl, rfl, rfl, rfl, rfl, rfl, rfl, rfl, rfl⟩
  · rw [if_neg hc]
    refine ⟨rfl, rfl, rfl, rfl, rfl, ?_, rfl, rfl, rfl⟩
    apply sockaddrcmp_eq_zero
    unfold sssp_bfs_changed at hc
    simpa using hc

/-- One round of the inner loop of `sssp_bfs`, in full: either nothing
changes, or the far end of the edge, which was unvisited or is upgraded from
indirect to direct, gets its new record and is put on the list; at most a
probe is sent. -/
theorem sssp_bfs_edge_step (g : graph_t) (n : List Char) (s : graph_state_t)
    (todo : List (List Char)) (e : edge_t) :
    sssp_bfs_edge g n (s, todo) e = (s, todo) ∨
    ∃ reverse, e.reverse = some reverse ∧
      ((s.node e.to_).visited = false ∨
        ((s.node e.to_).indirect = true ∧ sssp_bfs_indirect g s n e reverse = false)) ∧
      (sssp_bfs_edge g n (s, todo) e).2 = todo ++ [e.to_] ∧
      (sssp_bfs_edge g n (s, todo) e).1.node = (fun x => if x = e.to_ then
        sssp_bfs_target g s n e (sssp_bfs_indirect g s n e reverse) else s.node x) ∧
      (sssp_bfs_edge g n (s, todo) e).1.mst = s.mst ∧
      (sssp_bfs_edge g n (s, todo) e).1.node_udp_tree = s.node_udp_tree ∧
      ((sssp_bfs_edge g n (s, todo) e).1.effects = s.effects ∨
        (sssp_bfs_edge g n (s, todo) e).1.effects = s.effects ++ [.send_mtu_probe e.to_]) := by
  unfold sssp_bfs_edge
  cases hr : e.reverse with
  | none => left; rfl
  | some reverse =>
    dsimp only
    by_cases h1 : ((s.node e.to_).visited && (!(s.node e.to_).indirect ||
        sssp_bfs_indirect g s n e reverse)) = true
    · left
      rw [if_pos h1]
    · right
      rw [if_neg h1]
      refine ⟨reverse, rfl, ?_, rfl, ?_, ?_, ?_, ?_⟩
      · cases hv : (s.node e.to_).visited with
        | false => left; rfl
        | true =>
          right
          rw [hv] at h1
          cases hi : (s.node e.to_).indirect with
          | false => rw [hi] at h1; simp at h1
          | true =>
            rw [hi] at h1
            simp only [Bool.true_and, Bool.not_true, Bool.false_or, Bool.not_eq_true] at h1
            exact ⟨rfl, h1⟩
      · split_ifs <;> rfl
      · split_ifs <;> rfl
      · split_ifs <;> rfl
      · split_ifs
        · right; rfl
        · left; rfl

/-- The recording loop computes the state that the loop of `sssp_bfs` computes. -/
theorem sssp_bfs_loop_order_fst (g : graph_t) (fuel : Nat) :
    ∀ (s : graph_state_t) (todo seen : List (List Char)),
      (sssp_bfs_loop_order g fuel s todo seen).map Prod.fst = sssp_bfs_loop g fuel s todo := by
  induction fuel with
  | zero =>
    intro s todo seen
    cases todo <;> rfl
  | succ fuel ih =>
    intro s todo seen
    cases todo with
    | nil => rfl
    | cons n todo =>
      simp only [sssp_bfs_loop_order, sssp_bfs_loop]
      exact ih _ _ _

/-- A property of the state, the list and the record that holds when a node is
taken from the list and is kept by every round of the inner loop holds when the
loop of `sssp_bfs` ends. -/
theorem sssp_bfs_loop_order_invariant (g : graph_t)
    (I : graph_state_t → List (List Char) → List (List Char) → Prop)
    (hdeq : ∀ s n todo seen, I s (n :: todo) seen → I s todo (seen ++ [n]))
    (hedge : ∀ s n todo seen e, e ∈ g.edge_tree n → I s todo (seen ++ [n]) →
      I (sssp_bfs_edge g n (s, todo) e).1 (sssp_bfs_edge g n (s, todo) e).2 (seen ++ [n]))
    (fuel : Nat) :
    ∀ (s : graph_state_t) (todo seen : List (List Char)) (r : graph_state_t × List (List Char)),
      sssp_bfs_loop_order g fuel s todo seen = some r → I s todo seen → I r.1 [] r.2 := by
  have hfold : ∀ (n : List Char) (seen : List (List Char)) (es : List edge_t),
      (∀ e ∈ es, e ∈ g.edge_tree n) → ∀ st : graph_state_t × List (List Char),
      I st.1 st.2 (seen ++ [n]) →
      I (es.foldl (sssp_bfs_edge g n) st).1 (es.foldl (sssp_bfs_edge g n) st).2
        (seen ++ [n]) := by
    intro n seen es
    induction es with
    | nil => intro _ st h; exact h
    | cons e es ih =>
      intro hes st h
      simp only [List.foldl_cons]
      exact ih (fun x hx => hes x (List.mem_cons_of_mem _ hx)) _
        (hedge st.1 n st.2 seen e (hes e (List.mem_cons_self _ _)) h)
  induction fuel with
  | zero =>
    intro s todo seen r hr h
    cases todo with
    | nil =>
      simp only [sssp_bfs_loop_order, Option.some.injEq] at hr
      rw [← hr]; exact h
    | cons n todo => simp [sssp_bfs_loop_order] at hr
  | succ fuel ih =>
    intro s todo seen r hr h
    cases todo with
    | nil =>
      simp only [sssp_bfs_loop_order, Option.some.injEq] at hr
      rw [← hr]; exact h
    | cons n todo =>
      simp only [sssp_bfs_loop_order] at hr
      exact ih _ _ _ r hr (hfold n seen (g.edge_tree n) (fun _ h => h) (s, todo) (hdeq s n todo seen h))

/-- The same for the loop of `sssp_bfs` itself and a property of the state and
the list. -/
theorem sssp_bfs_loop_invariant (g : graph_t)
    (I : graph_state_t → List (List Char) → List (List Char) → Prop)
    (hdeq : ∀ s n todo seen, I s (n :: todo) seen → I s todo (seen ++ [n]))
    (hedge : ∀ s n todo seen e, e ∈ g.edge_tree n → I s todo (seen ++ [n]) →
      I (sssp_bfs_edge g n (s, todo) e).1 (sssp_bfs_edge g n (s, todo) e).2 (seen ++ [n]))
    (fuel : Nat) (s : graph_state_t) (todo : List (List Char)) (s1 : graph_state_t)
    (h1 : sssp_bfs_loop g fuel s todo = some s1) (h : I s todo []) :
    ∃ seen, sssp_bfs_loop_order g fuel s todo [] = some (s1, seen) ∧ I s1 [] seen := by
  have h2 := sssp_bfs_loop_order_fst g fuel s todo []
  rw [h1] at h2
  cases hr : sssp_bfs_loop_order g fuel s todo [] with
  | none => rw [hr] at h2; cases h2
  | some r =>
    rw [hr] at h2
    simp only [Option.map_some', Option.some.injEq] at h2
    have h3 := sssp_bfs_loop_order_invariant g I hdeq hedge fuel s todo [] r hr h
    obtain ⟨r1, r2⟩ := r
    simp only at h2
    subst h2
    exact ⟨r2, rfl, h3⟩

theorem sssp_bfs_frame_refl (s : graph_state_t) : sssp_bfs_frame s s :=
  ⟨fun _ => ⟨rfl, rfl, rfl⟩, rfl, rfl, [], by simp, by simp⟩

theorem sssp_bfs_frame_edge (g : graph_t) (n : List Char) (s0 s : graph_state_t)
    (todo : List (List Char)) (e : edge_t) (h : sssp_bfs_frame s0 s) :
    sssp_bfs_frame s0 (sssp_bfs_edge g n (s, todo) e).1 := by
  rcases sssp_bfs_edge_step g n s todo e with heq | ⟨reverse, _, _, _, hnode, hmst, hudp, heff⟩
  · rw [heq]; exact h
  · obtain ⟨h1, h2, h3, probes, h4, h5⟩ := h
    have hrec := sssp_bfs_target_record g s n e (sssp_bfs_indirect g s n e reverse)
    refine ⟨?_, hmst.trans h2, hudp.trans h3, ?_⟩
    · intro x
      rw [hnode]
      by_cases hx : x = e.to_
      · simp only [if_pos hx]
        rw [hrec.2.2.2.2.2.2.1, hrec.2.2.2.2.2.2.2.1, hrec.2.2.2.2.2.2.2.2, hx]
        exact h1 e.to_
      · simp only [if_neg hx]
        exact h1 x
    · rcases heff with h6 | h6
      · exact ⟨probes, h6.trans h4, h5⟩
      · refine ⟨probes ++ [.send_mtu_probe e.to_], by rw [h6, h4, List.append_assoc], ?_⟩
        intro x hx
        rcases List.mem_append.1 hx with h7 | h7
        · exact h5 x h7
        · simp only [List.mem_singleton] at h7
          rw [h7]; rfl

/-- The main loop of `sssp_bfs` keeps its frame. -/
theorem sssp_bfs_loop_frame (g : graph_t) (fuel : Nat) (s : graph_state_t)
    (todo : List (List Char)) (s1 : graph_state_t)
    (h : sssp_bfs_loop g fuel s todo = some s1) : sssp_bfs_frame s s1 := by
  obtain ⟨_, _, h2⟩ := sssp_bfs_loop_invariant g (fun x _ _ => sssp_bfs_frame s x)
    (fun _ _ _ _ h => h) (fun x n todo _ e _ h => sssp_bfs_frame_edge g n s x todo e h)
    fuel s todo s1 h (sssp_bfs_frame_refl s)
  exact h2

/-- The record of a node after the reachability hook has fired for it. -/
theorem sssp_bfs_check_self (g : graph_t) (s : graph_state_t) (n : List Char) :
    (sssp_bfs_check g s n).mst = s.mst ∧
    (∀ x, x ≠ n → (sssp_bfs_check g s n).node x = s.node x) ∧
    ((s.node n).visited = (s.node n).reachable → sssp_bfs_check g s n = s) ∧
    ((s.node n).visited ≠ (s.node n).reachable →
      (sssp_bfs_check g s n).node n =
        { s.node n with reachable := !(s.node n).reachable, validkey := false,
                        waitingforkey := false, maxmtu := g.MTU, minmtu := 0, mtuprobes := 0 } ∧
      (sssp_bfs_check g s n).effects = s.effects ++
        [.execute_script ("hosts/".toList ++ n ++
            (if !(s.node n).reachable then "-up".toList else "-down".toList)) n
            (s.node n).address,
         .subnet_update n (!(s.node n).reachable)]) := by
  unfold sssp_bfs_check
  by_cases h : (s.node n).visited ≠ (s.node n).reachable
  · rw [if_pos h]
    refine ⟨rfl, ?_, fun h2 => absurd h2 h, fun _ => ⟨?_, rfl⟩⟩
    · intro x hx
      simp only [graph_state_t.set, if_neg hx]
    · simp only [graph_state_t.set, if_true]
  · rw [if_neg h]
    exact ⟨rfl, fun _ _ => rfl, fun _ => rfl, fun h2 => absurd h2 h⟩

/-- The loop "Check reachability status" of `sssp_bfs` over a list without
repetition: the hook fires for the nodes of the list whose flags `visited` and
`reachable` differ, in the order of the list, and for no other node. -/
theorem sssp_bfs_check_fold_hooks (g : graph_t) (l : List (List Char)) (hnd : l.Nodup) :
    ∀ s : graph_state_t,
      (∀ x, x ∉ l → (l.foldl (sssp_bfs_check g) s).node x = s.node x) ∧
      (∀ x ∈ l, (s.node x).visited = (s.node x).reachable →
        (l.foldl (sssp_bfs_check g) s).node x = s.node x) ∧
      (∀ x ∈ l, (s.node x).visited ≠ (s.node x).reachable →
        (l.foldl (sssp_bfs_check g) s).node x =
          { s.node x with reachable := !(s.node x).reachable, validkey := false,
                          waitingforkey := false, maxmtu := g.MTU, minmtu := 0,
                          mtuprobes := 0 }) ∧
      (l.foldl (sssp_bfs_check g) s).mst = s.mst ∧
      (l.foldl (sssp_bfs_check g) s).effects = s.effects ++
        reachability_hooks (l.foldl (sssp_bfs_check g) s)
          (l.filter (fun x => decide ((s.node x).visited ≠ (s.node x).reachable))) := by
  induction l with
  | nil =>
    intro s
    simp [reachability_hooks]
  | cons n l ih =>
    intro s
    have hn : n ∉ l := (List.nodup_cons.1 hnd).1
    obtain ⟨i1, i2, i3, i4, i5⟩ := ih (List.nodup_cons.1 hnd).2 (sssp_bfs_check g s n)
    obtain ⟨c1, c2, c3, c4⟩ := sssp_bfs_check_self g s n
    simp only [List.foldl_cons]
    have hother : ∀ x ∈ l, (sssp_bfs_check g s n).node x = s.node x :=
      fun x hx => c2 x (fun h => hn (h ▸ hx))
    refine ⟨?_, ?_, ?_, i4.trans c1, ?_⟩
    · intro x hx
      simp only [List.mem_cons, not_or] at hx
      rw [i1 x hx.2, c2 x hx.1]
    · intro x hx hv
      rcases List.mem_cons.1 hx with rfl | hx1
      · rw [i1 x hn, c3 hv]
      · rw [i2 x hx1 (by rw [hother x hx1]; exact hv), hother x hx1]
    · intro x hx hv
      rcases List.mem_cons.1 hx with rfl | hx1
      · rw [i1 x hn, (c4 hv).1]
      · rw [i3 x hx1 (by rw [hother x hx1]; exact hv), hother x hx1]
    · rw [i5]
      have hfilter : l.filter (fun x => decide (((sssp_bfs_check g s n).node x).visited ≠
            ((sssp_bfs_check g s n).node x).reachable)) =
          l.filter (fun x => decide ((s.node x).visited ≠ (s.node x).reachable)) := by
        apply List.filter_congr
        intro x hx
        rw [hother x hx]
      rw [hfilter]
      by_cases hv : (s.node n).visited ≠ (s.node n).reachable
      · have hfin : (l.foldl (sssp_bfs_check g) (sssp_bfs_check g s n)).node n =
            { s.node n with reachable := !(s.node n).reachable, validkey := false,
                            waitingforkey := false, maxmtu := g.MTU, minmtu := 0,
                            mtuprobes := 0 } := by
          rw [i1 n hn, (c4 hv).1]
        rw [(c4 hv).2, List.filter_cons, if_pos (decide_eq_true hv)]
        simp only [reachability_hooks]
        rw [hfin, List.append_assoc]
        rfl
      · rw [c3 (not_not.1 hv), List.filter_cons, if_neg (by rw [decide_eq_true_eq]; exact hv)]
/-- The function `sssp_bfs` in three parts: the start, the main loop, the
reachability check. -/
theorem sssp_bfs_eq (fuel : Nat) (g : graph_t) (s : graph_state_t) :
    sssp_bfs fuel g s = (sssp_bfs_loop g fuel (sssp_bfs_start g s) [g.myself]).map
      (fun s1 => g.node_tree.foldl (sssp_bfs_check g) s1) := by
  unfold sssp_bfs sssp_bfs_start
  dsimp only
  cases sssp_bfs_loop g fuel _ [g.myself] <;> rfl

theorem sssp_bfs_order_eq (fuel : Nat) (g : graph_t) (s : graph_state_t) :
    sssp_bfs_order fuel g s =
      (sssp_bfs_loop_order g fuel (sssp_bfs_start g s) [g.myself] []).map Prod.snd := rfl

/-- The records at the start of the main loop. -/
theorem sssp_bfs_start_node (g : graph_t) (s : graph_state_t) :
    (sssp_bfs_start g s).mst = s.mst ∧ (sssp_bfs_start g s).effects = s.effects ∧
    (sssp_bfs_start g s).node_udp_tree = s.node_udp_tree ∧
    ((sssp_bfs_start g s).node g.myself =
      { s.node g.myself with visited := true, indirect := false, nexthop := g.myself,
                             via := g.myself } ∨
     (sssp_bfs_start g s).node g.myself =
      { s.node g.myself with visited := true, indirect := false, nexthop := g.myself,
                             via := g.myself }) ∧
    (∀ x ∈ g.node_tree, x ≠ g.myself → (sssp_bfs_start g s).node x =
      { s.node x with visited := false, indirect := true }) ∧
    (∀ x, x ∉ g.node_tree → x ≠ g.myself → (sssp_bfs_start g s).node x = s.node x) := by
  unfold sssp_bfs_start
  refine ⟨rfl, rfl, rfl, ?_, ?_, ?_⟩
  · left
    simp only [graph_state_t.set, if_true]
    split_ifs <;> rfl
  · intro x hx hxm
    simp only [graph_state_t.set, if_neg hxm, if_pos hx]
  · intro x hx hxm
    simp only [graph_state_t.set, if_neg hxm, if_neg hx]

/-- The flags that the start of `sssp_bfs` leaves alone. -/
theorem sssp_bfs_start_frame (g : graph_t) (s : graph_state_t) (x : List Char) :
    ((sssp_bfs_start g s).node x).reachable = (s.node x).reachable ∧
    ((sssp_bfs_start g s).node x).validkey = (s.node x).validkey ∧
    ((sssp_bfs_start g s).node x).waitingforkey = (s.node x).waitingforkey ∧
    ((sssp_bfs_start g s).node x).options = (s.node x).options ∧
    ((sssp_bfs_start g s).node x).address = (s.node x).address ∧
    (x ≠ g.myself → ((sssp_bfs_start g s).node x).nexthop = (s.node x).nexthop ∧
      ((sssp_bfs_start g s).node x).via = (s.node x).via) := by
  unfold sssp_bfs_start
  simp only [graph_state_t.set]
  by_cases hxm : x = g.myself
  · simp only [if_pos hxm]
    subst hxm
    split_ifs <;> exact ⟨rfl, rfl, rfl, rfl, rfl, fun h => absurd rfl h⟩
  · simp only [if_neg hxm]
    split_ifs <;> exact ⟨rfl, rfl, rfl, rfl, rfl, fun _ => ⟨rfl, rfl⟩⟩

/-- The invariant of the main loop holds at its start, and the loop returns. -/
theorem sssp_bfs_loop_returns (g : graph_t) (s : graph_state_t) (fuel : Nat) (hg : g.closed)
    (hfuel : 2 * g.node_tree.length + 1 ≤ fuel) :
    ∃ s1, sssp_bfs_loop g fuel (sssp_bfs_start g s) [g.myself] = some s1 ∧
      sssp_inv g s1 [] [] := by
  obtain ⟨h1, h2, h3, h4, h5, h6⟩ := sssp_bfs_start_node g s
  have hs0m : ((sssp_bfs_start g s).node g.myself).visited = true ∧
      ((sssp_bfs_start g s).node g.myself).indirect = false ∧
      ((sssp_bfs_start g s).node g.myself).nexthop = g.myself := by
    rcases h4 with h | h <;> rw [h] <;> exact ⟨rfl, rfl, rfl⟩
  have hs0x : ∀ x ∈ g.node_tree, x ≠ g.myself →
      ((sssp_bfs_start g s).node x).visited = false := by
    intro x hx hxm
    rw [h5 x hx hxm]
  have hinv : sssp_inv g (sssp_bfs_start g s) [g.myself] [] := by
    constructor
    · intro x hx
      simp only [List.append_nil, List.mem_singleton] at hx
      rw [hx]; exact ⟨hg.1, hs0m.1⟩
    · intro x hx hv
      by_cases hxm : x = g.myself
      · rw [hxm]; exact Relation.ReflTransGen.refl
      · rw [hs0x x hx hxm] at hv; cases hv
    · exact hs0m
    · intro x hx hv hxm
      rw [hs0x x hx hxm] at hv; cases hv
    · intro x hx hv
      by_cases hxm : x = g.myself
      · left; simp [hxm]
      · rw [hs0x x hx hxm] at hv; cases hv
  have hpot : sssp_potential g (sssp_bfs_start g s) ≤ 2 * g.node_tree.length := by
    unfold sssp_potential
    generalize g.node_tree = l
    induction l with
    | nil => simp
    | cons a l ih =>
      simp only [List.map_cons, List.sum_cons, List.length_cons]
      have : sssp_rank ((sssp_bfs_start g s).node a) ≤ 2 := by
        unfold sssp_rank; split_ifs <;> omega
      omega
  exact sssp_bfs_loop_inv g hg fuel _ [g.myself] hinv
    (by simp only [List.length_singleton]; omega)

/-- C21: on a registry closed under the edges and without repetition,
`sssp_bfs` returns, and the reachability hook has fired for exactly the
registered nodes whose reachability changed: those for which the result of the
search, the flag `visited` (set exactly for the nodes at the end of a path of
reverse-confirmed edges from `myself`), differs from the flag `reachable` they
had before.  For each of them `reachable` is flipped, `validkey` and
`waitingforkey` are cleared, `mtuprobes` and `minmtu` are 0 and `maxmtu` is
`MTU`; for every other registered node `reachable`, `validkey` and
`waitingforkey` are as before.  Apart from probes, the calls made are, for
each changed node in the order of the registry, the script
`hosts/<name>-up` (the node became reachable) or `hosts/<name>-down` (it
became unreachable) followed by `subnet_update`. -/
theorem sssp_bfs_reachability_hook (g : graph_t) (s : graph_state_t) (fuel : Nat)
    (hg : g.closed) (hnd : g.node_tree.Nodup) (hfuel : 2 * g.node_tree.length + 1 ≤ fuel) :
    ∃ s1, sssp_bfs fuel g s = some s1 ∧
      (∀ n ∈ g.node_tree, ((s1.node n).visited = true ↔ confirmed_path g g.myself n)) ∧
      (∀ n ∈ g.node_tree, (s1.node n).visited ≠ (s.node n).reachable →
        (s1.node n).reachable = (!(s.node n).reachable) ∧
        (s1.node n).reachable = (s1.node n).visited ∧
        (s1.node n).validkey = false ∧ (s1.node n).waitingforkey = false ∧
        (s1.node n).mtuprobes = 0 ∧ (s1.node n).minmtu = 0 ∧ (s1.node n).maxmtu = g.MTU) ∧
      (∀ n ∈ g.node_tree, (s1.node n).visited = (s.node n).reachable →
        (s1.node n).reachable = (s.node n).reachable ∧
        (s1.node n).validkey = (s.node n).validkey ∧
        (s1.node n).waitingforkey = (s.node n).waitingforkey) ∧
      (s1.effects.drop s.effects.length).filter (fun e => !e.is_probe) =
        reachability_hooks s1 (g.node_tree.filter
          (fun n => decide ((s1.node n).visited ≠ (s.node n).reachable))) := by
  obtain ⟨sf, hloop, hfin⟩ := sssp_bfs_loop_returns g s fuel hg hfuel
  obtain ⟨hfr, -, -, probes, hprobes, hisprobe⟩ := sssp_bfs_loop_frame g fuel _ _ sf hloop
  obtain ⟨c1, c2, c3, -, c5⟩ := sssp_bfs_check_fold_hooks g g.node_tree hnd sf
  have hvis : ∀ x, ((g.node_tree.foldl (sssp_bfs_check g) sf).node x).visited =
      (sf.node x).visited := fun x => ((sssp_bfs_check_fold g g.node_tree sf).1 x).1
  have hsf : ∀ x, (sf.node x).reachable = (s.node x).reachable ∧
      (sf.node x).validkey = (s.node x).validkey ∧
      (sf.node x).waitingforkey = (s.node x).waitingforkey := by
    intro x
    obtain ⟨a1, a2, a3⟩ := hfr x
    obtain ⟨b1, b2, b3, -⟩ := sssp_bfs_start_frame g s x
    exact ⟨a1.trans b1, a2.trans b2, a3.trans b3⟩
  refine ⟨_, by rw [sssp_bfs_eq, hloop]; rfl, ?_, ?_, ?_, ?_⟩
  · -- the result of the search
    intro n hn
    rw [hvis]
    constructor
    · exact hfin.sound n hn
    · intro hp
      have key : ∀ m, confirmed_path g g.myself m →
          m ∈ g.node_tree ∧ (sf.node m).visited = true := by
        intro m hm
        induction hm with
        | refl => exact ⟨hg.1, hfin.self.1⟩
        | tail _ hedge ih =>
          obtain ⟨e, he, hto, hr⟩ := hedge
          rcases hfin.closed _ ih.1 ih.2 with h1 | h1 | h1
          · simp at h1
          · simp at h1
          · rw [← hto]
            exact ⟨hg.2 _ ih.1 e he, h1 e he hr⟩
      exact (key n hp).2
  · intro n hn hch
    rw [hvis, ← (hsf n).1] at hch
    rw [hvis, c3 n hn hch, (hsf n).1]
    refine ⟨rfl, ?_, rfl, rfl, rfl, rfl, rfl⟩
    simp only
    rw [← (hsf n).1]
    revert hch
    cases (sf.node n).visited <;> cases (sf.node n).reachable <;> simp
  · intro n hn hsame
    rw [hvis, ← (hsf n).1] at hsame
    rw [c2 n hn hsame]
    exact hsf n
  · rw [c5, hprobes, (sssp_bfs_start_node g s).2.1, List.append_assoc, List.drop_left,
      List.filter_append]
    have h1 : probes.filter (fun e => !e.is_probe) = [] := by
      rw [List.filter_eq_nil_iff]
      intro e he
      rw [hisprobe e he]
      simp
    have h2 : ∀ (st : graph_state_t) (l : List (List Char)),
        (reachability_hooks st l).filter (fun e => !e.is_probe) = reachability_hooks st l := by
      intro st l
      have hp1 : ∀ a b c, (!(graph_effect_t.execute_script a b c).is_probe) = true :=
        fun _ _ _ => rfl
      have hp2 : ∀ a b, (!(graph_effect_t.subnet_update a b).is_probe) = true :=
        fun _ _ => rfl
      induction l with
      | nil => rfl
      | cons a l ih =>
        simp only [reachability_hooks, List.filter_cons, hp1, hp2, if_true, ih]
    rw [h1, h2, List.nil_append]
    congr 1
    apply List.filter_congr
    intro n _
    rw [decide_eq_decide, hvis, (hsf n).1]

/-- The hook on the example graph, from a state in which `B` is flagged
reachable and `D` is not. -/
theorem sssp_bfs_reachability_hook_witness :
    ∃ s1, sssp_bfs 40 example_graph example_graph_state_stale = some s1 ∧
      (∀ n ∈ example_graph.node_tree,
        ((s1.node n).visited = true ↔ confirmed_path example_graph example_graph.myself n)) ∧
      (∀ n ∈ example_graph.node_tree,
        (s1.node n).visited ≠ (example_graph_state_stale.node n).reachable →
        (s1.node n).reachable = (!(example_graph_state_stale.node n).reachable) ∧
        (s1.node n).reachable = (s1.node n).visited ∧
        (s1.node n).validkey = false ∧ (s1.node n).waitingforkey = false ∧
        (s1.node n).mtuprobes = 0 ∧ (s1.node n).minmtu = 0 ∧
        (s1.node n).maxmtu = example_graph.MTU) ∧
      (∀ n ∈ example_graph.node_tree,
        (s1.node n).visited = (example_graph_state_stale.node n).reachable →
        (s1.node n).reachable = (example_graph_state_stale.node n).reachable ∧
        (s1.node n).validkey = (example_graph_state_stale.node n).validkey ∧
        (s1.node n).waitingforkey = (example_graph_state_stale.node n).waitingforkey) ∧
      (s1.effects.drop example_graph_state_stale.effects.length).filter
          (fun e => !e.is_probe) =
        reachability_hooks s1 (example_graph.node_tree.filter
          (fun n => decide ((s1.node n).visited ≠
            (example_graph_state_stale.node n).reachable))) :=
  sssp_bfs_reachability_hook example_graph example_graph_state_stale 40 example_graph_closed
    (by decide) (by decide)

/-- The invariant for `via` holds when the main loop of `sssp_bfs` ends. -/
theorem sssp_bfs_loop_via (g : graph_t) (hg : g.closed) (fuel : Nat) (s s1 : graph_state_t)
    (h : sssp_bfs_loop g fuel (sssp_bfs_start g s) [g.myself] = some s1) :
    sssp_via_inv g s1 := by
  refine Exists.elim (sssp_bfs_loop_invariant g
    (fun x todo seen => sssp_via_inv g x ∧
      ∀ y ∈ seen ++ todo, y ∈ g.node_tree ∧ (x.node y).visited = true)
    ?_ ?_ fuel _ _ s1 h ?_) (fun _ h2 => h2.2.1)
  · -- taking a node from the list
    intro x n todo seen hI
    refine ⟨hI.1, fun y hy => hI.2 y ?_⟩
    simp only [List.mem_append, List.mem_cons, List.mem_singleton, List.not_mem_nil,
      or_false] at hy ⊢
    tauto
  · -- one round of the inner loop
    intro x n todo seen e he hI
    obtain ⟨hvia, hlist⟩ := hI
    have hn : n ∈ g.node_tree ∧ (x.node n).visited = true := hlist n (by simp)
    have hto : e.to_ ∈ g.node_tree := hg.2 n hn.1 e he
    rcases sssp_bfs_edge_step g n x todo e with heq | ⟨reverse, hrev, hpre, htodo, hnode, -, -, -⟩
    · rw [heq]; exact ⟨hvia, hlist⟩
    · have hrec := sssp_bfs_target_record g x n e (sssp_bfs_indirect g x n e reverse)
      obtain ⟨hn1, hn2, hn3, hn4, hn5⟩ := hvia n hn.1 hn.2
      have hedge : confirmed_edge g n e.to_ := ⟨e, he, rfl, by rw [hrev]; rfl⟩
      -- a visited direct node is not the one that is rewritten
      have hkeep : ∀ v, (x.node v).visited = true → (x.node v).indirect = false → v ≠ e.to_ := by
        intro v hv hi hve
        rw [hve] at hv hi
        rcases hpre with h1 | ⟨h1, -⟩
        · rw [h1] at hv; cases hv
        · rw [h1] at hi; cases hi
      constructor
      · intro y hy hvy
        rw [hnode] at hvy ⊢
        by_cases hye : y = e.to_
        · simp only [if_pos hye]
          have hne : (x.node n).via ≠ e.to_ := hkeep _ hn2 hn3
          generalize sssp_bfs_indirect g x n e reverse = ind at hrec ⊢
          obtain ⟨r1, r2, -, r4, -⟩ := hrec
          cases ind with
          | false =>
            have r4b : (sssp_bfs_target g x n e false).via = e.to_ := by simpa using r4
            rw [r4b, if_pos rfl, r1, r2, hye]
            exact ⟨hto, rfl, rfl, ⟨fun _ => rfl, fun _ => rfl⟩, Relation.ReflTransGen.refl⟩
          | true =>
            have r4b : (sssp_bfs_target g x n e true).via = (x.node n).via := by simpa using r4
            rw [r4b, if_neg hne, r2, hye]
            refine ⟨hn1, hn2, hn3, ⟨fun h1 => absurd h1 hne, fun h1 => by cases h1⟩, ?_⟩
            exact Relation.ReflTransGen.tail hn5 hedge
        · simp only [if_neg hye] at hvy ⊢
          obtain ⟨k1, k2, k3, k4, k5⟩ := hvia y hy hvy
          have hne : (x.node y).via ≠ e.to_ := hkeep _ k2 k3
          simp only [if_neg hne]
          exact ⟨k1, k2, k3, k4, k5⟩
      · intro y hy
        rw [htodo] at hy
        rw [hnode]
        by_cases hye : y = e.to_
        · simp only [if_pos hye]
          rw [hye]
          exact ⟨hto, hrec.1⟩
        · simp only [if_neg hye]
          apply hlist y
          simp only [List.mem_append, List.mem_singleton] at hy ⊢
          tauto
  · -- the start
    obtain ⟨-, -, -, h4, h5, -⟩ := sssp_bfs_start_node g s
    have hmy : ((sssp_bfs_start g s).node g.myself).visited = true ∧
        ((sssp_bfs_start g s).node g.myself).indirect = false ∧
        ((sssp_bfs_start g s).node g.myself).via = g.myself := by
      rcases h4 with h | h <;> rw [h] <;> exact ⟨rfl, rfl, rfl⟩
    constructor
    · intro y hy hvy
      by_cases hym : y = g.myself
      · rw [hym, hmy.2.2]
        exact ⟨hg.1, hmy.1, hmy.2.1, ⟨fun _ => hmy.2.1, fun _ => rfl⟩,
          Relation.ReflTransGen.refl⟩
      · rw [h5 y hy hym] at hvy
        cases hvy
    · intro y hy
      simp only [List.nil_append, List.mem_singleton] at hy
      rw [hy]
      exact ⟨hg.1, hmy.1⟩

/-- The fields that the reachability check leaves alone. -/
theorem sssp_bfs_check_fold_fields (g : graph_t) (l : List (List Char)) (s : graph_state_t)
    (x : List Char) :
    ((l.foldl (sssp_bfs_check g) s).node x).visited = (s.node x).visited ∧
    ((l.foldl (sssp_bfs_check g) s).node x).indirect = (s.node x).indirect ∧
    ((l.foldl (sssp_bfs_check g) s).node x).nexthop = (s.node x).nexthop ∧
    ((l.foldl (sssp_bfs_check g) s).node x).via = (s.node x).via ∧
    ((l.foldl (sssp_bfs_check g) s).node x).options = (s.node x).options ∧
    ((l.foldl (sssp_bfs_check g) s).node x).address = (s.node x).address := by
  induction l generalizing s with
  | nil => exact ⟨rfl, rfl, rfl, rfl, rfl, rfl⟩
  | cons n l ih =>
    simp only [List.foldl_cons]
    obtain ⟨i1, i2, i3, i4, i5, i6⟩ := ih (sssp_bfs_check g s n)
    have hstep : ((sssp_bfs_check g s n).node x).visited = (s.node x).visited ∧
        ((sssp_bfs_check g s n).node x).indirect = (s.node x).indirect ∧
        ((sssp_bfs_check g s n).node x).nexthop = (s.node x).nexthop ∧
        ((sssp_bfs_check g s n).node x).via = (s.node x).via ∧
        ((sssp_bfs_check g s n).node x).options = (s.node x).options ∧
        ((sssp_bfs_check g s n).node x).address = (s.node x).address := by
      obtain ⟨-, c2, c3, c4⟩ := sssp_bfs_check_self g s n
      by_cases hx : x = n
      · by_cases hv : (s.node n).visited = (s.node n).reachable
        · rw [c3 hv]; exact ⟨rfl, rfl, rfl, rfl, rfl, rfl⟩
        · rw [hx, (c4 hv).1]; exact ⟨rfl, rfl, rfl, rfl, rfl, rfl⟩
      · rw [c2 x hx]; exact ⟨rfl, rfl, rfl, rfl, rfl, rfl⟩
    exact ⟨i1.trans hstep.1, i2.trans hstep.2.1, i3.trans hstep.2.2.1,
      i4.trans hstep.2.2.2.1, i5.trans hstep.2.2.2.2.1, i6.trans hstep.2.2.2.2.2⟩

/-- C25 (as stated) fails in its last part.  On `example_graph_upgrade` the
node `X` is first reached through the indirect edge from `V`, and `Y` is
reached from `X` while `X` is indirect, so `Y.via` becomes `V`; then `X` is
upgraded to direct through `W`, and `Y`, whose edge from `X` is flagged
indirect, is not rewritten.  After `sssp_bfs` every node is reachable, `Y` is
indirect with `via == V`, while `X`, the only node with an edge into `Y` and
hence the last node before `Y` on every path, is direct. -/
theorem sssp_bfs_via_not_last :
    (sssp_bfs 40 example_graph_upgrade example_graph_state).map
      (fun s => example_graph_upgrade.node_tree.map
        (fun n => ((s.node n).reachable, (s.node n).indirect, (s.node n).via))) =
      some [(true, false, ['A']), (true, false, ['V']), (true, false, ['W']),
        (true, false, ['X']), (true, true, ['V'])] ∧
    (∀ n ∈ example_graph_upgrade.node_tree, ∀ e ∈ example_graph_upgrade.edge_tree n,
      e.to_ = ['Y'] → n = ['X']) := by
  decide

/-- C25, amended: on a registry closed under the edges, after `sssp_bfs` every
reachable registered node `n` has `n.via == n` if and only if its flag
`indirect` is false, and `n.via` is a registered, reachable node whose flag
`indirect` is false and from which a path of reverse-confirmed edges leads to
`n`. -/
theorem sssp_bfs_via (g : graph_t) (s : graph_state_t) (fuel : Nat) (hg : g.closed)
    (hfuel : 2 * g.node_tree.length + 1 ≤ fuel) :
    ∃ s1, sssp_bfs fuel g s = some s1 ∧
      ∀ n ∈ g.node_tree, (s1.node n).reachable = true →
        ((s1.node n).via = n ↔ (s1.node n).indirect = false) ∧
        (s1.node n).via ∈ g.node_tree ∧
        (s1.node (s1.node n).via).reachable = true ∧
        (s1.node (s1.node n).via).indirect = false ∧
        confirmed_path g (s1.node n).via n := by
  obtain ⟨sf, hloop, -⟩ := sssp_bfs_loop_returns g s fuel hg hfuel
  have hvia := sssp_bfs_loop_via g hg fuel s sf hloop
  have hc := sssp_bfs_check_fold g g.node_tree sf
  refine ⟨_, by rw [sssp_bfs_eq, hloop]; rfl, ?_⟩
  intro n hn hr
  have hf := sssp_bfs_check_fold_fields g g.node_tree sf
  rw [hc.2 n hn] at hr
  obtain ⟨k1, k2, k3, k4, k5⟩ := hvia n hn hr
  rw [(hf n).2.2.2.1, (hf n).2.1, hc.2 _ k1, (hf _).2.1]
  exact ⟨k4, k1, k2, k3, k5⟩

/-- The amended result for `via` on the graph with an upgraded node. -/
theorem sssp_bfs_via_witness :
    ∃ s1, sssp_bfs 40 example_graph_upgrade example_graph_state = some s1 ∧
      ∀ n ∈ example_graph_upgrade.node_tree, (s1.node n).reachable = true →
        ((s1.node n).via = n ↔ (s1.node n).indirect = false) ∧
        (s1.node n).via ∈ example_graph_upgrade.node_tree ∧
        (s1.node (s1.node n).via).reachable = true ∧
        (s1.node (s1.node n).via).indirect = false ∧
        confirmed_path example_graph_upgrade (s1.node n).via n :=
  sssp_bfs_via example_graph_upgrade example_graph_state 40
    (by unfold graph_t.closed; decide) (by decide)

/-- One round of the loop of `mst_kruskal`. -/
theorem mst_kruskal_loop_step (g : graph_t) (fuel : Nat) (skipped : Bool) (e : edge_t)
    (next : List edge_t) (s : graph_state_t) (safe : List edge_t) :
    mst_kruskal_loop g (fuel + 1) skipped (e :: next) s safe =
      match e.reverse with
      | none => mst_kruskal_loop g fuel true next s safe
      | some reverse =>
        if (s.node e.from_).visited = (s.node e.to_).visited then
          mst_kruskal_loop g fuel true next s safe
        else if skipped then
          mst_kruskal_loop g fuel false g.edge_weight_tree (mst_kruskal_accept s e reverse)
            (safe ++ [e])
        else mst_kruskal_loop g fuel false next (mst_kruskal_accept s e reverse) (safe ++ [e]) := by
  rw [mst_kruskal_loop]
  rfl

/-- The function `mst_kruskal` through its start state. -/
theorem mst_kruskal_eq (fuel : Nat) (g : graph_t) (s : graph_state_t) :
    mst_kruskal fuel g s =
      match g.edge_weight_tree with
      | [] => some ({ s with mst := fun c => if c ∈ g.connection_tree then false else s.mst c }, [])
      | head :: _ =>
        mst_kruskal_loop g fuel false g.edge_weight_tree (mst_kruskal_start g s head) [] := by
  unfold mst_kruskal mst_kruskal_start
  rfl

/-- What adding a safe edge changes: the flag `visited` of the two ends, and
the flag `mst` of the connections of the edge and of its reverse. -/
theorem mst_kruskal_accept_spec (s : graph_state_t) (e : edge_t) (reverse : edge_reverse_t) :
    (∀ x, (mst_kruskal_accept s e reverse).node x =
      { s.node x with visited := decide (x = e.to_) || decide (x = e.from_) ||
          (s.node x).visited }) ∧
    (∀ c, (mst_kruskal_accept s e reverse).mst c =
      (s.mst c || decide (e.connection = some c) || decide (reverse.connection = some c))) ∧
    (mst_kruskal_accept s e reverse).effects = s.effects ∧
    (mst_kruskal_accept s e reverse).node_udp_tree = s.node_udp_tree := by
  unfold mst_kruskal_accept
  refine ⟨?_, ?_, ?_, ?_⟩
  · intro x
    have hn : ∀ (a : graph_state_t) (f : Nat → Bool), ({ a with mst := f } : graph_state_t).node
        = a.node := fun _ _ => rfl
    cases e.connection <;> cases reverse.connection <;>
      simp only [graph_state_t.set] <;>
      by_cases h1 : x = e.to_ <;> by_cases h2 : x = e.from_ <;>
      simp [h1, h2] <;> cases (s.node x).visited <;> simp_all
  · intro c
    cases hc1 : e.connection <;> cases hc2 : reverse.connection <;>
      simp only [graph_state_t.set] <;> simp [eq_comm] <;>
      cases s.mst c <;> simp [Bool.or_comm]
  · cases e.connection <;> cases reverse.connection <;> rfl
  · cases e.connection <;> cases reverse.connection <;> rfl

/-- Flagging more nodes visited does not raise the number of unvisited nodes,
and lowers it when a registered node is newly flagged. -/
theorem mst_unvisited_lt (g : graph_t) (s s1 : graph_state_t) (y : List Char)
    (hy : y ∈ g.node_tree) (h : ∀ x, (s.node x).visited = true → (s1.node x).visited = true)
    (hy0 : (s.node y).visited = false) (hy1 : (s1.node y).visited = true) :
    mst_unvisited g s1 + 1 ≤ mst_unvisited g s := by
  unfold mst_unvisited
  apply Nat.succ_le_of_lt
  apply List.sum_lt_sum
  · intro x _
    by_cases hx : (s.node x).visited = true
    · rw [if_pos hx, if_pos (h x hx)]
    · rw [if_neg hx]
      split_ifs <;> omega
  · exact ⟨y, hy, by rw [hy0, hy1]; simp⟩

/-- The number of unvisited nodes is at most the number of nodes, and smaller
when a registered node is visited. -/
theorem mst_unvisited_le (g : graph_t) (s : graph_state_t) (y : List Char)
    (hy : y ∈ g.node_tree) (hy1 : (s.node y).visited = true) :
    mst_unvisited g s + 1 ≤ g.node_tree.length := by
  have h : (g.node_tree.map (fun x => if (s.node x).visited then 0 else 1)).sum <
      (g.node_tree.map (fun _ => 1)).sum := by
    apply List.sum_lt_sum
    · intro x _
      split_ifs <;> simp
    · exact ⟨y, hy, by rw [hy1]; simp⟩
  simp only [List.map_const', List.sum_replicate, smul_eq_mul, mul_one] at h
  unfold mst_unvisited
  omega

/-- Adding a safe edge flags at least one more registered node. -/
theorem mst_kruskal_accept_unvisited (g : graph_t) (s : graph_state_t) (e : edge_t)
    (reverse : edge_reverse_t) (hf : e.from_ ∈ g.node_tree) (ht : e.to_ ∈ g.node_tree)
    (hne : (s.node e.from_).visited ≠ (s.node e.to_).visited) :
    mst_unvisited g (mst_kruskal_accept s e reverse) + 1 ≤ mst_unvisited g s := by
  have hn := (mst_kruskal_accept_spec s e reverse).1
  have hmono : ∀ x, (s.node x).visited = true →
      ((mst_kruskal_accept s e reverse).node x).visited = true := by
    intro x hx
    rw [hn x]
    simp [hx]
  cases hfv : (s.node e.from_).visited
  · refine mst_unvisited_lt g s _ e.from_ hf hmono hfv ?_
    rw [hn]; simp
  · cases htv : (s.node e.to_).visited
    · refine mst_unvisited_lt g s _ e.to_ ht hmono htv ?_
      rw [hn]; simp
    · rw [hfv, htv] at hne
      exact absurd rfl hne

/-- The loop of `mst_kruskal` ends when it has one round for every edge still
to scan and one scan of the whole list for every unvisited node; it adds fewer
safe edges than there are nodes. -/
theorem mst_kruskal_loop_returns (g : graph_t) (hw : g.weight_closed) (fuel : Nat) :
    ∀ (skipped : Bool) (l : List edge_t) (s : graph_state_t) (safe : List edge_t),
      (∀ e ∈ l, e ∈ g.edge_weight_tree) →
      mst_unvisited g s * g.edge_weight_tree.length + l.length ≤ fuel →
      safe.length + mst_unvisited g s + 1 ≤ g.node_tree.length →
      ∃ s1 safe1, mst_kruskal_loop g fuel skipped l s safe = some (s1, safe1) ∧
        safe1.length + 1 ≤ g.node_tree.length := by
  induction fuel with
  | zero =>
    intro skipped l s safe _ hfuel hsafe
    cases l with
    | nil => exact ⟨s, safe, by simp [mst_kruskal_loop], by omega⟩
    | cons e next => simp at hfuel
  | succ fuel ih =>
    intro skipped l s safe hl hfuel hsafe
    cases l with
    | nil => exact ⟨s, safe, by simp [mst_kruskal_loop], by omega⟩
    | cons e next =>
      rw [mst_kruskal_loop_step]
      have hnext : ∀ x ∈ next, x ∈ g.edge_weight_tree :=
        fun x hx => hl x (List.mem_cons_of_mem _ hx)
      simp only [List.length_cons] at hfuel
      cases hrev : e.reverse with
      | none => exact ih true next s safe hnext (by omega) hsafe
      | some reverse =>
        dsimp only
        by_cases hv : (s.node e.from_).visited = (s.node e.to_).visited
        · rw [if_pos hv]
          exact ih true next s safe hnext (by omega) hsafe
        · rw [if_neg hv]
          have he := hw e (hl e (List.mem_cons_self _ _))
          have hu := mst_kruskal_accept_unvisited g s e reverse he.1 he.2 hv
          have hlen : (safe ++ [e]).length + mst_unvisited g (mst_kruskal_accept s e reverse) + 1
              ≤ g.node_tree.length := by
            simp only [List.length_append, List.length_singleton]
            omega
          have hmul : (mst_unvisited g (mst_kruskal_accept s e reverse) + 1) *
              g.edge_weight_tree.length ≤ mst_unvisited g s * g.edge_weight_tree.length :=
            Nat.mul_le_mul_right _ hu
          rw [Nat.add_mul, Nat.one_mul] at hmul
          cases skipped
          · rw [if_neg (by simp)]
            refine ih false next _ _ hnext ?_ hlen
            have := Nat.le_add_right (mst_unvisited g (mst_kruskal_accept s e reverse) *
              g.edge_weight_tree.length) g.edge_weight_tree.length
            omega
          · rw [if_pos rfl]
            exact ih false _ _ _ (fun x hx => hx) (by omega) hlen

/-- The function `mst_kruskal` returns, with fewer safe edges than there are
nodes. -/
theorem mst_kruskal_returns (g : graph_t) (s : graph_state_t) (fuel : Nat)
    (hw : g.weight_closed)
    (hfuel : g.node_tree.length * g.edge_weight_tree.length ≤ fuel) :
    ∃ s1 safe, mst_kruskal fuel g s = some (s1, safe) ∧
      safe.length ≤ g.node_tree.length - 1 := by
  rw [mst_kruskal_eq]
  cases hE : g.edge_weight_tree with
  | nil => exact ⟨_, [], rfl, by simp⟩
  | cons head rest =>
    dsimp only
    have hhead : head ∈ g.edge_weight_tree := by rw [hE]; exact List.mem_cons_self _ _
    have hv : ((mst_kruskal_start g s head).node head.from_).visited = true := by
      simp [mst_kruskal_start, graph_state_t.set]
    have hu := mst_unvisited_le g (mst_kruskal_start g s head) head.from_ (hw head hhead).1 hv
    have hmul : (mst_unvisited g (mst_kruskal_start g s head) + 1) *
        g.edge_weight_tree.length ≤ g.node_tree.length * g.edge_weight_tree.length :=
      Nat.mul_le_mul_right _ hu
    rw [Nat.add_mul, Nat.one_mul] at hmul
    obtain ⟨s1, safe1, h1, h2⟩ := mst_kruskal_loop_returns g hw fuel false g.edge_weight_tree
      (mst_kruskal_start g s head) [] (fun x hx => hx) (by omega) (by simpa using hu)
    rw [hE] at h1
    exact ⟨s1, safe1, h1, by omega⟩

/-- No node is put on `todo_list` more than twice: the number of times a
registered node has been on the list, plus the rank of its record, never
exceeds two. -/
theorem sssp_bfs_order_count (g : graph_t) (s : graph_state_t) (fuel : Nat) (hg : g.closed)
    (hfuel : 2 * g.node_tree.length + 1 ≤ fuel) :
    ∃ order, sssp_bfs_order fuel g s = some order ∧ ∀ x, order.count x ≤ 2 := by
  obtain ⟨s1, hloop, -⟩ := sssp_bfs_loop_returns g s fuel hg hfuel
  refine Exists.elim (sssp_bfs_loop_invariant g
    (fun x todo seen => (∀ y ∈ g.node_tree,
        (seen ++ todo).count y + sssp_rank (x.node y) ≤ 2) ∧
      ∀ y ∈ seen ++ todo, y ∈ g.node_tree)
    ?_ ?_ fuel _ _ s1 hloop ?_) ?_
  · -- taking a node from the list
    intro x n todo seen hI
    simpa only [List.append_assoc, List.singleton_append] using hI
  · -- one round of the inner loop
    intro x n todo seen e he hI
    obtain ⟨hcount, hmem⟩ := hI
    have hn : n ∈ g.node_tree := hmem n (by simp)
    have hto : e.to_ ∈ g.node_tree := hg.2 n hn e he
    rcases sssp_bfs_edge_step g n x todo e with heq | ⟨reverse, -, hpre, htodo, hnode, -, -, -⟩
    · rw [heq]; exact ⟨hcount, hmem⟩
    · have hrec := sssp_bfs_target_record g x n e (sssp_bfs_indirect g x n e reverse)
      have hlt : sssp_rank (sssp_bfs_target g x n e (sssp_bfs_indirect g x n e reverse)) + 1 ≤
          sssp_rank (x.node e.to_) := by
        apply sssp_rank_lt _ _ hrec.1
        rcases hpre with h | ⟨h1, h2⟩
        · exact Or.inl h
        · exact Or.inr ⟨h1, by rw [hrec.2.1]; exact h2⟩
      constructor
      · intro y hy
        rw [htodo, hnode, ← List.append_assoc, List.count_append]
        have := hcount y hy
        by_cases hye : y = e.to_
        · simp only [if_pos hye]
          rw [hye] at this ⊢
          simp only [List.count_singleton_self]
          omega
        · simp only [if_neg hye]
          have h0 : List.count y [e.to_] = 0 :=
            List.count_eq_zero_of_not_mem (by simpa using hye)
          rw [h0]
          omega
      · intro y hy
        rw [htodo, ← List.append_assoc, List.mem_append, List.mem_singleton] at hy
        rcases hy with hy | hy
        · exact hmem y hy
        · rw [hy]; exact hto
  · -- the start
    obtain ⟨-, -, -, h4, h5, -⟩ := sssp_bfs_start_node g s
    constructor
    · intro y hy
      simp only [List.nil_append]
      by_cases hym : y = g.myself
      · have hr : sssp_rank ((sssp_bfs_start g s).node y) = 0 := by
          rw [hym]
          rcases h4 with h | h <;> rw [h] <;> rfl
        rw [hr, hym]
        simp
      · have hr : sssp_rank ((sssp_bfs_start g s).node y) ≤ 2 := by
          unfold sssp_rank; split_ifs <;> omega
        have h0 : List.count y [g.myself] = 0 :=
          List.count_eq_zero_of_not_mem (by simpa using hym)
        rw [h0]
        omega
    · intro y hy
      simp only [List.nil_append, List.mem_singleton] at hy
      rw [hy]; exact hg.1
  · intro seen ⟨horder, hcount, hmem⟩
    refine ⟨seen, by rw [sssp_bfs_order_eq, horder]; rfl, ?_⟩
    intro x
    by_cases hx : x ∈ seen
    · have := hcount x (hmem x (by simpa using hx))
      simp only [List.append_nil] at this
      omega
    · rw [List.count_eq_zero_of_not_mem hx]
      omega

set_option maxRecDepth 100000 in
/-- The example graph has its weight-sorted edges between registered nodes. -/
theorem example_graph_weight_closed : example_graph.weight_closed := by
  unfold graph_t.weight_closed
  decide

/-- C30: on a registry that is closed under the edges, whose weight-sorted
edges join registered nodes, `graph()` returns when it is given one round of
the loop of `mst_kruskal` for every pair of a node and an edge and two rounds
of the loop of `sssp_bfs` for every node: `mst_kruskal` returns with at most
(number of nodes - 1) safe edges, `sssp_bfs` returns on the state that it
leaves, and it takes no node more than twice from `todo_list`. -/
theorem graph_terminates (g : graph_t) (s : graph_state_t) (fuel : Nat) (hg : g.closed)
    (hw : g.weight_closed)
    (hfuel1 : g.node_tree.length * g.edge_weight_tree.length ≤ fuel)
    (hfuel2 : 2 * g.node_tree.length + 1 ≤ fuel) :
    ∃ s1 safe s2 order, mst_kruskal fuel g s = some (s1, safe) ∧
      safe.length ≤ g.node_tree.length - 1 ∧
      sssp_bfs fuel g s1 = some s2 ∧ graph fuel g s = some s2 ∧
      sssp_bfs_order fuel g s1 = some order ∧ ∀ x, order.count x ≤ 2 := by
  obtain ⟨s1, safe, hk, hsafe⟩ := mst_kruskal_returns g s fuel hw hfuel1
  obtain ⟨sf, hloop, -⟩ := sssp_bfs_loop_returns g s1 fuel hg hfuel2
  obtain ⟨order, horder, hcount⟩ := sssp_bfs_order_count g s1 fuel hg hfuel2
  have hb : sssp_bfs fuel g s1 = some (g.node_tree.foldl (sssp_bfs_check g) sf) := by
    rw [sssp_bfs_eq, hloop]; rfl
  refine ⟨s1, safe, _, order, hk, hsafe, hb, ?_, horder, hcount⟩
  unfold graph
  rw [hk]
  exact hb

set_option maxRecDepth 100000 in
/-- The run of `graph()` on the example graph. -/
theorem graph_terminates_witness :
    ∃ s1 safe s2 order, mst_kruskal 40 example_graph example_graph_state = some (s1, safe) ∧
      safe.length ≤ example_graph.node_tree.length - 1 ∧
      sssp_bfs 40 example_graph s1 = some s2 ∧
      graph 40 example_graph example_graph_state = some s2 ∧
      sssp_bfs_order 40 example_graph s1 = some order ∧ ∀ x, order.count x ≤ 2 :=
  graph_terminates example_graph example_graph_state 40 example_graph_closed
    example_graph_weight_closed (by decide) (by decide)

/-- One round of the inner loop of `sssp_bfs` keeps two states that carry the
same search in step: the same node is put on the list or none is. -/
theorem sssp_bfs_edge_agree (g : graph_t) (a b : graph_state_t) (todo : List (List Char))
    (n : List Char) (e : edge_t) (hR : sssp_bfs_agree g a b)
    (htodo : ∀ x ∈ todo, x ∈ g.node_tree ∧ (a.node x).visited = true)
    (hn : n ∈ g.node_tree ∧ (a.node n).visited = true) (hto : e.to_ ∈ g.node_tree) :
    (sssp_bfs_edge g n (a, todo) e).2 = (sssp_bfs_edge g n (b, todo) e).2 ∧
    sssp_bfs_agree g (sssp_bfs_edge g n (a, todo) e).1 (sssp_bfs_edge g n (b, todo) e).1 ∧
    (∀ x ∈ (sssp_bfs_edge g n (a, todo) e).2,
      x ∈ g.node_tree ∧ ((sssp_bfs_edge g n (a, todo) e).1.node x).visited = true) ∧
    ((sssp_bfs_edge g n (a, todo) e).1.node n).visited = true := by
  unfold sssp_bfs_edge
  cases hr : e.reverse with
  | none => exact ⟨rfl, hR, htodo, hn.2⟩
  | some reverse =>
    dsimp only
    obtain ⟨hnv, hni, hnf⟩ := hR n hn.1
    obtain ⟨hnh, hnvia, hnoa⟩ := hnf hn.2
    have hind : sssp_bfs_indirect g b n e reverse = sssp_bfs_indirect g a n e reverse := by
      unfold sssp_bfs_indirect
      rw [hni]
      by_cases hnm : n = g.myself
      · have : (n != g.myself) = false := by simp [hnm]
        rw [this, Bool.false_and, Bool.false_and]
      · rw [(hnoa hnm).2]
    have hv : ((b.node e.to_).visited) = (a.node e.to_).visited := (hR e.to_ hto).1.symm
    have hi : ((b.node e.to_).indirect) = (a.node e.to_).indirect := (hR e.to_ hto).2.1.symm
    rw [hind, hv, hi]
    by_cases h1 : ((a.node e.to_).visited && (!(a.node e.to_).indirect ||
        sssp_bfs_indirect g a n e reverse)) = true
    · rw [if_pos h1, if_pos h1]
      exact ⟨rfl, hR, htodo, hn.2⟩
    · rw [if_neg h1, if_neg h1]
      have ha := sssp_bfs_target_record g a n e (sssp_bfs_indirect g a n e reverse)
      have hb := sssp_bfs_target_record g b n e (sssp_bfs_indirect g a n e reverse)
      have key : ∀ a1 b1 : graph_state_t,
          a1.node = (fun x => if x = e.to_ then
            sssp_bfs_target g a n e (sssp_bfs_indirect g a n e reverse) else a.node x) →
          b1.node = (fun x => if x = e.to_ then
            sssp_bfs_target g b n e (sssp_bfs_indirect g a n e reverse) else b.node x) →
          sssp_bfs_agree g a1 b1 ∧
          (∀ x ∈ todo ++ [e.to_], x ∈ g.node_tree ∧ (a1.node x).visited = true) ∧
          (a1.node n).visited = true := by
        intro a1 b1 ha1 hb1
        have hmono : ∀ x, (a.node x).visited = true → (a1.node x).visited = true := by
          intro x hx
          rw [ha1]
          by_cases hxe : x = e.to_
          · simp only [if_pos hxe]; exact ha.1
          · simp only [if_neg hxe]; exact hx
        refine ⟨?_, ?_, hmono n hn.2⟩
        · intro x hx
          rw [ha1, hb1]
          by_cases hxe : x = e.to_
          · simp only [if_pos hxe]
            rw [ha.1, hb.1, ha.2.1, hb.2.1, ha.2.2.1, hb.2.2.1, ha.2.2.2.1, hb.2.2.2.1,
              ha.2.2.2.2.1, hb.2.2.2.2.1, ha.2.2.2.2.2.1, hb.2.2.2.2.2.1, hnh, hnvia]
            exact ⟨rfl, rfl, fun _ => ⟨rfl, rfl, fun _ => ⟨rfl, rfl⟩⟩⟩
          · simp only [if_neg hxe]
            exact hR x hx
        · intro x hx
          rw [List.mem_append, List.mem_singleton] at hx
          rcases hx with hx | hx
          · exact ⟨(htodo x hx).1, hmono x (htodo x hx).2⟩
          · rw [hx, ha1]
            simp only [if_true]
            exact ⟨hto, ha.1⟩
      dsimp only
      split_ifs <;> exact ⟨rfl, key _ _ rfl rfl⟩

/-- The inner loop of `sssp_bfs` keeps two states that carry the same search in
step. -/
theorem sssp_bfs_fold_agree (g : graph_t) (n : List Char) (es : List edge_t)
    (hes : ∀ e ∈ es, e.to_ ∈ g.node_tree) :
    ∀ (a b : graph_state_t) (todo : List (List Char)), sssp_bfs_agree g a b →
      (∀ x ∈ todo, x ∈ g.node_tree ∧ (a.node x).visited = true) →
      n ∈ g.node_tree ∧ (a.node n).visited = true →
      (es.foldl (sssp_bfs_edge g n) (a, todo)).2 = (es.foldl (sssp_bfs_edge g n) (b, todo)).2 ∧
      sssp_bfs_agree g (es.foldl (sssp_bfs_edge g n) (a, todo)).1
        (es.foldl (sssp_bfs_edge g n) (b, todo)).1 ∧
      (∀ x ∈ (es.foldl (sssp_bfs_edge g n) (a, todo)).2,
        x ∈ g.node_tree ∧ ((es.foldl (sssp_bfs_edge g n) (a, todo)).1.node x).visited = true) := by
  induction es with
  | nil => intro a b todo hR htodo _; exact ⟨rfl, hR, htodo⟩
  | cons e es ih =>
    intro a b todo hR htodo hn
    simp only [List.foldl_cons]
    obtain ⟨h1, h2, h3, h4⟩ := sssp_bfs_edge_agree g a b todo n e hR htodo hn
      (hes e (List.mem_cons_self _ _))
    have hb : sssp_bfs_edge g n (b, todo) e =
        ((sssp_bfs_edge g n (b, todo) e).1, (sssp_bfs_edge g n (a, todo) e).2) := by
      rw [h1]
    have ha : sssp_bfs_edge g n (a, todo) e =
        ((sssp_bfs_edge g n (a, todo) e).1, (sssp_bfs_edge g n (a, todo) e).2) := rfl
    rw [hb, ha]
    exact ih (fun x hx => hes x (List.mem_cons_of_mem _ hx)) _ _ _ h2 h3 ⟨hn.1, h4⟩

/-- The main loop of `sssp_bfs` keeps two states that carry the same search in
step: when it ends on the one it ends on the other, with the same search. -/
theorem sssp_bfs_loop_agree (g : graph_t) (hg : g.closed) (fuel : Nat) :
    ∀ (a b : graph_state_t) (todo : List (List Char)), sssp_bfs_agree g a b →
      (∀ x ∈ todo, x ∈ g.node_tree ∧ (a.node x).visited = true) →
      ∀ a1, sssp_bfs_loop g fuel a todo = some a1 →
        ∃ b1, sssp_bfs_loop g fuel b todo = some b1 ∧ sssp_bfs_agree g a1 b1 := by
  induction fuel with
  | zero =>
    intro a b todo hR htodo a1 h
    cases todo with
    | nil =>
      simp only [sssp_bfs_loop, Option.some.injEq] at h
      rw [← h]; exact ⟨b, rfl, hR⟩
    | cons n todo => simp [sssp_bfs_loop] at h
  | succ fuel ih =>
    intro a b todo hR htodo a1 h
    cases todo with
    | nil =>
      simp only [sssp_bfs_loop, Option.some.injEq] at h
      rw [← h]; exact ⟨b, rfl, hR⟩
    | cons n todo =>
      simp only [sssp_bfs_loop] at h ⊢
      have hn := htodo n (List.mem_cons_self _ _)
      obtain ⟨h1, h2, h3⟩ := sssp_bfs_fold_agree g n (g.edge_tree n)
        (fun e he => hg.2 n hn.1 e he) a b todo hR
        (fun x hx => htodo x (List.mem_cons_of_mem _ hx)) hn
      rw [← h1]
      exact ih _ _ _ h2 h3 a1 h

/-- The record of a node after the main loop of `sssp_bfs` is the one it had
before, unless the node was unvisited or indirect before and is visited now. -/
theorem sssp_bfs_loop_kept (g : graph_t) (fuel : Nat) (s : graph_state_t)
    (todo : List (List Char)) (s1 : graph_state_t)
    (h : sssp_bfs_loop g fuel s todo = some s1) (x : List Char) :
    s1.node x = s.node x ∨ ((s1.node x).visited = true ∧
      ((s.node x).visited = false ∨ (s.node x).indirect = true)) := by
  refine Exists.elim (sssp_bfs_loop_invariant g
    (fun t _ _ => ∀ x, t.node x = s.node x ∨ ((t.node x).visited = true ∧
      ((s.node x).visited = false ∨ (s.node x).indirect = true)))
    (fun _ _ _ _ h => h) ?_ fuel s todo s1 h (fun _ => Or.inl rfl)) (fun _ h2 => h2.2 x)
  intro t n todo _ e _ hI y
  rcases sssp_bfs_edge_step g n t todo e with heq | ⟨reverse, -, hpre, -, hnode, -, -, -⟩
  · rw [heq]; exact hI y
  · have hrec := sssp_bfs_target_record g t n e (sssp_bfs_indirect g t n e reverse)
    rw [hnode]
    by_cases hye : y = e.to_
    · simp only [if_pos hye]
      right
      refine ⟨hrec.1, ?_⟩
      rw [hye]
      rcases hI e.to_ with h0 | ⟨-, h0⟩
      · rw [← h0]
        rcases hpre with h1 | ⟨h1, -⟩
        · exact Or.inl h1
        · exact Or.inr h1
      · exact h0
    · simp only [if_neg hye]
      exact hI y

/-- The reachability check does nothing when the flag `reachable` of every
node of the list already agrees with the result of the search. -/
theorem sssp_bfs_check_fold_id (g : graph_t) (l : List (List Char)) (s : graph_state_t)
    (h : ∀ x ∈ l, (s.node x).visited = (s.node x).reachable) :
    l.foldl (sssp_bfs_check g) s = s := by
  induction l with
  | nil => rfl
  | cons n l ih =>
    simp only [List.foldl_cons]
    rw [(sssp_bfs_check_self g s n).2.2.1 (h n (List.mem_cons_self _ _))]
    exact ih (fun x hx => h x (List.mem_cons_of_mem _ hx))

/-- The loop of `mst_kruskal` changes nothing of a node but the flag
`visited`, makes no call and leaves the UDP index alone. -/
theorem mst_kruskal_loop_frame (g : graph_t) (fuel : Nat) :
    ∀ (skipped : Bool) (l : List edge_t) (s : graph_state_t) (safe : List edge_t)
      (r : graph_state_t × List edge_t),
      mst_kruskal_loop g fuel skipped l s safe = some r →
      (∀ x, ∃ v, r.1.node x = { s.node x with visited := v }) ∧
      r.1.effects = s.effects ∧ r.1.node_udp_tree = s.node_udp_tree := by
  induction fuel with
  | zero =>
    intro skipped l s safe r h
    cases l with
    | nil =>
      simp only [mst_kruskal_loop, Option.some.injEq] at h
      rw [← h]; exact ⟨fun x => ⟨_, rfl⟩, rfl, rfl⟩
    | cons e next => simp [mst_kruskal_loop] at h
  | succ fuel ih =>
    intro skipped l s safe r h
    cases l with
    | nil =>
      simp only [mst_kruskal_loop, Option.some.injEq] at h
      rw [← h]; exact ⟨fun x => ⟨_, rfl⟩, rfl, rfl⟩
    | cons e next =>
      rw [mst_kruskal_loop_step] at h
      cases hrev : e.reverse with
      | none => rw [hrev] at h; exact ih _ _ _ _ _ h
      | some reverse =>
        rw [hrev] at h
        dsimp only at h
        by_cases hv : (s.node e.from_).visited = (s.node e.to_).visited
        · rw [if_pos hv] at h
          exact ih _ _ _ _ _ h
        · rw [if_neg hv] at h
          obtain ⟨a1, _, a3, a4⟩ := mst_kruskal_accept_spec s e reverse
          have hstep : ∀ sk l1, mst_kruskal_loop g fuel sk l1 (mst_kruskal_accept s e reverse)
              (safe ++ [e]) = some r →
              (∀ x, ∃ v, r.1.node x = { s.node x with visited := v }) ∧
              r.1.effects = s.effects ∧ r.1.node_udp_tree = s.node_udp_tree := by
            intro sk l1 h1
            obtain ⟨i1, i2, i3⟩ := ih _ _ _ _ _ h1
            refine ⟨fun x => ?_, i2.trans a3, i3.trans a4⟩
            obtain ⟨v, hv1⟩ := i1 x
            rw [a1 x] at hv1
            exact ⟨v, hv1⟩
          cases skipped
          · rw [if_neg (by simp)] at h; exact hstep _ _ h
          · rw [if_pos rfl] at h; exact hstep _ _ h

/-- The connections that the loop of `mst_kruskal` flags are those of the safe
edges it adds and of their reverses. -/
theorem mst_kruskal_loop_mst (g : graph_t) (fuel : Nat) :
    ∀ (skipped : Bool) (l : List edge_t) (s : graph_state_t) (safe : List edge_t)
      (r : graph_state_t × List edge_t),
      mst_kruskal_loop g fuel skipped l s safe = some r →
      ∃ added, r.2 = safe ++ added ∧ ∀ c, r.1.mst c = (s.mst c || mst_flagged added c) := by
  induction fuel with
  | zero =>
    intro skipped l s safe r h
    cases l with
    | nil =>
      simp only [mst_kruskal_loop, Option.some.injEq] at h
      rw [← h]; exact ⟨[], by simp, fun c => by simp [mst_flagged]⟩
    | cons e next => simp [mst_kruskal_loop] at h
  | succ fuel ih =>
    intro skipped l s safe r h
    cases l with
    | nil =>
      simp only [mst_kruskal_loop, Option.some.injEq] at h
      rw [← h]; exact ⟨[], by simp, fun c => by simp [mst_flagged]⟩
    | cons e next =>
      rw [mst_kruskal_loop_step] at h
      cases hrev : e.reverse with
      | none => rw [hrev] at h; exact ih _ _ _ _ _ h
      | some reverse =>
        rw [hrev] at h
        dsimp only at h
        by_cases hv : (s.node e.from_).visited = (s.node e.to_).visited
        · rw [if_pos hv] at h
          exact ih _ _ _ _ _ h
        · rw [if_neg hv] at h
          obtain ⟨_, a2, _, _⟩ := mst_kruskal_accept_spec s e reverse
          have hstep : ∀ sk l1, mst_kruskal_loop g fuel sk l1 (mst_kruskal_accept s e reverse)
              (safe ++ [e]) = some r →
              ∃ added, r.2 = safe ++ added ∧
                ∀ c, r.1.mst c = (s.mst c || mst_flagged added c) := by
            intro sk l1 h1
            obtain ⟨added, i1, i2⟩ := ih _ _ _ _ _ h1
            refine ⟨e :: added, by rw [i1, List.append_assoc]; rfl, fun c => ?_⟩
            rw [i2 c, a2 c]
            simp only [mst_flagged, List.any_cons, hrev, Bool.or_assoc]
          cases skipped
          · rw [if_neg (by simp)] at h; exact hstep _ _ h
          · rw [if_pos rfl] at h; exact hstep _ _ h

/-- The safe edges that the loop of `mst_kruskal` adds depend on the state
only through the flags `visited` of the registered nodes. -/
theorem mst_kruskal_loop_congr (g : graph_t) (hw : g.weight_closed) (fuel : Nat) :
    ∀ (skipped : Bool) (l : List edge_t) (a b : graph_state_t) (safe : List edge_t),
      (∀ e ∈ l, e ∈ g.edge_weight_tree) →
      (∀ x ∈ g.node_tree, (a.node x).visited = (b.node x).visited) →
      (mst_kruskal_loop g fuel skipped l a safe).map Prod.snd =
        (mst_kruskal_loop g fuel skipped l b safe).map Prod.snd := by
  induction fuel with
  | zero =>
    intro skipped l a b safe _ _
    cases l <;> rfl
  | succ fuel ih =>
    intro skipped l a b safe hl hab
    cases l with
    | nil => rfl
    | cons e next =>
      rw [mst_kruskal_loop_step, mst_kruskal_loop_step]
      have hnext : ∀ x ∈ next, x ∈ g.edge_weight_tree :=
        fun x hx => hl x (List.mem_cons_of_mem _ hx)
      cases hrev : e.reverse with
      | none => exact ih _ _ _ _ _ hnext hab
      | some reverse =>
        dsimp only
        have he := hw e (hl e (List.mem_cons_self _ _))
        rw [← hab _ he.1, ← hab _ he.2]
        by_cases hv : (a.node e.from_).visited = (a.node e.to_).visited
        · rw [if_pos hv, if_pos hv]
          exact ih _ _ _ _ _ hnext hab
        · rw [if_neg hv, if_neg hv]
          have hab1 : ∀ x ∈ g.node_tree, ((mst_kruskal_accept a e reverse).node x).visited =
              ((mst_kruskal_accept b e reverse).node x).visited := by
            intro x hx
            rw [(mst_kruskal_accept_spec a e reverse).1, (mst_kruskal_accept_spec b e reverse).1,
              hab x hx]
          cases skipped
          · rw [if_neg (by simp), if_neg (by simp)]
            exact ih _ _ _ _ _ hnext hab1
          · rw [if_pos rfl, if_pos rfl]
            exact ih _ _ _ _ _ (fun x hx => hx) hab1

/-- The start of `mst_kruskal` changes nothing of a node but the flag
`visited`. -/
theorem mst_kruskal_start_node (g : graph_t) (s : graph_state_t) (head : edge_t)
    (x : List Char) :
    ∃ v, (mst_kruskal_start g s head).node x = { s.node x with visited := v } := by
  by_cases hx : x = head.from_
  · subst hx
    simp only [mst_kruskal_start, graph_state_t.set, if_true]
    split_ifs <;> exact ⟨_, rfl⟩
  · simp only [mst_kruskal_start, graph_state_t.set, if_neg hx]
    split_ifs <;> exact ⟨_, rfl⟩

/-- What `mst_kruskal` leaves: nothing of a node but the flag `visited`
changes, no call is made, and a connection is flagged `mst` when it stands for
a safe edge or its reverse, or when it is not in `connection_tree` and was
flagged before. -/
theorem mst_kruskal_result (fuel : Nat) (g : graph_t) (s k : graph_state_t)
    (safe : List edge_t) (h : mst_kruskal fuel g s = some (k, safe)) :
    (∀ x, ∃ v, k.node x = { s.node x with visited := v }) ∧
    k.effects = s.effects ∧ k.node_udp_tree = s.node_udp_tree ∧
    ∀ c, k.mst c = ((if c ∈ g.connection_tree then false else s.mst c) || mst_flagged safe c) := by
  rw [mst_kruskal_eq] at h
  cases hE : g.edge_weight_tree with
  | nil =>
    rw [hE] at h
    simp only [Option.some.injEq, Prod.mk.injEq] at h
    rw [← h.1, ← h.2]
    exact ⟨fun x => ⟨_, rfl⟩, rfl, rfl, fun c => by simp [mst_flagged]⟩
  | cons head rest =>
    rw [hE] at h
    dsimp only at h
    obtain ⟨f1, f2, f3⟩ := mst_kruskal_loop_frame g fuel _ _ _ _ _ h
    obtain ⟨added, m1, m2⟩ := mst_kruskal_loop_mst g fuel _ _ _ _ _ h
    simp only [List.nil_append] at m1
    refine ⟨fun x => ?_, f2, f3, fun c => ?_⟩
    · obtain ⟨v, hv⟩ := f1 x
      obtain ⟨v0, hv0⟩ := mst_kruskal_start_node g s head x
      exact ⟨v, by rw [hv, hv0]⟩
    · rw [m2 c, ← m1]
      rfl

/-- The safe edges that `mst_kruskal` adds do not depend on the state it
starts from. -/
theorem mst_kruskal_congr (fuel : Nat) (g : graph_t) (hw : g.weight_closed)
    (a b : graph_state_t) :
    (mst_kruskal fuel g a).map Prod.snd = (mst_kruskal fuel g b).map Prod.snd := by
  rw [mst_kruskal_eq, mst_kruskal_eq]
  cases hE : g.edge_weight_tree with
  | nil => rfl
  | cons head rest =>
    dsimp only
    rw [← hE]
    apply mst_kruskal_loop_congr g hw fuel _ _ _ _ _ (fun x hx => hx)
    intro x hx
    simp only [mst_kruskal_start, graph_state_t.set, if_pos hx]
    split_ifs <;> rfl

/-- The reachability check leaves the flags of the connections alone. -/
theorem sssp_bfs_check_fold_mst (g : graph_t) (l : List (List Char)) (s : graph_state_t) :
    (l.foldl (sssp_bfs_check g) s).mst = s.mst := by
  induction l generalizing s with
  | nil => rfl
  | cons n l ih =>
    simp only [List.foldl_cons]
    rw [ih, (sssp_bfs_check_self g s n).1]

/-- The states in which the main loop of `sssp_bfs` starts carry the same
search, whatever the state before. -/
theorem sssp_bfs_start_agree (g : graph_t) (a b : graph_state_t) :
    sssp_bfs_agree g (sssp_bfs_start g a) (sssp_bfs_start g b) := by
  intro x hx
  obtain ⟨-, -, -, a4, a5, -⟩ := sssp_bfs_start_node g a
  obtain ⟨-, -, -, b4, b5, -⟩ := sssp_bfs_start_node g b
  by_cases hxm : x = g.myself
  · rw [hxm]
    have ha : (sssp_bfs_start g a).node g.myself =
        { a.node g.myself with visited := true, indirect := false, nexthop := g.myself,
                               via := g.myself } := by
      rcases a4 with h | h <;> exact h
    have hb : (sssp_bfs_start g b).node g.myself =
        { b.node g.myself with visited := true, indirect := false, nexthop := g.myself,
                               via := g.myself } := by
      rcases b4 with h | h <;> exact h
    rw [ha, hb]
    exact ⟨rfl, rfl, fun _ => ⟨rfl, rfl, fun h => absurd rfl h⟩⟩
  · rw [a5 x hx hxm, b5 x hx hxm]
    exact ⟨rfl, rfl, fun h => by cases h⟩

/-- C29: on a registry that is closed under the edges, whose weight-sorted
edges join registered nodes, two runs of `graph()` in a row both return, and
after the second run every connection has the flag `mst` and every registered
node the `reachable`, `indirect`, `nexthop`, `via`, `options` and `address` that
the first run left; the second run leaves `validkey` and `waitingforkey` of
every registered node alone and makes no call other than MTU probes, so it
runs no script and calls no `subnet_update`. -/
theorem graph_twice (g : graph_t) (s : graph_state_t) (fuel : Nat) (hg : g.closed)
    (hw : g.weight_closed)
    (hfuel1 : g.node_tree.length * g.edge_weight_tree.length ≤ fuel)
    (hfuel2 : 2 * g.node_tree.length + 1 ≤ fuel) :
    ∃ s1 s2, graph fuel g s = some s1 ∧ graph fuel g s1 = some s2 ∧
      (∀ c, s2.mst c = s1.mst c) ∧
      (∀ n ∈ g.node_tree,
        (s2.node n).reachable = (s1.node n).reachable ∧
        (s2.node n).indirect = (s1.node n).indirect ∧
        (s2.node n).nexthop = (s1.node n).nexthop ∧
        (s2.node n).via = (s1.node n).via ∧
        (s2.node n).options = (s1.node n).options ∧
        (s2.node n).address = (s1.node n).address ∧
        (s2.node n).validkey = (s1.node n).validkey ∧
        (s2.node n).waitingforkey = (s1.node n).waitingforkey) ∧
      s2.node_udp_tree = s1.node_udp_tree ∧
      ∃ probes, s2.effects = s1.effects ++ probes ∧ ∀ e ∈ probes, e.is_probe = true := by
  -- the first run
  obtain ⟨k1, safe1, hk1, -⟩ := mst_kruskal_returns g s fuel hw hfuel1
  obtain ⟨σe, hσ, hσinv⟩ := sssp_bfs_loop_returns g k1 fuel hg hfuel2
  obtain ⟨s1, hs1⟩ : ∃ s1, s1 = g.node_tree.foldl (sssp_bfs_check g) σe := ⟨_, rfl⟩
  have hb1 : sssp_bfs fuel g k1 = some s1 := by rw [sssp_bfs_eq, hσ, hs1]; rfl
  have hg1 : graph fuel g s = some s1 := by unfold graph; rw [hk1]; exact hb1
  -- the second run
  obtain ⟨k2, safe2, hk2, -⟩ := mst_kruskal_returns g s1 fuel hw hfuel1
  obtain ⟨τe, hτ, hagree⟩ := sssp_bfs_loop_agree g hg fuel _ (sssp_bfs_start g k2) [g.myself]
    (sssp_bfs_start_agree g k1 k2)
    (fun x hx => by
      rw [List.mem_singleton] at hx
      rw [hx]
      exact ⟨hg.1, by
        obtain ⟨-, -, -, a4, -⟩ := sssp_bfs_start_node g k1
        rcases a4 with h | h <;> rw [h]⟩)
    σe hσ
  -- what the pieces leave alone
  obtain ⟨kf1, kf2, kf3, kf4⟩ := mst_kruskal_result fuel g s1 k2 safe2 hk2
  obtain ⟨-, -, -, kg4⟩ := mst_kruskal_result fuel g s k1 safe1 hk1
  have hsafe : safe1 = safe2 := by
    have := mst_kruskal_congr fuel g hw s s1
    rw [hk1, hk2] at this
    simpa using this
  obtain ⟨t1, t2, t3, -⟩ := sssp_bfs_start_node g k2
  obtain ⟨u1, -, -, -⟩ := sssp_bfs_start_node g k1
  obtain ⟨lf1, lf2, lf3, probes, lf4, lf5⟩ := sssp_bfs_loop_frame g fuel _ _ τe hτ
  obtain ⟨-, mf2, -, -⟩ := sssp_bfs_loop_frame g fuel _ _ σe hσ
  have hc := sssp_bfs_check_fold g g.node_tree σe
  have hf := sssp_bfs_check_fold_fields g g.node_tree σe
  rw [← hs1] at hc hf
  -- the fields of a node that the second start keeps from the first result
  have hk2f : ∀ x, (k2.node x).reachable = (s1.node x).reachable ∧
      (k2.node x).validkey = (s1.node x).validkey ∧
      (k2.node x).waitingforkey = (s1.node x).waitingforkey ∧
      (k2.node x).nexthop = (s1.node x).nexthop ∧ (k2.node x).via = (s1.node x).via ∧
      (k2.node x).options = (s1.node x).options ∧
      (k2.node x).address = (s1.node x).address := by
    intro x
    obtain ⟨v, hv⟩ := kf1 x
    rw [hv]
    exact ⟨rfl, rfl, rfl, rfl, rfl, rfl, rfl⟩
  have hτr : ∀ x, (τe.node x).reachable = (s1.node x).reachable ∧
      (τe.node x).validkey = (s1.node x).validkey ∧
      (τe.node x).waitingforkey = (s1.node x).waitingforkey := by
    intro x
    obtain ⟨a1, a2, a3⟩ := lf1 x
    obtain ⟨b1, b2, b3, -⟩ := sssp_bfs_start_frame g k2 x
    obtain ⟨c1, c2, c3, -⟩ := hk2f x
    exact ⟨a1.trans (b1.trans c1), a2.trans (b2.trans c2), a3.trans (b3.trans c3)⟩
  -- the check of the second run finds nothing to do
  have hid : g.node_tree.foldl (sssp_bfs_check g) τe = τe := by
    apply sssp_bfs_check_fold_id
    intro x hx
    rw [(hτr x).1, hc.2 x hx]
    exact (hagree x hx).1.symm
  have hb2 : sssp_bfs fuel g k2 = some τe := by rw [sssp_bfs_eq, hτ]; simp only [Option.map_some', hid]
  have hg2 : graph fuel g s1 = some τe := by unfold graph; rw [hk2]; exact hb2
  refine ⟨s1, τe, hg1, hg2, ?_, ?_, ?_, probes, ?_, lf5⟩
  · -- the flags of the connections
    intro c
    have hs1m : s1.mst = k1.mst := by
      rw [hs1, sssp_bfs_check_fold_mst, mf2, u1]
    rw [lf2, t1, kf4 c, hs1m, kg4 c, hsafe]
    by_cases hcc : c ∈ g.connection_tree
    · simp only [if_pos hcc]
    · simp only [if_neg hcc]
      cases s.mst c <;> cases mst_flagged safe2 c <;> rfl
  · -- the records of the nodes
    intro n hn
    obtain ⟨r1, r2, r3⟩ := hτr n
    obtain ⟨g1, g2, g3⟩ := hagree n hn
    obtain ⟨f1, f2, f3, f4, f5, f6⟩ := hf n
    obtain ⟨-, -, -, q4, q5, q6, q7⟩ := hk2f n
    obtain ⟨-, -, -, p4, p5, p6⟩ := sssp_bfs_start_frame g k2 n
    -- a node that the second search does not rewrite
    have hkeep : (σe.node n).visited = false ∨ n = g.myself →
        τe.node n = (sssp_bfs_start g k2).node n := by
      intro h
      rcases sssp_bfs_loop_kept g fuel _ _ τe hτ n with h0 | ⟨h1, h2⟩
      · exact h0
      · exfalso
        rcases h with h | h
        · rw [← g1, h] at h1; cases h1
        · rw [h] at h2
          have hm : ((sssp_bfs_start g k2).node g.myself).visited = true ∧
              ((sssp_bfs_start g k2).node g.myself).indirect = false := by
            obtain ⟨-, -, -, a4, -⟩ := sssp_bfs_start_node g k2
            rcases a4 with h | h <;> rw [h] <;> exact ⟨rfl, rfl⟩
          rcases h2 with h2 | h2
          · rw [hm.1] at h2; cases h2
          · rw [hm.2] at h2; cases h2
    have hmv : (σe.node g.myself).visited = true := hσinv.self.1
    refine ⟨r1, g2.symm.trans f2.symm, ?_, ?_, ?_, ?_, r2, r3⟩
    · cases hv : (σe.node n).visited
      · have hnm : n ≠ g.myself := by
          intro h; rw [h, hmv] at hv; cases hv
        rw [hkeep (Or.inl hv), (p6 hnm).1, q4]
      · rw [← (g3 hv).1, f3]
    · cases hv : (σe.node n).visited
      · have hnm : n ≠ g.myself := by
          intro h; rw [h, hmv] at hv; cases hv
        rw [hkeep (Or.inl hv), (p6 hnm).2, q5]
      · rw [← (g3 hv).2.1, f4]
    · by_cases hc1 : (σe.node n).visited = false ∨ n = g.myself
      · rw [hkeep hc1, p4, q6]
      · rw [not_or] at hc1
        rw [← ((g3 (by simpa using hc1.1)).2.2 hc1.2).1, f5]
    · by_cases hc1 : (σe.node n).visited = false ∨ n = g.myself
      · rw [hkeep hc1, p5, q7]
      · rw [not_or] at hc1
        rw [← ((g3 (by simpa using hc1.1)).2.2 hc1.2).2, f6]
  · -- the UDP index
    rw [lf3, t3, kf3]
  · rw [lf4, t2, kf2]

set_option maxRecDepth 100000 in
/-- Two runs of `graph()` on the example graph, from the state in which `B` is
still flagged reachable. -/
theorem graph_twice_witness :
    ∃ s1 s2, graph 40 example_graph example_graph_state_stale = some s1 ∧
      graph 40 example_graph s1 = some s2 ∧
      (∀ c, s2.mst c = s1.mst c) ∧
      (∀ n ∈ example_graph.node_tree,
        (s2.node n).reachable = (s1.node n).reachable ∧
        (s2.node n).indirect = (s1.node n).indirect ∧
        (s2.node n).nexthop = (s1.node n).nexthop ∧
        (s2.node n).via = (s1.node n).via ∧
        (s2.node n).options = (s1.node n).options ∧
        (s2.node n).address = (s1.node n).address ∧
        (s2.node n).validkey = (s1.node n).validkey ∧
        (s2.node n).waitingforkey = (s1.node n).waitingforkey) ∧
      s2.node_udp_tree = s1.node_udp_tree ∧
      ∃ probes, s2.effects = s1.effects ++ probes ∧ ∀ e ∈ probes, e.is_probe = true :=
  graph_twice example_graph example_graph_state_stale 40 example_graph_closed
    example_graph_weight_closed (by decide) (by decide)

end Tinc
